import Mathlib

/-!
# orcus: structured-document mapping engine

A shallow embedding of the XML tokenizer primitives (`sax_parser_base.cpp`:
entity decoding, attribute values, comments, the byte order mark), of the
numeric parser (`numeric_parser.hpp`), of the map-driven XML and JSON content
handlers (`orcus_xml.cpp`, `orcus_json.cpp`) and of the round-trip writer
(`orcus_xml.cpp`), followed by theorems about them.

Conventions of the embedding.

* A byte string (`pstring`, `std::string`, `cell_buffer`) is a `List Char`,
  one `Char` per byte; `static_cast<char>(v)` of a value below 256 is
  `Char.ofNat v`.
* Pointers into the map tree and to range references are addresses (`Nat`);
  the objects they point to live in explicit heaps (`Nat → _`).
* `spreadsheet::row_t` / `col_t` are mathematical integers: signed overflow
  is undefined behaviour in C++ and executions reaching it are not covered.
* `assert(c)` is `cassert ndebug c`: with `ndebug = false` a false condition
  aborts (`failure.assertion_failed`), with `ndebug = true` (the macro
  `NDEBUG` defined) the assertion is compiled out.
* A thrown exception, an abort and undefined behaviour are values of
  `failure` returned through `Except`.
* A `double` of the numeric parser is a rational number or NaN
  (`exact_double`): the arithmetic is exact.
-/

namespace orcus

/-- Ways in which a call can end other than by returning normally. -/
inductive failure where
  | assertion_failed
  | malformed_xml_error
  | xml_structure_error
  | general_error
  | invalid_argument
  | out_of_range
  | undefined_behaviour
  | out_of_fuel
  deriving DecidableEq, Repr

/-- Equality of results is decidable when it is on errors and on values. -/
instance instDecidableEqExcept {ε α : Type} [DecidableEq ε] [DecidableEq α] :
    DecidableEq (Except ε α) := fun a b =>
  match a, b with
  | .ok x, .ok y => if h : x = y then isTrue (by rw [h]) else isFalse (fun e => h (by cases e; rfl))
  | .error x, .error y =>
    if h : x = y then isTrue (by rw [h]) else isFalse (fun e => h (by cases e; rfl))
  | .ok _, .error _ => isFalse (fun e => by cases e)
  | .error _, .ok _ => isFalse (fun e => by cases e)

/-- A byte string: `pstring`, `std::string` and the content of a `cell_buffer`. -/
abbrev pstring := List Char

/-- The byte `'\0'`. -/
def NUL : Char := Char.ofNat 0

/-- The single quote character (apostrophe, byte 39). -/
def APOS : Char := Char.ofNat 39

/-- The double quote character (byte 34). -/
def QUOT : Char := Char.ofNat 34

/-- The C macro `assert`: checked unless `NDEBUG` is defined. -/
def cassert (ndebug : Bool) (cond : Bool) : Except failure Unit :=
  if ndebug || cond then .ok () else .error .assertion_failed

/-- Bytes `[from, from + len)` of a buffer: `pstring(p0 + from, len)`. -/
def subview (p0 : pstring) (start len : Nat) : pstring :=
  (p0.drop start).take len

/-! ## `sax_parser_base.cpp`: entity decoding -/

/-- `std::strncmp(a, b, n) == 0`: the first `n` bytes agree, the comparison
stopping early at a NUL; a byte past the end of a list reads as NUL. -/
def strncmp_eq : pstring → pstring → Nat → Bool
  | _, _, 0 => true
  | a, b, n + 1 =>
    if a.headD NUL != b.headD NUL then false
    else if a.headD NUL == NUL then true
    else strncmp_eq a.tail b.tail n

/-- `decode_xml_encoded_char(p, n)`: the character of a predefined entity
name, NUL when the `n` bytes at `p` are not such a name. -/
def decode_xml_encoded_char (p : pstring) (n : Nat) : Char :=
  if n == 2 then
    if strncmp_eq p "lt".toList n then '<'
    else if strncmp_eq p "gt".toList n then '>'
    else NUL
  else if n == 3 then
    if strncmp_eq p "amp".toList n then '&'
    else NUL
  else if n == 4 then
    if strncmp_eq p "apos".toList n then APOS
    else if strncmp_eq p "quot".toList 4 then QUOT
    else NUL
  else NUL

/-- White space in the sense of `std::isspace` in the C locale. -/
def isspace (c : Char) : Bool :=
  c.toNat == 32 || (9 ≤ c.toNat && c.toNat ≤ 13)

/-- Value of a byte as a digit in the given base (`strtol`), if it is one. -/
def digit_value (base : Nat) (c : Char) : Option Nat :=
  let v : Option Nat :=
    if 48 ≤ c.toNat ∧ c.toNat ≤ 57 then some (c.toNat - 48)
    else if 97 ≤ c.toNat ∧ c.toNat ≤ 122 then some (c.toNat - 97 + 10)
    else if 65 ≤ c.toNat ∧ c.toNat ≤ 90 then some (c.toNat - 65 + 10)
    else none
  match v with
  | some d => if d < base then some d else none
  | none => none

/-- Whether a byte is a digit of the base. -/
def is_digit_of (base : Nat) (c : Char) : Bool := (digit_value base c).isSome

/-- Accumulate digits most significant first, as `strtol` does. -/
def digits_value (base : Nat) (ds : pstring) : Nat :=
  ds.foldl (fun acc c => acc * base + (digit_value base c).getD 0) 0

/-- The optional `0x` / `0X` that `strtol` skips in base 16 when a
hexadecimal digit follows. -/
def skip_hex_marker (base : Nat) (s : pstring) : pstring :=
  match s with
  | z :: x :: d :: rest =>
    if base == 16 && z == '0' && (x == 'x' || x == 'X') && is_digit_of 16 d then d :: rest
    else s
  | _ => s

/-- `std::stoi(s, nullptr, base)`: leading white space, an optional sign, an
optional hexadecimal marker and the longest run of digits; throws
`std::invalid_argument` when there is no digit and `std::out_of_range` when
the value does not fit an `int`. -/
def stoi (s : pstring) (base : Nat) : Except failure Int :=
  let s1 := s.dropWhile isspace
  let negative := s1.headD NUL == '-'
  let s2 := if s1.headD NUL == '-' || s1.headD NUL == '+' then s1.tail else s1
  let s3 := skip_hex_marker base s2
  let ds := s3.takeWhile (is_digit_of base)
  if ds.isEmpty then .error .invalid_argument
  else
    let v : Int := if negative then - (digits_value base ds : Int) else (digits_value base ds : Int)
    if v < -(2147483648 : Int) ∨ (2147483647 : Int) < v then .error .out_of_range
    else .ok v

/-- The four UTF-8 branches of `decode_xml_unicode_char` for a code point
below `0x110000`; empty above (the branch holding `assert(false)`). -/
def utf8_bytes (point : Nat) : pstring :=
  if point < 0x80 then
    [Char.ofNat (point &&& 0x7F)]
  else if point < 0x0800 then
    [Char.ofNat ((point >>> 6 &&& 0x1F) ||| 0xC0),
     Char.ofNat ((point &&& 0x3F) ||| 0x80)]
  else if point < 0x010000 then
    [Char.ofNat ((point >>> 12 &&& 0x0F) ||| 0xE0),
     Char.ofNat ((point >>> 6 &&& 0x3F) ||| 0x80),
     Char.ofNat ((point &&& 0x3F) ||| 0x80)]
  else if point < 0x110000 then
    [Char.ofNat ((point >>> 18 &&& 0x07) ||| 0xF0),
     Char.ofNat ((point >>> 12 &&& 0x3F) ||| 0x80),
     Char.ofNat ((point >>> 6 &&& 0x3F) ||| 0x80),
     Char.ofNat ((point &&& 0x3F) ||| 0x80)]
  else []

/-- `decode_xml_unicode_char(p, n)`: UTF-8 bytes of a numeric character
reference `#N` / `#xN`, the empty string when the name is not one. -/
def decode_xml_unicode_char (ndebug : Bool) (p : pstring) (n : Nat) : Except failure pstring :=
  if p.headD NUL == '#' && decide (2 ≤ n) then do
    let v ← (if p.getD 1 NUL == 'x' then
        if n == 2 then .error .xml_structure_error
        else stoi (subview p 2 (n - 2)) 16
      else stoi (subview p 1 (n - 1)) 10 : Except failure Int)
    -- uint32_t point = <int>
    let point : Nat := (v % 4294967296).toNat
    if point < 0x110000 then .ok (utf8_bytes point)
    else do
      cassert ndebug false
      .ok []
  else .ok []

/-- The cursor of `::orcus::parser_base`: the bytes `[mp_begin, mp_char)` and
the bytes `[mp_char, mp_end)`. -/
structure parser_base where
  consumed : pstring
  remaining : pstring
  deriving DecidableEq, Repr

/-- `has_char()`: `mp_char != mp_end`. -/
def parser_base.has_char (p : parser_base) : Bool := !p.remaining.isEmpty

/-- `cur_char()`: `*mp_char` (NUL when read at `mp_end`). -/
def parser_base.cur_char (p : parser_base) : Char := p.remaining.headD NUL

/-- `offset()`: `mp_char - mp_begin`. -/
def parser_base.offset (p : parser_base) : Nat := p.consumed.length

/-- `next()`: `++mp_char`, used only while `has_char()`. -/
def parser_base.next (p : parser_base) : parser_base :=
  match p.remaining with
  | [] => p
  | c :: rest => { consumed := p.consumed ++ [c], remaining := rest }

/-- The `for (; has_char(); next())` loop of `parse_encoded_char`; `p0` is
the offset just past the ampersand. -/
def parse_encoded_char_scan (ndebug : Bool) (p0 : Nat) (buf : pstring) :
    pstring → pstring → Except failure (parser_base × pstring)
  | _, [] => .error .malformed_xml_error
  | consumed, c :: rest =>
    if c != ';' then parse_encoded_char_scan ndebug p0 buf (consumed ++ [c]) rest
    else
      let n := consumed.length - p0
      if n == 0 then .error .malformed_xml_error
      else
        let name := consumed.drop p0
        -- the cursor after the `next()` that steps over the semicolon
        let after : parser_base := { consumed := consumed ++ [c], remaining := rest }
        let ch := decode_xml_encoded_char name n
        if ch != NUL then .ok (after, buf ++ [ch])
        else do
          let utf8 ← decode_xml_unicode_char ndebug name n
          if !utf8.isEmpty then .ok (after, buf ++ utf8)
          else .ok (after, buf ++ after.consumed.drop p0)

/-- `parser_base::parse_encoded_char(buf)`: entered on `&`, returns the
cursor past the terminating semicolon and the buffer. -/
def parse_encoded_char (ndebug : Bool) (p : parser_base) (buf : pstring) :
    Except failure (parser_base × pstring) := do
  cassert ndebug (p.cur_char == '&')
  if !p.has_char then .error .undefined_behaviour
  else
    let p1 := p.next
    parse_encoded_char_scan ndebug p1.offset buf p1.consumed p1.remaining

/-- The `while (has_char())` loop of `characters_with_encoded_char`; the
result carries the final `p0`. -/
def characters_with_encoded_char_loop (ndebug : Bool) :
    Nat → Nat → parser_base → pstring → Except failure (parser_base × Nat × pstring)
  | 0, _, _, _ => .error .out_of_fuel
  | fuel + 1, p0, p, buf =>
    if !p.has_char then .ok (p, p0, buf)
    else do
      let (p, p0, buf) ← (if p.cur_char == '&' then do
          let buf1 := if p.offset > p0 then buf ++ p.consumed.drop p0 else buf
          let (q, buf2) ← parse_encoded_char ndebug p buf1
          -- `cur_char()` is read next: past the end of the stream it is out of bounds
          if !q.has_char then .error .undefined_behaviour
          else .ok (q, q.offset, buf2)
        else .ok (p, p0, buf) : Except failure (parser_base × Nat × pstring))
      if p.cur_char == '<' then .ok (p, p0, buf)
      else if p.cur_char != '&' then characters_with_encoded_char_loop ndebug fuel p0 p.next buf
      else characters_with_encoded_char_loop ndebug fuel p0 p buf

/-- `parser_base::characters_with_encoded_char(buf)`. Every iteration of the
loop that continues has consumed a byte, so one plus the number of
remaining bytes bounds the iterations. -/
def characters_with_encoded_char (ndebug : Bool) (p : parser_base) (buf : pstring) :
    Except failure (parser_base × pstring) := do
  cassert ndebug (p.cur_char == '&')
  let (p1, buf1) ← parse_encoded_char ndebug p buf
  let (p2, p0, buf2) ← characters_with_encoded_char_loop ndebug (p1.remaining.length + 1) p1.offset p1 buf1
  if p2.offset > p0 then .ok (p2, buf2 ++ p2.consumed.drop p0)
  else .ok (p2, buf2)

/-! ## `pstring.cpp` -/

/-- Modelled from the spec: `is_blank` of `parser_global`, whose source is
not part of the repository files at hand; the blank characters trimmed from
values are the space, the tab, the line feed and the carriage return. -/
def is_blank (c : Char) : Bool :=
  c == ' ' || c.toNat == 9 || c.toNat == 10 || c.toNat == 13

/-- `pstring::trim()`: the first loop skips leading blanks, the second walks
back from the last byte while it is blank and stops at the first kept byte. -/
def trim (s : pstring) : pstring :=
  match s.dropWhile is_blank with
  | [] => []
  | c :: rest => c :: (rest.reverse.dropWhile is_blank).reverse

/-! ## `sax_parser_base.cpp`: attribute values, comments, the byte order mark -/

/-- Modelled from the spec: `remains()` of `sax_parser_base.hpp`, a header
that is not among the files at hand: the number of bytes from the cursor to
the end of the stream. -/
def parser_base.remains (p : parser_base) : Nat := p.remaining.length

/-- Modelled from the spec: `next_and_char()` of `sax_parser_base.hpp`, a
header that is not among the files at hand: advance the cursor and return
the character under it. The callers below never inspect the character
returned when the cursor has reached the end of the stream; it reads as NUL. -/
def parser_base.next_and_char (p : parser_base) : parser_base × Char :=
  (p.next, p.next.cur_char)

/-- Modelled from the spec: `next_char_checked()` of `sax_parser_base.hpp`, a
header that is not among the files at hand: advance the cursor, fail with
`malformed_xml_error` when the stream has ended (an unexpected end of input
inside a token), and return the character under the cursor otherwise. -/
def parser_base.next_char_checked (p : parser_base) : Except failure (parser_base × Char) :=
  if !p.next.has_char then .error .malformed_xml_error
  else .ok (p.next, p.next.cur_char)

/-- Where a `pstring` handed out by the parser points: `stream start len` is
`pstring(mp_begin + start, len)`, a slice of the input stream itself;
`buffer content` is `pstring(buf.get(), buf.size())`, the content of a cell
buffer of the parser. -/
inductive view where
  | stream (start len : Nat)
  | buffer (content : pstring)
  deriving DecidableEq, Repr

/-- The bytes a view denotes, given the bytes of the input stream. -/
def view.bytes (input : pstring) : view → pstring
  | .stream start len => subview input start len
  | .buffer content => content

/-- The `while (has_char())` loop of `value_with_encoded_char`; the result
carries the final `p0`. -/
def value_with_encoded_char_loop (ndebug : Bool) (quote_char : Char) :
    Nat → Nat → parser_base → pstring → Except failure (parser_base × Nat × pstring)
  | 0, _, _, _ => .error .out_of_fuel
  | fuel + 1, p0, p, buf =>
    if !p.has_char then .ok (p, p0, buf)
    else do
      let (p, p0, buf) ← (if p.cur_char == '&' then do
          let buf1 := if p.offset > p0 then buf ++ p.consumed.drop p0 else buf
          let (q, buf2) ← parse_encoded_char ndebug p buf1
          -- `cur_char()` is read next: past the end of the stream it is out of bounds
          if !q.has_char then .error .undefined_behaviour
          else .ok (q, q.offset, buf2)
        else .ok (p, p0, buf) : Except failure (parser_base × Nat × pstring))
      if p.cur_char == quote_char then .ok (p, p0, buf)
      else if p.cur_char != '&' then value_with_encoded_char_loop ndebug quote_char fuel p0 p.next buf
      else value_with_encoded_char_loop ndebug quote_char fuel p0 p buf

/-- `parser_base::value_with_encoded_char(buf, str, quote_char)`: returns the
cursor past the closing quote, the buffer and `str`. Every iteration of the
loop that continues has consumed a byte, so one plus the number of remaining
bytes bounds the iterations. The final `next()` with the cursor already at
the end of the stream would move it out of the stream. -/
def value_with_encoded_char (ndebug : Bool) (p : parser_base) (buf : pstring) (str : view)
    (quote_char : Char) : Except failure (parser_base × pstring × view) := do
  cassert ndebug (p.cur_char == '&')
  let (p1, buf1) ← parse_encoded_char ndebug p buf
  let (p2, p0, buf2) ←
    value_with_encoded_char_loop ndebug quote_char (p1.remaining.length + 1) p1.offset p1 buf1
  let buf3 := if p2.offset > p0 then buf2 ++ p2.consumed.drop p0 else buf2
  let str1 := if !buf3.isEmpty then view.buffer buf3 else str
  cassert ndebug (!p2.has_char || p2.cur_char == quote_char)
  if !p2.has_char then .error .undefined_behaviour
  else .ok (p2.next, buf3, str1)

/-- The `for (; c != quote_char; c = next_char_checked())` loop of `value`,
entered with the cursor on `c`; `p0` is the offset just past the opening
quote. The stream running out is the throw of `next_char_checked`. -/
def value_loop (ndebug transient_stream decode : Bool) (quote_char : Char) (p0 : Nat)
    (str : view) : pstring → pstring → Except failure (parser_base × view × Bool)
  | _, [] => .error .malformed_xml_error
  | consumed, c :: rest =>
    if c != quote_char then
      if decode && c == '&' then do
        -- buf.reset(); buf.append(p0, mp_char - p0)
        let (q, _, str1) ←
          value_with_encoded_char ndebug ⟨consumed, c :: rest⟩ (consumed.drop p0) str quote_char
        .ok (q, str1, true)
      else value_loop ndebug transient_stream decode quote_char p0 str (consumed ++ [c]) rest
    else
      .ok (⟨consumed ++ [c], rest⟩, view.stream p0 (consumed.length - p0), transient_stream)

/-- `parser_base::value(str, decode)`: returns the cursor, `str` and the
transient flag. `transient_stream` is `transient_stream()`, the flag given to
the constructor of the parser. -/
def value (ndebug transient_stream : Bool) (p : parser_base) (str : view) (decode : Bool) :
    Except failure (parser_base × view × Bool) :=
  if !p.has_char then .error .undefined_behaviour
  else if p.cur_char != QUOT && p.cur_char != APOS then .error .malformed_xml_error
  else do
    let (p1, _) ← p.next_char_checked
    value_loop ndebug transient_stream decode p.cur_char p1.offset str p1.consumed p1.remaining

/-- The `for (; i < len; ++i, c = next_and_char())` loop of `comment`: the
result is `i` and the cursor when the loop is left. `i < len` holds exactly
while bytes remain under the cursor. -/
def comment_loop : Bool → Nat → pstring → pstring → Nat × parser_base
  | _, i, consumed, [] => (i, ⟨consumed, []⟩)
  | hyphen, i, consumed, c :: rest =>
    if c == '-' then
      if !hyphen then comment_loop true (i + 1) (consumed ++ [c]) rest
      else (i, ⟨consumed, c :: rest⟩)
    else comment_loop false (i + 1) (consumed ++ [c]) rest

/-- `parser_base::comment()`: entered on the first byte after the opening of
a comment, returns the cursor past the end of the comment. -/
def comment (ndebug : Bool) (p : parser_base) : Except failure parser_base := do
  let len := p.remains
  cassert ndebug (decide (len > 3))
  let (i, p1) := comment_loop false 0 p.consumed p.remaining
  if len - i < 2 then .error .malformed_xml_error
  else if p1.next_and_char.2 != '>' then .error .malformed_xml_error
  else .ok p1.next_and_char.1.next

/-- `parser_base::skip_bom()`: returns the cursor. -/
def skip_bom (p : parser_base) : Except failure parser_base :=
  if p.remains < 4 then .ok p
  else if is_blank p.cur_char then .ok p
  else if p.cur_char != '<' then
    if p.cur_char.toNat != 0xef then .error .malformed_xml_error
    else if p.next_and_char.2.toNat != 0xbb then .error .malformed_xml_error
    else if p.next_and_char.1.next_and_char.2.toNat != 0xbf then .error .malformed_xml_error
    else if p.next_and_char.1.next_and_char.1.next_and_char.2 != '<' then
      .error .malformed_xml_error
    else .ok p.next_and_char.1.next_and_char.1.next_and_char.1
  else .ok p

/-! ## `numeric_parser.hpp` -/

/-- A `double` in exact arithmetic: NaN or a rational number. The rounding,
the overflow to an infinity and the underflow of IEEE-754 arithmetic are not
part of the embedding, but for the underflow of `std::pow` to zero, which
`parse` tests (`pow_10`). -/
inductive exact_double where
  | nan
  | finite (v : ℚ)
  deriving DecidableEq

/-- `detail::parser_state`. The counter `digit_count` (an `int`) is a natural
number: inputs of `2^31` digits and more are not covered. -/
structure parser_state where
  digit_count : Nat
  first_digit : Nat
  parsed_value : ℚ
  divisor : ℚ
  has_digit : Bool
  negative_sign : Bool
  deriving DecidableEq

/-- The default member initialisers of `parser_state`. -/
def parser_state.init : parser_state :=
  { digit_count := 0, first_digit := 0, parsed_value := 0, divisor := 1, has_digit := false,
    negative_sign := false }

/-- `make_final_value<std::true_type>` (`allow_leading_zeros = true`, the
generic trait) and `make_final_value<std::false_type>` (`false`, the JSON
trait). -/
def make_final_value (allow_leading_zeros : Bool) (state : parser_state) : exact_double :=
  if allow_leading_zeros then
    if state.negative_sign then .finite (-state.parsed_value) else .finite state.parsed_value
  else if decide (state.digit_count > 1) && state.first_digit == 0 then .nan
  else if state.negative_sign then .finite (-state.parsed_value) else .finite state.parsed_value

/-- `numeric_parser::check_sign()` on the bytes `[mp_char, mp_end)`: the
flag and the bytes from the new `mp_char`. -/
def check_sign (s : pstring) : Bool × pstring :=
  match s with
  | [] => (false, [])
  | c :: rest =>
    if c == '+' then (false, rest)
    else if c == '-' then (true, rest)
    else (false, c :: rest)

/-- The `for` loop of `parse_exponent`: the exponent, `valid` and the bytes
from `mp_char`. The variable `exponent`, a `double`, only takes whole values. -/
def parse_exponent_loop : Int → Bool → pstring → Int × Bool × pstring
  | exponent, valid, [] => (exponent, valid, [])
  | exponent, valid, c :: rest =>
    if c.toNat < 48 ∨ 57 < c.toNat then (exponent, valid, c :: rest)
    else parse_exponent_loop (exponent * 10 + ((c.toNat - 48 : Nat) : Int)) true rest

/-- `std::pow(10.0, exponent)` for a whole `exponent`. In binary64 the power
underflows to `0.0` for every exponent of `-324` and below (`10^-324` is
less than half of the least subnormal number `2^-1074`, `10^-323` is more),
and the test `if (extra_divisor)` of `parse` tells a zero from any other
value. Where the power is not zero the embedding keeps the exact power of
ten: its rounding is not part of the embedding, nor is the overflow to
infinity from `10^309` on, after which the quotient is `0.0`, the rounding
of the exact quotient. -/
def pow_10 (exponent : Int) : ℚ :=
  if exponent ≤ -324 then 0 else (10 : ℚ) ^ exponent

/-- `numeric_parser::parse_exponent()`, called with `mp_char` just past the
exponent marker: `p0` is the text from the marker on, `s` the text from
`mp_char`. Returns the extra divisor `std::pow(10.0, exponent)`, `0.0` on
failure, and the bytes from the new `mp_char`. -/
def parse_exponent (p0 s : pstring) : ℚ × pstring :=
  let signed := check_sign s
  let scanned := parse_exponent_loop 0 false signed.2
  if !scanned.2.1 then (0, p0)
  else
    let exponent : Int := if !signed.1 then -scanned.1 else scanned.1
    (pow_10 exponent, scanned.2.2)

/-- The statements of `parse` that take in one digit, from
`m_state.has_digit = true` to the end of the loop body. -/
def digit_step (before_decimal_pt : Bool) (st : parser_state) (c : Char) : parser_state :=
  let digit := c.toNat - 48
  let st1 := { st with has_digit := true }
  let st2 :=
    if before_decimal_pt then
      { st1 with
        first_digit := if st1.digit_count == 0 then digit else st1.first_digit
        digit_count := st1.digit_count + 1 }
    else st1
  let st3 := { st2 with parsed_value := st2.parsed_value * 10 + (digit : ℚ) }
  if !before_decimal_pt then { st3 with divisor := st3.divisor * 10 } else st3

/-- The two statements `m_state.parsed_value /= m_state.divisor; return
make_final_value<allow_leading_zeros_type>(m_state);`. -/
def finish (allow_leading_zeros : Bool) (st : parser_state) : exact_double :=
  make_final_value allow_leading_zeros { st with parsed_value := st.parsed_value / st.divisor }

/-- The `for` loop of `numeric_parser::parse()` with the statements that
follow it: the value returned and the bytes from `mp_char`
(`get_char_position()`). -/
def parse_loop (allow_leading_zeros : Bool) :
    Bool → parser_state → pstring → exact_double × pstring
  | _, st, [] =>
    if !st.has_digit then (.nan, []) else (finish allow_leading_zeros st, [])
  | before_decimal_pt, st, c :: rest =>
    if c == '.' then
      if !before_decimal_pt then (finish allow_leading_zeros st, c :: rest)
      else parse_loop allow_leading_zeros false st rest
    else if st.has_digit && (c == 'e' || c == 'E') then
      let extra := parse_exponent (c :: rest) rest
      let st1 := if extra.1 != 0 then { st with divisor := st.divisor * extra.1 } else st
      -- `break`, then the statements after the loop
      if !st1.has_digit then (.nan, extra.2) else (finish allow_leading_zeros st1, extra.2)
    else if c.toNat < 48 ∨ 57 < c.toNat then
      if !st.has_digit then (.nan, c :: rest) else (finish allow_leading_zeros st, c :: rest)
    else parse_loop allow_leading_zeros before_decimal_pt (digit_step before_decimal_pt st c) rest

/-- `numeric_parser<_Trait>::parse()` on the bytes `[p, p_end)`;
`allow_leading_zeros` is `_Trait::allow_leading_zeros`. -/
def parse (allow_leading_zeros : Bool) (s : pstring) : exact_double × pstring :=
  let signed := check_sign s
  parse_loop allow_leading_zeros true { parser_state.init with negative_sign := signed.1 } signed.2

/-- `generic_parser_trait::allow_leading_zeros`. -/
def generic_parser_trait : Bool := true

/-- `json_parser_trait::allow_leading_zeros`. -/
def json_parser_trait : Bool := false

/-! ## The map tree (`xml_map_tree`), as used by `orcus_xml.cpp` -/

/-- A namespace identifier: a pointer to the interned URI, null when unknown. -/
abbrev xmlns_id_t := Option pstring

/-- `xml_map_tree::cell_position`. -/
structure cell_position where
  sheet : pstring
  row : Int
  col : Int
  deriving DecidableEq, Repr

/-- `xml_map_tree::cell_reference`. -/
structure cell_reference where
  pos : cell_position
  deriving DecidableEq, Repr

/-- `xml_map_tree::field_in_range`: `ref` is the address of the range
reference (never null in a built tree), `column_pos` the column of the field. -/
structure field_in_range where
  ref : Nat
  column_pos : Int
  deriving DecidableEq, Repr

/-- `xml_map_tree::reference_type`. -/
inductive reference_type where
  | reference_unknown
  | reference_cell
  | reference_range_field
  deriving DecidableEq, Repr

/-- `xml_map_tree::element_type`. -/
inductive element_type where
  | element_unknown
  | element_linked
  | element_unlinked
  deriving DecidableEq, Repr

/-- `xml_map_tree::linkable`: what elements and attributes share. -/
structure linkable where
  ns : xmlns_id_t
  name : pstring
  ns_alias : pstring
  deriving DecidableEq, Repr

/-- `xml_map_tree::attribute` (a reserved word here, hence the name);
`addr` is the address of the object. -/
structure xml_attribute where
  addr : Nat
  ns : xmlns_id_t
  name : pstring
  ns_alias : pstring
  ref_type : reference_type
  cell_ref : cell_reference
  field_ref : field_in_range
  deriving DecidableEq, Repr

/-- Byte offsets of an element in the content stream (`stream_pos`). -/
structure element_position where
  open_begin : Nat
  open_end : Nat
  close_begin : Nat
  close_end : Nat
  deriving DecidableEq, Repr

/-- `xml_map_tree::range_reference`. -/
structure range_reference where
  pos : cell_position
  field_nodes : List linkable
  row_size : Int
  imported_cols : List Bool
  deriving DecidableEq, Repr

/-- Modelled from the spec: `range_reference::reset()`, declared in the
absent `xml_map_tree.hpp`; the `imported` flags reset when a row completes. -/
def range_reference.reset (r : range_reference) : range_reference :=
  { r with imported_cols := r.imported_cols.map (fun _ => false) }

/-- `xml_map_tree::element`; `addr` is the address of the node, `row_group`
and `range_parent` are addresses of range references (`none` for null). -/
structure element where
  addr : Nat
  ns : xmlns_id_t
  name : pstring
  ns_alias : pstring
  elem_type : element_type
  ref_type : reference_type
  child_elements : List element
  cell_ref : cell_reference
  field_ref : field_in_range
  stream_pos : element_position
  attributes : List xml_attribute
  range_parent : Option Nat
  row_group : Option Nat
  deriving Repr

/-- Modelled from the spec: `element::unlinked_attribute_anchor()`, declared
in the absent `xml_map_tree.hpp`; the element itself is not linked but
carries linked attributes. -/
def element.unlinked_attribute_anchor (e : element) : Bool :=
  e.elem_type == element_type.element_unlinked &&
    e.ref_type == reference_type.reference_unknown && !e.attributes.isEmpty

/-! ## The import sink (`spreadsheet::iface::import_factory`) -/

/-- An IEEE-754 double carried through the handlers uninterpreted. -/
structure double where
  bits : Nat
  deriving DecidableEq, Repr

/-- A call made on an `import_sheet` handle returned by `get_sheet`. -/
inductive sheet_call where
  | set_auto (sheet : Nat) (row col : Int) (val : pstring)
  | set_string (sheet : Nat) (row col : Int) (sid : Nat)
  | set_value (sheet : Nat) (row col : Int) (v : double)
  | set_bool (sheet : Nat) (row col : Int) (b : Bool)
  deriving DecidableEq, Repr

/-- The import factory: `get_sheet` returns a sheet handle or null,
`get_shared_strings` the shared-strings interface or null, on which `add`
returns the identifier of a string. -/
structure import_factory where
  get_sheet : pstring → Option Nat
  get_shared_strings : Bool
  add : pstring → Nat

/-! ## `orcus_xml.cpp`: the content handler `xml_data_sax_handler` -/

/-- `sax_ns_parser_attribute`. -/
structure sax_ns_parser_attribute where
  ns : xmlns_id_t
  ns_alias : pstring
  name : pstring
  value : pstring
  transient : Bool
  deriving DecidableEq, Repr

/-- `sax_ns_parser_element`. -/
structure sax_ns_parser_element where
  ns : xmlns_id_t
  ns_alias : pstring
  name : pstring
  begin_pos : Nat
  end_pos : Nat
  deriving DecidableEq, Repr

/-- `xml_data_sax_handler::scope`. -/
structure xml_data_sax_handler.scope where
  ns : xmlns_id_t
  name : pstring
  element_open_begin : Nat
  element_open_end : Nat
  deriving DecidableEq, Repr

/-- The handler together with the memory it mutates: the range references
of the map tree (`ranges`), the mutable `stream_pos` and `ns_alias` of the
tree nodes (by node address), and the calls made on import sheets (`sink`). -/
structure xml_data_sax_handler where
  m_attrs : List sax_ns_parser_attribute
  m_scopes : List xml_data_sax_handler.scope
  m_link_positions : List element
  mp_current_elem : Option element
  m_current_chars : pstring
  m_in_range_ref : Bool
  mp_increment_row : Option Nat
  ranges : Nat → range_reference
  node_stream_pos : Nat → element_position
  node_ns_alias : Nat → pstring
  sink : List sheet_call

/-- Store a range reference at an address. -/
def set_range (ranges : Nat → range_reference) (a : Nat) (r : range_reference) :
    Nat → range_reference :=
  fun b => if b = a then r else ranges b

/-- `find_attr_by_name(ns, name)`. -/
def find_attr_by_name (attrs : List sax_ns_parser_attribute) (ns : xmlns_id_t) (name : pstring) :
    Option sax_ns_parser_attribute :=
  attrs.find? (fun a => a.ns == ns && a.name == name)

/-- `set_single_link_cell(ref, val)`. -/
def set_single_link_cell (fact : import_factory) (h : xml_data_sax_handler)
    (ref : cell_reference) (val : pstring) : xml_data_sax_handler :=
  match fact.get_sheet ref.pos.sheet with
  | some sheet => { h with sink := h.sink ++ [sheet_call.set_auto sheet ref.pos.row ref.pos.col val] }
  | none => h

/-- `set_field_link_cell(field, val)`. An index outside `imported_cols` that
the assertion does not stop is an out-of-bounds store. -/
def set_field_link_cell (ndebug : Bool) (fact : import_factory) (h : xml_data_sax_handler)
    (field : field_in_range) (val : pstring) : Except failure xml_data_sax_handler := do
  let ref := h.ranges field.ref
  cassert ndebug (!ref.pos.sheet.isEmpty)
  cassert ndebug (decide (field.column_pos < (ref.imported_cols.length : Int)))
  if field.column_pos < 0 ∨ (ref.imported_cols.length : Int) ≤ field.column_pos then
    .error .undefined_behaviour
  else
    let ref1 := { ref with imported_cols := ref.imported_cols.set field.column_pos.toNat true }
    let h1 := { h with ranges := set_range h.ranges field.ref ref1 }
    match fact.get_sheet ref1.pos.sheet with
    | some sheet =>
      .ok { h1 with sink := h1.sink ++
        [sheet_call.set_auto sheet (ref1.pos.row + ref1.row_size) (ref1.pos.col + field.column_pos) val] }
    | none => .ok h1

/-- The calls of the loop of `fill_unprocessed_column`: one placeholder per
column, from column `col` on, whose imported flag is not set. -/
def fill_unprocessed_calls (sheet : Nat) (row col_base : Int) : Nat → List Bool → List sheet_call
  | _, [] => []
  | col, imported :: rest =>
    (if !imported then [sheet_call.set_auto sheet row (col_base + (col : Int)) "---".toList] else [])
      ++ fill_unprocessed_calls sheet row col_base (col + 1) rest

/-- `fill_unprocessed_column(ref)`. -/
def fill_unprocessed_column (fact : import_factory) (h : xml_data_sax_handler)
    (ref : range_reference) : xml_data_sax_handler :=
  match fact.get_sheet ref.pos.sheet with
  | none => h
  | some sheet =>
    { h with sink := h.sink ++
        fill_unprocessed_calls sheet (ref.pos.row + ref.row_size) ref.pos.col 0 ref.imported_cols }

/-- The `switch (linked_attr.ref_type)` of `start_element`: the value of a
linked attribute is imported. -/
def commit_attribute_value (ndebug : Bool) (fact : import_factory) (h : xml_data_sax_handler)
    (linked_attr : xml_attribute) (val_trimmed : pstring) : Except failure xml_data_sax_handler :=
  match linked_attr.ref_type with
  | .reference_cell => .ok (set_single_link_cell fact h linked_attr.cell_ref val_trimmed)
  | .reference_range_field => set_field_link_cell ndebug fact h linked_attr.field_ref val_trimmed
  | .reference_unknown => .ok h

/-- Body of the loop of `start_element` over the linked attributes of the
current element. -/
def import_linked_attribute (ndebug : Bool) (fact : import_factory) (h : xml_data_sax_handler)
    (linked_attr : xml_attribute) : Except failure xml_data_sax_handler :=
  match find_attr_by_name h.m_attrs linked_attr.ns linked_attr.name with
  | none => .ok h
  | some p =>
    match commit_attribute_value ndebug fact h linked_attr (trim p.value) with
    | .error e => .error e
    | .ok h1 =>
      -- Record the namespace alias used in the content stream.
      .ok { h1 with
        node_ns_alias := fun a => if a = linked_attr.addr then p.ns_alias else h1.node_ns_alias a }

/-- The loop of `start_element` over `mp_current_elem->attributes`. -/
def import_linked_attributes (ndebug : Bool) (fact : import_factory) :
    xml_data_sax_handler → List xml_attribute → Except failure xml_data_sax_handler
  | h, [] => .ok h
  | h, a :: rest =>
    match import_linked_attribute ndebug fact h a with
    | .error e => .error e
    | .ok h1 => import_linked_attributes ndebug fact h1 rest

/-- The row-group test at the top of `start_element`: when the last closing
element was a boundary of the row group of the current element, the row
position is incremented. -/
def increment_row_if_pending (fact : import_factory) (h : xml_data_sax_handler)
    (cur : element) : xml_data_sax_handler :=
  match cur.row_group with
  | some ref =>
    if h.mp_increment_row == some ref then
      let h1 := fill_unprocessed_column fact h (h.ranges ref)
      let r := (h1.ranges ref).reset
      { h1 with
        ranges := set_range h1.ranges ref { r with row_size := r.row_size + 1 },
        mp_increment_row := none }
    else h
  | none => h

/-- The first lines of `start_element`: a scope is pushed, the characters
are cleared and the element the walker returned becomes current. -/
def start_element_enter (h : xml_data_sax_handler) (elem : sax_ns_parser_element)
    (pushed : Option element) : xml_data_sax_handler :=
  { h with
    m_scopes := h.m_scopes ++ [{ ns := elem.ns, name := elem.name,
                                 element_open_begin := elem.begin_pos,
                                 element_open_end := elem.end_pos }],
    m_current_chars := [],
    mp_current_elem := pushed }

/-- `if (mp_current_elem->range_parent) m_in_range_ref = true;`. -/
def enter_range_parent (h : xml_data_sax_handler) (cur : element) : xml_data_sax_handler :=
  if cur.range_parent.isSome then { h with m_in_range_ref := true } else h

/-- `start_element(elem)`; `pushed` is what
`m_map_tree_walker.push_element(elem.ns, elem.name)` returned. -/
def start_element (ndebug : Bool) (fact : import_factory) (h : xml_data_sax_handler)
    (elem : sax_ns_parser_element) (pushed : Option element) :
    Except failure xml_data_sax_handler :=
  match pushed with
  | none => .ok { start_element_enter h elem pushed with m_attrs := [] }
  | some cur =>
    match import_linked_attributes ndebug fact
        (increment_row_if_pending fact (start_element_enter h elem pushed) cur) cur.attributes with
    | .error e => .error e
    | .ok h2 => .ok { enter_range_parent h2 cur with m_attrs := [] }

/-- The `switch (mp_current_elem->ref_type)` of `end_element`: the content
of a linked element is committed. -/
def commit_element_content (ndebug : Bool) (fact : import_factory) (h : xml_data_sax_handler)
    (cur : element) : Except failure xml_data_sax_handler :=
  match cur.ref_type with
  | .reference_cell => .ok (set_single_link_cell fact h cur.cell_ref h.m_current_chars)
  | .reference_range_field => set_field_link_cell ndebug fact h cur.field_ref h.m_current_chars
  | .reference_unknown => .ok h

/-- `if (mp_current_elem->row_group) mp_increment_row = mp_current_elem->row_group;`. -/
def arm_row_group (h : xml_data_sax_handler) (cur : element) : xml_data_sax_handler :=
  if cur.row_group.isSome then { h with mp_increment_row := cur.row_group } else h

/-- Store the end element position in stream for linked elements: a single
link element, a parent of range link elements, or an unlinked attribute
anchor outside linked ranges. -/
def record_stream_pos (h : xml_data_sax_handler) (elem : sax_ns_parser_element) (cur : element) :
    Except failure xml_data_sax_handler :=
  if cur.ref_type == reference_type.reference_cell || cur.range_parent.isSome ||
      (!h.m_in_range_ref && cur.unlinked_attribute_anchor) then
    match h.m_scopes.getLast? with
    | none => .error .undefined_behaviour
    | some sc =>
      .ok { h with
        node_stream_pos := fun a =>
          if a = cur.addr then
            { open_begin := sc.element_open_begin, open_end := sc.element_open_end,
              close_begin := elem.begin_pos, close_end := elem.end_pos }
          else h.node_stream_pos a,
        m_link_positions := h.m_link_positions ++ [cur] }
  else .ok h

/-- The end of the block: `m_in_range_ref` is cleared on a range parent and
the namespace alias used in the content stream is recorded. -/
def leave_element (h : xml_data_sax_handler) (elem : sax_ns_parser_element) (cur : element) :
    xml_data_sax_handler :=
  { (if cur.range_parent.isSome then { h with m_in_range_ref := false } else h) with
    node_ns_alias := fun a => if a = cur.addr then elem.ns_alias else h.node_ns_alias a }

/-- The part of `end_element` guarded by `if (mp_current_elem)`. -/
def end_element_current (ndebug : Bool) (fact : import_factory) (h : xml_data_sax_handler)
    (elem : sax_ns_parser_element) (cur : element) : Except failure xml_data_sax_handler :=
  match commit_element_content ndebug fact h cur with
  | .error e => .error e
  | .ok h1 =>
    match record_stream_pos (arm_row_group h1 cur) elem cur with
    | .error e => .error e
    | .ok h3 => .ok (leave_element h3 elem cur)

/-- `end_element(elem)` up to and including `m_scopes.pop_back()`. -/
def end_element_body (ndebug : Bool) (fact : import_factory) (h : xml_data_sax_handler)
    (elem : sax_ns_parser_element) : Except failure xml_data_sax_handler :=
  match cassert ndebug (!h.m_scopes.isEmpty) with
  | .error e => .error e
  | .ok _ =>
    -- `m_scopes.back()` and `m_scopes.pop_back()` need a scope
    if h.m_scopes.isEmpty then .error .undefined_behaviour
    else
      match h.mp_current_elem with
      | some cur =>
        match end_element_current ndebug fact h elem cur with
        | .error e => .error e
        | .ok h1 => .ok { h1 with m_scopes := h1.m_scopes.dropLast }
      | none => .ok { h with m_scopes := h.m_scopes.dropLast }

/-- `end_element(elem)`; `popped` is what the final
`m_map_tree_walker.pop_element(elem.ns, elem.name)` returned. -/
def end_element (ndebug : Bool) (fact : import_factory) (h : xml_data_sax_handler)
    (elem : sax_ns_parser_element) (popped : Option element) :
    Except failure xml_data_sax_handler :=
  match end_element_body ndebug fact h elem with
  | .error e => .error e
  | .ok h1 => .ok { h1 with mp_current_elem := popped }

/-- `characters(val, transient)`; interning keeps the bytes. -/
def characters (h : xml_data_sax_handler) (val : pstring) (_transient : Bool) :
    xml_data_sax_handler :=
  match h.mp_current_elem with
  | none => h
  | some _ => { h with m_current_chars := trim val }

/-- `attribute(at)` for an element attribute. -/
def handler_attribute (h : xml_data_sax_handler) (a : sax_ns_parser_attribute) :
    xml_data_sax_handler :=
  { h with m_attrs := h.m_attrs ++ [a] }

/-- `postprocess()`. -/
def postprocess (fact : import_factory) (h : xml_data_sax_handler) : xml_data_sax_handler :=
  match h.mp_increment_row with
  | some ref => fill_unprocessed_column fact h (h.ranges ref)
  | none => h

/-- The tree walker of the map tree (`xml_map_tree::walker`), whose source
is not among the files at hand: any state type with a `push_element` and a
`pop_element` that return the map-tree element now current, or null. -/
structure tree_walker (σ : Type) where
  push_element : σ → xmlns_id_t → pstring → σ × Option element
  pop_element : σ → xmlns_id_t → pstring → Except failure (σ × Option element)

/-- The events `sax_ns_parser` delivers to the handler while parsing the
content stream. -/
inductive sax_event where
  | attribute (a : sax_ns_parser_attribute)
  | start_element (elem : sax_ns_parser_element)
  | end_element (elem : sax_ns_parser_element)
  | characters (val : pstring) (transient : Bool)
  deriving DecidableEq, Repr

/-- Delivery of one event: the handler callback, with the walker moved by
`start_element` and `end_element`. -/
def handle_event {σ : Type} (ndebug : Bool) (fact : import_factory) (w : tree_walker σ)
    (st : σ × xml_data_sax_handler) (ev : sax_event) :
    Except failure (σ × xml_data_sax_handler) :=
  match ev with
  | .attribute a => .ok (st.1, handler_attribute st.2 a)
  | .characters val transient => .ok (st.1, characters st.2 val transient)
  | .start_element elem =>
    let r := w.push_element st.1 elem.ns elem.name
    match start_element ndebug fact st.2 elem r.2 with
    | .ok h => .ok (r.1, h)
    | .error e => .error e
  | .end_element elem =>
    -- the walker pops last, after the handler has worked on the current element
    match end_element_body ndebug fact st.2 elem with
    | .error e => .error e
    | .ok _ =>
      match w.pop_element st.1 elem.ns elem.name with
      | .error e => .error e
      | .ok r =>
        match end_element ndebug fact st.2 elem r.2 with
        | .ok h => .ok (r.1, h)
        | .error e => .error e

/-- `parser.parse()` as seen by the handler: the events in document order. -/
def handle_events {σ : Type} (ndebug : Bool) (fact : import_factory) (w : tree_walker σ) :
    σ × xml_data_sax_handler → List sax_event → Except failure (σ × xml_data_sax_handler)
  | st, [] => .ok st
  | st, ev :: rest =>
    match handle_event ndebug fact w st ev with
    | .ok st1 => handle_events ndebug fact w st1 rest
    | .error e => .error e

/-- The header loop of `read_impl` over the field nodes of one range: the
name of each field, prefixed by the short name of its namespace, goes to the
next column of the origin row. -/
def range_header_calls (get_short_name : xmlns_id_t → pstring) (sheet : Nat) (row : Int) :
    Int → List linkable → List sheet_call
  | _, [] => []
  | col, e :: rest =>
    let s := (if e.ns.isSome then get_short_name e.ns ++ [':'] else []) ++ e.name
    if !s.isEmpty then
      sheet_call.set_auto sheet row col s :: range_header_calls get_short_name sheet row (col + 1) rest
    else range_header_calls get_short_name sheet row col rest

/-- The first loop of `read_impl`: for every range reference of the map tree
(`range_refs`, keyed by origin), the row size is reset to one and the
headers are inserted when the sheet exists. -/
def insert_range_headers (fact : import_factory) (get_short_name : xmlns_id_t → pstring) :
    xml_data_sax_handler → List (cell_position × Nat) → xml_data_sax_handler
  | h, [] => h
  | h, (ref, addr) :: rest =>
    let range_ref := { h.ranges addr with row_size := 1 }
    let h1 := { h with ranges := set_range h.ranges addr range_ref }
    match fact.get_sheet ref.sheet with
    | none => insert_range_headers fact get_short_name h1 rest
    | some sheet =>
      insert_range_headers fact get_short_name
        { h1 with sink := h1.sink ++
            range_header_calls get_short_name sheet ref.row ref.col range_ref.field_nodes }
        rest

/-- `orcus_xml::read_impl(strm)`: `world` holds the memory that outlives the
call (range references, node fields, link positions, sink); the fields of
the handler proper start as its constructor sets them. `events` are the
events `sax_ns_parser` emits for `strm`, `w0` the fresh tree walker. -/
def read_impl {σ : Type} (ndebug : Bool) (fact : import_factory)
    (get_short_name : xmlns_id_t → pstring) (range_refs : List (cell_position × Nat))
    (w : tree_walker σ) (w0 : σ) (world : xml_data_sax_handler)
    (strm : pstring) (events : List sax_event) : Except failure xml_data_sax_handler :=
  if strm.isEmpty then .ok world
  else
    let h0 := insert_range_headers fact get_short_name world range_refs
    let handler := { h0 with
      m_attrs := [], m_scopes := [], mp_current_elem := none, m_current_chars := [],
      m_in_range_ref := false, mp_increment_row := none }
    match handle_events ndebug fact w (w0, handler) events with
    | .ok st => .ok (postprocess fact st.2)
    | .error e => .error e

/-! ## `orcus_json.cpp`: the content handler `json_content_handler` -/

/-- `json_value::value_type` with the payload of the union. -/
inductive json_value where
  | string (p : pstring)
  | numeric (v : double)
  | boolean (b : Bool)
  | null
  deriving DecidableEq, Repr

/-- `json_map_tree::input_node_type`. -/
inductive input_node_type where
  | object
  | array
  | value
  deriving DecidableEq, Repr

/-- `json_map_tree::map_node_type`. -/
inductive map_node_type where
  | unknown
  | array
  | object
  | cell_ref
  | range_field_ref
  deriving DecidableEq, Repr

/-- `json_map_tree::range_reference_type`. -/
structure json_range_reference where
  pos : cell_position
  row_position : Int
  deriving DecidableEq, Repr

/-- The fields of `json_map_tree::node` the handler reads; `row_group` and
`range_field_ref.ref` are addresses of range references. -/
structure json_node where
  type : map_node_type
  cell_ref : cell_reference
  range_field_ref : field_in_range
  row_group : Option Nat
  deriving DecidableEq, Repr

/-- The handler together with the range references it mutates and the
calls made on import sheets. -/
structure json_content_handler where
  mp_current_node : Option json_node
  mp_increment_row : Option Nat
  ranges : Nat → json_range_reference
  sink : List sheet_call

/-- `json_value::commit(im_factory, pos)`: the calls it makes. -/
def json_value.commit (v : json_value) (fact : import_factory) (pos : cell_position) :
    List sheet_call :=
  match fact.get_sheet pos.sheet with
  | none => []
  | some sheet =>
    match v with
    | .string p =>
      if !fact.get_shared_strings then []
      else [sheet_call.set_string sheet pos.row pos.col (fact.add p)]
    | .numeric x => [sheet_call.set_value sheet pos.row pos.col x]
    | .boolean b => [sheet_call.set_bool sheet pos.row pos.col b]
    | .null => []

/-- `push_node(nt)`; `pushed` is what `m_walker.push_node(nt)` returned. -/
def push_node (h : json_content_handler) (pushed : Option json_node) : json_content_handler :=
  let h0 := { h with mp_current_node := pushed }
  match pushed with
  | none => h0
  | some cur =>
    match cur.row_group with
    | some ref =>
      if h0.mp_increment_row == some ref then
        -- The last closing node was a row group boundary.  Increment the row position.
        let r := h0.ranges ref
        { h0 with
          ranges := fun a => if a = ref then { r with row_position := r.row_position + 1 }
                             else h0.ranges a,
          mp_increment_row := none }
      else h0
    | none => h0

/-- `pop_node(nt)`; `popped` is what `m_walker.pop_node(nt)` returned. -/
def pop_node (h : json_content_handler) (popped : Option json_node) : json_content_handler :=
  let h0 := { h with mp_current_node := popped }
  match popped with
  | none => h0
  | some cur => if cur.row_group.isSome then { h0 with mp_increment_row := cur.row_group } else h0

/-- `commit_value(v)`. -/
def commit_value (fact : import_factory) (h : json_content_handler) (v : json_value) :
    json_content_handler :=
  match h.mp_current_node with
  | none => h
  | some cur =>
    match cur.type with
    | .cell_ref => { h with sink := h.sink ++ v.commit fact cur.cell_ref.pos }
    | .range_field_ref =>
      let col_offset := cur.range_field_ref.column_pos
      let ref := h.ranges cur.range_field_ref.ref
      let pos : cell_position :=
        { sheet := ref.pos.sheet, row := ref.pos.row + ref.row_position,
          col := ref.pos.col + col_offset }
      { h with sink := h.sink ++ v.commit fact pos }
    | _ => h

/-- The walker of the JSON map tree (`json_map_tree::walker`), whose source
is not among the files at hand: any state type with these operations. -/
structure json_walker (σ : Type) where
  push_node : σ → input_node_type → σ × Option json_node
  pop_node : σ → input_node_type → Except failure (σ × Option json_node)
  set_object_key : σ → pstring → σ

/-- The events `json_parser` delivers to the handler. -/
inductive json_event where
  | begin_array
  | end_array
  | begin_object
  | object_key (key : pstring) (transient : Bool)
  | end_object
  | boolean_true
  | boolean_false
  | null
  | string (p : pstring) (transient : Bool)
  | number (val : double)
  deriving DecidableEq, Repr

/-- A call of the handler's `push_node(nt)` with the walker advanced. -/
def json_push {σ : Type} (w : json_walker σ) (st : σ × json_content_handler)
    (nt : input_node_type) : σ × json_content_handler :=
  ((w.push_node st.1 nt).1, push_node st.2 (w.push_node st.1 nt).2)

/-- A call of the handler's `pop_node(nt)` with the walker advanced. -/
def json_pop {σ : Type} (w : json_walker σ) (st : σ × json_content_handler)
    (nt : input_node_type) : Except failure (σ × json_content_handler) :=
  match w.pop_node st.1 nt with
  | .error e => .error e
  | .ok q => .ok (q.1, pop_node st.2 q.2)

/-- A scalar event: `push_node(value); commit_value(v); pop_node(value)`. -/
def json_scalar {σ : Type} (fact : import_factory) (w : json_walker σ)
    (st : σ × json_content_handler) (v : json_value) :
    Except failure (σ × json_content_handler) :=
  json_pop w
    ((json_push w st input_node_type.value).1,
      commit_value fact (json_push w st input_node_type.value).2 v)
    input_node_type.value

/-- Delivery of one JSON event to the handler. -/
def json_handle_event {σ : Type} (fact : import_factory) (w : json_walker σ)
    (st : σ × json_content_handler) (ev : json_event) :
    Except failure (σ × json_content_handler) :=
  match ev with
  | .begin_array => .ok (json_push w st input_node_type.array)
  | .begin_object => .ok (json_push w st input_node_type.object)
  | .end_array => json_pop w st input_node_type.array
  | .end_object => json_pop w st input_node_type.object
  | .object_key key _ => .ok (w.set_object_key st.1 key, st.2)
  | .boolean_true => json_scalar fact w st (json_value.boolean true)
  | .boolean_false => json_scalar fact w st (json_value.boolean false)
  | .null => json_scalar fact w st json_value.null
  | .string p _ => json_scalar fact w st (json_value.string p)
  | .number val => json_scalar fact w st (json_value.numeric val)

/-- `orcus_json::read_stream` as seen by the handler: the events in order. -/
def json_handle_events {σ : Type} (fact : import_factory) (w : json_walker σ) :
    σ × json_content_handler → List json_event → Except failure (σ × json_content_handler)
  | st, [] => .ok st
  | st, ev :: rest =>
    match json_handle_event fact w st ev with
    | .ok st1 => json_handle_events fact w st1 rest
    | .error e => .error e

/-! ## `orcus_xml.cpp`: the round-trip writer -/

/-- An `export_sheet`: `write_string(os, row, col)` appends these bytes. -/
structure export_sheet where
  write_string : Int → Int → pstring

/-- The export factory: `get_sheet` returns a sheet or null. -/
structure export_factory where
  get_sheet : pstring → Option export_sheet

/-- Modelled from the spec: `operator<<` for a `linkable` of the map tree,
whose definition is in the absent `xml_map_tree.cpp`; the writer re-emits
the namespace alias recorded from the content stream in front of the name. -/
def linkable_text (ns_alias name : pstring) : pstring :=
  (if !ns_alias.isEmpty then ns_alias ++ [':'] else []) ++ name

/-- `os << elem`. -/
def element.text (e : element) : pstring := linkable_text e.ns_alias e.name

/-- `os << attr`. -/
def xml_attribute.text (a : xml_attribute) : pstring := linkable_text a.ns_alias a.name

/-- `scope` of `write_range_reference_group`: `current_child_pos` is held as
the children from the iterator to `end_child_pos`. -/
structure scope where
  element : element
  current_child_pos : List orcus.element
  opened : Bool

/-- The constructor `scope(_elem)`. -/
def scope.init (e : orcus.element) : scope :=
  { element := e,
    current_child_pos :=
      if e.elem_type == element_type.element_unlinked then e.child_elements else [],
    opened := false }

/-- The attribute loop of the range overload of `write_opening_element`. -/
def range_attribute_text (ref : range_reference) (sheet : export_sheet) (current_row : Int) :
    List xml_attribute → pstring
  | [] => []
  | a :: rest =>
    (if a.ref_type != reference_type.reference_range_field then []
     else [' '] ++ a.text ++ ['=', QUOT] ++
        sheet.write_string (ref.pos.row + 1 + current_row) (ref.pos.col + a.field_ref.column_pos) ++
        [QUOT])
      ++ range_attribute_text ref sheet current_row rest

/-- `write_opening_element(os, elem, ref, sheet, current_row, self_close)`. -/
def write_opening_element_range (elem : element) (ref : range_reference) (sheet : export_sheet)
    (current_row : Int) (self_close : Bool) : pstring :=
  if elem.attributes.isEmpty then
    -- This element has no linked attributes. Just write the element name and be done with it.
    ['<'] ++ elem.text ++ ['>']
  else
    ['<'] ++ elem.text ++ range_attribute_text ref sheet current_row elem.attributes ++
      (if self_close then ['/'] else []) ++ ['>']

/-- The attribute loop of the factory overload of `write_opening_element`. -/
def cell_attribute_text (fact : export_factory) : List xml_attribute → pstring
  | [] => []
  | a :: rest =>
    (if a.ref_type != reference_type.reference_cell then []
     else
      match fact.get_sheet a.cell_ref.pos.sheet with
      | none => []
      | some sheet =>
        [' '] ++ a.text ++ ['=', QUOT] ++
          sheet.write_string a.cell_ref.pos.row a.cell_ref.pos.col ++ [QUOT])
      ++ cell_attribute_text fact rest

/-- `write_opening_element(os, elem, fact, self_close)`. -/
def write_opening_element (elem : element) (fact : export_factory) (self_close : Bool) : pstring :=
  ['<'] ++ elem.text ++ cell_attribute_text fact elem.attributes ++
    (if self_close then ['/'] else []) ++ ['>']

/-- The `for` loop over the child elements of the current scope: the bytes
written for the leaf children passed, and the non-leaf child at which the
loop breaks (with the children after it), if any. -/
def write_children (ref : range_reference) (sheet : export_sheet) (current_row : Int) :
    List element → pstring × Option (element × List element)
  | [] => ([], none)
  | child_elem :: rest =>
    if child_elem.elem_type == element_type.element_unlinked then
      -- This is a non-leaf element.  Push a new scope with this element.
      ([], some (child_elem, rest))
    else
      let here : pstring :=
        if child_elem.ref_type == reference_type.reference_range_field then
          write_opening_element_range child_elem ref sheet current_row false ++
            sheet.write_string (ref.pos.row + 1 + current_row)
              (ref.pos.col + child_elem.field_ref.column_pos) ++
            ['<', '/'] ++ child_elem.text ++ ['>']
        else []
      let r := write_children ref sheet current_row rest
      (here ++ r.1, r.2)

/-- The `while (!scopes.empty())` loop of `write_range_reference_group` for
one row; the head of the list is `scopes.back()`. -/
def write_row_loop (ref : range_reference) (sheet : export_sheet) (current_row : Int) :
    Nat → List scope → pstring → Except failure pstring
  | _, [], os => .ok os
  | 0, _ :: _, _ => .error .out_of_fuel
  | fuel + 1, cur_scope :: below, os =>
    -- Self-closing element has no child elements nor content.
    let self_close := cur_scope.current_child_pos.isEmpty &&
      cur_scope.element.ref_type != reference_type.reference_range_field
    let os1 := if !cur_scope.opened then
        os ++ write_opening_element_range cur_scope.element ref sheet current_row self_close
      else os
    if self_close then write_row_loop ref sheet current_row fuel below os1
    else
      match write_children ref sheet current_row cur_scope.current_child_pos with
      | (written, some (child_elem, rest)) =>
        write_row_loop ref sheet current_row fuel
          (scope.init child_elem ::
            { cur_scope with current_child_pos := rest, opened := true } :: below)
          (os1 ++ written)
      | (written, none) =>
        -- Write content of this element before closing it (if it's linked).
        let content : pstring :=
          if cur_scope.element.ref_type == reference_type.reference_range_field then
            sheet.write_string (ref.pos.row + 1 + current_row)
              (ref.pos.col + cur_scope.element.field_ref.column_pos)
          else []
        write_row_loop ref sheet current_row fuel below
          (os1 ++ written ++ content ++ ['<', '/'] ++ cur_scope.element.text ++ ['>'])

/-- Number of nodes of a subtree of the map tree. -/
def element.size : element → Nat
  | ⟨_, _, _, _, _, _, children, _, _, _, _, _, _⟩ => 1 + sizes children
where
  /-- Number of nodes of a forest. -/
  sizes : List element → Nat
    | [] => 0
    | c :: cs => c.size + sizes cs

/-- The rows loop of `write_range_reference_group`: rows `current_row`,
`current_row + 1`, ... (`count` of them). A scope is pushed once per node
and every iteration of the inner loop pushes or pops one, so twice the
number of nodes bounds the iterations for a row. -/
def write_rows (root : element) (ref : range_reference) (sheet : export_sheet) :
    Nat → Int → pstring → Except failure pstring
  | 0, _, os => .ok os
  | count + 1, current_row, os =>
    match write_row_loop ref sheet current_row (2 * root.size) [scope.init root] os with
    | .ok os1 => write_rows root ref sheet count (current_row + 1) os1
    | .error e => .error e

/-- `write_range_reference_group(os, root, ref, factory)`: the bytes appended. -/
def write_range_reference_group (root : element) (ref : range_reference)
    (factory : export_factory) : Except failure pstring :=
  match factory.get_sheet ref.pos.sheet with
  | none => .ok []
  | some sheet => write_rows root ref sheet ref.row_size.toNat 0 []

/-- `write_range_reference(os, elem_top, factory)`: the bytes appended;
`ranges` is the memory holding the range references. -/
def write_range_reference (ranges : Nat → range_reference) (elem_top : element)
    (factory : export_factory) : Except failure pstring :=
  if elem_top.elem_type != element_type.element_unlinked then .ok []
  else
    match elem_top.child_elements with
    | [] => .ok []
    | first :: _ =>
      match elem_top.range_parent with
      | none => .error .undefined_behaviour
      | some a => write_range_reference_group first (ranges a) factory

/-- The view `pstring(p0 + start, stop - start)` of the input of `n_in`
bytes; a negative length or a view past the input is out of bounds. -/
def input_view (p0 : pstring) (start stop : Nat) : Except failure pstring :=
  if start ≤ stop ∧ stop ≤ p0.length then .ok (subview p0 start (stop - start))
  else .error .undefined_behaviour

/-- The order `std::sort` with `less_by_opening_elem_pos` arranges the
links in: by `stream_pos.open_begin`. The order of links with equal
`open_begin` is unspecified in C++; the model keeps them as given. -/
def opens_before (left right : element) : Prop :=
  left.stream_pos.open_begin ≤ right.stream_pos.open_begin

instance opens_before_decidable : DecidableRel opens_before :=
  fun l r => inferInstanceAs (Decidable (l.stream_pos.open_begin ≤ r.stream_pos.open_begin))

/-- The body of the loop of `orcus_xml::write` for one link: the bytes
appended to `out` and the new `begin_pos`. -/
def write_link (ndebug : Bool) (fact : export_factory) (ranges : Nat → range_reference)
    (p0 : pstring) (begin_pos : Nat) (elem : element) : Except failure (pstring × Nat) :=
  if elem.ref_type == reference_type.reference_cell then
    -- Single cell link
    let pos := elem.cell_ref.pos
    match fact.get_sheet pos.sheet with
    | none => .ok ([], begin_pos)
    | some sheet => do
      cassert ndebug (decide (elem.stream_pos.open_begin > begin_pos))
      let gap ← input_view p0 begin_pos elem.stream_pos.open_begin
      let closing ← input_view p0 elem.stream_pos.close_begin elem.stream_pos.close_end
      .ok (gap ++ write_opening_element elem fact false ++ sheet.write_string pos.row pos.col ++
            closing, elem.stream_pos.close_end)
  else
    match elem.range_parent with
    | some a =>
      -- Range link
      match fact.get_sheet (ranges a).pos.sheet with
      | none => .ok ([], begin_pos)
      | some _ => do
        cassert ndebug (decide (elem.stream_pos.open_begin > begin_pos))
        let gap ← input_view p0 begin_pos elem.stream_pos.open_begin
        let rows ← write_range_reference ranges elem fact
        let closing ← input_view p0 elem.stream_pos.close_begin elem.stream_pos.close_end
        .ok (gap ++ write_opening_element elem fact false ++ rows ++ closing,
              elem.stream_pos.close_end)
    | none =>
      if elem.unlinked_attribute_anchor then do
        -- Element is not linked but has one or more attributes that are linked.
        let self_close := elem.stream_pos.open_begin == elem.stream_pos.close_begin
        cassert ndebug (decide (elem.stream_pos.open_begin > begin_pos))
        let gap ← input_view p0 begin_pos elem.stream_pos.open_begin
        .ok (gap ++ write_opening_element elem fact self_close, elem.stream_pos.open_end)
      else .error .general_error

/-- The loop of `orcus_xml::write` over the sorted links. -/
def write_links (ndebug : Bool) (fact : export_factory) (ranges : Nat → range_reference)
    (p0 : pstring) : Nat → List element → pstring → Except failure (pstring × Nat)
  | begin_pos, [], out => .ok (out, begin_pos)
  | begin_pos, elem :: rest, out =>
    match write_link ndebug fact ranges p0 begin_pos elem with
    | .ok r => write_links ndebug fact ranges p0 r.2 rest (out ++ r.1)
    | .error e => .error e

/-- `orcus_xml::write(p_in, n_in, out)`: the bytes written to `out`.
`mp_export_factory` is `fact`, `m_link_positions` is `links` (each element
with the `stream_pos` the content parse recorded), `ranges` the memory
holding the range references. -/
def write (ndebug : Bool) (fact : Option export_factory) (ranges : Nat → range_reference)
    (links : List element) (p_in : pstring) : Except failure pstring :=
  match fact with
  | none => .ok []
  | some fact =>
    if p_in.length == 0 then .ok []
    else if links.isEmpty then .ok []
    else
      -- Sort all link position by opening element positions.
      let sorted := links.insertionSort opens_before
      match write_links ndebug fact ranges p_in 0 sorted [] with
      | .error e => .error e
      | .ok r =>
        -- Flush the remaining stream.
        match input_view p_in r.2 p_in.length with
        | .ok tail => .ok (r.1 ++ tail)
        | .error e => .error e

/-! ## Specification: character references and character data -/

/-- A character reference of the claim: one of the five predefined
entities, or a numeric reference given by its decimal or hexadecimal digits. -/
inductive char_reference where
  | amp
  | lt
  | gt
  | apos
  | quot
  | decimal (digits : pstring)
  | hexadecimal (digits : pstring)

/-- The text between the ampersand and the semicolon. -/
def char_reference.name : char_reference → pstring
  | .amp => "amp".toList
  | .lt => "lt".toList
  | .gt => "gt".toList
  | .apos => "apos".toList
  | .quot => "quot".toList
  | .decimal ds => '#' :: ds
  | .hexadecimal ds => '#' :: 'x' :: ds

/-- A numeric reference is valid when it has at least one digit, only
digits of its base, and denotes a code point below `0x110000`. -/
def char_reference.valid : char_reference → Prop
  | .decimal ds => ds ≠ [] ∧ (∀ c ∈ ds, is_digit_of 10 c = true) ∧ digits_value 10 ds < 0x110000
  | .hexadecimal ds => ds ≠ [] ∧ (∀ c ∈ ds, is_digit_of 16 c = true) ∧ digits_value 16 ds < 0x110000
  | _ => True

/-- The bytes a reference stands for. -/
def char_reference.decoded : char_reference → pstring
  | .amp => ['&']
  | .lt => ['<']
  | .gt => ['>']
  | .apos => [APOS]
  | .quot => [QUOT]
  | .decimal ds => utf8_bytes (digits_value 10 ds)
  | .hexadecimal ds => utf8_bytes (digits_value 16 ds)

/-- Character data `&e1; t1 &e2; t2 ... &en; tn`. -/
def encoded_text : List (char_reference × pstring) → pstring
  | [] => []
  | (e, t) :: rest => '&' :: (e.name ++ ';' :: (t ++ encoded_text rest))

/-- The decoded data `d(e1) t1 d(e2) t2 ... d(en) tn`. -/
def decoded_text : List (char_reference × pstring) → pstring
  | [] => []
  | (e, t) :: rest => e.decoded ++ t ++ decoded_text rest

/-! ## Specification: commits, row offsets and the pending signal -/

/-- The calls a range-field commit makes: one `set_auto` on the sheet of the
range, at the origin row plus the row offset and the origin column plus the
column of the field, when the sheet exists. -/
def field_commit_calls (fact : import_factory) (ref : range_reference) (column_pos : Int)
    (val : pstring) : List sheet_call :=
  match fact.get_sheet ref.pos.sheet with
  | some sheet =>
    [sheet_call.set_auto sheet (ref.pos.row + ref.row_size) (ref.pos.col + column_pos) val]
  | none => []

/-- The row offsets of all ranges and the pending signal are the same in
both handler states. -/
def rows_kept (h h1 : xml_data_sax_handler) : Prop :=
  (∀ r, (h1.ranges r).row_size = (h.ranges r).row_size) ∧
    h1.mp_increment_row = h.mp_increment_row

/-- The cell a call on a sheet addresses: the sheet handle, the row and the
column. -/
def sheet_call.cell : sheet_call → Nat × Int × Int
  | .set_auto sheet row col _ => (sheet, row, col)
  | .set_string sheet row col _ => (sheet, row, col)
  | .set_value sheet row col _ => (sheet, row, col)
  | .set_bool sheet row col _ => (sheet, row, col)

/-! ## The tree walker of the XML map tree, modelled from the spec -/

/-- Modelled from the spec: the state of the walker of the XML map tree
(`xml_map_tree::walker`, whose source is absent): the root of the tree and
the stack of nodes that mirrors the open elements, innermost first, where
`none` is a sink marker absorbing events until the matching pop. -/
structure walker_state where
  root : Option element
  stack : List (Option element)

/-- Modelled from the spec: `walker::push_element` (source absent); descend
in the map tree if a matching child exists, otherwise push a sink marker. -/
def walker_push (st : walker_state) (ns : xmlns_id_t) (name : pstring) :
    walker_state × Option element :=
  let found : Option element :=
    match st.stack with
    | [] =>
      match st.root with
      | some r => if r.ns == ns && r.name == name then some r else none
      | none => none
    | none :: _ => none
    | some e :: _ => e.child_elements.find? (fun c => c.ns == ns && c.name == name)
  ({ st with stack := found :: st.stack }, found)

/-- Modelled from the spec: `walker::pop_element` (source absent); the
innermost entry is popped and the node now current, if any, is returned. -/
def walker_pop (st : walker_state) (_ns : xmlns_id_t) (_name : pstring) :
    walker_state × Option element :=
  ({ st with stack := st.stack.tail }, (st.stack.tail.head?).join)

/-- Modelled from the spec: the tree walker over a map tree. -/
def map_tree_walker : tree_walker walker_state :=
  { push_element := walker_push,
    pop_element := fun st ns name => .ok (walker_pop st ns name) }

/-! ## A range with one attribute field on the row-group element -/

/-- The events of one self-closing occurrence `<e a="v"/>` of an element
with one attribute: the attribute, then `start_element` and `end_element`
with the same positions. -/
def occurrence_events (ens ans : xmlns_id_t) (ename aname : pstring)
    (occ : pstring × Nat × Nat) : List sax_event :=
  [sax_event.attribute { ns := ans, ns_alias := [], name := aname, value := occ.1,
                         transient := false },
   sax_event.start_element { ns := ens, ns_alias := [], name := ename,
                             begin_pos := occ.2.1, end_pos := occ.2.2 },
   sax_event.end_element { ns := ens, ns_alias := [], name := ename,
                           begin_pos := occ.2.1, end_pos := occ.2.2 }]

/-- The events of `<r> <e a="v1"/> ... <e a="vk"/> </r>`. -/
def record_list_events (rns ens ans : xmlns_id_t) (rname ename aname : pstring)
    (ropen rclose : Nat × Nat) (occs : List (pstring × Nat × Nat)) : List sax_event :=
  sax_event.start_element { ns := rns, ns_alias := [], name := rname,
                            begin_pos := ropen.1, end_pos := ropen.2 } ::
    (occs.flatMap (occurrence_events ens ans ename aname) ++
      [sax_event.end_element { ns := rns, ns_alias := [], name := rname,
                               begin_pos := rclose.1, end_pos := rclose.2 }])

/-- The calls that put the value of the occurrence number `i`, `i + 1`, ...
at row `r0 + i`, `r0 + i + 1`, ... of column `c0`. -/
def row_calls (sheet : Nat) (r0 c0 : Int) : Nat → List pstring → List sheet_call
  | _, [] => []
  | i, v :: vs => sheet_call.set_auto sheet (r0 + (i : Int)) c0 (trim v) :: row_calls sheet r0 c0 (i + 1) vs

/-- The row-group element of a range with one attribute field: it carries
the linked attribute and is the row group of the range at address `a`. -/
def row_group_element (a : Nat) (ens ans : xmlns_id_t) (ename aname : pstring) : element :=
  { addr := 2, ns := ens, name := ename, ns_alias := [],
    elem_type := element_type.element_unlinked,
    ref_type := reference_type.reference_unknown,
    child_elements := [],
    cell_ref := { pos := { sheet := [], row := 0, col := 0 } },
    field_ref := { ref := 0, column_pos := 0 },
    stream_pos := { open_begin := 0, open_end := 0, close_begin := 0, close_end := 0 },
    attributes := [{ addr := 3, ns := ans, name := aname, ns_alias := [],
                     ref_type := reference_type.reference_range_field,
                     cell_ref := { pos := { sheet := [], row := 0, col := 0 } },
                     field_ref := { ref := a, column_pos := 0 } }],
    range_parent := none,
    row_group := some a }

/-- The parent of the row-group element: the range parent of the range. -/
def range_parent_element (a : Nat) (rns ens ans : xmlns_id_t) (rname ename aname : pstring) :
    element :=
  { addr := 1, ns := rns, name := rname, ns_alias := [],
    elem_type := element_type.element_unlinked,
    ref_type := reference_type.reference_unknown,
    child_elements := [row_group_element a ens ans ename aname],
    cell_ref := { pos := { sheet := [], row := 0, col := 0 } },
    field_ref := { ref := 0, column_pos := 0 },
    stream_pos := { open_begin := 0, open_end := 0, close_begin := 0, close_end := 0 },
    attributes := [],
    range_parent := some a,
    row_group := none }

/-- The state of walker and handler between two occurrences of the
row-group element, `j` of them having been read: the range parent is
current, `b` is the imported flag of the one column. -/
def between_occurrences (a : Nat) (root : element) (pos : cell_position)
    (fields : List linkable) (st : walker_state × xml_data_sax_handler) (j : Nat) (b : Bool)
    (sink : List sheet_call) : Prop :=
  st.1 = { root := some root, stack := [some root] } ∧
  st.2.m_attrs = [] ∧ st.2.m_scopes ≠ [] ∧ st.2.mp_current_elem = some root ∧
  st.2.m_in_range_ref = true ∧
  st.2.ranges a = { pos := pos, field_nodes := fields,
                    row_size := if j = 0 then 1 else (j : Int), imported_cols := [b] } ∧
  st.2.mp_increment_row = (if j = 0 then none else some a) ∧
  (j ≠ 0 → b = true) ∧
  st.2.sink = sink

/-! ## Counting row-group close events -/

/-- Whether the increment of the row offset of range `r` is pending. -/
def armed (h : xml_data_sax_handler) (r : Nat) : Int :=
  if h.mp_increment_row = some r then 1 else 0

/-- Whether the event is a row-group close event for range `r`: an
`end_element` delivered while the current element has `r` as row group. -/
def is_row_group_close (h : xml_data_sax_handler) (ev : sax_event) (r : Nat) : Int :=
  match ev, h.mp_current_elem with
  | .end_element _, some cur => if cur.row_group = some r then 1 else 0
  | _, _ => 0

/-- Number of row-group close events for range `r` while the events are
delivered. -/
def row_group_closes {σ : Type} (ndebug : Bool) (fact : import_factory) (w : tree_walker σ)
    (r : Nat) : σ × xml_data_sax_handler → List sax_event → Int
  | _, [] => 0
  | st, ev :: rest =>
    is_row_group_close st.2 ev r +
      (match handle_event ndebug fact w st ev with
       | .ok st1 => row_group_closes ndebug fact w r st1 rest
       | .error _ => 0)

/-- By how much the row offset of range `r` has advanced when the events
have been delivered. -/
def row_advance {σ : Type} (ndebug : Bool) (fact : import_factory) (w : tree_walker σ)
    (r : Nat) (st : σ × xml_data_sax_handler) (events : List sax_event) : Option Int :=
  match handle_events ndebug fact w st events with
  | .ok st1 => some ((st1.2.ranges r).row_size - (st.2.ranges r).row_size)
  | .error _ => none

/-- Whether the increment of the row position of range `r` is pending in
the JSON handler. -/
def json_armed (h : json_content_handler) (r : Nat) : Int :=
  if h.mp_increment_row = some r then 1 else 0

/-- Whether popping in walker state `s` is a row-group close for range `r`:
the node returned by the walker has `r` as row group. -/
def json_pop_close {σ : Type} (w : json_walker σ) (s : σ) (nt : input_node_type) (r : Nat) :
    Int :=
  match w.pop_node s nt with
  | .ok q =>
    match q.2 with
    | some cur => if cur.row_group = some r then 1 else 0
    | none => 0
  | .error _ => 0

/-- Whether the JSON event is a row-group close event for range `r`. -/
def json_is_row_group_close {σ : Type} (w : json_walker σ) (st : σ × json_content_handler)
    (ev : json_event) (r : Nat) : Int :=
  match ev with
  | .end_array => json_pop_close w st.1 input_node_type.array r
  | .end_object => json_pop_close w st.1 input_node_type.object r
  | .begin_array => 0
  | .begin_object => 0
  | .object_key _ _ => 0
  | _ => json_pop_close w (w.push_node st.1 input_node_type.value).1 input_node_type.value r

/-- Number of row-group close events for range `r` while the JSON events
are delivered. -/
def json_row_group_closes {σ : Type} (fact : import_factory) (w : json_walker σ) (r : Nat) :
    σ × json_content_handler → List json_event → Int
  | _, [] => 0
  | st, ev :: rest =>
    json_is_row_group_close w st ev r +
      (match json_handle_event fact w st ev with
       | .ok st1 => json_row_group_closes fact w r st1 rest
       | .error _ => 0)

/-! ## The scenarios of the spec, as concrete inputs -/

/-- The import factory of the scenarios: one sheet, named `S`. -/
def s3_fact : import_factory :=
  { get_sheet := fun name => if name = "S".toList then some 0 else none,
    get_shared_strings := true,
    add := fun _ => 0 }

/-- The map tree of scenario S3: field `@n` on `it`, row group `it`, under
the root `r`; the range lives at address 0. -/
def s3_root : element :=
  range_parent_element 0 none none none "r".toList "it".toList "n".toList

/-- The range of scenario S3, at origin `(S, 0, 0)`, before any parse. -/
def s3_range : range_reference :=
  { pos := { sheet := "S".toList, row := 0, col := 0 },
    field_nodes := [{ ns := none, name := "n".toList, ns_alias := [] }],
    row_size := 0,
    imported_cols := [false] }

/-- The memory before the parse of scenario S3: nothing written yet. -/
def s3_world : xml_data_sax_handler :=
  { m_attrs := [], m_scopes := [], m_link_positions := [], mp_current_elem := none,
    m_current_chars := [], m_in_range_ref := false, mp_increment_row := none,
    ranges := fun _ => s3_range,
    node_stream_pos := fun _ => { open_begin := 0, open_end := 0, close_begin := 0,
                                  close_end := 0 },
    node_ns_alias := fun _ => [],
    sink := [] }

/-- The input of scenario S3. -/
def s3_input : pstring := "<r><it n=\"x\"/><it n=\"y\"/></r>".toList

/-- The events of the tokenizer for the input of scenario S3. -/
def s3_events : List sax_event :=
  record_list_events none none none "r".toList "it".toList "n".toList (0, 3) (25, 29)
    [("x".toList, 3, 14), ("y".toList, 14, 25)]

/-- Walker and handler at the start of the content parse of scenario S3:
`read_impl` has reset the row size to one. -/
def s3_start : walker_state × xml_data_sax_handler :=
  ({ root := some s3_root, stack := [] },
   { s3_world with ranges := fun _ => { s3_range with row_size := 1 } })

/-- The value of a call that returned normally, `d` otherwise. -/
def returned {α : Type} (x : Except failure α) (d : α) : α :=
  match x with
  | .ok a => a
  | .error _ => d

/-- The row-group element `it` of scenario S3. -/
def s3_it : element := row_group_element 0 none none "it".toList "n".toList

/-- Walker and handler of scenario S3 at the end of the content parse. -/
def s3_end : walker_state × xml_data_sax_handler :=
  returned (handle_events false s3_fact map_tree_walker s3_start s3_events) s3_start

/-- Walker and handler of scenario S3 after the first `<it n="x"/>`: the
row group has closed once. -/
def s3_armed : walker_state × xml_data_sax_handler :=
  returned (handle_events false s3_fact map_tree_walker s3_start (s3_events.take 4)) s3_start

/-- The second `<it n="y"/>` as the tokenizer reports it. -/
def s3_second_it : sax_ns_parser_element :=
  { ns := none, ns_alias := [], name := "it".toList, begin_pos := 14, end_pos := 25 }

/-- The handler of scenario S3 after the descent onto the second `it`. -/
def s3_descended : xml_data_sax_handler :=
  returned (start_element false s3_fact s3_armed.2 s3_second_it (some s3_it)) s3_armed.2

/-- The handler of scenario S3 after the commit of the value `x` of the
field at column 0, from the start of the parse. -/
def s3_committed : xml_data_sax_handler :=
  returned (set_field_link_cell false s3_fact s3_start.2 { ref := 0, column_pos := 0 }
    "x".toList) s3_start.2

/-- The memory after `read_impl` on the input of scenario S3. -/
def s3_result : xml_data_sax_handler :=
  returned (read_impl false s3_fact (fun _ => [])
    [({ sheet := "S".toList, row := 0, col := 0 }, 0)] map_tree_walker
    { root := some s3_root, stack := [] } s3_world s3_input s3_events) s3_world

/-- An element of a map tree that is not linked itself: its children, its
linked attributes, and the ranges it is parent and row group of. -/
def unlinked_element (addr : Nat) (name : pstring) (children : List element)
    (attributes : List xml_attribute) (range_parent row_group : Option Nat) : element :=
  { addr := addr, ns := none, name := name, ns_alias := [],
    elem_type := element_type.element_unlinked,
    ref_type := reference_type.reference_unknown,
    child_elements := children,
    cell_ref := { pos := { sheet := [], row := 0, col := 0 } },
    field_ref := { ref := 0, column_pos := 0 },
    stream_pos := { open_begin := 0, open_end := 0, close_begin := 0, close_end := 0 },
    attributes := attributes,
    range_parent := range_parent,
    row_group := row_group }

/-- An attribute linked as the field of column `column_pos` of the range
at address `ref`. -/
def field_attribute (addr : Nat) (name : pstring) (ref : Nat) (column_pos : Int) :
    xml_attribute :=
  { addr := addr, ns := none, name := name, ns_alias := [],
    ref_type := reference_type.reference_range_field,
    cell_ref := { pos := { sheet := [], row := 0, col := 0 } },
    field_ref := { ref := ref, column_pos := column_pos } }

/-- A map tree with two ranges: range 0 at `(S, 0, 0)` with the fields `@x`
and `@z` of the row-group element `a` under `p`, range 1 at `(S, 0, 5)` with
the field `@y` of the row-group element `b` under `q`. -/
def two_ranges_root : element :=
  unlinked_element 1 "r".toList
    [unlinked_element 2 "p".toList
       [unlinked_element 3 "a".toList []
          [field_attribute 4 "x".toList 0 0, field_attribute 5 "z".toList 0 1] none (some 0)]
       [] (some 0) none,
     unlinked_element 6 "q".toList
       [unlinked_element 7 "b".toList [] [field_attribute 8 "y".toList 1 0] none (some 1)]
       [] (some 1) none]
    [] none none

/-- The memory before the parse: the two ranges, nothing written. -/
def two_ranges_world : xml_data_sax_handler :=
  { s3_world with
    ranges := fun a =>
      if a = 0 then
        { pos := { sheet := "S".toList, row := 0, col := 0 },
          field_nodes := [{ ns := none, name := "x".toList, ns_alias := [] },
                          { ns := none, name := "z".toList, ns_alias := [] }],
          row_size := 0, imported_cols := [false, false] }
      else
        { pos := { sheet := "S".toList, row := 0, col := 5 },
          field_nodes := [{ ns := none, name := "y".toList, ns_alias := [] }],
          row_size := 0, imported_cols := [false] } }

/-- The input `<r><p><a x="1"/></p><q><b y="2"/></q></r>`. -/
def two_ranges_input : pstring :=
  "<r><p><a x=\"1\"/></p><q><b y=\"2\"/></q></r>".toList

/-- A tag of the input as the tokenizer reports it. -/
def tag (name : pstring) (begin_pos end_pos : Nat) : sax_ns_parser_element :=
  { ns := none, ns_alias := [], name := name, begin_pos := begin_pos, end_pos := end_pos }

/-- The events of the tokenizer for `two_ranges_input`. -/
def two_ranges_events : List sax_event :=
  [sax_event.start_element (tag "r".toList 0 3),
   sax_event.start_element (tag "p".toList 3 6),
   sax_event.attribute { ns := none, ns_alias := [], name := "x".toList, value := "1".toList,
                         transient := false },
   sax_event.start_element (tag "a".toList 6 16),
   sax_event.end_element (tag "a".toList 6 16),
   sax_event.end_element (tag "p".toList 16 20),
   sax_event.start_element (tag "q".toList 20 23),
   sax_event.attribute { ns := none, ns_alias := [], name := "y".toList, value := "2".toList,
                         transient := false },
   sax_event.start_element (tag "b".toList 23 33),
   sax_event.end_element (tag "b".toList 23 33),
   sax_event.end_element (tag "q".toList 33 37),
   sax_event.end_element (tag "r".toList 37 41)]

/-- The memory after `read_impl` on `two_ranges_input`. -/
def two_ranges_result : xml_data_sax_handler :=
  returned (read_impl false s3_fact (fun _ => [])
    [({ sheet := "S".toList, row := 0, col := 0 }, 0),
     ({ sheet := "S".toList, row := 0, col := 5 }, 1)] map_tree_walker
    { root := some two_ranges_root, stack := [] } two_ranges_world two_ranges_input
    two_ranges_events) two_ranges_world

/-! ## Specification: the output of the round-trip writer -/

/-- The work left in a scope of the writer: its own closing and, twice
over, the nodes under the children not yet visited. -/
def scope_weight (sc : scope) : Nat := 1 + 2 * element.size.sizes sc.current_child_pos

/-- The work left on the stack of scopes. -/
def stack_weight : List scope → Nat
  | [] => 0
  | sc :: rest => scope_weight sc + stack_weight rest

/-- Where the writer resumes copying the input after a recorded element:
past the closing tag of a single-cell element or of a range parent, past
the opening tag of an attribute anchor. -/
def handled_end (e : element) : Nat :=
  if e.ref_type = reference_type.reference_cell ∨ e.range_parent.isSome then
    e.stream_pos.close_end
  else e.stream_pos.open_end

/-- The rewritten span of a recorded element: the regenerated opening tag,
then for a single-cell element the cell text and the closing tag of the
input, for a range parent the rows and the closing tag of the input. -/
def rewritten_span (fact : export_factory) (ranges : Nat → range_reference) (X : pstring)
    (e : element) : pstring :=
  if e.ref_type = reference_type.reference_cell then
    match fact.get_sheet e.cell_ref.pos.sheet with
    | some sheet =>
      write_opening_element e fact false ++
        sheet.write_string e.cell_ref.pos.row e.cell_ref.pos.col ++
        subview X e.stream_pos.close_begin (e.stream_pos.close_end - e.stream_pos.close_begin)
    | none => []
  else
    match e.range_parent with
    | some _ =>
      write_opening_element e fact false ++ returned (write_range_reference ranges e fact) [] ++
        subview X e.stream_pos.close_begin (e.stream_pos.close_end - e.stream_pos.close_begin)
    | none =>
      write_opening_element e fact (e.stream_pos.open_begin == e.stream_pos.close_begin)

/-- A recorded element with its export sheet present: a single-cell
element, a range parent, or an attribute anchor. -/
def recorded_link (fact : export_factory) (ranges : Nat → range_reference) (e : element) :
    Prop :=
  (e.ref_type = reference_type.reference_cell ∧
    (fact.get_sheet e.cell_ref.pos.sheet).isSome = true) ∨
  (e.ref_type ≠ reference_type.reference_cell ∧
    ∃ a, e.range_parent = some a ∧ (fact.get_sheet (ranges a).pos.sheet).isSome = true) ∨
  (e.ref_type ≠ reference_type.reference_cell ∧ e.range_parent = none ∧
    e.unlinked_attribute_anchor = true)

/-- A valid span inside the input `X`: a non-empty opening tag, a closing
tag not before it (the same tag for a self-closing element). -/
def span_valid (X : pstring) (e : element) : Prop :=
  e.stream_pos.open_begin < e.stream_pos.open_end ∧
  e.stream_pos.open_end ≤ e.stream_pos.close_end ∧
  e.stream_pos.open_begin ≤ e.stream_pos.close_begin ∧
  e.stream_pos.close_begin ≤ e.stream_pos.close_end ∧
  e.stream_pos.close_end ≤ X.length

/-- The spans `[open_begin, close_end)` of two elements are disjoint. -/
def spans_disjoint (e1 e2 : element) : Prop :=
  e1.stream_pos.close_end ≤ e2.stream_pos.open_begin ∨
    e2.stream_pos.close_end ≤ e1.stream_pos.open_begin

/-- The input from cursor `b` on with, for the recorded elements in
document order, the bytes of each handled span replaced by `span e`: the
input up to the next element, `span e`, and so on, then the rest of the
input. -/
def with_spans (X : pstring) (span : element → pstring) : Nat → List element → pstring
  | b, [] => X.drop b
  | b, e :: es =>
    subview X b (e.stream_pos.open_begin - b) ++ span e ++
      with_spans X span (handled_end e) es

/-- The output the claim describes: the input with each handled span
replaced by its rewritten span. -/
def expected_output (fact : export_factory) (ranges : Nat → range_reference) (X : pstring)
    (b : Nat) (es : List element) : pstring :=
  with_spans X (rewritten_span fact ranges X) b es

/-- The bytes of the input in the handled span of an element. -/
def original_span (X : pstring) (e : element) : pstring :=
  subview X e.stream_pos.open_begin (handled_end e - e.stream_pos.open_begin)

/-- Every recorded element begins strictly after the cursor, which starts
at `b` and moves to the end of each handled span: what the assertion
`open_begin > begin_pos` of `write` checks. -/
def strictly_separated : Nat → List element → Prop
  | _, [] => True
  | b, e :: es => b < e.stream_pos.open_begin ∧ strictly_separated (handled_end e) es

/-- The cursor never passes the next element, each span is valid, and in a
build with assertions the cursor is strictly before the next element. -/
def gaps_ok (ndebug : Bool) (X : pstring) : Nat → List element → Prop
  | b, [] => b ≤ X.length
  | b, e :: es =>
    b ≤ e.stream_pos.open_begin ∧ (ndebug = false → b < e.stream_pos.open_begin) ∧
      span_valid X e ∧ gaps_ok ndebug X (handled_end e) es

instance opens_before_total : IsTotal element opens_before :=
  ⟨fun a b => Nat.le_total a.stream_pos.open_begin b.stream_pos.open_begin⟩

instance opens_before_trans : IsTrans element opens_before :=
  ⟨fun _ _ _ h1 h2 => Nat.le_trans h1 h2⟩

/-- The input of scenario S5: the input of scenario S3 between two comments. -/
def s5_input : pstring :=
  "<!-- head -->\n<r><it n=\"x\"/><it n=\"y\"/></r>\n<!-- tail -->".toList

/-- The export factory of scenario S5: on sheet `S`, the cells `(1, 0)` and
`(2, 0)` now read `z1` and `z2`. -/
def s5_fact : export_factory :=
  { get_sheet := fun name =>
      if name = "S".toList then
        some { write_string := fun row col =>
          if row = 1 ∧ col = 0 then "z1".toList
          else if row = 2 ∧ col = 0 then "z2".toList
          else [] }
      else none }

/-- The range of scenario S5 after the content parse: two rows. -/
def s5_ranges : Nat → range_reference := fun _ => { s3_range with row_size := 2 }

/-- The range parent `r` as recorded by the content parse of `s5_input`. -/
def s5_link : element :=
  { s3_root with
    stream_pos := { open_begin := 14, open_end := 17, close_begin := 39, close_end := 43 } }

/-! ## Specification: UTF-8 -/

/-- The index at which the first occurrence of two hyphens in a row starts. -/
def first_double_hyphen : pstring → Option Nat
  | c :: d :: rest =>
    if c = '-' ∧ d = '-' then some 0
    else (first_double_hyphen (d :: rest)).map (· + 1)
  | _ => none

/-! ## Specification: numeric strings -/

/-- The text of an optional sign: absent, `+` (`some false`) or `-` (`some true`). -/
def sign_text : Option Bool → pstring
  | none => []
  | some false => ['+']
  | some true => ['-']

/-- The text of an optional fraction `. F`. -/
def fraction_text : Option pstring → pstring
  | none => []
  | some F => '.' :: F

/-- The text of an optional exponent `(e|E) [+|-] X`. -/
def exponent_text : Option (Char × Option Bool × pstring) → pstring
  | none => []
  | some (e, s, X) => e :: (sign_text s ++ X)

/-- A numeric string `[+|-] D [. F] [(e|E) [+|-] X]`, by its parts. -/
structure numeric_string where
  sign : Option Bool
  int_part : pstring
  frac_part : Option pstring
  exp_part : Option (Char × Option Bool × pstring)

/-- The bytes of a numeric string. -/
def numeric_string.text (n : numeric_string) : pstring :=
  sign_text n.sign ++ (n.int_part ++ (fraction_text n.frac_part ++ exponent_text n.exp_part))

/-- The parts `D`, `F` and `X` are strings of decimal digits, `D` or `F` is
not empty, the exponent marker is `e` or `E` and `X` is not empty. -/
def numeric_string.well_formed (n : numeric_string) : Prop :=
  (∀ c ∈ n.int_part, is_digit_of 10 c = true) ∧
  (∀ F, n.frac_part = some F → ∀ c ∈ F, is_digit_of 10 c = true) ∧
  (n.int_part ≠ [] ∨ ∃ F, n.frac_part = some F ∧ F ≠ []) ∧
  (∀ e s X, n.exp_part = some (e, s, X) →
    (e = 'e' ∨ e = 'E') ∧ X ≠ [] ∧ ∀ c ∈ X, is_digit_of 10 c = true)

/-- The power of ten of an optional exponent: `10^X`, `10^(-X)` after a
minus sign, `1` without an exponent. -/
def exponent_scale : Option (Char × Option Bool × pstring) → ℚ
  | none => 1
  | some (_, s, X) =>
    if s = some true then (10 : ℚ) ^ (-(digits_value 10 X : Int))
    else (10 : ℚ) ^ (digits_value 10 X : Int)

/-- The number a numeric string denotes: `sign * (D.F) * 10^(signed X)`. -/
def numeric_string.value (n : numeric_string) : ℚ :=
  (if n.sign = some true then -1 else 1) *
    ((digits_value 10 n.int_part : ℚ) +
      (digits_value 10 (n.frac_part.getD []) : ℚ) / 10 ^ (n.frac_part.getD []).length) *
    exponent_scale n.exp_part

/-- The power of ten of an optional exponent underflows to zero in
`parse_exponent`: the exponent has no minus sign, so that `parse_exponent`
negates it, and is 324 or more. -/
def exponent_underflows : Option (Char × Option Bool × pstring) → Bool
  | none => false
  | some (_, s, X) => s != some true && decide (324 ≤ digits_value 10 X)

/-- The scale `parse` applies for an optional exponent: the power of ten of
the exponent, and `1` when that power underflows to zero in
`parse_exponent`, for the test `if (extra_divisor)` then leaves the divisor
as it is. -/
def applied_scale (ex : Option (Char × Option Bool × pstring)) : ℚ :=
  if exponent_underflows ex then 1 else exponent_scale ex

/-- The number `parse` computes for a numeric string: `sign * (D.F)` times
the scale applied for the exponent. -/
def numeric_string.parsed_value (n : numeric_string) : ℚ :=
  (if n.sign = some true then -1 else 1) *
    ((digits_value 10 n.int_part : ℚ) +
      (digits_value 10 (n.frac_part.getD []) : ℚ) / 10 ^ (n.frac_part.getD []).length) *
    applied_scale n.exp_part

/-- The integer part has two digits or more and begins with `0`. -/
def numeric_string.leading_zero (n : numeric_string) : Bool :=
  decide (1 < n.int_part.length) && n.int_part.head? == some '0'

/-! ## `pstring.cpp`: hashing and comparison -/

/-- The value of `*p`, a `char`, after the integral conversions of
`hash_val ^= *p`: whether plain `char` is signed is left to the platform
(`char_signed`); a signed `char` holding a byte from `0x80` on is negative
and wraps to the top of the 32-bit range. -/
def char_to_uint32 (char_signed : Bool) (c : Char) : Nat :=
  if char_signed && decide (128 ≤ c.toNat) then (c.toNat + (2 ^ 32 - 256)) % 2 ^ 32
  else c.toNat % 2 ^ 32

/-- The loop of `pstring::hash::operator()`: `k` is `n - i`, the list is
the memory from `p` on. -/
def hash_loop (char_signed : Bool) : Nat → pstring → Nat → Nat
  | 0, _, hash_val => hash_val
  | _ + 1, [], hash_val => hash_val
  | k + 1, c :: p, hash_val =>
    hash_loop char_signed k p (((hash_val * 0x01000193) % 2 ^ 32) ^^^ char_to_uint32 char_signed c)

/-- `pstring::hash::operator()(val)`: the counter is a `uint32_t`, so `n` is
the size modulo `2 ^ 32`. -/
def pstring.hash (char_signed : Bool) (val : pstring) : Nat :=
  hash_loop char_signed (val.length % 2 ^ 32) val 0

/-- A `pstring` as the class holds it: a pointer into memory and a size. -/
structure pstring_view where
  m_pos : Nat
  m_size : Nat
  deriving DecidableEq, Repr

/-- `std::equal(first1, first1 + n, first2)` on the memory `mem`. -/
def std_equal (mem : Nat → Char) : Nat → Nat → Nat → Bool
  | _, 0, _ => true
  | first1, n + 1, first2 =>
    if mem first1 == mem first2 then std_equal mem (first1 + 1) n (first2 + 1) else false

/-- `pstring::operator==(r)`. -/
def pstring_view.eq (mem : Nat → Char) (l r : pstring_view) : Bool :=
  if l.m_pos == r.m_pos then l.m_size == r.m_size
  else if l.m_size != r.m_size then
    -- lengths differ.
    false
  else std_equal mem l.m_pos l.m_size r.m_pos

/-! ## Specification: hashing and comparison of byte strings -/

/-- The 32-bit FNV-1a hash: from the offset basis 2166136261, for each byte
xor the byte, then multiply by the prime `0x01000193` modulo `2 ^ 32`. -/
def fnv1a_32 (val : pstring) : Nat :=
  val.foldl (fun h c => ((h ^^^ c.toNat) * 0x01000193) % 2 ^ 32) 2166136261

/-- The hash with the two steps in the other order and the basis zero: from
0, for each byte multiply by the prime `0x01000193` modulo `2 ^ 32`, then xor
the byte. -/
def fnv0_32 (val : pstring) : Nat :=
  val.foldl (fun h c => ((h * 0x01000193) % 2 ^ 32) ^^^ c.toNat) 0

/-- The bytes a view denotes: `m_size` bytes of memory from `m_pos` on. -/
def pstring_view.bytes (mem : Nat → Char) (v : pstring_view) : pstring :=
  (List.range v.m_size).map (fun i => mem (v.m_pos + i))

/-! ## Specification: one recorded element in the output of the writer -/

/-- Where the cursor of the writer stands after the recorded elements `es`,
from cursor `b`. -/
def cursor_after : Nat → List element → Nat
  | b, [] => b
  | _, e :: es => cursor_after (handled_end e) es

/-- What the writer has put out when it is done with the recorded elements
`es`, from cursor `b`: for each element the input from the cursor up to the
element, then `span e`. -/
def spans_written (X : pstring) (span : element → pstring) : Nat → List element → pstring
  | _, [] => []
  | b, e :: es =>
    subview X b (e.stream_pos.open_begin - b) ++ span e ++
      spans_written X span (handled_end e) es

/-- The output up to a recorded element `e` that follows the recorded
elements `before`: what was put out for `before`, then the input from the
cursor up to the opening tag of `e`. -/
def written_up_to (fact : export_factory) (ranges : Nat → range_reference) (X : pstring)
    (before : List element) (e : element) : pstring :=
  spans_written X (rewritten_span fact ranges X) 0 before ++
    subview X (cursor_after 0 before) (e.stream_pos.open_begin - cursor_after 0 before)

/-- The recorded elements of one `write`, in document order: valid spans,
pairwise disjoint, every export sheet present, and in a build with
assertions each element strictly after the cursor. -/
def document_order (ndebug : Bool) (fact : export_factory) (ranges : Nat → range_reference)
    (X : pstring) (es : List element) : Prop :=
  es.Pairwise (fun e1 e2 => e1.stream_pos.open_begin ≤ e2.stream_pos.open_begin) ∧
  (∀ e ∈ es, span_valid X e) ∧
  es.Pairwise spans_disjoint ∧
  (∀ e ∈ es, recorded_link fact ranges e) ∧
  (ndebug = false → strictly_separated 0 es)

/-! ## Specification: the rows of a range in the output of the writer -/

/-- The string of the sheet for the field at column `column_pos` in row `r`
of the range: the cell `(origin.row + 1 + r, origin.col + column_pos)`. -/
def field_value (ref : range_reference) (sheet : export_sheet) (r : Int) (column_pos : Int) :
    pstring :=
  sheet.write_string (ref.pos.row + 1 + r) (ref.pos.col + column_pos)

/-- The attributes of a copied element: for each attribute linked as a
field, a blank, the name, and the quoted string of the sheet for row `r`. -/
def field_attributes_copy (ref : range_reference) (sheet : export_sheet) (r : Int)
    (attrs : List xml_attribute) : pstring :=
  (attrs.filter (fun a => a.ref_type == reference_type.reference_range_field)).flatMap
    (fun a => [' '] ++ a.text ++ ['=', QUOT] ++
      field_value ref sheet r a.field_ref.column_pos ++ [QUOT])

/-- The copy of a subtree of the map tree for row `r` of the range: an
element that is not linked is written with its field attributes around the
copies of its children, self-closing when it has none; a linked element is
written with its field attributes around the string of the sheet for its
field. -/
def subtree_copy (ref : range_reference) (sheet : export_sheet) (r : Int) : element → pstring
  | ⟨_, _, name, ns_alias, elem_type, _, children, _, field_ref, _, attributes, _, _⟩ =>
    if elem_type == element_type.element_unlinked then
      if children.isEmpty then
        ['<'] ++ linkable_text ns_alias name ++ field_attributes_copy ref sheet r attributes ++
          ['/', '>']
      else
        ['<'] ++ linkable_text ns_alias name ++ field_attributes_copy ref sheet r attributes ++
          ['>'] ++ copies children ++ ['<', '/'] ++ linkable_text ns_alias name ++ ['>']
    else
      ['<'] ++ linkable_text ns_alias name ++ field_attributes_copy ref sheet r attributes ++
        ['>'] ++ field_value ref sheet r field_ref.column_pos ++
        ['<', '/'] ++ linkable_text ns_alias name ++ ['>']
where
  /-- The copies of the subtrees of a forest, one after the other. -/
  copies : List element → pstring
    | [] => []
    | c :: cs => subtree_copy ref sheet r c ++ copies cs

/-- The last element of a list of children, if any, is a leaf of the map
tree (a linked element). -/
def last_is_leaf (children : List element) : Bool :=
  match children.getLast? with
  | some c => c.elem_type != element_type.element_unlinked
  | none => true

/-- The subtrees of a range this development covers: every linked element
is a field of a range; an element that is not linked is no field, has
children or, failing that, attributes; and the last child of every element
is a linked element. -/
def range_subtree_regular : element → Bool
  | ⟨_, _, _, _, elem_type, ref_type, children, _, _, _, attributes, _, _⟩ =>
    if elem_type == element_type.element_unlinked then
      ref_type != reference_type.reference_range_field &&
        (if children.isEmpty then !attributes.isEmpty
         else last_is_leaf children && all_regular children)
    else ref_type == reference_type.reference_range_field
where
  /-- Every subtree of a forest is regular. -/
  all_regular : List element → Bool
    | [] => true
    | c :: cs => range_subtree_regular c && all_regular cs

/-- The writer of one row, started on the subtree of `c` above any stack of
scopes, puts out the copy of the subtree for row `r` and comes back to the
stack below with fuel left for it. -/
def copies_subtree (ref : range_reference) (sheet : export_sheet) (r : Int) (c : element) :
    Prop :=
  ∀ (fuel : Nat) (below : List scope) (os : pstring),
    stack_weight (scope.init c :: below) ≤ fuel →
    ∃ fuel1, stack_weight below ≤ fuel1 ∧
      write_row_loop ref sheet r fuel (scope.init c :: below) os =
        write_row_loop ref sheet r fuel1 below (os ++ subtree_copy ref sheet r c)

/-! ## Recorded elements of the writer, as concrete inputs -/

/-- An attribute linked to the single cell `pos`. -/
def cell_attribute (addr : Nat) (name : pstring) (pos : cell_position) : xml_attribute :=
  { addr := addr, ns := none, name := name, ns_alias := [],
    ref_type := reference_type.reference_cell,
    cell_ref := { pos := pos },
    field_ref := { ref := 0, column_pos := 0 } }

/-- An element linked to the single cell `pos`, recorded at `stream_pos`. -/
def cell_element (addr : Nat) (name : pstring) (pos : cell_position)
    (stream_pos : element_position) : element :=
  { addr := addr, ns := none, name := name, ns_alias := [],
    elem_type := element_type.element_linked,
    ref_type := reference_type.reference_cell,
    child_elements := [],
    cell_ref := { pos := pos },
    field_ref := { ref := 0, column_pos := 0 },
    stream_pos := stream_pos,
    attributes := [],
    range_parent := none,
    row_group := none }

/-- An element linked as the field of column `column_pos` of the range at
address `ref`. -/
def field_element (addr : Nat) (name : pstring) (ref : Nat) (column_pos : Int) : element :=
  { addr := addr, ns := none, name := name, ns_alias := [],
    elem_type := element_type.element_linked,
    ref_type := reference_type.reference_range_field,
    child_elements := [],
    cell_ref := { pos := { sheet := [], row := 0, col := 0 } },
    field_ref := { ref := ref, column_pos := column_pos },
    stream_pos := { open_begin := 0, open_end := 0, close_begin := 0, close_end := 0 },
    attributes := [],
    range_parent := none,
    row_group := none }

/-- The attribute anchor `a` with the attribute `x` linked to the cell
`(S, 1, 0)`, recorded at `stream_pos`; `children` are its children in the
map tree. -/
def anchor_element (children : List element) (stream_pos : element_position) : element :=
  { unlinked_element 2 "a".toList children
      [cell_attribute 3 "x".toList { sheet := "S".toList, row := 1, col := 0 }] none none with
    stream_pos := stream_pos }

/-- The input `<r><a x="1" y="2"/></r>`: the attribute `y` is not linked. -/
def anchor_input : pstring := "<r><a x=\"1\" y=\"2\"/></r>".toList

/-- The anchor `a` as the content parse of `anchor_input` records it. -/
def anchor_link : element :=
  anchor_element [] { open_begin := 3, open_end := 19, close_begin := 3, close_end := 19 }

/-- An export factory without any sheet. -/
def no_sheet_fact : export_factory := { get_sheet := fun _ => none }

/-- The export factory of the table scenario: on sheet `S`, the cell
`(row, col)` reads the digit of the row followed by the letter of the column. -/
def table_fact : export_factory :=
  { get_sheet := fun name =>
      if name = "S".toList then
        some { write_string := fun row col =>
          (if row = 1 then ['1'] else if row = 2 then ['2'] else ['?']) ++
          (if col = 0 then ['a'] else if col = 1 then ['b'] else if col = 2 then ['c']
           else ['?']) }
      else none }

/-- The row element `it` of the table scenario: the field `@k` at column
0, the child `d` with the field `x` at column 1, the field `y` at column 2. -/
def table_row : element :=
  unlinked_element 3 "it".toList
    [unlinked_element 5 "d".toList [field_element 6 "x".toList 0 1] [] none none,
     field_element 7 "y".toList 0 2]
    [field_attribute 4 "k".toList 0 0] none (some 0)

/-- The input of the table scenario, two rows under the range parent `r`. -/
def table_input : pstring :=
  ("<t><r><it k=\"p\"><d><x>q</x></d><y>s</y></it>" ++
    "<it k=\"u\"><d><x>v</x></d><y>w</y></it></r></t>").toList

/-- The range parent `r` as the content parse of `table_input` records it. -/
def table_link : element :=
  { unlinked_element 2 "r".toList [table_row] [] (some 0) none with
    stream_pos := { open_begin := 3, open_end := 6, close_begin := 82, close_end := 86 } }

/-- The range of the table scenario after the content parse: two rows from
the origin `(S, 0, 0)`. -/
def table_ranges : Nat → range_reference := fun _ =>
  { pos := { sheet := "S".toList, row := 0, col := 0 },
    field_nodes := [{ ns := none, name := "k".toList, ns_alias := [] },
                    { ns := none, name := "x".toList, ns_alias := [] },
                    { ns := none, name := "y".toList, ns_alias := [] }],
    row_size := 2,
    imported_cols := [true, true, true] }

/-! ## Specification: the regenerated opening tag -/

/-- The value the writer gives an attribute of the map tree: the string of
the sheet for an attribute linked to a single cell whose export sheet
exists, nothing for any other attribute. -/
def xml_attribute.exported (fact : export_factory) (a : xml_attribute) : Option pstring :=
  if a.ref_type = reference_type.reference_cell then
    (fact.get_sheet a.cell_ref.pos.sheet).map
      (fun sheet => sheet.write_string a.cell_ref.pos.row a.cell_ref.pos.col)
  else none

/-- The opening tag the writer makes for a recorded element: `<`, the name,
for each attribute of the map tree with an exported value a blank, the name
and the quoted value, then `/` for an attribute anchor recorded as
self-closing, and `>`. No byte of the input enters it. -/
def regenerated_tag (fact : export_factory) (e : element) : pstring :=
  ['<'] ++ e.text ++
    e.attributes.flatMap (fun a =>
      match a.exported fact with
      | some v => [' '] ++ a.text ++ ['=', QUOT] ++ v ++ [QUOT]
      | none => []) ++
    (if e.ref_type ≠ reference_type.reference_cell ∧ e.range_parent = none ∧
        e.stream_pos.open_begin = e.stream_pos.close_begin then ['/'] else []) ++ ['>']

/-! ## The walker of the JSON map tree, modelled from the spec -/

/-- Modelled from the spec: a node of the JSON map tree (`json_map_tree`,
whose source is absent): the fields the handler reads, the child an array
step leads to, and the children object steps lead to, by key. -/
inductive json_map_node where
  | mk (node : json_node) (array_child : Option json_map_node)
      (object_children : List (pstring × json_map_node))

/-- The fields of a node of the JSON map tree that the handler reads. -/
def json_map_node.node : json_map_node → json_node
  | .mk node _ _ => node

/-- The child of an array node. -/
def json_map_node.array_child : json_map_node → Option json_map_node
  | .mk _ array_child _ => array_child

/-- The children of an object node, by key. -/
def json_map_node.object_children : json_map_node → List (pstring × json_map_node)
  | .mk _ _ object_children => object_children

/-- Modelled from the spec: the state of `json_map_tree::walker` (source
absent): the root of the tree, the stack of nodes that mirrors the open
containers and values, innermost first, with `none` as sink marker, and the
object key last set. -/
structure json_walker_state where
  root : Option json_map_node
  stack : List (Option json_map_node)
  key : pstring

/-- Modelled from the spec: whether a node of the input of kind `nt` matches
a node of the map tree of type `t`: an array an array step, an object an
object step, a value a leaf carrying a link. -/
def is_equivalent (nt : input_node_type) (t : map_node_type) : Bool :=
  match nt, t with
  | .array, .array => true
  | .object, .object => true
  | .value, .cell_ref => true
  | .value, .range_field_ref => true
  | _, _ => false

/-- Modelled from the spec: `walker::push_node` (source absent); descend in
the map tree if a matching child exists, otherwise push a sink marker. -/
def json_walker_push (st : json_walker_state) (nt : input_node_type) :
    json_walker_state × Option json_node :=
  let candidate : Option json_map_node :=
    match st.stack with
    | [] => st.root
    | none :: _ => none
    | some p :: _ =>
      match p.node.type with
      | .array => p.array_child
      | .object => (p.object_children.find? (fun kv => kv.1 == st.key)).map (fun kv => kv.2)
      | _ => none
  let found := candidate.filter (fun c => is_equivalent nt c.node.type)
  ({ st with stack := found :: st.stack }, found.map (fun c => c.node))

/-- Modelled from the spec: `walker::pop_node` (source absent); the
innermost entry is popped and the node now current, if any, is returned. -/
def json_walker_pop (st : json_walker_state) (_nt : input_node_type) :
    json_walker_state × Option json_node :=
  ({ st with stack := st.stack.tail }, (st.stack.tail.head?).join.map (fun c => c.node))

/-- Modelled from the spec: the walker over a JSON map tree. -/
def json_map_walker : json_walker json_walker_state :=
  { push_node := json_walker_push,
    pop_node := fun st nt => .ok (json_walker_pop st nt),
    set_object_key := fun st key => { st with key := key } }

/-! ## Specification: the commit of a JSON value by its type -/

/-- The value a scalar event of the tokenizer carries. -/
def scalar_value : json_event → Option json_value
  | .boolean_true => some (json_value.boolean true)
  | .boolean_false => some (json_value.boolean false)
  | .null => some json_value.null
  | .string p _ => some (json_value.string p)
  | .number val => some (json_value.numeric val)
  | _ => none

/-- The call the claim gives each type of value on the sheet handle `sheet`
at `(row, col)`: `set_value` for a number, `set_bool` for a boolean,
`set_string` with the identifier `add` returns for a string, none for null. -/
def typed_call (fact : import_factory) (sheet : Nat) (row col : Int) :
    json_value → List sheet_call
  | .numeric v => [sheet_call.set_value sheet row col v]
  | .boolean b => [sheet_call.set_bool sheet row col b]
  | .string p => [sheet_call.set_string sheet row col (fact.add p)]
  | .null => []

/-- The cell a linked node of the map tree stands for in handler state `h`:
the cell of a single-cell link, or for a field of a range the origin moved
by the row position of the range and the column of the field. -/
def linked_cell (h : json_content_handler) (cur : json_node) : Option cell_position :=
  match cur.type with
  | .cell_ref => some cur.cell_ref.pos
  | .range_field_ref =>
    some { sheet := (h.ranges cur.range_field_ref.ref).pos.sheet,
           row := (h.ranges cur.range_field_ref.ref).pos.row +
             (h.ranges cur.range_field_ref.ref).row_position,
           col := (h.ranges cur.range_field_ref.ref).pos.col + cur.range_field_ref.column_pos }
  | _ => none

/-- The double `42.0`. -/
def double_42 : double := { bits := 0x4045000000000000 }

/-- The map of scenario S1: `/a/b` linked to the cell `(S, 0, 0)`. -/
def s1_map : json_map_node :=
  .mk { type := map_node_type.object, cell_ref := { pos := { sheet := [], row := 0, col := 0 } },
        range_field_ref := { ref := 0, column_pos := 0 }, row_group := none } none
    [("a".toList,
      .mk { type := map_node_type.object,
            cell_ref := { pos := { sheet := [], row := 0, col := 0 } },
            range_field_ref := { ref := 0, column_pos := 0 }, row_group := none } none
        [("b".toList,
          .mk { type := map_node_type.cell_ref,
                cell_ref := { pos := { sheet := "S".toList, row := 0, col := 0 } },
                range_field_ref := { ref := 0, column_pos := 0 }, row_group := none }
            none [])])]

/-- The events of the tokenizer for the input of scenario S1: an object with
the key `a`, whose value is an object with the key `b`, whose value is 42. -/
def s1_events : List json_event :=
  [json_event.begin_object, json_event.object_key "a".toList false,
   json_event.begin_object, json_event.object_key "b".toList false,
   json_event.number double_42, json_event.end_object, json_event.end_object]

/-- Walker and handler at the start of `read_stream` in scenario S1. -/
def s1_start : json_walker_state × json_content_handler :=
  ({ root := some s1_map, stack := [], key := [] },
   { mp_current_node := none, mp_increment_row := none,
     ranges := fun _ => { pos := { sheet := [], row := 0, col := 0 }, row_position := 0 },
     sink := [] })

/-- The calls on import sheets made by `read_stream` on the given events,
`none` when an exception ends it. -/
def json_sink_after (fact : import_factory)
    (st : json_walker_state × json_content_handler) (events : List json_event) :
    Option (List sheet_call) :=
  match json_handle_events fact json_map_walker st events with
  | .ok st1 => some st1.2.sink
  | .error _ => none

/-! ## `orcus_json.cpp`: `orcus_json::read_map_definition` -/

/-- Modelled from the spec: a node of the document `json::document_tree`
loads (`json::const_node`, whose header is absent). An object is held as
its members in the order a lookup searches them. -/
inductive json_doc where
  | null
  | boolean (b : Bool)
  | number (v : double)
  | string (s : pstring)
  | array (items : List json_doc)
  | object (members : List (pstring × json_doc))

/-- What `read_map_definition` throws: its own `json_structure_error`, or
the `document_error` of an accessor of the document tree. -/
inductive map_definition_error where
  | json_structure_error
  | document_error
  deriving DecidableEq, Repr

/-- Modelled from the spec: `const_node::has_key(key)`; false on a node that
is not an object. -/
def json_doc.has_key (n : json_doc) (key : pstring) : Bool :=
  match n with
  | .object members => members.any (fun kv => kv.1 == key)
  | _ => false

/-- Modelled from the spec: `const_node::child(key)`; an error on a node
that is not an object or has no such key. -/
def json_doc.child (n : json_doc) (key : pstring) : Except map_definition_error json_doc :=
  match n with
  | .object members =>
    match members.find? (fun kv => kv.1 == key) with
    | some kv => .ok kv.2
    | none => .error .document_error
  | _ => .error .document_error

/-- Modelled from the spec: the children a range-based `for` over a
`const_node` visits; an error on a node that is not an array. -/
def json_doc.children (n : json_doc) : Except map_definition_error (List json_doc) :=
  match n with
  | .array items => .ok items
  | _ => .error .document_error

/-- Modelled from the spec: `const_node::string_value()`; an error on a
node that is not a string. -/
def json_doc.string_value (n : json_doc) : Except map_definition_error pstring :=
  match n with
  | .string s => .ok s
  | _ => .error .document_error

/-- Modelled from the spec: `const_node::numeric_value()`; an error on a
node that is not a number. -/
def json_doc.numeric_value (n : json_doc) : Except map_definition_error double :=
  match n with
  | .number v => .ok v
  | _ => .error .document_error

/-- A call `read_map_definition` makes on the import factory
(`append_sheet`) or on the map tree (the others). -/
inductive map_call where
  | append_sheet (index : Nat) (name : pstring)
  | set_cell_link (path sheet : pstring) (row col : Int)
  | start_range (sheet : pstring) (row col : Int)
  | append_field_link (path : pstring)
  | set_range_row_group (path : pstring)
  | commit_range
  deriving DecidableEq, Repr

/-- The part of `orcus_json::impl` that `read_map_definition` changes: the
sheet count, and the calls made so far on the import factory and on the map
tree (whose source is absent; its calls are taken to return). -/
structure orcus_json_impl where
  sheet_count : Nat
  calls : List map_call
  deriving DecidableEq, Repr

/-- `orcus_json::append_sheet(name)`. -/
def orcus_json_impl.append_sheet (s : orcus_json_impl) (name : pstring) : orcus_json_impl :=
  if name.isEmpty then s
  else { sheet_count := s.sheet_count + 1,
         calls := s.calls ++ [map_call.append_sheet s.sheet_count name] }

/-- A call on the map tree. -/
def orcus_json_impl.call (s : orcus_json_impl) (c : map_call) : orcus_json_impl :=
  { s with calls := s.calls ++ [c] }

/-- The loop `for (node_name : root.child("sheets")) append_sheet(...)`:
the state reached and the exception that ended the loop, if any. -/
def append_sheets : orcus_json_impl → List json_doc → orcus_json_impl × Option map_definition_error
  | s, [] => (s, none)
  | s, node_name :: rest =>
    match node_name.string_value with
    | .error e => (s, some e)
    | .ok name => append_sheets (s.append_sheet name) rest

/-- The body of the loop over `root.child("cells")`; `to_int` is the
conversion of a `double` to `row_t` and `col_t`. -/
def set_cell_link_of (to_int : double → Int) (s : orcus_json_impl) (link_node : json_doc) :
    orcus_json_impl × Option map_definition_error :=
  match (do
      let path ← (← link_node.child "path".toList).string_value
      let sheet ← (← link_node.child "sheet".toList).string_value
      let row ← (← link_node.child "row".toList).numeric_value
      let col ← (← link_node.child "column".toList).numeric_value
      pure (map_call.set_cell_link path sheet (to_int row) (to_int col))) with
  | .error e => (s, some e)
  | .ok c => (s.call c, none)

/-- The loop over `root.child("cells")`. -/
def set_cell_links (to_int : double → Int) :
    orcus_json_impl → List json_doc → orcus_json_impl × Option map_definition_error
  | s, [] => (s, none)
  | s, link_node :: rest =>
    match set_cell_link_of to_int s link_node with
    | (s1, some e) => (s1, some e)
    | (s1, none) => set_cell_links to_int s1 rest

/-- A loop over nodes that each give a `path` to one call on the map tree
(`append_field_link` or `set_range_row_group`). -/
def path_calls (mk : pstring → map_call) :
    orcus_json_impl → List json_doc → orcus_json_impl × Option map_definition_error
  | s, [] => (s, none)
  | s, node :: rest =>
    match (do (← node.child "path".toList).string_value) with
    | .error e => (s, some e)
    | .ok path => path_calls mk (s.call (mk path)) rest

/-- The body of the loop over `root.child("ranges")`. -/
def set_range_link_of (to_int : double → Int) (s : orcus_json_impl) (link_node : json_doc) :
    orcus_json_impl × Option map_definition_error :=
  match (do
      let sheet ← (← link_node.child "sheet".toList).string_value
      let row ← (← link_node.child "row".toList).numeric_value
      let col ← (← link_node.child "column".toList).numeric_value
      pure (map_call.start_range sheet (to_int row) (to_int col))) with
  | .error e => (s, some e)
  | .ok c =>
    match (do (← link_node.child "fields".toList).children) with
    | .error e => (s.call c, some e)
    | .ok fields =>
      match path_calls map_call.append_field_link (s.call c) fields with
      | (s1, some e) => (s1, some e)
      | (s1, none) =>
        match (do (← link_node.child "row-groups".toList).children) with
        | .error e => (s1, some e)
        | .ok row_groups =>
          match path_calls map_call.set_range_row_group s1 row_groups with
          | (s2, some e) => (s2, some e)
          | (s2, none) => (s2.call map_call.commit_range, none)

/-- The loop over `root.child("ranges")`. -/
def set_range_links (to_int : double → Int) :
    orcus_json_impl → List json_doc → orcus_json_impl × Option map_definition_error
  | s, [] => (s, none)
  | s, link_node :: rest =>
    match set_range_link_of to_int s link_node with
    | (s1, some e) => (s1, some e)
    | (s1, none) => set_range_links to_int s1 rest

/-- The part of `read_map_definition` after the sheets: the cell links and
the range links. -/
def read_links (to_int : double → Int) (root : json_doc) (s : orcus_json_impl) :
    orcus_json_impl × Option map_definition_error :=
  let after_cells : orcus_json_impl × Option map_definition_error :=
    if root.has_key "cells".toList then
      -- Set cell links.
      match (do (← root.child "cells".toList).children) with
      | .error e => (s, some e)
      | .ok cells => set_cell_links to_int s cells
    else (s, none)
  match after_cells with
  | (s1, some e) => (s1, some e)
  | (s1, none) =>
    if root.has_key "ranges".toList then
      -- Set range links.
      match (do (← root.child "ranges".toList).children) with
      | .error e => (s1, some e)
      | .ok ranges => set_range_links to_int s1 ranges
    else (s1, none)

/-- `orcus_json::read_map_definition(p, n)`; `root` is the root of the
document `map_doc.load(p, n, jc)` built. The result is the state reached and
the exception thrown, if any. -/
def read_map_definition (to_int : double → Int) (root : json_doc) (s : orcus_json_impl) :
    orcus_json_impl × Option map_definition_error :=
  -- Create sheets first.
  if !root.has_key "sheets".toList then (s, some .json_structure_error)
  else
    match (do (← root.child "sheets".toList).children) with
    | .error e => (s, some e)
    | .ok sheets =>
      match append_sheets s sheets with
      | (s1, some e) => (s1, some e)
      | (s1, none) => read_links to_int root s1

/-! ## Specification: the map definition -/

/-- The three top-level keys of a map definition. -/
def is_map_key (key : pstring) : Bool :=
  key == "sheets".toList || key == "cells".toList || key == "ranges".toList

/-- A document without its top-level members under other keys. -/
def without_other_keys : json_doc → json_doc
  | .object members => .object (members.filter (fun kv => is_map_key kv.1))
  | n => n

/-- Whether a call appends a sheet. -/
def map_call.is_append_sheet : map_call → Bool
  | .append_sheet _ _ => true
  | _ => false

/-- The sheets appended for the names given, counting from `index`: one
call per name that is not empty. -/
def sheet_calls : Nat → List pstring → List map_call
  | _, [] => []
  | index, name :: rest =>
    if name.isEmpty then sheet_calls index rest
    else map_call.append_sheet index name :: sheet_calls (index + 1) rest

/-- The calls made after the sheets are calls on the map tree. -/
def links_only (s s1 : orcus_json_impl) : Prop :=
  ∃ b, s1.calls = s.calls ++ b ∧ ∀ c ∈ b, c.is_append_sheet = false

/-- A conversion of a `double` to a row or a column that takes the double
`0.0` to 0. -/
def to_int_zero (d : double) : Int := if d.bits = 0 then 0 else 1

/-- The map definition of scenario S1, with a further key `comment`: the
cell link of `/a/b` to `(S, 0, 0)` and the sheet `S`. -/
def s1_definition : json_doc :=
  json_doc.object
    [("comment".toList, json_doc.string "scenario S1".toList),
     ("cells".toList, json_doc.array
        [json_doc.object
          [("path".toList, json_doc.string "/a/b".toList),
           ("sheet".toList, json_doc.string "S".toList),
           ("row".toList, json_doc.number { bits := 0 }),
           ("column".toList, json_doc.number { bits := 0 })]]),
     ("sheets".toList, json_doc.array [json_doc.string "S".toList])]

/-! ## Specification: what the content parse records -/

/-- The events of well-nested elements: every `start_element` has its
`end_element`, with attributes and character data anywhere between. -/
inductive balanced : List sax_event → Prop where
  | nil : balanced []
  | attr (a : sax_ns_parser_attribute) (rest : List sax_event) :
      balanced rest → balanced (sax_event.attribute a :: rest)
  | chars (val : pstring) (transient : Bool) (rest : List sax_event) :
      balanced rest → balanced (sax_event.characters val transient :: rest)
  | elem (o c : sax_ns_parser_element) (inner rest : List sax_event) :
      balanced inner → balanced rest →
      balanced (sax_event.start_element o :: (inner ++ sax_event.end_element c :: rest))

/-- A subtree of the map tree without a single-cell element and without a
range parent: what lies below the parent of a range. -/
def range_inner : element → Bool
  | ⟨_, _, _, _, _, ref_type, children, _, _, _, _, range_parent, _⟩ =>
    ref_type != reference_type.reference_cell && range_parent.isNone && all_inner children
where
  /-- Every subtree of a forest is without single-cell element and range
  parent. -/
  all_inner : List element → Bool
    | [] => true
    | c :: cs => range_inner c && all_inner cs

/-- An element of the map tree below which the content parse finds no
further link to record: a single-cell element, which has no children in the
map tree, or the parent of a range whose subtree holds no single-cell
element and no further range parent. -/
def subtree_closed (A : element) : Prop :=
  (A.ref_type = reference_type.reference_cell ∧ A.child_elements = []) ∨
  (A.range_parent.isSome = true ∧ range_inner.all_inner A.child_elements = true)

/-- The recorded links, their positions, the open scopes, the range flag and
the current element are the same in both handler states. -/
def positions_kept (h h1 : xml_data_sax_handler) : Prop :=
  h1.m_link_positions = h.m_link_positions ∧ h1.node_stream_pos = h.node_stream_pos ∧
  h1.m_scopes = h.m_scopes ∧ h1.m_in_range_ref = h.m_in_range_ref ∧
  h1.mp_current_elem = h.mp_current_elem

/-- The map tree of the nested scenario: under `r` the attribute anchor `a`
with `@x` linked to `(S, 1, 0)`, and under `a` the element `b` linked to
`(S, 2, 0)`. -/
def nested_root : element :=
  unlinked_element 1 "r".toList
    [anchor_element
      [cell_element 4 "b".toList { sheet := "S".toList, row := 2, col := 0 }
        { open_begin := 0, open_end := 0, close_begin := 0, close_end := 0 }]
      { open_begin := 0, open_end := 0, close_begin := 0, close_end := 0 }]
    [] none none

/-- The input `<r><a x="1"> <b>t</b></a></r>`. -/
def nested_input : pstring := "<r><a x=\"1\"> <b>t</b></a></r>".toList

/-- The events of the tokenizer for `nested_input`. -/
def nested_events : List sax_event :=
  [sax_event.start_element (tag "r".toList 0 3),
   sax_event.attribute { ns := none, ns_alias := [], name := "x".toList, value := "1".toList,
                         transient := false },
   sax_event.start_element (tag "a".toList 3 12),
   sax_event.characters " ".toList false,
   sax_event.start_element (tag "b".toList 13 16),
   sax_event.characters "t".toList false,
   sax_event.end_element (tag "b".toList 17 21),
   sax_event.end_element (tag "a".toList 21 25),
   sax_event.end_element (tag "r".toList 25 29)]

/-- Walker and handler at the start of the content parse of `nested_input`. -/
def nested_start : walker_state × xml_data_sax_handler :=
  ({ root := some nested_root, stack := [] }, s3_world)

/-- Walker and handler at the end of the content parse of `nested_input`. -/
def nested_end : walker_state × xml_data_sax_handler :=
  returned (handle_events false s3_fact map_tree_walker nested_start nested_events) nested_start

/-- The link-position list after the content parse of `nested_input`, each
element with the span recorded for it. -/
def nested_links : List element :=
  nested_end.2.m_link_positions.map
    (fun e => { e with stream_pos := nested_end.2.node_stream_pos e.addr })

/-! ## Numeric parser: an exponent marker without an exponent -/

/-- The text begins with an exponent body: an optional sign `+` or `-`
followed by at least one decimal digit. -/
def begins_exponent : pstring → Bool
  | [] => false
  | c :: rest =>
    if c == '+' || c == '-' then
      match rest with
      | [] => false
      | d :: _ => is_digit_of 10 d
    else is_digit_of 10 c

/-! ## `css_parser_base.cpp` -/

/-- Modelled from the spec: `is_numeric` of `parser_global`, whose source is
not part of the repository files at hand: the decimal digits `0` to `9`. -/
def is_numeric (c : Char) : Bool :=
  decide (48 ≤ c.toNat) && decide (c.toNat ≤ 57)

/-- The number of values of a `size_t` and of a pointer: `2^64`. -/
def size_range : Nat := 18446744073709551616

/-- What a function of `css::parser_base` can end with other than a normal
return: `css::parse_error`, a read outside the bytes `[p, p + n)` given to
the constructor, or a loop of the embedding cut short. -/
inductive css.failure where
  | parse_error
  | undefined_behaviour
  | out_of_fuel
  deriving DecidableEq

/-- The members `mp_char`, `m_pos` and `m_length` of `css::parser_base`,
with the memory they refer to: `stream` holds the bytes `[p, p + n)` given
to the constructor and `start` is the address `p`. Pointers are addresses,
taken modulo `2^64` like the values of `size_t`. -/
structure css.parser_base where
  stream : pstring
  start : Nat
  mp_char : Nat
  m_pos : Nat
  m_length : Nat
  deriving DecidableEq

/-- The constructor `parser_base(const char* p, size_t n)`. -/
def css.parser_base.create (start : Nat) (s : pstring) : css.parser_base :=
  { stream := s, start := start, mp_char := start, m_pos := 0, m_length := s.length }

/-- The read `*q` of the byte at address `q`: defined inside the bytes
`[p, p + n)` only. -/
def css.parser_base.read (p : css.parser_base) (q : Nat) : Except css.failure Char :=
  if p.start ≤ q ∧ q < p.start + p.stream.length then .ok (p.stream.getD (q - p.start) NUL)
  else .error .undefined_behaviour

/-- `css::parser_base::next()`. -/
def css.parser_base.next (p : css.parser_base) : css.parser_base :=
  { p with m_pos := (p.m_pos + 1) % size_range, mp_char := (p.mp_char + 1) % size_range }

/-- `css::parser_base::cur_char()`. -/
def css.parser_base.cur_char (p : css.parser_base) : Except css.failure Char :=
  p.read p.mp_char

/-- `css::parser_base::remaining_size()`: `m_length - m_pos - 1` in the
arithmetic of `size_t`. -/
def css.parser_base.remaining_size (p : css.parser_base) : Nat :=
  (p.m_length + (size_range - 1 - p.m_pos % size_range)) % size_range

/-- `css::parser_base::has_char()`. -/
def css.parser_base.has_char (p : css.parser_base) : Bool :=
  decide (p.m_pos < p.m_length)

/-- The `for` loop of `parse_uint8`: the parser, `val` and `len` at the end
of the loop. `val`, an `int`, stays below `10^4` and does not overflow. -/
def css.parse_uint8_loop :
    Nat → css.parser_base → Nat → Nat → Except css.failure (css.parser_base × Nat × Nat)
  | 0, _, _, _ => .error .out_of_fuel
  | fuel + 1, p, val, len =>
    if p.has_char && decide (len ≤ 3) then
      match p.cur_char with
      | .error e => .error e
      | .ok c =>
        if !is_numeric c then .ok (p, val, len)
        else css.parse_uint8_loop fuel p.next (val * 10 + (c.toNat - 48)) ((len + 1) % size_range)
    else .ok (p, val, len)

/-- `css::parser_base::parse_uint8()`: the parser after the call and the
value returned. The loop runs while `len <= 3`, five tests of the condition
at most. -/
def css.parser_base.parse_uint8 (p : css.parser_base) : Except css.failure (css.parser_base × Nat) :=
  match css.parse_uint8_loop 5 p 0 0 with
  | .error e => .error e
  | .ok (p1, val, len) =>
    if len == 0 then .error .parse_error
    else
      let maxval := 255
      let val1 := if val > maxval then maxval else val
      .ok (p1, val1 % 256)

/-- The `for` loop of `skip_blanks`. -/
def css.skip_blanks_loop : Nat → css.parser_base → Except css.failure css.parser_base
  | 0, _ => .error .out_of_fuel
  | fuel + 1, p =>
    if p.has_char then
      match p.read p.mp_char with
      | .error e => .error e
      | .ok c => if !is_blank c then .ok p else css.skip_blanks_loop fuel p.next
    else .ok p

/-- `css::parser_base::skip_blanks()`: every turn of the loop moves `m_pos`
one step towards `m_length`. -/
def css.parser_base.skip_blanks (p : css.parser_base) : Except css.failure css.parser_base :=
  css.skip_blanks_loop (p.m_length - p.m_pos + 1) p

/-- The `for` loop of `skip_blanks_reverse`, `q` being the local pointer `p`. -/
def css.skip_blanks_reverse_loop :
    Nat → css.parser_base → Nat → Except css.failure css.parser_base
  | 0, _, _ => .error .out_of_fuel
  | fuel + 1, p, q =>
    if q != p.mp_char then
      match p.read q with
      | .error e => .error e
      | .ok c =>
        if !is_blank c then .ok p
        else css.skip_blanks_reverse_loop fuel
          { p with m_length := (p.m_length + (size_range - 1)) % size_range }
          ((q + (size_range - 1)) % size_range)
    else .ok p

/-- `css::parser_base::skip_blanks_reverse()`: every turn of the loop reads
a byte at an address one below the last, so the loop ends after one turn
more than there are bytes that may be read. -/
def css.parser_base.skip_blanks_reverse (p : css.parser_base) :
    Except css.failure css.parser_base :=
  css.skip_blanks_reverse_loop (p.stream.length + 2) p
    ((p.mp_char + p.remaining_size) % size_range)

/-- The loop of `shrink_stream` over `com_open`: whether all of it matched,
with the parser and the local pointer `p` at that point. -/
def css.com_open_loop :
    pstring → css.parser_base → Nat → Except css.failure (Bool × css.parser_base × Nat)
  | [], p, q => .ok (true, p, q)
  | ch :: more, p, q =>
    match p.read q with
    | .error e => .error e
    | .ok c =>
      if c != ch then .ok (false, p, q)
      else css.com_open_loop more p.next ((q + 1) % size_range)

/-- The loop of `shrink_stream` over `com_close`, from its last byte to its
first: whether all of it matched. The argument is `com_close` reversed. -/
def css.com_close_loop : pstring → css.parser_base → Nat → Except css.failure Bool
  | [], _, _ => .ok true
  | ch :: more, p, q =>
    match p.read q with
    | .error e => .error e
    | .ok c =>
      if c != ch then .ok false
      else css.com_close_loop more p ((q + (size_range - 1)) % size_range)

/-- `css::parser_base::shrink_stream()`. -/
def css.parser_base.shrink_stream (p : css.parser_base) : Except css.failure css.parser_base :=
  match p.skip_blanks with
  | .error e => .error e
  | .ok p1 =>
    if p1.remaining_size == 0 then .ok p1
    else
      match p1.skip_blanks_reverse with
      | .error e => .error e
      | .ok p2 =>
        let com_open : pstring := ['<', '!', '-', '-']
        if p2.remaining_size < com_open.length then .ok p2
        else
          match css.com_open_loop com_open p2 p2.mp_char with
          | .error e => .error e
          | .ok (false, p3, _) => .ok p3
          | .ok (true, p3, q) =>
            match css.parser_base.skip_blanks { p3 with mp_char := q } with
            | .error e => .error e
            | .ok p4 =>
              let com_close : pstring := ['-', '-', '>']
              let n := p4.remaining_size
              if n < com_close.length then .ok p4
              else
                match css.com_close_loop com_close.reverse p4 ((p4.mp_char + n) % size_range) with
                | .error e => .error e
                | .ok false => .ok p4
                | .ok true =>
                  css.parser_base.skip_blanks_reverse
                    { p4 with
                      m_length := (p4.m_length + (size_range - com_close.length)) % size_range }

/-- The parser of a stream at address `start` that has read the bytes `pre`
and has the bytes `txt` from the cursor on. -/
def css.parser_base.positioned (start : Nat) (pre txt : pstring) : css.parser_base :=
  { stream := pre ++ txt, start := start, mp_char := start + pre.length, m_pos := pre.length,
    m_length := (pre ++ txt).length }

/-! ## `sax_parser_base.cpp`: names -/

/-- Modelled from the spec: `is_alpha` of `parser_global`, whose source is
not part of the repository files at hand: the letters `a` to `z` and `A` to
`Z`. -/
def is_alpha (c : Char) : Bool :=
  (decide (97 ≤ c.toNat) && decide (c.toNat ≤ 122)) ||
    (decide (65 ≤ c.toNat) && decide (c.toNat ≤ 90))

/-- Modelled from the spec: `is_name_char` of `parser_global`, whose source
is not part of the repository files at hand: the hyphen and the underscore. -/
def is_name_char (c : Char) : Bool :=
  c == '-' || c == '_'

/-- Modelled from the spec: `available_size()` of `sax_parser_base.hpp`, a
header that is not among the files at hand: the number of bytes from the
cursor to the end of the stream. -/
def parser_base.available_size (p : parser_base) : Nat := p.remaining.length

/-- The statement `mp_char += r` for an `r` that stays within the stream. -/
def parser_base.advance (p : parser_base) (r : Nat) : parser_base :=
  { consumed := p.consumed ++ p.remaining.take r, remaining := p.remaining.drop r }

/-- The pairs `(lower, upper)` held by the first `la` bytes of the operand
`a` of a range comparison. -/
def range_pairs : pstring → Nat → List (Char × Char)
  | lo :: hi :: more, la + 2 => (lo, hi) :: range_pairs more la
  | _, _ => []

/-- Bit `i` of the intermediate result of `_mm_cmpestri(a, la, b, lb, mode)`
under `_SIDD_CMP_RANGES | _SIDD_UBYTE_OPS | _SIDD_NEGATIVE_POLARITY`: byte
`i` of `b` is compared as an unsigned byte with every range of `a`, a byte
at or after the length `lb` matches nothing, and every bit is negated. -/
def cmpestri_bit (a : pstring) (la : Nat) (b : pstring) (lb : Nat) (i : Nat) : Bool :=
  !(decide (i < lb) &&
    (range_pairs a la).any
      (fun r => decide (r.1.toNat ≤ (b.getD i NUL).toNat) &&
        decide ((b.getD i NUL).toNat ≤ r.2.toNat)))

/-- The index of the least significant set bit among the bits `i` to
`i + k - 1`, and `i + k` when none is set (`_SIDD_LEAST_SIGNIFICANT`). -/
def least_significant_index (bits : Nat → Bool) : Nat → Nat → Nat
  | i, 0 => i
  | i, k + 1 => if bits i then i else least_significant_index bits (i + 1) k

/-- The call `_mm_cmpestri(a, la, b, lb, mode)` with the mode of `name`, on
the sixteen bytes of each operand: the index of the first byte of `b` that
lies in no range of `a` or at or after the length `lb`, and 16 when there is
none. -/
def cmpestri (a : pstring) (la : Nat) (b : pstring) (lb : Nat) : Nat :=
  least_significant_index (cmpestri_bit a la b lb) 0 16

/-- The `while (n_total)` loop of `name` compiled for SSE4.2. The block of
sixteen bytes is loaded at `mp_char` whatever is left of the stream, so it
runs into the memory after the stream, `beyond`. `n_total -= 16` is only
reached after sixteen bytes of the stream have matched, so it does not wrap
around. -/
def name_vector_loop (beyond : pstring) : Nat → parser_base → Nat → Except failure parser_base
  | 0, _, _ => .error .out_of_fuel
  | fuel + 1, p, n_total =>
    if n_total != 0 then
      let char_block := (p.remaining ++ beyond).take 16
      let n := min 16 n_total
      let r := cmpestri "azAZ09--__".toList 10 char_block n
      let p1 := p.advance r
      if r < 16 then .ok p1
      else name_vector_loop beyond fuel p1 (n_total - 16)
    else .ok p

/-- The `while` loop of `name` compiled without SSE4.2. -/
def name_scalar_loop : Nat → parser_base → Char → Except failure parser_base
  | 0, _, _ => .error .out_of_fuel
  | fuel + 1, p, c =>
    if is_alpha c || is_numeric c || is_name_char c then
      match p.next_char_checked with
      | .error e => .error e
      | .ok (p1, c1) => name_scalar_loop fuel p1 c1
    else .ok p

/-- `parser_base::name(pstring& str)`: the cursor after the call and `str`.
`sse42` tells which of the two bodies the preprocessor keeps. The vector loop
takes sixteen bytes in a turn and the scalar loop one. -/
def parser_base.name (sse42 : Bool) (beyond : pstring) (p : parser_base) :
    Except failure (parser_base × view) :=
  let p0 := p.offset
  let c := p.cur_char
  if !is_alpha c && c != '_' then .error .malformed_xml_error
  else
    let scanned :=
      if sse42 then name_vector_loop beyond (p.available_size / 16 + 2) p p.available_size
      else name_scalar_loop (p.remaining.length + 1) p c
    match scanned with
    | .error e => .error e
    | .ok p1 => .ok (p1, view.stream p0 (p1.offset - p0))

/-- A byte of a name: a letter, a digit, the hyphen or the underscore. -/
def is_name_byte (c : Char) : Bool :=
  is_alpha c || is_numeric c || is_name_char c

/-- Whether a run of name bytes may start a name: its first byte is a letter
or the underscore. -/
def starts_name : pstring → Bool
  | [] => false
  | c :: _ => is_alpha c || c == '_'

/-! ## Adjacent recorded elements, as concrete inputs -/

/-- The map tree of the adjacent scenario: under `r` the element `a` linked
to `(S, 1, 0)` and the element `b` linked to `(S, 2, 0)`. -/
def adjacent_root : element :=
  unlinked_element 1 "r".toList
    [cell_element 2 "a".toList { sheet := "S".toList, row := 1, col := 0 }
       { open_begin := 0, open_end := 0, close_begin := 0, close_end := 0 },
     cell_element 3 "b".toList { sheet := "S".toList, row := 2, col := 0 }
       { open_begin := 0, open_end := 0, close_begin := 0, close_end := 0 }]
    [] none none

/-- The input `<r><a>1</a><b>2</b></r>`: nothing stands between the closing
tag of `a` and the opening tag of `b`. -/
def adjacent_input : pstring := "<r><a>1</a><b>2</b></r>".toList

/-- The events of the tokenizer for `adjacent_input`. -/
def adjacent_events : List sax_event :=
  [sax_event.start_element (tag "r".toList 0 3),
   sax_event.start_element (tag "a".toList 3 6),
   sax_event.characters "1".toList false,
   sax_event.end_element (tag "a".toList 7 11),
   sax_event.start_element (tag "b".toList 11 14),
   sax_event.characters "2".toList false,
   sax_event.end_element (tag "b".toList 15 19),
   sax_event.end_element (tag "r".toList 19 23)]

/-- Walker and handler at the end of the content parse of `adjacent_input`. -/
def adjacent_end : walker_state × xml_data_sax_handler :=
  returned (handle_events false s3_fact map_tree_walker
    ({ root := some adjacent_root, stack := [] }, s3_world) adjacent_events)
    ({ root := some adjacent_root, stack := [] }, s3_world)

/-- The link-position list after the content parse of `adjacent_input`, each
element with the span recorded for it. -/
def adjacent_links : List element :=
  adjacent_end.2.m_link_positions.map
    (fun e => { e with stream_pos := adjacent_end.2.node_stream_pos e.addr })

/-- The input `<v>1</v>`, whose root element starts the stream. -/
def root_input : pstring := "<v>1</v>".toList

/-- The root `v` of `root_input`, linked to the cell `(S, 1, 0)`, as the
content parse records it. -/
def root_link : element :=
  cell_element 1 "v".toList { sheet := "S".toList, row := 1, col := 0 }
    { open_begin := 0, open_end := 3, close_begin := 4, close_end := 8 }

/-! ## Two ranges whose rows alternate, as concrete inputs -/

/-- The input `<r><p><a x="1"/></p><q><b y="2"/></q><p><a x="3"/></p></r>`:
the row-group element `a` of range 0 occurs twice, the row-group element `b`
of range 1 once, between the two. -/
def interleaved_input : pstring :=
  "<r><p><a x=\"1\"/></p><q><b y=\"2\"/></q><p><a x=\"3\"/></p></r>".toList

/-- The events of the tokenizer for `interleaved_input`. -/
def interleaved_events : List sax_event :=
  [sax_event.start_element (tag "r".toList 0 3),
   sax_event.start_element (tag "p".toList 3 6),
   sax_event.attribute { ns := none, ns_alias := [], name := "x".toList, value := "1".toList,
                         transient := false },
   sax_event.start_element (tag "a".toList 6 16),
   sax_event.end_element (tag "a".toList 6 16),
   sax_event.end_element (tag "p".toList 16 20),
   sax_event.start_element (tag "q".toList 20 23),
   sax_event.attribute { ns := none, ns_alias := [], name := "y".toList, value := "2".toList,
                         transient := false },
   sax_event.start_element (tag "b".toList 23 33),
   sax_event.end_element (tag "b".toList 23 33),
   sax_event.end_element (tag "q".toList 33 37),
   sax_event.start_element (tag "p".toList 37 40),
   sax_event.attribute { ns := none, ns_alias := [], name := "x".toList, value := "3".toList,
                         transient := false },
   sax_event.start_element (tag "a".toList 40 50),
   sax_event.end_element (tag "a".toList 40 50),
   sax_event.end_element (tag "p".toList 50 54),
   sax_event.end_element (tag "r".toList 54 58)]

/-- The memory after `read_impl` on `interleaved_input`. -/
def interleaved_result : xml_data_sax_handler :=
  returned (read_impl false s3_fact (fun _ => [])
    [({ sheet := "S".toList, row := 0, col := 0 }, 0),
     ({ sheet := "S".toList, row := 0, col := 5 }, 1)] map_tree_walker
    { root := some two_ranges_root, stack := [] } two_ranges_world interleaved_input
    interleaved_events) two_ranges_world

/-- The range parent `p` of range 0 in the map tree of the two ranges. -/
def interleaved_parent : element :=
  unlinked_element 2 "p".toList
    [unlinked_element 3 "a".toList []
       [field_attribute 4 "x".toList 0 0, field_attribute 5 "z".toList 0 1] none (some 0)]
    [] (some 0) none

/-! ## `json_document_tree.cpp`: `dump_string_xml` -/

/-- `dump_string_xml(os, s)`: the bytes written to `os`. -/
def dump_string_xml : pstring → pstring
  | [] => []
  | c :: rest =>
    (if c == QUOT then "&quot;".toList
     else if c == '<' then "&lt;".toList
     else if c == '>' then "&gt;".toList
     else if c == '&' then "&amp;".toList
     else if c == APOS then "&apos;".toList
     else [c]) ++ dump_string_xml rest

/-- The predefined entity that stands for a byte, for the five bytes that
have one. -/
def predefined_entity (c : Char) : Option char_reference :=
  if c == QUOT then some .quot
  else if c == '<' then some .lt
  else if c == '>' then some .gt
  else if c == '&' then some .amp
  else if c == APOS then some .apos
  else none

/-- A byte string cut at the bytes that have a predefined entity: the plain
text before the first of them, then each with the plain text after it. -/
def entity_segments : pstring → pstring × List (char_reference × pstring)
  | [] => ([], [])
  | c :: rest =>
    match predefined_entity c with
    | some e => ([], (e, (entity_segments rest).1) :: (entity_segments rest).2)
    | none => (c :: (entity_segments rest).1, (entity_segments rest).2)

/-! ## `json_document_tree.cpp`: the document tree, its handler and its dump -/

/-- `json_value_type` of `json_document_tree.cpp`. -/
inductive json_document_tree.json_value_type where
  | unset
  | string
  | number
  | object
  | array
  | boolean_true
  | boolean_false
  | null
  deriving DecidableEq, Repr

/-- A `json_value` of `json_document_tree.cpp` or an object of one of its
derived classes, with the members of all of them: `value_string` of
`json_value_string`, `value_number` of `json_value_number`, `value_array` of
`json_value_array`, `key_order` and `value_object` of `json_value_object`.
The values held through `unique_ptr` are addresses in the store of the tree.
The `unordered_map` is the list of its entries, no key twice; the order of
iteration, which C++ leaves open, is the order of insertion here. -/
structure json_document_tree.json_value where
  type : json_document_tree.json_value_type
  value_string : pstring
  value_number : double
  value_array : List Nat
  key_order : List pstring
  value_object : List (pstring × Nat)
  deriving DecidableEq, Repr

/-- The constructor `json_value(_type)` and the default constructors of the
derived classes. -/
def json_document_tree.json_value.create (type : json_document_tree.json_value_type) :
    json_document_tree.json_value :=
  { type := type, value_string := [], value_number := { bits := 0 }, value_array := [],
    key_order := [], value_object := [] }

/-- `parser_stack`: the constructor leaves `key` empty. -/
structure json_document_tree.parser_stack where
  key : pstring
  node : Nat
  deriving DecidableEq, Repr

/-- `parser_handler`, with the store of the values allocated so far: the
value at address `a` is `store[a]`. `preserve_object_order` is the member of
`m_config`; the head of `m_stack` is `m_stack.back()`. -/
structure json_document_tree.parser_handler where
  preserve_object_order : Bool
  store : List json_document_tree.json_value
  m_root : Option Nat
  m_stack : List json_document_tree.parser_stack
  deriving DecidableEq, Repr

/-- The handler a `load` starts with. -/
def json_document_tree.parser_handler.create (preserve_object_order : Bool) :
    json_document_tree.parser_handler :=
  { preserve_object_order := preserve_object_order, store := [], m_root := none, m_stack := [] }

/-- `parser_handler::push_value(value)`: the handler and the pointer
returned. A value that `insert` does not take, because the key is in the map
already, is destroyed; the pointer returned is then the value in the map. -/
def json_document_tree.parser_handler.push_value (ndebug : Bool)
    (h : json_document_tree.parser_handler) (value : json_document_tree.json_value) :
    Except failure (json_document_tree.parser_handler × Nat) := do
  cassert ndebug (!h.m_stack.isEmpty)
  match h.m_stack with
  | [] => .error .undefined_behaviour
  | cur :: _ =>
    match h.store.get? cur.node with
    | none => .error .undefined_behaviour
    | some node =>
      match node.type with
      | .array =>
        let jva := { node with value_array := node.value_array ++ [h.store.length] }
        .ok ({ h with store := h.store.set cur.node jva ++ [value] }, h.store.length)
      | .object =>
        let key := cur.key
        let key_order :=
          if h.preserve_object_order then node.key_order ++ [key] else node.key_order
        match node.value_object.lookup key with
        | some present =>
          .ok ({ h with store := h.store.set cur.node { node with key_order := key_order } },
            present)
        | none =>
          let jvo := { node with
            key_order := key_order,
            value_object := node.value_object ++ [(key, h.store.length)] }
          .ok ({ h with store := h.store.set cur.node jvo ++ [value] }, h.store.length)
      | _ => .error .general_error

/-- The body shared by `begin_array()` and `begin_object()`. -/
def json_document_tree.parser_handler.begin_value (ndebug : Bool)
    (h : json_document_tree.parser_handler) (type : json_document_tree.json_value_type) :
    Except failure json_document_tree.parser_handler :=
  if h.m_root.isSome then do
    let (h1, jv) ← h.push_value ndebug (json_document_tree.json_value.create type)
    cassert ndebug ((h1.store.get? jv).map (fun v => v.type) == some type)
    .ok { h1 with m_stack := { key := [], node := jv } :: h1.m_stack }
  else
    .ok { h with
      store := h.store ++ [json_document_tree.json_value.create type],
      m_root := some h.store.length,
      m_stack := { key := [], node := h.store.length } :: h.m_stack }

/-- The body shared by `end_array()` and `end_object()`. -/
def json_document_tree.parser_handler.end_value (ndebug : Bool)
    (h : json_document_tree.parser_handler) : Except failure json_document_tree.parser_handler := do
  cassert ndebug (!h.m_stack.isEmpty)
  match h.m_stack with
  | [] => .error .undefined_behaviour
  | _ :: below => .ok { h with m_stack := below }

/-- `parser_handler::object_key(p, len)`. -/
def json_document_tree.parser_handler.object_key (h : json_document_tree.parser_handler)
    (key : pstring) : Except failure json_document_tree.parser_handler :=
  match h.m_stack with
  | [] => .error .undefined_behaviour
  | cur :: below => .ok { h with m_stack := { cur with key := key } :: below }

/-- The calls `json_parser` makes on the handler. -/
inductive json_document_tree.handler_call where
  | begin_parse
  | end_parse
  | begin_array
  | end_array
  | begin_object
  | object_key (key : pstring)
  | end_object
  | boolean_true
  | boolean_false
  | null
  | string (p : pstring)
  | number (val : double)
  deriving DecidableEq, Repr

/-- One call on the handler. -/
def json_document_tree.parser_handler.handle (ndebug : Bool)
    (h : json_document_tree.parser_handler) :
    json_document_tree.handler_call → Except failure json_document_tree.parser_handler
  | .begin_parse => .ok { h with m_root := none }
  | .end_parse => .ok h
  | .begin_array => h.begin_value ndebug .array
  | .end_array => h.end_value ndebug
  | .begin_object => h.begin_value ndebug .object
  | .object_key key => h.object_key key
  | .end_object => h.end_value ndebug
  | .boolean_true =>
    (h.push_value ndebug (json_document_tree.json_value.create .boolean_true)).map (fun r => r.1)
  | .boolean_false =>
    (h.push_value ndebug (json_document_tree.json_value.create .boolean_false)).map (fun r => r.1)
  | .null =>
    (h.push_value ndebug (json_document_tree.json_value.create .null)).map (fun r => r.1)
  | .string p =>
    (h.push_value ndebug
      { json_document_tree.json_value.create .string with value_string := p }).map (fun r => r.1)
  | .number val =>
    (h.push_value ndebug
      { json_document_tree.json_value.create .number with value_number := val }).map (fun r => r.1)

/-- The calls of one parse, in order. -/
def json_document_tree.parser_handler.handle_all (ndebug : Bool) :
    json_document_tree.parser_handler → List json_document_tree.handler_call →
      Except failure json_document_tree.parser_handler
  | h, [] => .ok h
  | h, c :: rest =>
    match h.handle ndebug c with
    | .ok h1 => json_document_tree.parser_handler.handle_all ndebug h1 rest
    | .error e => .error e

/-- `json_document_tree::load(strm, config)`, from the calls `json_parser`
makes for `strm`: the store and `mp_impl->m_root` after the swap. -/
def json_document_tree.load (ndebug : Bool) (preserve_object_order : Bool)
    (calls : List json_document_tree.handler_call) :
    Except failure (List json_document_tree.json_value × Option Nat) :=
  match json_document_tree.parser_handler.handle_all ndebug
      (json_document_tree.parser_handler.create preserve_object_order) calls with
  | .ok h => .ok (h.store, h.m_root)
  | .error e => .error e

/-- The constant `tab`. -/
def json_document_tree.tab : pstring := "    ".toList

/-- The constant `backslash`. -/
def json_document_tree.backslash : Char := Char.ofNat 92

/-- `dump_repeat(os, s, repeat)`. -/
def json_document_tree.dump_repeat (s : pstring) : Nat → pstring
  | 0 => []
  | n + 1 => s ++ json_document_tree.dump_repeat s n

/-- Modelled from the spec: `is_in(c, allowed)` of `parser_global`, whose
source is not part of the repository files at hand: whether the byte is one
of the bytes of `allowed`. -/
def is_in (c : Char) (allowed : pstring) : Bool := allowed.contains c

/-- The loop of `dump_string`: `control` tells whether
`json::get_escape_char_type` of the absent `json_parser_base` gives
`escape_char_t::control_char` for a byte. -/
def json_document_tree.dump_string_loop (control : Char → Bool) : pstring → pstring
  | [] => []
  | c :: rest =>
    (if is_in c [QUOT, '/'] then [json_document_tree.backslash]
     else if c == json_document_tree.backslash then
       (match rest with
        | [] => [json_document_tree.backslash]
        | d :: _ => if !control d then [json_document_tree.backslash] else [])
     else []) ++ c :: json_document_tree.dump_string_loop control rest

/-- `dump_string(os, s)`. -/
def json_document_tree.dump_string (control : Char → Bool) (s : pstring) : pstring :=
  [QUOT] ++ json_document_tree.dump_string_loop control s ++ [QUOT]

/-- The three loops of `dump_value` over the members of an array or of an
object: `dump` writes the member, `n` is the count the loop compares `pos`
with, `n - 1` in the arithmetic of `size_t`. -/
def json_document_tree.dump_members {α : Type} (n : Nat) (dump : α → Except failure pstring) :
    Nat → List α → Except failure pstring
  | _, [] => .ok []
  | pos, m :: rest =>
    match dump m with
    | .error e => .error e
    | .ok written =>
      match json_document_tree.dump_members n dump (pos + 1) rest with
      | .error e => .error e
      | .ok more =>
        .ok (written ++ (if pos < (n + (size_range - 1)) % size_range then [','] else []) ++
          ['\n'] ++ more)

/-- The body of `dump_value(os, v, level, key)`: the bytes written, with
`recurse` for the calls of `dump_value` on the members. `number_text` is
what `os << value_number` writes for a `double`. -/
def json_document_tree.dump_value_body (ndebug : Bool) (number_text : double → pstring)
    (control : Char → Bool) (store : List json_document_tree.json_value)
    (recurse : Nat → Nat → Option pstring → Except failure pstring)
    (v level : Nat) (key : Option pstring) : Except failure pstring :=
  match store.get? v with
  | none => .error .undefined_behaviour
  | some node =>
    let indent := json_document_tree.dump_repeat json_document_tree.tab level
    let head := indent ++
      (match key with
       | some k => [QUOT] ++ k ++ [QUOT, ':', ' ']
       | none => [])
    match node.type with
    | .array =>
      let vals := node.value_array
      let n := vals.length
      match json_document_tree.dump_members n (fun child => recurse child (level + 1) none) 0
          vals with
      | .error e => .error e
      | .ok members => .ok (head ++ ['[', '\n'] ++ members ++ indent ++ [']', '\n'])
    | .boolean_false => .ok (head ++ "false".toList)
    | .boolean_true => .ok (head ++ "true".toList)
    | .null => .ok (head ++ "null".toList)
    | .number => .ok (head ++ number_text node.value_number)
    | .object =>
      let key_order := node.key_order
      let vals := node.value_object
      let n := vals.length
      let members :=
        if key_order.isEmpty then
          -- Dump object's children unordered.
          json_document_tree.dump_members n
            (fun entry => recurse entry.2 (level + 1) (some entry.1)) 0 vals
        else
          -- Dump them based on key's original ordering.
          json_document_tree.dump_members n
            (fun k =>
              match vals.lookup k with
              | none =>
                match cassert ndebug false with
                | .error e => .error e
                | .ok _ => .error .undefined_behaviour
              | some child => recurse child (level + 1) (some k)) 0 key_order
      match members with
      | .error e => .error e
      | .ok written => .ok (head ++ ['\x7b', '\n'] ++ written ++ indent ++ ['\x7d', '\n'])
    | .string => .ok (head ++ json_document_tree.dump_string control node.value_string)
    | .unset => .ok head

/-- `dump_value(os, v, level, key)`: every call goes one level down the
tree, so the fuel bounds the depth. -/
def json_document_tree.dump_value (ndebug : Bool) (number_text : double → pstring)
    (control : Char → Bool) (store : List json_document_tree.json_value) :
    Nat → Nat → Nat → Option pstring → Except failure pstring
  | 0 => fun _ _ _ => .error .out_of_fuel
  | fuel + 1 =>
    json_document_tree.dump_value_body ndebug number_text control store
      (json_document_tree.dump_value ndebug number_text control store fuel)

/-- `json_document_tree::dump()` on the tree left by `load`: nothing without
a root or for a root of type `unset`, `dump_value(os, root, 0)` otherwise. -/
def json_document_tree.dump (ndebug : Bool) (number_text : double → pstring)
    (control : Char → Bool) (store : List json_document_tree.json_value) (m_root : Option Nat) :
    Except failure pstring :=
  match m_root with
  | none => .ok []
  | some root =>
    match store.get? root with
    | none => .error .undefined_behaviour
    | some node =>
      if node.type == json_document_tree.json_value_type.unset then .ok []
      else json_document_tree.dump_value ndebug number_text control store (store.length + 1)
        root 0 none

/-- The members of an array or object as the claim has them written: a comma
after every member but the last, and a line end after each. -/
def json_document_tree.separated_members : List pstring → pstring
  | [] => []
  | [t] => t ++ ['\n']
  | t :: u :: rest => t ++ [',', '\n'] ++ json_document_tree.separated_members (u :: rest)

/-- The calls `json_parser` makes for `{"a": true, "a": false}`. -/
def json_document_tree.duplicate_key_calls : List json_document_tree.handler_call :=
  [.begin_parse, .begin_object, .object_key "a".toList, .boolean_true,
   .object_key "a".toList, .boolean_false, .end_object, .end_parse]

/-- The calls `json_parser` makes for `[true, null, false]`. -/
def json_document_tree.array_calls : List json_document_tree.handler_call :=
  [.begin_parse, .begin_array, .boolean_true, .null, .boolean_false, .end_array, .end_parse]

/-- The calls `json_parser` makes for `{"a": true, "b": false}`. -/
def json_document_tree.distinct_key_calls : List json_document_tree.handler_call :=
  [.begin_parse, .begin_object, .object_key "a".toList, .boolean_true,
   .object_key "b".toList, .boolean_false, .end_object, .end_parse]

/-- The dump of the tree that `load` builds from the calls, nothing when
`load` fails. -/
def json_document_tree.load_and_dump (ndebug preserve_object_order : Bool)
    (calls : List json_document_tree.handler_call) : Except failure pstring :=
  match json_document_tree.load ndebug preserve_object_order calls with
  | .error e => .error e
  | .ok (store, m_root) =>
    json_document_tree.dump ndebug (fun _ => ['0']) (fun _ => false) store m_root

/-! ## Theorems -/

theorem strncmp_eq_imp_eq : ∀ (n : Nat) (a b : pstring), a.length = n → b.length = n →
    (∀ c ∈ b, c ≠ NUL) → strncmp_eq a b n = true → a = b := by
  intro n
  induction n with
  | zero =>
    intro a b ha hb _ _
    rw [List.length_eq_zero.mp ha, List.length_eq_zero.mp hb]
  | succ k ih =>
    intro a b ha hb hnul h
    match a, b, ha, hb with
    | x :: a1, y :: b1, ha, hb =>
      have hy : y ≠ NUL := hnul y (List.mem_cons_self _ _)
      simp only [strncmp_eq, List.headD_cons, List.tail_cons] at h
      by_cases hxy : x = y
      · subst hxy
        have hx : (x == NUL) = false := by simpa using hy
        simp [hx] at h
        have := ih a1 b1 (by simpa using ha) (by simpa using hb)
          (fun c hc => hnul c (List.mem_cons_of_mem _ hc)) h
        rw [this]
      · simp [hxy] at h

theorem decode_xml_encoded_char_other (name : pstring)
    (h : name ∉ ["lt".toList, "gt".toList, "amp".toList, "apos".toList, "quot".toList]) :
    decode_xml_encoded_char name name.length = NUL := by
  simp only [List.mem_cons, List.mem_singleton, not_or, List.not_mem_nil] at h
  obtain ⟨h1, h2, h3, h4, h5, _⟩ := h
  unfold decode_xml_encoded_char
  split_ifs with l2 c1 c2 l3 c3 l4 c4 c5
  · have hl : name.length = 2 := by simpa using l2
    exact absurd (strncmp_eq_imp_eq _ _ _ rfl (by rw [hl]; rfl) (by decide) c1) h1
  · have hl : name.length = 2 := by simpa using l2
    exact absurd (strncmp_eq_imp_eq _ _ _ rfl (by rw [hl]; rfl) (by decide) c2) h2
  · rfl
  · have hl : name.length = 3 := by simpa using l3
    exact absurd (strncmp_eq_imp_eq _ _ _ rfl (by rw [hl]; rfl) (by decide) c3) h3
  · rfl
  · have hl : name.length = 4 := by simpa using l4
    exact absurd (strncmp_eq_imp_eq _ _ _ rfl (by rw [hl]; rfl) (by decide) c4) h4
  · have hl : name.length = 4 := by simpa using l4
    exact absurd (strncmp_eq_imp_eq 4 name "quot".toList hl (by decide) (by decide) c5) h5
  · rfl
  · rfl

theorem parse_encoded_char_scan_name (ndebug : Bool) (p0 : Nat) (buf : pstring) :
    ∀ (name cons rest : pstring), (∀ c ∈ name, c ≠ ';') →
      parse_encoded_char_scan ndebug p0 buf cons (name ++ ';' :: rest) =
        parse_encoded_char_scan ndebug p0 buf (cons ++ name) (';' :: rest) := by
  intro name
  induction name with
  | nil => intro cons rest _; simp
  | cons c name ih =>
    intro cons rest h
    have hc : c ≠ ';' := h c (List.mem_cons_self _ _)
    have hrest : ∀ d ∈ name, d ≠ ';' := fun d hd => h d (List.mem_cons_of_mem _ hd)
    rw [List.cons_append, parse_encoded_char_scan]
    simp only [bne_iff_ne, ne_eq, hc, not_false_eq_true, if_true]
    rw [ih (cons ++ [c]) rest hrest]
    simp

/-- What `parse_encoded_char` returns on a reference with a non-empty name:
the decoded character, else the UTF-8 bytes of a numeric reference, else
the text from just past the ampersand up to and including the semicolon. -/
theorem parse_encoded_char_reference (ndebug : Bool) (pre name rest buf : pstring)
    (hname : ∀ c ∈ name, c ≠ ';') (hne : name ≠ []) :
    parse_encoded_char ndebug ⟨pre, '&' :: (name ++ ';' :: rest)⟩ buf =
      (if decode_xml_encoded_char name name.length != NUL then
        .ok (⟨pre ++ '&' :: (name ++ [';']), rest⟩, buf ++ [decode_xml_encoded_char name name.length])
      else
        match decode_xml_unicode_char ndebug name name.length with
        | .error e => .error e
        | .ok utf8 =>
          if !utf8.isEmpty then .ok (⟨pre ++ '&' :: (name ++ [';']), rest⟩, buf ++ utf8)
          else .ok (⟨pre ++ '&' :: (name ++ [';']), rest⟩, buf ++ (name ++ [';']))) := by
  have hlen : 0 < name.length := List.length_pos.mpr hne
  simp only [parse_encoded_char, cassert, parser_base.cur_char, parser_base.has_char,
    parser_base.next, parser_base.offset, List.headD_cons, beq_self_eq_true, Bool.or_true,
    if_true, List.isEmpty_cons, Bool.not_false, Bool.not_true]
  simp only [bind, Except.bind, Bool.false_eq_true, if_false]
  rw [parse_encoded_char_scan_name ndebug _ buf name (pre ++ ['&']) rest hname]
  rw [parse_encoded_char_scan]
  have h1 : (pre ++ ['&'] ++ name).length - (pre ++ ['&']).length = name.length := by
    simp only [List.length_append, List.length_singleton]; omega
  have h2 : (pre ++ ['&'] ++ name).drop (pre ++ ['&']).length = name := by
    simp
  have h3 : (pre ++ ['&'] ++ name ++ [';']).drop (pre ++ ['&']).length = name ++ [';'] := by
    rw [List.append_assoc (pre ++ ['&'])]
    simp
  have h4 : (name.length == 0) = false := by
    simp only [beq_eq_false_iff_ne, ne_eq]; omega
  simp only [bne_self_eq_false, Bool.false_eq_true, if_false, h1, h2, h3, h4]
  have h5 : pre ++ ['&'] ++ name ++ [';'] = pre ++ '&' :: (name ++ [';']) := by simp
  rw [h5]
  split_ifs with hd
  · rfl
  · cases hu : decode_xml_unicode_char ndebug name name.length with
    | error e => rfl
    | ok utf8 => rfl

/-- C8: the entity decoder maps `amp`, `lt`, `gt`, `apos`, `quot` to the
characters `&`, `<`, `>`, apostrophe and double quote, maps the numeric
references `#65` and `#x41` both to `A` (in `decode_xml_unicode_char` and,
for all seven references, in `parse_encoded_char`), and
`decode_xml_encoded_char` returns NUL for every other name. -/
theorem entity_decoder_table :
    decode_xml_encoded_char "amp".toList 3 = '&' ∧
    decode_xml_encoded_char "lt".toList 2 = '<' ∧
    decode_xml_encoded_char "gt".toList 2 = '>' ∧
    decode_xml_encoded_char "apos".toList 4 = APOS ∧
    decode_xml_encoded_char "quot".toList 4 = QUOT ∧
    (∀ ndebug : Bool,
      decode_xml_unicode_char ndebug "#65".toList 3 = .ok "A".toList ∧
      decode_xml_unicode_char ndebug "#x41".toList 4 = .ok "A".toList ∧
      parse_encoded_char ndebug ⟨[], "&amp;".toList⟩ [] = .ok (⟨"&amp;".toList, []⟩, ['&']) ∧
      parse_encoded_char ndebug ⟨[], "&lt;".toList⟩ [] = .ok (⟨"&lt;".toList, []⟩, ['<']) ∧
      parse_encoded_char ndebug ⟨[], "&gt;".toList⟩ [] = .ok (⟨"&gt;".toList, []⟩, ['>']) ∧
      parse_encoded_char ndebug ⟨[], "&apos;".toList⟩ [] = .ok (⟨"&apos;".toList, []⟩, [APOS]) ∧
      parse_encoded_char ndebug ⟨[], "&quot;".toList⟩ [] = .ok (⟨"&quot;".toList, []⟩, [QUOT]) ∧
      parse_encoded_char ndebug ⟨[], "&#65;".toList⟩ [] = .ok (⟨"&#65;".toList, []⟩, ['A']) ∧
      parse_encoded_char ndebug ⟨[], "&#x41;".toList⟩ [] = .ok (⟨"&#x41;".toList, []⟩, ['A'])) ∧
    (∀ name : pstring,
      name ∉ ["lt".toList, "gt".toList, "amp".toList, "apos".toList, "quot".toList] →
      decode_xml_encoded_char name name.length = NUL) := by
  refine ⟨by decide, by decide, by decide, by decide, by decide, ?_, decode_xml_encoded_char_other⟩
  intro ndebug
  cases ndebug <;> decide

/-- C10 (what the code does): for the unknown reference `&foo;` the code
appends `foo;`, the text from just past the ampersand, not the original
text `&foo;`; the cursor is left just past the semicolon. -/
theorem parse_encoded_char_unknown_name_loses_ampersand :
    (∀ ndebug : Bool,
      parse_encoded_char ndebug ⟨"<t>".toList, "&foo;</t>".toList⟩ [] =
        .ok (⟨"<t>&foo;".toList, "</t>".toList⟩, "foo;".toList)) ∧
    "foo;".toList ≠ "&foo;".toList := by
  refine ⟨?_, by decide⟩
  intro ndebug
  cases ndebug <;> decide

theorem digit_toNat_range (base : Nat) (hb : base ≤ 16) (c : Char)
    (h : is_digit_of base c = true) :
    (48 ≤ c.toNat ∧ c.toNat ≤ 57) ∨ (65 ≤ c.toNat ∧ c.toNat ≤ 70) ∨
      (97 ≤ c.toNat ∧ c.toNat ≤ 102) := by
  unfold is_digit_of digit_value at h
  split_ifs at h with h1 h2 h3 <;> simp at h <;> omega

theorem char_beq_false_of_toNat_ne (c d : Char) (h : c.toNat ≠ d.toNat) : (c == d) = false := by
  simp only [beq_eq_false_iff_ne, ne_eq]
  intro hcd
  exact h (by rw [hcd])

theorem digit_not_space (base : Nat) (hb : base ≤ 16) (c : Char)
    (h : is_digit_of base c = true) : isspace c = false := by
  have := digit_toNat_range base hb c h
  unfold isspace
  simp only [Bool.or_eq_false_iff, beq_eq_false_iff_ne, ne_eq, Bool.and_eq_false_imp,
    decide_eq_true_eq, decide_eq_false_iff_not]
  omega

theorem skip_hex_marker_digits (base : Nat) (hb : base ≤ 16) (ds : pstring)
    (hd : ∀ c ∈ ds, is_digit_of base c = true) : skip_hex_marker base ds = ds := by
  unfold skip_hex_marker
  split
  · rename_i z x d rest
    have hx := digit_toNat_range base hb x (hd x (by simp))
    have h1 : (x == 'x') = false := char_beq_false_of_toNat_ne _ _ (by
      show x.toNat ≠ 120
      omega)
    have h2 : (x == 'X') = false := char_beq_false_of_toNat_ne _ _ (by
      show x.toNat ≠ 88
      omega)
    simp [h1, h2]
  · rfl

theorem stoi_digits (base : Nat) (hb : base ≤ 16) (ds : pstring) (hne : ds ≠ [])
    (hd : ∀ c ∈ ds, is_digit_of base c = true) (hv : digits_value base ds < 0x110000) :
    stoi ds base = .ok (digits_value base ds : Int) := by
  obtain ⟨c, ds1, rfl⟩ := List.exists_cons_of_ne_nil hne
  have hc := hd c (List.mem_cons_self _ _)
  have hr := digit_toNat_range base hb c hc
  have hsp : isspace c = false := digit_not_space base hb c hc
  have hminus : (c == '-') = false := char_beq_false_of_toNat_ne _ _ (by
    show c.toNat ≠ 45
    omega)
  have hplus : (c == '+') = false := char_beq_false_of_toNat_ne _ _ (by
    show c.toNat ≠ 43
    omega)
  have htake : (c :: ds1).takeWhile (is_digit_of base) = c :: ds1 :=
    List.takeWhile_eq_self_iff.mpr hd
  unfold stoi
  simp only [List.dropWhile_cons, hsp, Bool.false_eq_true, if_false, List.headD_cons, hminus,
    hplus, Bool.or_self, skip_hex_marker_digits base hb (c :: ds1) hd, htake, List.isEmpty_cons]
  have : ¬ ((digits_value base (c :: ds1) : Int) < -2147483648 ∨
      2147483647 < (digits_value base (c :: ds1) : Int)) := by
    omega
  simp only [this, if_false]

theorem utf8_bytes_nonempty (v : Nat) (hv : v < 0x110000) : (utf8_bytes v).isEmpty = false := by
  unfold utf8_bytes
  split_ifs <;> rfl

theorem strncmp_eq_hash (ds : pstring) (c : Char) (lit : pstring) (n : Nat) (hc : c ≠ '#') :
    strncmp_eq ('#' :: ds) (c :: lit) (n + 1) = false := by
  have : ('#' != c) = true := by
    simp only [bne_iff_ne, ne_eq]
    exact fun h => hc h.symm
  simp [strncmp_eq, this]

theorem decode_xml_encoded_char_hash (ds : pstring) (n : Nat) :
    decode_xml_encoded_char ('#' :: ds) n = NUL := by
  unfold decode_xml_encoded_char
  split_ifs with l2 c1 c2 l3 c3 l4 c4 c5
  · have hn : n = 1 + 1 := by simpa using l2
    subst hn
    exact absurd c1 (by rw [show "lt".toList = 'l' :: ['t'] from rfl, strncmp_eq_hash _ _ _ _ (by decide)]; simp)
  · have hn : n = 1 + 1 := by simpa using l2
    subst hn
    exact absurd c2 (by rw [show "gt".toList = 'g' :: ['t'] from rfl, strncmp_eq_hash _ _ _ _ (by decide)]; simp)
  · rfl
  · have hn : n = 2 + 1 := by simpa using l3
    subst hn
    exact absurd c3 (by rw [show "amp".toList = 'a' :: ['m', 'p'] from rfl, strncmp_eq_hash _ _ _ _ (by decide)]; simp)
  · rfl
  · have hn : n = 3 + 1 := by simpa using l4
    subst hn
    exact absurd c4 (by rw [show "apos".toList = 'a' :: ['p', 'o', 's'] from rfl, strncmp_eq_hash _ _ _ _ (by decide)]; simp)
  · exact absurd c5 (by rw [show "quot".toList = 'q' :: ['u', 'o', 't'] from rfl, strncmp_eq_hash _ _ _ 3 (by decide)]; simp)
  · rfl
  · rfl

theorem decode_xml_unicode_char_decimal (ndebug : Bool) (ds : pstring) (hne : ds ≠ [])
    (hd : ∀ c ∈ ds, is_digit_of 10 c = true) (hv : digits_value 10 ds < 0x110000) :
    decode_xml_unicode_char ndebug ('#' :: ds) ('#' :: ds).length =
      .ok (utf8_bytes (digits_value 10 ds)) := by
  obtain ⟨c, ds1, rfl⟩ := List.exists_cons_of_ne_nil hne
  have hr := digit_toNat_range 10 (by omega) c (hd c (List.mem_cons_self _ _))
  have hx : (c == 'x') = false := char_beq_false_of_toNat_ne _ _ (by
    show c.toNat ≠ 120
    omega)
  have hst := stoi_digits 10 (by omega) (c :: ds1) hne hd hv
  unfold decode_xml_unicode_char
  simp only [List.headD_cons, beq_self_eq_true, List.length_cons, Bool.true_and]
  have h2 : decide (2 ≤ ds1.length + 1 + 1) = true := by simp
  simp only [h2, if_true, List.getD_cons_succ, List.getD_cons_zero, hx, Bool.false_eq_true,
    if_false]
  have hsub : subview ('#' :: c :: ds1) 1 (ds1.length + 1 + 1 - 1) = c :: ds1 := by
    simp [subview]
  rw [hsub, hst]
  simp only [bind, Except.bind]
  have hp : ((digits_value 10 (c :: ds1) : Int) % 4294967296).toNat = digits_value 10 (c :: ds1) := by
    omega
  rw [hp]
  simp [hv]

theorem decode_xml_unicode_char_hexadecimal (ndebug : Bool) (ds : pstring) (hne : ds ≠ [])
    (hd : ∀ c ∈ ds, is_digit_of 16 c = true) (hv : digits_value 16 ds < 0x110000) :
    decode_xml_unicode_char ndebug ('#' :: 'x' :: ds) ('#' :: 'x' :: ds).length =
      .ok (utf8_bytes (digits_value 16 ds)) := by
  obtain ⟨c, ds1, rfl⟩ := List.exists_cons_of_ne_nil hne
  have hst := stoi_digits 16 (by omega) (c :: ds1) hne hd hv
  unfold decode_xml_unicode_char
  simp only [List.headD_cons, beq_self_eq_true, List.length_cons, Bool.true_and]
  have h2 : decide (2 ≤ ds1.length + 1 + 1 + 1) = true := by simp
  have h3 : (ds1.length + 1 + 1 + 1 == 2) = false := by simp
  simp only [h2, if_true, List.getD_cons_succ, List.getD_cons_zero, beq_self_eq_true, h3,
    Bool.false_eq_true, if_false]
  have hsub : subview ('#' :: 'x' :: c :: ds1) 2 (ds1.length + 1 + 1 + 1 - 2) = c :: ds1 := by
    simp [subview]
  rw [hsub, hst]
  simp only [bind, Except.bind]
  have hp : ((digits_value 16 (c :: ds1) : Int) % 4294967296).toNat = digits_value 16 (c :: ds1) := by
    omega
  rw [hp]
  simp [hv]

theorem digit_ne_semicolon (base : Nat) (hb : base ≤ 16) (c : Char)
    (h : is_digit_of base c = true) : c ≠ ';' := by
  have := digit_toNat_range base hb c h
  intro hc
  have : c.toNat = 59 := by rw [hc]; rfl
  omega

theorem char_reference_name_ok (e : char_reference) (hv : e.valid) :
    (∀ c ∈ e.name, c ≠ ';') ∧ e.name ≠ [] := by
  cases e with
  | decimal ds =>
    obtain ⟨_, hd, _⟩ := hv
    refine ⟨?_, by simp [char_reference.name]⟩
    intro c hc
    simp only [char_reference.name, List.mem_cons] at hc
    rcases hc with rfl | hc
    · decide
    · exact digit_ne_semicolon 10 (by omega) c (hd c hc)
  | hexadecimal ds =>
    obtain ⟨_, hd, _⟩ := hv
    refine ⟨?_, by simp [char_reference.name]⟩
    intro c hc
    simp only [char_reference.name, List.mem_cons] at hc
    rcases hc with rfl | rfl | hc
    · decide
    · decide
    · exact digit_ne_semicolon 16 (by omega) c (hd c hc)
  | _ => exact ⟨by decide, by decide⟩

theorem parse_encoded_char_valid (ndebug : Bool) (e : char_reference) (hv : e.valid)
    (pre rest buf : pstring) :
    parse_encoded_char ndebug ⟨pre, '&' :: (e.name ++ ';' :: rest)⟩ buf =
      .ok (⟨pre ++ '&' :: (e.name ++ [';']), rest⟩, buf ++ e.decoded) := by
  obtain ⟨h1, h2⟩ := char_reference_name_ok e hv
  rw [parse_encoded_char_reference ndebug pre e.name rest buf h1 h2]
  cases e with
  | decimal ds =>
    obtain ⟨hne, hd, hlt⟩ := hv
    simp only [char_reference.name, char_reference.decoded, decode_xml_encoded_char_hash,
      bne_self_eq_false, Bool.false_eq_true, if_false,
      decode_xml_unicode_char_decimal ndebug ds hne hd hlt, utf8_bytes_nonempty _ hlt,
      Bool.not_false, if_true]
  | hexadecimal ds =>
    obtain ⟨hne, hd, hlt⟩ := hv
    simp only [char_reference.name, char_reference.decoded, decode_xml_encoded_char_hash,
      bne_self_eq_false, Bool.false_eq_true, if_false,
      decode_xml_unicode_char_hexadecimal ndebug ds hne hd hlt, utf8_bytes_nonempty _ hlt,
      Bool.not_false, if_true]
  | amp => rfl
  | lt => rfl
  | gt => rfl
  | apos => rfl
  | quot => rfl

theorem characters_loop_text (ndebug : Bool) (fuel p0 : Nat) (cons rem buf : pstring) (c : Char)
    (h1 : c ≠ '&') (h2 : c ≠ '<') :
    characters_with_encoded_char_loop ndebug (fuel + 1) p0 ⟨cons, c :: rem⟩ buf =
      characters_with_encoded_char_loop ndebug fuel p0 ⟨cons ++ [c], rem⟩ buf := by
  rw [characters_with_encoded_char_loop]
  simp [parser_base.has_char, parser_base.cur_char, parser_base.next, h1, h2, bind, Except.bind]

theorem characters_loop_stop (ndebug : Bool) (fuel p0 : Nat) (cons rem buf : pstring) :
    characters_with_encoded_char_loop ndebug (fuel + 1) p0 ⟨cons, '<' :: rem⟩ buf =
      .ok (⟨cons, '<' :: rem⟩, p0, buf) := by
  rw [characters_with_encoded_char_loop]
  simp [parser_base.has_char, parser_base.cur_char, bind, Except.bind]

theorem characters_loop_reference (ndebug : Bool) (fuel p0 : Nat) (cons rem buf : pstring)
    (hp0 : p0 ≤ cons.length)
    (qc : pstring) (r : Char) (rs b2 : pstring)
    (hparse : parse_encoded_char ndebug ⟨cons, '&' :: rem⟩ (buf ++ cons.drop p0) =
      .ok (⟨qc, r :: rs⟩, b2)) :
    characters_with_encoded_char_loop ndebug (fuel + 1) p0 ⟨cons, '&' :: rem⟩ buf =
      if r == '<' then .ok (⟨qc, r :: rs⟩, qc.length, b2)
      else if r != '&' then
        characters_with_encoded_char_loop ndebug fuel qc.length ⟨qc ++ [r], rs⟩ b2
      else characters_with_encoded_char_loop ndebug fuel qc.length ⟨qc, r :: rs⟩ b2 := by
  rw [characters_with_encoded_char_loop]
  have hb : (if cons.length > p0 then buf ++ cons.drop p0 else buf) = buf ++ cons.drop p0 := by
    split_ifs with h
    · rfl
    · have : p0 = cons.length := by omega
      simp [this]
  simp only [parser_base.has_char, parser_base.cur_char, parser_base.offset, parser_base.next,
    List.isEmpty_cons, Bool.not_false, Bool.false_eq_true, if_false, List.headD_cons,
    beq_self_eq_true, if_true, hb, bind, Except.bind, hparse]
  rfl

theorem characters_loop_text_run (ndebug : Bool) (p0 : Nat) (buf rem : pstring) :
    ∀ (t cons : pstring) (fuel : Nat), (∀ c ∈ t, c ≠ '&' ∧ c ≠ '<') →
      characters_with_encoded_char_loop ndebug (fuel + t.length) p0 ⟨cons, t ++ rem⟩ buf =
        characters_with_encoded_char_loop ndebug fuel p0 ⟨cons ++ t, rem⟩ buf := by
  intro t
  induction t with
  | nil => intro cons fuel _; simp
  | cons c t ih =>
    intro cons fuel h
    have hc := h c (List.mem_cons_self _ _)
    rw [List.length_cons, ← Nat.add_assoc, List.cons_append,
      characters_loop_text ndebug _ p0 cons (t ++ rem) buf c hc.1 hc.2,
      ih (cons ++ [c]) fuel (fun d hd => h d (List.mem_cons_of_mem _ hd))]
    simp

theorem characters_loop_decodes (ndebug : Bool) (rest : pstring) :
    ∀ (segs : List (char_reference × pstring)),
      (∀ s ∈ segs, s.1.valid ∧ ∀ c ∈ s.2, c ≠ '&' ∧ c ≠ '<') →
      ∀ (cons buf : pstring) (p0 fuel : Nat), p0 ≤ cons.length →
        (encoded_text segs).length < fuel →
        ∃ q0 b,
          characters_with_encoded_char_loop ndebug fuel p0
              ⟨cons, encoded_text segs ++ '<' :: rest⟩ buf =
            .ok (⟨cons ++ encoded_text segs, '<' :: rest⟩, q0, b) ∧
          b ++ (cons ++ encoded_text segs).drop q0 =
            buf ++ cons.drop p0 ++ decoded_text segs := by
  intro segs
  induction segs with
  | nil =>
    intro _ cons buf p0 fuel hp0 hfuel
    obtain ⟨f, rfl⟩ : ∃ f, fuel = f + 1 := ⟨fuel - 1, by omega⟩
    refine ⟨p0, buf, ?_, ?_⟩
    · simp only [encoded_text, List.nil_append, List.append_nil]
      exact characters_loop_stop ndebug f p0 cons rest buf
    · simp [encoded_text, decoded_text]
  | cons s segs ih =>
    intro hgood cons buf p0 fuel hp0 hfuel
    obtain ⟨e, t1⟩ := s
    have hs := hgood (e, t1) (List.mem_cons_self _ _)
    have hrest : ∀ s ∈ segs, s.1.valid ∧ ∀ c ∈ s.2, c ≠ '&' ∧ c ≠ '<' :=
      fun s hs => hgood s (List.mem_cons_of_mem _ hs)
    obtain ⟨f, rfl⟩ : ∃ f, fuel = f + 1 := ⟨fuel - 1, by omega⟩
    have hparse := parse_encoded_char_valid ndebug e hs.1 cons
      (t1 ++ (encoded_text segs ++ '<' :: rest)) (buf ++ cons.drop p0)
    have henc : encoded_text ((e, t1) :: segs) ++ '<' :: rest =
        '&' :: (e.name ++ ';' :: (t1 ++ (encoded_text segs ++ '<' :: rest))) := by
      simp [encoded_text]
    have hlen : (encoded_text ((e, t1) :: segs)).length =
        e.name.length + 2 + t1.length + (encoded_text segs).length := by
      simp [encoded_text]; omega
    rw [henc]
    cases t1 with
    | cons c t1 =>
      have hc := hs.2 c (List.mem_cons_self _ _)
      rw [List.cons_append] at hparse
      rw [List.cons_append (a := c),
        characters_loop_reference ndebug f p0 cons _ buf hp0 _ c _ _ hparse]
      have h1 : (c == '<') = false := by simpa using hc.2
      have h2 : (c != '&') = true := by simpa using hc.1
      simp only [h1, h2, Bool.false_eq_true, if_false, if_true]
      obtain ⟨g, rfl⟩ : ∃ g, f = g + t1.length := ⟨f - t1.length, by
        simp only [List.length_cons] at hlen; omega⟩
      rw [characters_loop_text_run ndebug _ _ _ t1 _ g
        (fun d hd => hs.2 d (List.mem_cons_of_mem _ hd))]
      obtain ⟨q0, b, hrun, hbuf⟩ := ih hrest
        (cons ++ '&' :: (e.name ++ [';']) ++ [c] ++ t1) (buf ++ cons.drop p0 ++ e.decoded)
        (cons ++ '&' :: (e.name ++ [';'])).length g (by simp)
        (by simp only [List.length_cons] at hlen; omega)
      refine ⟨q0, b, ?_, ?_⟩
      · rw [hrun]
        simp [encoded_text]
      · have : cons ++ encoded_text ((e, c :: t1) :: segs) =
            cons ++ '&' :: (e.name ++ [';']) ++ [c] ++ t1 ++ encoded_text segs := by
          simp [encoded_text]
        have hd : List.drop (cons ++ '&' :: (e.name ++ [';'])).length
            (cons ++ '&' :: (e.name ++ [';']) ++ [c] ++ t1) = c :: t1 := by
          rw [List.append_assoc, List.drop_left]
          rfl
        rw [this, hbuf, hd]
        simp [decoded_text]
    | nil =>
      rw [List.nil_append] at hparse
      cases segs with
      | nil =>
        simp only [encoded_text, List.nil_append] at hparse ⊢
        rw [characters_loop_reference ndebug f p0 cons _ buf hp0 _ '<' _ _ hparse]
        refine ⟨(cons ++ '&' :: (e.name ++ [';'])).length, buf ++ cons.drop p0 ++ e.decoded, ?_, ?_⟩
        · simp
        · simp [decoded_text]
      | cons s2 segs2 =>
        obtain ⟨e2, t2⟩ := s2
        have henc2 : encoded_text ((e2, t2) :: segs2) ++ '<' :: rest =
            '&' :: (e2.name ++ ';' :: (t2 ++ (encoded_text segs2 ++ '<' :: rest))) := by
          simp [encoded_text]
        rw [henc2] at hparse
        rw [List.nil_append, henc2,
          characters_loop_reference ndebug f p0 cons _ buf hp0 _ '&' _ _ hparse]
        simp only [show ('&' == '<') = false from by decide, show ('&' != '&') = false from by decide,
          Bool.false_eq_true, if_false]
        obtain ⟨q0, b, hrun, hbuf⟩ := ih hrest
          (cons ++ '&' :: (e.name ++ [';'])) (buf ++ cons.drop p0 ++ e.decoded)
          (cons ++ '&' :: (e.name ++ [';'])).length f (le_refl _)
          (by simp only [List.length_nil] at hlen; omega)
        rw [henc2] at hrun
        refine ⟨q0, b, ?_, ?_⟩
        · rw [hrun]
          simp [encoded_text]
        · have : cons ++ encoded_text ((e, []) :: (e2, t2) :: segs2) =
              cons ++ '&' :: (e.name ++ [';']) ++ encoded_text ((e2, t2) :: segs2) := by
            simp [encoded_text]
          rw [this, hbuf]
          simp [decoded_text]

/-- C9: for character data `&e1; t1 ... &en; tn` followed by `<`, where no
`ti` contains `&` or `<` and every `ei` is a predefined entity or a valid
numeric reference, `characters_with_encoded_char` (entered on the first `&`)
appends `d(e1) t1 ... d(en) tn` to the buffer and stops with the cursor on
the `<`. -/
theorem characters_with_encoded_char_decodes (ndebug : Bool)
    (segs : List (char_reference × pstring)) (pre rest buf : pstring)
    (hne : segs ≠ [])
    (hgood : ∀ s ∈ segs, s.1.valid ∧ ∀ c ∈ s.2, c ≠ '&' ∧ c ≠ '<') :
    characters_with_encoded_char ndebug ⟨pre, encoded_text segs ++ '<' :: rest⟩ buf =
      .ok (⟨pre ++ encoded_text segs, '<' :: rest⟩, buf ++ decoded_text segs) := by
  obtain ⟨⟨e, t1⟩, segs1, rfl⟩ := List.exists_cons_of_ne_nil hne
  have hs := hgood (e, t1) (List.mem_cons_self _ _)
  have hrest : ∀ s ∈ segs1, s.1.valid ∧ ∀ c ∈ s.2, c ≠ '&' ∧ c ≠ '<' :=
    fun s hs => hgood s (List.mem_cons_of_mem _ hs)
  have henc : encoded_text ((e, t1) :: segs1) ++ '<' :: rest =
      '&' :: (e.name ++ ';' :: (t1 ++ (encoded_text segs1 ++ '<' :: rest))) := by
    simp [encoded_text]
  have hparse := parse_encoded_char_valid ndebug e hs.1 pre
    (t1 ++ (encoded_text segs1 ++ '<' :: rest)) buf
  obtain ⟨q0, b, hrun, hbuf⟩ := characters_loop_decodes ndebug rest segs1 hrest
    (pre ++ '&' :: (e.name ++ [';']) ++ t1) (buf ++ e.decoded)
    (pre ++ '&' :: (e.name ++ [';'])).length ((encoded_text segs1 ++ '<' :: rest).length + 1)
    (by simp) (by simp; omega)
  have hfuel : (t1 ++ (encoded_text segs1 ++ '<' :: rest)).length + 1 =
      (encoded_text segs1 ++ '<' :: rest).length + 1 + t1.length := by
    simp only [List.length_append]; omega
  have hd : List.drop (pre ++ '&' :: (e.name ++ [';'])).length
      (pre ++ '&' :: (e.name ++ [';']) ++ t1) = t1 := List.drop_left _ _
  have hfin : pre ++ '&' :: (e.name ++ [';']) ++ t1 ++ encoded_text segs1 =
      pre ++ encoded_text ((e, t1) :: segs1) := by
    simp [encoded_text]
  rw [hd, hfin] at hbuf
  rw [hfin] at hrun
  unfold characters_with_encoded_char
  rw [henc]
  simp only [cassert, parser_base.cur_char, List.headD_cons, beq_self_eq_true, Bool.or_true,
    if_true, bind, Except.bind, hparse, parser_base.offset, hfuel]
  rw [characters_loop_text_run ndebug _ _ _ t1 _ _ hs.2, hrun]
  simp only [parser_base.offset]
  split_ifs with h
  · rw [hbuf]
    simp [decoded_text]
  · have hdrop : List.drop q0 (pre ++ encoded_text ((e, t1) :: segs1)) = [] :=
      List.drop_eq_nil_of_le (by omega)
    rw [hdrop, List.append_nil] at hbuf
    rw [hbuf]
    simp [decoded_text]

/-- C9 at the input of the claim: with `a` already buffered, the character
data `&amp;b&#x3C;c` of `<t>a&amp;b&#x3C;c</t>` yields `a&b<c`. -/
theorem characters_with_encoded_char_decodes_witness :
    characters_with_encoded_char false ⟨"<t>a".toList, "&amp;b&#x3C;c</t>".toList⟩ "a".toList =
      .ok (⟨"<t>a&amp;b&#x3C;c".toList, "</t>".toList⟩, "a&b<c".toList) :=
  characters_with_encoded_char_decodes false
    [(char_reference.amp, ['b']), (char_reference.hexadecimal ['3', 'C'], ['c'])]
    "<t>a".toList "/t>".toList "a".toList (by simp)
    (by
      intro s hs
      simp only [List.mem_cons, List.mem_singleton, List.not_mem_nil, or_false] at hs
      rcases hs with rfl | rfl
      · exact ⟨trivial, by decide⟩
      · exact ⟨⟨by decide, by decide, by decide⟩, by decide⟩)

theorem set_field_link_cell_ok (ndebug : Bool) (fact : import_factory)
    (h h1 : xml_data_sax_handler) (field : field_in_range) (val : pstring)
    (hok : set_field_link_cell ndebug fact h field val = .ok h1) :
    (0 ≤ field.column_pos ∧ field.column_pos < ((h.ranges field.ref).imported_cols.length : Int)) ∧
    h1 = { h with
      ranges := set_range h.ranges field.ref
        { h.ranges field.ref with
          imported_cols := (h.ranges field.ref).imported_cols.set field.column_pos.toNat true },
      sink := h.sink ++ field_commit_calls fact (h.ranges field.ref) field.column_pos val } := by
  unfold set_field_link_cell at hok
  by_cases hcol : field.column_pos < 0 ∨
      ((h.ranges field.ref).imported_cols.length : Int) ≤ field.column_pos
  · exfalso
    simp only [bind, Except.bind, hcol, if_true] at hok
    split at hok
    · cases hok
    · split at hok <;> cases hok
  · refine ⟨by omega, ?_⟩
    simp only [bind, Except.bind, hcol, if_false] at hok
    split at hok
    · cases hok
    · split at hok
      · cases hok
      · unfold field_commit_calls
        split at hok
        · rename_i sheet hs
          simp only [Except.ok.injEq] at hok
          simp only [hs]
          exact hok.symm
        · rename_i hs
          simp only [Except.ok.injEq] at hok
          simp only [hs, List.append_nil]
          exact hok.symm

theorem rows_kept_refl (h : xml_data_sax_handler) : rows_kept h h := ⟨fun _ => rfl, rfl⟩

theorem rows_kept_trans {h h1 h2 : xml_data_sax_handler} (a : rows_kept h h1)
    (b : rows_kept h1 h2) : rows_kept h h2 :=
  ⟨fun r => (b.1 r).trans (a.1 r), b.2.trans a.2⟩

theorem set_single_link_cell_rows (fact : import_factory) (h : xml_data_sax_handler)
    (ref : cell_reference) (val : pstring) : rows_kept h (set_single_link_cell fact h ref val) := by
  unfold set_single_link_cell
  split <;> exact rows_kept_refl h

theorem set_field_link_cell_rows (ndebug : Bool) (fact : import_factory)
    (h h1 : xml_data_sax_handler) (field : field_in_range) (val : pstring)
    (hok : set_field_link_cell ndebug fact h field val = .ok h1) : rows_kept h h1 := by
  obtain ⟨_, rfl⟩ := set_field_link_cell_ok ndebug fact h h1 field val hok
  refine ⟨fun r => ?_, rfl⟩
  simp only [set_range]
  split_ifs with hr
  · rw [hr]
  · rfl

theorem fill_unprocessed_column_rows (fact : import_factory) (h : xml_data_sax_handler)
    (ref : range_reference) : rows_kept h (fill_unprocessed_column fact h ref) := by
  unfold fill_unprocessed_column
  split <;> exact rows_kept_refl h

theorem commit_attribute_value_rows (ndebug : Bool) (fact : import_factory)
    (h h1 : xml_data_sax_handler) (a : xml_attribute) (val : pstring)
    (hok : commit_attribute_value ndebug fact h a val = .ok h1) : rows_kept h h1 := by
  unfold commit_attribute_value at hok
  cases hr : a.ref_type with
  | reference_cell =>
    simp only [hr] at hok
    simp only [Except.ok.injEq] at hok
    rw [← hok]
    exact set_single_link_cell_rows fact h a.cell_ref val
  | reference_range_field =>
    simp only [hr] at hok
    exact set_field_link_cell_rows ndebug fact h h1 a.field_ref val hok
  | reference_unknown =>
    simp only [hr] at hok
    simp only [Except.ok.injEq] at hok
    rw [← hok]
    exact rows_kept_refl h

theorem import_linked_attribute_rows (ndebug : Bool) (fact : import_factory)
    (h h1 : xml_data_sax_handler) (a : xml_attribute)
    (hok : import_linked_attribute ndebug fact h a = .ok h1) : rows_kept h h1 := by
  unfold import_linked_attribute at hok
  cases hfind : find_attr_by_name h.m_attrs a.ns a.name with
  | none =>
    simp only [hfind] at hok
    simp only [Except.ok.injEq] at hok
    rw [← hok]
    exact rows_kept_refl h
  | some p =>
    simp only [hfind] at hok
    cases hc : commit_attribute_value ndebug fact h a (trim p.value) with
    | error e => simp only [hc] at hok; cases hok
    | ok h2 =>
      simp only [hc] at hok
      simp only [Except.ok.injEq] at hok
      rw [← hok]
      exact commit_attribute_value_rows ndebug fact h h2 a _ hc

theorem import_linked_attributes_rows (ndebug : Bool) (fact : import_factory) :
    ∀ (attrs : List xml_attribute) (h h1 : xml_data_sax_handler),
      import_linked_attributes ndebug fact h attrs = .ok h1 → rows_kept h h1 := by
  intro attrs
  induction attrs with
  | nil =>
    intro h h1 hok
    simp only [import_linked_attributes, Except.ok.injEq] at hok
    rw [← hok]
    exact rows_kept_refl h
  | cons a rest ih =>
    intro h h1 hok
    simp only [import_linked_attributes] at hok
    cases ha : import_linked_attribute ndebug fact h a with
    | error e => simp only [ha] at hok; cases hok
    | ok h2 =>
      simp only [ha] at hok
      exact rows_kept_trans (import_linked_attribute_rows ndebug fact h h2 a ha) (ih h2 h1 hok)

theorem increment_row_if_pending_fire (fact : import_factory) (h : xml_data_sax_handler)
    (cur : element) (ref : Nat) (hg : cur.row_group = some ref)
    (hp : h.mp_increment_row = some ref) :
    ((increment_row_if_pending fact h cur).ranges ref).row_size = (h.ranges ref).row_size + 1 ∧
    (∀ r, r ≠ ref →
      ((increment_row_if_pending fact h cur).ranges r).row_size = (h.ranges r).row_size) ∧
    (increment_row_if_pending fact h cur).mp_increment_row = none := by
  have hf := fill_unprocessed_column_rows fact h (h.ranges ref)
  unfold increment_row_if_pending
  simp only [hg, hp, beq_self_eq_true, if_true]
  refine ⟨?_, ?_, ?_⟩
  · simp only [set_range, if_true, range_reference.reset]
    rw [hf.1 ref]
  · intro r hr
    simp only [set_range, hr, if_false]
    exact hf.1 r
  · trivial

theorem increment_row_if_pending_idle (fact : import_factory) (h : xml_data_sax_handler)
    (cur : element)
    (hno : ¬ ∃ ref, cur.row_group = some ref ∧ h.mp_increment_row = some ref) :
    rows_kept h (increment_row_if_pending fact h cur) := by
  unfold increment_row_if_pending
  split
  · rename_i ref hg
    split_ifs with hp
    · exact absurd ⟨ref, hg, by simpa using hp⟩ hno
    · exact rows_kept_refl h
  · exact rows_kept_refl h

theorem start_element_rows_none (ndebug : Bool) (fact : import_factory)
    (h h1 : xml_data_sax_handler) (elem : sax_ns_parser_element)
    (hok : start_element ndebug fact h elem none = .ok h1) : rows_kept h h1 := by
  unfold start_element at hok
  simp only [Except.ok.injEq] at hok
  rw [← hok]
  exact ⟨fun _ => rfl, rfl⟩

/-- What `start_element` does to the row offsets: with `cur` the element
descended onto, the rows are those of `increment_row_if_pending`. -/
theorem start_element_rows_some (ndebug : Bool) (fact : import_factory)
    (h h1 : xml_data_sax_handler) (elem : sax_ns_parser_element) (cur : element)
    (hok : start_element ndebug fact h elem (some cur) = .ok h1) :
    rows_kept (increment_row_if_pending fact (start_element_enter h elem (some cur)) cur) h1 := by
  unfold start_element at hok
  simp only at hok
  cases ha : import_linked_attributes ndebug fact
      (increment_row_if_pending fact (start_element_enter h elem (some cur)) cur)
      cur.attributes with
  | error e => simp only [ha] at hok; cases hok
  | ok h2 =>
    simp only [ha] at hok
    simp only [Except.ok.injEq] at hok
    rw [← hok]
    refine rows_kept_trans (import_linked_attributes_rows ndebug fact _ _ _ ha) ?_
    unfold enter_range_parent
    split_ifs <;> exact ⟨fun _ => rfl, rfl⟩

theorem end_element_current_rows (ndebug : Bool) (fact : import_factory)
    (h h1 : xml_data_sax_handler) (elem : sax_ns_parser_element) (cur : element)
    (hok : end_element_current ndebug fact h elem cur = .ok h1) :
    (∀ r, (h1.ranges r).row_size = (h.ranges r).row_size) ∧
    h1.mp_increment_row = (if cur.row_group.isSome then cur.row_group else h.mp_increment_row) := by
  unfold end_element_current at hok
  cases hc : commit_element_content ndebug fact h cur with
  | error e => simp only [hc] at hok; cases hok
  | ok h2 =>
    simp only [hc] at hok
    have hk : rows_kept h h2 := by
      unfold commit_element_content at hc
      cases hr : cur.ref_type with
      | reference_cell =>
        simp only [hr] at hc
        simp only [Except.ok.injEq] at hc
        rw [← hc]
        exact set_single_link_cell_rows fact h _ _
      | reference_range_field =>
        simp only [hr] at hc
        exact set_field_link_cell_rows ndebug fact h h2 _ _ hc
      | reference_unknown =>
        simp only [hr] at hc
        simp only [Except.ok.injEq] at hc
        rw [← hc]
        exact rows_kept_refl h
    cases hrec : record_stream_pos (arm_row_group h2 cur) elem cur with
    | error e => simp only [hrec] at hok; cases hok
    | ok h3 =>
      simp only [hrec] at hok
      simp only [Except.ok.injEq] at hok
      have h3eq : h3.ranges = (arm_row_group h2 cur).ranges ∧
          h3.mp_increment_row = (arm_row_group h2 cur).mp_increment_row := by
        unfold record_stream_pos at hrec
        split_ifs at hrec
        · cases hl : (arm_row_group h2 cur).m_scopes.getLast? with
          | none => simp only [hl] at hrec; cases hrec
          | some sc =>
            simp only [hl] at hrec
            simp only [Except.ok.injEq] at hrec
            rw [← hrec]
            exact ⟨rfl, rfl⟩
        · simp only [Except.ok.injEq] at hrec
          rw [← hrec]
          exact ⟨rfl, rfl⟩
      have harm : (arm_row_group h2 cur).ranges = h2.ranges ∧
          (arm_row_group h2 cur).mp_increment_row =
            (if cur.row_group.isSome then cur.row_group else h2.mp_increment_row) := by
        unfold arm_row_group
        split_ifs <;> exact ⟨rfl, rfl⟩
      have hleave : h1.ranges = h3.ranges ∧ h1.mp_increment_row = h3.mp_increment_row := by
        rw [← hok]
        unfold leave_element
        split_ifs <;> exact ⟨rfl, rfl⟩
      refine ⟨fun r => ?_, ?_⟩
      · rw [hleave.1, h3eq.1, harm.1]
        exact hk.1 r
      · rw [hleave.2, h3eq.2, harm.2, hk.2]

theorem end_element_rows (ndebug : Bool) (fact : import_factory)
    (h h1 : xml_data_sax_handler) (elem : sax_ns_parser_element) (popped : Option element)
    (hok : end_element ndebug fact h elem popped = .ok h1) :
    (∀ r, (h1.ranges r).row_size = (h.ranges r).row_size) ∧
    h1.mp_increment_row =
      (match h.mp_current_elem with
       | some cur => if cur.row_group.isSome then cur.row_group else h.mp_increment_row
       | none => h.mp_increment_row) := by
  unfold end_element at hok
  cases hb : end_element_body ndebug fact h elem with
  | error e => simp only [hb] at hok; cases hok
  | ok h2 =>
    simp only [hb] at hok
    simp only [Except.ok.injEq] at hok
    rw [← hok]
    unfold end_element_body at hb
    cases hca : cassert ndebug (!h.m_scopes.isEmpty) with
    | error e => simp only [hca] at hb; cases hb
    | ok u =>
      simp only [hca] at hb
      split_ifs at hb with hemp
      cases hc : h.mp_current_elem with
      | none =>
        simp only [hc] at hb
        simp only [Except.ok.injEq] at hb
        rw [← hb]
        exact ⟨fun _ => rfl, rfl⟩
      | some cur =>
        simp only [hc] at hb
        cases hcur : end_element_current ndebug fact h elem cur with
        | error e => simp only [hcur] at hb; cases hb
        | ok h3 =>
          simp only [hcur] at hb
          simp only [Except.ok.injEq] at hb
          rw [← hb]
          exact end_element_current_rows ndebug fact h h3 elem cur hcur

theorem end_element_current_commit (ndebug : Bool) (fact : import_factory)
    (h h1 : xml_data_sax_handler) (elem : sax_ns_parser_element) (cur : element)
    (hok : end_element_current ndebug fact h elem cur = .ok h1) :
    ∃ h2, commit_element_content ndebug fact h cur = .ok h2 ∧ h1.sink = h2.sink ∧
      h1.ranges = h2.ranges := by
  unfold end_element_current at hok
  cases hc : commit_element_content ndebug fact h cur with
  | error e => simp only [hc] at hok; cases hok
  | ok h2 =>
    simp only [hc] at hok
    refine ⟨h2, rfl, ?_⟩
    cases hrec : record_stream_pos (arm_row_group h2 cur) elem cur with
    | error e => simp only [hrec] at hok; cases hok
    | ok h3 =>
      simp only [hrec, Except.ok.injEq] at hok
      have h3eq : h3.sink = (arm_row_group h2 cur).sink ∧
          h3.ranges = (arm_row_group h2 cur).ranges := by
        unfold record_stream_pos at hrec
        split_ifs at hrec
        · cases hl : (arm_row_group h2 cur).m_scopes.getLast? with
          | none => simp only [hl] at hrec; cases hrec
          | some sc =>
            simp only [hl, Except.ok.injEq] at hrec
            rw [← hrec]
            exact ⟨rfl, rfl⟩
        · simp only [Except.ok.injEq] at hrec
          rw [← hrec]
          exact ⟨rfl, rfl⟩
      have harm : (arm_row_group h2 cur).sink = h2.sink ∧
          (arm_row_group h2 cur).ranges = h2.ranges := by
        unfold arm_row_group
        split_ifs <;> exact ⟨rfl, rfl⟩
      have hleave : h1.sink = h3.sink ∧ h1.ranges = h3.ranges := by
        rw [← hok]
        unfold leave_element
        split_ifs <;> exact ⟨rfl, rfl⟩
      exact ⟨by rw [hleave.1, h3eq.1, harm.1], by rw [hleave.2, h3eq.2, harm.2]⟩

theorem json_commit_cell (v : json_value) (fact : import_factory) (pos : cell_position) :
    (v.commit fact pos).length ≤ 1 ∧
    ∀ c ∈ v.commit fact pos, ∃ sheet, fact.get_sheet pos.sheet = some sheet ∧
      c.cell = (sheet, pos.row, pos.col) := by
  unfold json_value.commit
  cases hs : fact.get_sheet pos.sheet with
  | none => simp
  | some sheet =>
    cases v with
    | string p =>
      by_cases hss : fact.get_shared_strings = true
      · simp [hss, sheet_call.cell]
      · simp [hss]
    | numeric x => simp [sheet_call.cell]
    | boolean b => simp [sheet_call.cell]
    | null => simp

/-- C4: every range-field commit writes to the cell (origin row + current
row offset, origin column + column index of the field) of the sheet of the
range. In the XML handler (`set_field_link_cell`, reached for element
content by `end_element` and for an attribute by `import_linked_attribute`)
the commit is one `set_auto` there when the sheet exists, and the imported
flag of the column is set; in the JSON handler (`commit_value`) the calls
of the value are made at that position. -/
theorem range_field_commit_cell (ndebug : Bool) (fact : import_factory) :
    (∀ (h h1 : xml_data_sax_handler) (field : field_in_range) (val : pstring),
      set_field_link_cell ndebug fact h field val = .ok h1 →
        h1.sink = h.sink ++
          (match fact.get_sheet (h.ranges field.ref).pos.sheet with
           | some sheet =>
             [sheet_call.set_auto sheet
               ((h.ranges field.ref).pos.row + (h.ranges field.ref).row_size)
               ((h.ranges field.ref).pos.col + field.column_pos) val]
           | none => []) ∧
        (h1.ranges field.ref).imported_cols.get? field.column_pos.toNat = some true) ∧
    (∀ (h h1 : xml_data_sax_handler) (elem : sax_ns_parser_element) (popped : Option element)
        (cur : element),
      h.mp_current_elem = some cur → cur.ref_type = reference_type.reference_range_field →
      end_element ndebug fact h elem popped = .ok h1 →
        h1.sink = h.sink ++
          field_commit_calls fact (h.ranges cur.field_ref.ref) cur.field_ref.column_pos
            h.m_current_chars ∧
        (h1.ranges cur.field_ref.ref).imported_cols.get? cur.field_ref.column_pos.toNat =
          some true) ∧
    (∀ (h h1 : xml_data_sax_handler) (a : xml_attribute) (p : sax_ns_parser_attribute),
      find_attr_by_name h.m_attrs a.ns a.name = some p →
      a.ref_type = reference_type.reference_range_field →
      import_linked_attribute ndebug fact h a = .ok h1 →
        h1.sink = h.sink ++
          field_commit_calls fact (h.ranges a.field_ref.ref) a.field_ref.column_pos
            (trim p.value) ∧
        (h1.ranges a.field_ref.ref).imported_cols.get? a.field_ref.column_pos.toNat =
          some true) ∧
    (∀ (h : json_content_handler) (cur : json_node) (v : json_value),
      h.mp_current_node = some cur → cur.type = map_node_type.range_field_ref →
        (commit_value fact h v).sink = h.sink ++
          v.commit fact
            { sheet := (h.ranges cur.range_field_ref.ref).pos.sheet,
              row := (h.ranges cur.range_field_ref.ref).pos.row +
                (h.ranges cur.range_field_ref.ref).row_position,
              col := (h.ranges cur.range_field_ref.ref).pos.col +
                cur.range_field_ref.column_pos } ∧
        ∀ c ∈ v.commit fact
            { sheet := (h.ranges cur.range_field_ref.ref).pos.sheet,
              row := (h.ranges cur.range_field_ref.ref).pos.row +
                (h.ranges cur.range_field_ref.ref).row_position,
              col := (h.ranges cur.range_field_ref.ref).pos.col +
                cur.range_field_ref.column_pos },
          ∃ sheet, fact.get_sheet (h.ranges cur.range_field_ref.ref).pos.sheet = some sheet ∧
            c.cell = (sheet,
              (h.ranges cur.range_field_ref.ref).pos.row +
                (h.ranges cur.range_field_ref.ref).row_position,
              (h.ranges cur.range_field_ref.ref).pos.col + cur.range_field_ref.column_pos)) := by
  have key : ∀ (h h1 : xml_data_sax_handler) (field : field_in_range) (val : pstring),
      set_field_link_cell ndebug fact h field val = .ok h1 →
        h1.sink = h.sink ++ field_commit_calls fact (h.ranges field.ref) field.column_pos val ∧
        (h1.ranges field.ref).imported_cols.get? field.column_pos.toNat = some true := by
    intro h h1 field val hok
    obtain ⟨hcol, rfl⟩ := set_field_link_cell_ok ndebug fact h h1 field val hok
    refine ⟨rfl, ?_⟩
    simp only [set_range, if_true]
    rw [List.get?_eq_getElem?, List.getElem?_set_self]
    omega
  refine ⟨?_, ?_, ?_, ?_⟩
  · intro h h1 field val hok
    have := key h h1 field val hok
    unfold field_commit_calls at this
    exact this
  · intro h h1 elem popped cur hcur hty hok
    unfold end_element at hok
    cases hb : end_element_body ndebug fact h elem with
    | error e => simp only [hb] at hok; cases hok
    | ok h2 =>
      simp only [hb, Except.ok.injEq] at hok
      rw [← hok]
      unfold end_element_body at hb
      cases hca : cassert ndebug (!h.m_scopes.isEmpty) with
      | error e => simp only [hca] at hb; cases hb
      | ok u =>
        simp only [hca, hcur] at hb
        split_ifs at hb with hemp
        cases hc : end_element_current ndebug fact h elem cur with
        | error e => simp only [hc] at hb; cases hb
        | ok h3 =>
          simp only [hc, Except.ok.injEq] at hb
          rw [← hb]
          obtain ⟨h4, hcommit, hsink, hranges⟩ :=
            end_element_current_commit ndebug fact h h3 elem cur hc
          unfold commit_element_content at hcommit
          simp only [hty] at hcommit
          have := key h h4 cur.field_ref h.m_current_chars hcommit
          show h3.sink = _ ∧ (h3.ranges cur.field_ref.ref).imported_cols.get? _ = _
          rw [hsink, hranges]
          exact this
  · intro h h1 a p hfind hty hok
    unfold import_linked_attribute at hok
    simp only [hfind] at hok
    cases hc : commit_attribute_value ndebug fact h a (trim p.value) with
    | error e => simp only [hc] at hok; cases hok
    | ok h2 =>
      simp only [hc, Except.ok.injEq] at hok
      rw [← hok]
      unfold commit_attribute_value at hc
      simp only [hty] at hc
      exact key h h2 a.field_ref (trim p.value) hc
  · intro h cur v hcur hty
    refine ⟨?_, (json_commit_cell v fact _).2⟩
    unfold commit_value
    simp only [hcur, hty]

theorem start_element_fire (ndebug : Bool) (fact : import_factory)
    (h h1 : xml_data_sax_handler) (elem : sax_ns_parser_element) (cur : element) (ref : Nat)
    (hok : start_element ndebug fact h elem (some cur) = .ok h1)
    (hg : cur.row_group = some ref) (hp : h.mp_increment_row = some ref) :
    (h1.ranges ref).row_size = (h.ranges ref).row_size + 1 ∧
    (∀ r, r ≠ ref → (h1.ranges r).row_size = (h.ranges r).row_size) ∧
    h1.mp_increment_row = none := by
  have hk := start_element_rows_some ndebug fact h h1 elem cur hok
  have hf := increment_row_if_pending_fire fact (start_element_enter h elem (some cur)) cur ref
    hg hp
  refine ⟨?_, ?_, ?_⟩
  · rw [hk.1 ref, hf.1]; rfl
  · intro r hr
    rw [hk.1 r, hf.2.1 r hr]; rfl
  · rw [hk.2, hf.2.2]

theorem start_element_idle (ndebug : Bool) (fact : import_factory)
    (h h1 : xml_data_sax_handler) (elem : sax_ns_parser_element) (pushed : Option element)
    (hok : start_element ndebug fact h elem pushed = .ok h1)
    (hno : ¬ ∃ cur ref, pushed = some cur ∧ cur.row_group = some ref ∧
      h.mp_increment_row = some ref) : rows_kept h h1 := by
  cases pushed with
  | none => exact start_element_rows_none ndebug fact h h1 elem hok
  | some cur =>
    have hk := start_element_rows_some ndebug fact h h1 elem cur hok
    have hi := increment_row_if_pending_idle fact (start_element_enter h elem (some cur)) cur
      (fun ⟨ref, hg, hp⟩ => hno ⟨cur, ref, rfl, hg, hp⟩)
    exact rows_kept_trans (rows_kept_trans ⟨fun _ => rfl, rfl⟩ hi) hk

theorem characters_rows (h : xml_data_sax_handler) (val : pstring) (transient : Bool) :
    rows_kept h (characters h val transient) := by
  unfold characters
  split <;> exact ⟨fun _ => rfl, rfl⟩

theorem handler_attribute_rows (h : xml_data_sax_handler) (a : sax_ns_parser_attribute) :
    rows_kept h (handler_attribute h a) := ⟨fun _ => rfl, rfl⟩

theorem push_node_fire (h : json_content_handler) (cur : json_node) (ref : Nat)
    (hg : cur.row_group = some ref) (hp : h.mp_increment_row = some ref) :
    ((push_node h (some cur)).ranges ref).row_position = (h.ranges ref).row_position + 1 ∧
    (∀ r, r ≠ ref →
      ((push_node h (some cur)).ranges r).row_position = (h.ranges r).row_position) ∧
    (push_node h (some cur)).mp_increment_row = none := by
  unfold push_node
  simp only [hg, hp, beq_self_eq_true, if_true]
  refine ⟨?_, ?_, ?_⟩
  · simp
  · intro r hr
    simp [hr]
  · trivial

theorem push_node_idle (h : json_content_handler) (pushed : Option json_node)
    (hno : ¬ ∃ cur ref, pushed = some cur ∧ cur.row_group = some ref ∧
      h.mp_increment_row = some ref) :
    (push_node h pushed).ranges = h.ranges ∧
    (push_node h pushed).mp_increment_row = h.mp_increment_row := by
  unfold push_node
  cases pushed with
  | none => exact ⟨rfl, rfl⟩
  | some cur =>
    simp only
    cases hg : cur.row_group with
    | none => exact ⟨rfl, rfl⟩
    | some ref =>
      simp only
      split_ifs with hp
      · exact absurd ⟨cur, ref, rfl, hg, by simpa using hp⟩ hno
      · exact ⟨rfl, rfl⟩

theorem commit_value_rows (fact : import_factory) (h : json_content_handler) (v : json_value) :
    (commit_value fact h v).ranges = h.ranges ∧
    (commit_value fact h v).mp_increment_row = h.mp_increment_row := by
  unfold commit_value
  cases h.mp_current_node with
  | none => exact ⟨rfl, rfl⟩
  | some cur =>
    simp only
    cases cur.type <;> exact ⟨rfl, rfl⟩

/-- C3: closing a row-group node never changes a row offset, it only arms
the pending signal; the offset is incremented by one exactly at a descent
(`start_element` / `push_node`) onto a node whose row-group reference equals
the pending one, where the signal is cleared; every other event leaves the
offsets and the signal alone, so that a value committed between the close
and that descent goes to the row of the unchanged offset. -/
theorem row_increment_waits_for_matching_descent (ndebug : Bool) (fact : import_factory) :
    (∀ (h h1 : xml_data_sax_handler) (elem : sax_ns_parser_element) (popped : Option element),
      end_element ndebug fact h elem popped = .ok h1 →
        (∀ r, (h1.ranges r).row_size = (h.ranges r).row_size) ∧
        h1.mp_increment_row =
          (match h.mp_current_elem with
           | some cur => if cur.row_group.isSome then cur.row_group else h.mp_increment_row
           | none => h.mp_increment_row)) ∧
    (∀ (h h1 : xml_data_sax_handler) (elem : sax_ns_parser_element) (cur : element) (ref : Nat),
      start_element ndebug fact h elem (some cur) = .ok h1 →
      cur.row_group = some ref → h.mp_increment_row = some ref →
        (h1.ranges ref).row_size = (h.ranges ref).row_size + 1 ∧
        (∀ r, r ≠ ref → (h1.ranges r).row_size = (h.ranges r).row_size) ∧
        h1.mp_increment_row = none) ∧
    (∀ (h h1 : xml_data_sax_handler) (elem : sax_ns_parser_element) (pushed : Option element),
      start_element ndebug fact h elem pushed = .ok h1 →
      (¬ ∃ cur ref, pushed = some cur ∧ cur.row_group = some ref ∧
          h.mp_increment_row = some ref) →
        rows_kept h h1) ∧
    (∀ (h : xml_data_sax_handler) (val : pstring) (transient : Bool),
      rows_kept h (characters h val transient)) ∧
    (∀ (h : xml_data_sax_handler) (a : sax_ns_parser_attribute),
      rows_kept h (handler_attribute h a)) ∧
    (∀ (h h1 : xml_data_sax_handler) (field : field_in_range) (val : pstring),
      set_field_link_cell ndebug fact h field val = .ok h1 →
        rows_kept h h1 ∧
        h1.sink = h.sink ++ field_commit_calls fact (h.ranges field.ref) field.column_pos val) ∧
    (∀ (h : json_content_handler) (popped : Option json_node),
      (∀ r, ((pop_node h popped).ranges r).row_position = (h.ranges r).row_position) ∧
      (pop_node h popped).mp_increment_row =
        (match popped with
         | some cur => if cur.row_group.isSome then cur.row_group else h.mp_increment_row
         | none => h.mp_increment_row)) ∧
    (∀ (h : json_content_handler) (cur : json_node) (ref : Nat),
      cur.row_group = some ref → h.mp_increment_row = some ref →
        ((push_node h (some cur)).ranges ref).row_position = (h.ranges ref).row_position + 1 ∧
        (∀ r, r ≠ ref →
          ((push_node h (some cur)).ranges r).row_position = (h.ranges r).row_position) ∧
        (push_node h (some cur)).mp_increment_row = none) ∧
    (∀ (h : json_content_handler) (pushed : Option json_node),
      (¬ ∃ cur ref, pushed = some cur ∧ cur.row_group = some ref ∧
          h.mp_increment_row = some ref) →
        (push_node h pushed).ranges = h.ranges ∧
        (push_node h pushed).mp_increment_row = h.mp_increment_row) ∧
    (∀ (h : json_content_handler) (v : json_value),
      (commit_value fact h v).ranges = h.ranges ∧
      (commit_value fact h v).mp_increment_row = h.mp_increment_row) := by
  refine ⟨?_, ?_, ?_, ?_, ?_, ?_, ?_, ?_, ?_, ?_⟩
  · exact fun h h1 elem popped hok => end_element_rows ndebug fact h h1 elem popped hok
  · exact fun h h1 elem cur ref hok hg hp => start_element_fire ndebug fact h h1 elem cur ref hok hg hp
  · exact fun h h1 elem pushed hok hno => start_element_idle ndebug fact h h1 elem pushed hok hno
  · exact characters_rows
  · exact handler_attribute_rows
  · intro h h1 field val hok
    refine ⟨set_field_link_cell_rows ndebug fact h h1 field val hok, ?_⟩
    obtain ⟨_, rfl⟩ := set_field_link_cell_ok ndebug fact h h1 field val hok
    rfl
  · intro h popped
    unfold pop_node
    cases popped with
    | none => exact ⟨fun _ => rfl, rfl⟩
    | some cur =>
      simp only
      split_ifs <;> exact ⟨fun _ => rfl, rfl⟩
  · exact push_node_fire
  · exact push_node_idle
  · exact commit_value_rows fact

theorem handle_events_append {σ : Type} (ndebug : Bool) (fact : import_factory)
    (w : tree_walker σ) :
    ∀ (xs ys : List sax_event) (st : σ × xml_data_sax_handler),
      handle_events ndebug fact w st (xs ++ ys) =
        match handle_events ndebug fact w st xs with
        | .ok st1 => handle_events ndebug fact w st1 ys
        | .error e => .error e := by
  intro xs
  induction xs with
  | nil => intro ys st; rfl
  | cons x xs ih =>
    intro ys st
    simp only [List.cons_append, handle_events]
    cases hx : handle_event ndebug fact w st x with
    | error e => rfl
    | ok st1 => exact ih ys st1

theorem occurrence_step (ndebug : Bool) (fact : import_factory) (a : Nat)
    (S : pstring) (r0 c0 : Int) (sh : Nat)
    (rns ens ans : xmlns_id_t) (rname ename aname : pstring) (fields : List linkable)
    (hS : fact.get_sheet S = some sh) (hSne : S ≠ [])
    (st : walker_state × xml_data_sax_handler) (j : Nat) (b : Bool) (sink : List sheet_call)
    (occ : pstring × Nat × Nat)
    (hinv : between_occurrences a (range_parent_element a rns ens ans rname ename aname)
      { sheet := S, row := r0, col := c0 } fields st j b sink) :
    ∃ st1, handle_events ndebug fact map_tree_walker st
        (occurrence_events ens ans ename aname occ) = .ok st1 ∧
      between_occurrences a (range_parent_element a rns ens ans rname ename aname)
        { sheet := S, row := r0, col := c0 } fields st1 (j + 1) true
        (sink ++ [sheet_call.set_auto sh (r0 + ((j + 1 : Nat) : Int)) c0 (trim occ.1)]) := by
  obtain ⟨⟨wroot, wstack⟩, ⟨attrs, scopes, links, cur, chars, inrange, pending, ranges, sp, al,
    sk⟩⟩ := st
  obtain ⟨hw, hattrs, hscopes, hcur, hin, hrange, hpend, hb, hsink⟩ := hinv
  simp only at hw hattrs hscopes hcur hin hrange hpend hsink
  simp only [walker_state.mk.injEq] at hw
  obtain ⟨hw1, hw2⟩ := hw
  subst hw1 hw2 hattrs hcur hin hsink
  have hne : scopes.isEmpty = false := by
    cases scopes with
    | nil => exact absurd rfl hscopes
    | cons x xs => rfl
  have hSe : S.isEmpty = false := by
    cases S with
    | nil => exact absurd rfl hSne
    | cons x xs => rfl
  by_cases hj : j = 0
  · subst hj
    simp only [if_true] at hpend hrange
    subst hpend
    simp [occurrence_events, handle_events, handle_event, handler_attribute, map_tree_walker,
      walker_push, walker_pop, start_element, start_element_enter, increment_row_if_pending,
      range_parent_element, row_group_element, import_linked_attributes, import_linked_attribute,
      find_attr_by_name, commit_attribute_value, set_field_link_cell, cassert, hrange, hS, hSe,
      set_range, enter_range_parent, end_element_body, end_element, end_element_current,
      commit_element_content, arm_row_group, record_stream_pos, leave_element,
      element.unlinked_attribute_anchor, bind, Except.bind, hne, between_occurrences]
    exact hscopes
  · have hbt : b = true := hb hj
    subst hbt
    simp only [hj, if_false] at hpend hrange
    subst hpend
    simp [occurrence_events, handle_events, handle_event, handler_attribute, map_tree_walker,
      walker_push, walker_pop, start_element, start_element_enter, increment_row_if_pending,
      range_parent_element, row_group_element, import_linked_attributes, import_linked_attribute,
      find_attr_by_name, commit_attribute_value, set_field_link_cell, cassert, hrange, hS, hSe,
      set_range, enter_range_parent, end_element_body, end_element, end_element_current,
      commit_element_content, arm_row_group, record_stream_pos, leave_element,
      element.unlinked_attribute_anchor, bind, Except.bind, hne, between_occurrences,
      fill_unprocessed_column, fill_unprocessed_calls, range_reference.reset]
    exact hscopes

theorem occurrences_run (ndebug : Bool) (fact : import_factory) (a : Nat)
    (S : pstring) (r0 c0 : Int) (sh : Nat)
    (rns ens ans : xmlns_id_t) (rname ename aname : pstring) (fields : List linkable)
    (hS : fact.get_sheet S = some sh) (hSne : S ≠ []) :
    ∀ (occs : List (pstring × Nat × Nat)) (st : walker_state × xml_data_sax_handler)
      (j : Nat) (b : Bool) (sink : List sheet_call),
      between_occurrences a (range_parent_element a rns ens ans rname ename aname)
        { sheet := S, row := r0, col := c0 } fields st j b sink →
      ∃ st1 b1, handle_events ndebug fact map_tree_walker st
          (occs.flatMap (occurrence_events ens ans ename aname)) = .ok st1 ∧
        between_occurrences a (range_parent_element a rns ens ans rname ename aname)
          { sheet := S, row := r0, col := c0 } fields st1 (j + occs.length) b1
          (sink ++ row_calls sh r0 c0 (j + 1) (occs.map (fun o => o.1))) := by
  intro occs
  induction occs with
  | nil =>
    intro st j b sink hinv
    exact ⟨st, b, rfl, by simpa [row_calls] using hinv⟩
  | cons occ occs ih =>
    intro st j b sink hinv
    obtain ⟨st1, hrun1, hinv1⟩ := occurrence_step ndebug fact a S r0 c0 sh rns ens ans rname
      ename aname fields hS hSne st j b sink occ hinv
    obtain ⟨st2, b2, hrun2, hinv2⟩ := ih st1 (j + 1) true _ hinv1
    refine ⟨st2, b2, ?_, ?_⟩
    · rw [List.flatMap_cons, handle_events_append, hrun1]
      exact hrun2
    · have hlen : j + (occ :: occs).length = j + 1 + occs.length := by
        simp only [List.length_cons]; omega
      rw [hlen]
      simpa [row_calls, List.append_assoc] using hinv2

/-- C5: XML import of a range at origin `(S, r0, c0)` whose one field is an
attribute of the row-group element: `read_impl` writes the header at row
`r0` and, for `k ≥ 1` consecutive occurrences of the row-group element, the
(trimmed) value of the `i`-th occurrence at `(S, r0 + i, c0)`; the row size
of the range ends at `k`. The events are those of the tokenizer for
`<r> <e a="v1"/> ... <e a="vk"/> </r>`, the walker is the one the spec
describes. -/
theorem xml_attribute_range_rows (ndebug : Bool) (fact : import_factory)
    (get_short_name : xmlns_id_t → pstring) (a : Nat)
    (S : pstring) (r0 c0 : Int) (sh : Nat)
    (rns ens ans : xmlns_id_t) (rname ename aname : pstring)
    (ropen rclose : Nat × Nat) (occs : List (pstring × Nat × Nat))
    (world : xml_data_sax_handler) (strm : pstring)
    (hS : fact.get_sheet S = some sh) (hSne : S ≠ []) (hname : aname ≠ [])
    (hstrm : strm ≠ []) (hk : occs ≠ [])
    (hpos : (world.ranges a).pos = { sheet := S, row := r0, col := c0 })
    (hfields : (world.ranges a).field_nodes = [{ ns := ans, name := aname, ns_alias := [] }])
    (hcols : (world.ranges a).imported_cols.length = 1) :
    ∃ h1, read_impl ndebug fact get_short_name [({ sheet := S, row := r0, col := c0 }, a)]
        map_tree_walker
        { root := some (range_parent_element a rns ens ans rname ename aname), stack := [] }
        world strm (record_list_events rns ens ans rname ename aname ropen rclose occs) =
          .ok h1 ∧
      h1.sink = world.sink ++
        sheet_call.set_auto sh r0 c0
            ((if ans.isSome then get_short_name ans ++ [':'] else []) ++ aname) ::
          row_calls sh r0 c0 1 (occs.map (fun o => o.1)) ∧
      (h1.ranges a).row_size = (occs.length : Int) := by
  obtain ⟨b0, hb0⟩ : ∃ b0, (world.ranges a).imported_cols = [b0] := by
    match hc : (world.ranges a).imported_cols, hcols with
    | [x], _ => exact ⟨x, rfl⟩
  have hstrme : strm.isEmpty = false := by
    cases strm with
    | nil => exact absurd rfl hstrm
    | cons x xs => rfl
  have hheader : ((if ans.isSome then get_short_name ans ++ [':'] else []) ++ aname).isEmpty
      = false := by
    cases aname with
    | nil => exact absurd rfl hname
    | cons x xs => simp
  obtain ⟨rs0, hrange⟩ : ∃ rs0 : Int, world.ranges a =
      { pos := { sheet := S, row := r0, col := c0 },
        field_nodes := [{ ns := ans, name := aname, ns_alias := [] }],
        row_size := rs0, imported_cols := [b0] } := by
    refine ⟨(world.ranges a).row_size, ?_⟩
    rw [← hpos, ← hfields, ← hb0]
  -- the state after the headers and the descent onto the range parent
  obtain ⟨st0, hst0, hinv0⟩ : ∃ st0,
      handle_event ndebug fact map_tree_walker
        ({ root := some (range_parent_element a rns ens ans rname ename aname), stack := [] },
         { insert_range_headers fact get_short_name world
             [({ sheet := S, row := r0, col := c0 }, a)] with
           m_attrs := [], m_scopes := [], mp_current_elem := none, m_current_chars := [],
           m_in_range_ref := false, mp_increment_row := none })
        (sax_event.start_element { ns := rns, ns_alias := [], name := rname,
                                   begin_pos := ropen.1, end_pos := ropen.2 }) = .ok st0 ∧
      between_occurrences a (range_parent_element a rns ens ans rname ename aname)
        { sheet := S, row := r0, col := c0 }
        [{ ns := ans, name := aname, ns_alias := [] }] st0 0 b0
        (world.sink ++ [sheet_call.set_auto sh r0 c0
          ((if ans.isSome then get_short_name ans ++ [':'] else []) ++ aname)]) := by
    simp [between_occurrences, handle_event, map_tree_walker, walker_push, start_element,
      start_element_enter, increment_row_if_pending, range_parent_element,
      import_linked_attributes, enter_range_parent, insert_range_headers, hS, set_range,
      hrange, range_header_calls, hheader]
  obtain ⟨st1, b1, hrun, hinv1⟩ := occurrences_run ndebug fact a S r0 c0 sh rns ens ans rname
    ename aname _ hS hSne occs st0 0 b0 _ hinv0
  have hlen : 0 + occs.length ≠ 0 := by
    cases occs with
    | nil => exact absurd rfl hk
    | cons x xs => simp
  obtain ⟨⟨wroot, wstack⟩, ⟨attrs, scopes, links, cur, chars, inrange, pending, ranges, sp, al,
    sk⟩⟩ := st1
  obtain ⟨hw, hattrs, hscopes, hcur, hin, hrange1, hpend, hb, hsink⟩ := hinv1
  simp only [hlen, if_false] at hw hattrs hscopes hcur hin hrange1 hpend hsink
  simp only [walker_state.mk.injEq] at hw
  obtain ⟨hw1, hw2⟩ := hw
  have hbt : b1 = true := hb hlen
  subst hw1 hw2 hattrs hcur hin hsink hpend hbt
  have hne : scopes.isEmpty = false := by
    cases scopes with
    | nil => exact absurd rfl hscopes
    | cons x xs => rfl
  unfold read_impl record_list_events
  simp only [hstrme, Bool.false_eq_true, if_false, handle_events, hst0, handle_events_append, hrun]
  simp [handle_events, handle_event, map_tree_walker, walker_pop, range_parent_element,
    cassert, end_element_body, end_element, end_element_current, commit_element_content,
    arm_row_group, record_stream_pos, leave_element, hne, postprocess, fill_unprocessed_column,
    fill_unprocessed_calls, hrange1, hS, List.getLast?_eq_getLast _ hscopes]

theorem handle_event_rows {σ : Type} (ndebug : Bool) (fact : import_factory)
    (w : tree_walker σ) (st st1 : σ × xml_data_sax_handler) (ev : sax_event) (r : Nat)
    (hok : handle_event ndebug fact w st ev = .ok st1) :
    (st.2.ranges r).row_size ≤ (st1.2.ranges r).row_size ∧
    (st1.2.ranges r).row_size ≤ (st.2.ranges r).row_size + 1 ∧
    (st1.2.ranges r).row_size + armed st1.2 r ≤
      (st.2.ranges r).row_size + armed st.2 r + is_row_group_close st.2 ev r := by
  match ev, hok with
  | .attribute a, hok =>
    simp only [handle_event, Except.ok.injEq] at hok
    rw [← hok]
    have hk := handler_attribute_rows st.2 a
    simp only [armed, is_row_group_close, hk.1 r, hk.2]
    omega
  | .characters val transient, hok =>
    simp only [handle_event, Except.ok.injEq] at hok
    rw [← hok]
    have hk := characters_rows st.2 val transient
    simp only [armed, is_row_group_close, hk.1 r, hk.2]
    omega
  | .start_element elem, hok =>
    simp only [handle_event] at hok
    cases hs : start_element ndebug fact st.2 elem (w.push_element st.1 elem.ns elem.name).2 with
    | error e => simp only [hs] at hok; cases hok
    | ok h1 =>
      simp only [hs, Except.ok.injEq] at hok
      rw [← hok]
      simp only [is_row_group_close]
      by_cases hex : ∃ cur ref, (w.push_element st.1 elem.ns elem.name).2 = some cur ∧
          cur.row_group = some ref ∧ st.2.mp_increment_row = some ref
      · obtain ⟨cur, ref, hp, hg, hpend⟩ := hex
        rw [hp] at hs
        obtain ⟨h1a, h1b, h1c⟩ := start_element_fire ndebug fact st.2 h1 elem cur ref hs hg hpend
        by_cases hr : r = ref
        · subst hr
          simp only [armed, h1a, h1c, hpend, if_true]
          simp
        · simp only [armed, h1b r hr, h1c, hpend]
          have : ¬ (some ref = some r) := fun h => hr (Option.some.inj h).symm
          simp [this]
      · have hk := start_element_idle ndebug fact st.2 h1 elem _ hs hex
        simp only [armed, hk.1 r, hk.2]
        omega
  | .end_element elem, hok =>
    simp only [handle_event] at hok
    cases hb : end_element_body ndebug fact st.2 elem with
    | error e => simp only [hb] at hok; cases hok
    | ok h0 =>
      simp only [hb] at hok
      cases hp : w.pop_element st.1 elem.ns elem.name with
      | error e => simp only [hp] at hok; cases hok
      | ok q =>
        simp only [hp] at hok
        cases he : end_element ndebug fact st.2 elem q.2 with
        | error e => simp only [he] at hok; cases hok
        | ok h1 =>
          simp only [he, Except.ok.injEq] at hok
          rw [← hok]
          obtain ⟨hrows, hpend⟩ := end_element_rows ndebug fact st.2 h1 elem q.2 he
          simp only [armed, is_row_group_close, hrows r, hpend]
          cases hc : st.2.mp_current_elem with
          | none => simp
          | some cur =>
            simp only
            split_ifs <;> omega

theorem json_push_rows {σ : Type} (w : json_walker σ) (st : σ × json_content_handler)
    (nt : input_node_type) (r : Nat) :
    (st.2.ranges r).row_position ≤ ((json_push w st nt).2.ranges r).row_position ∧
    ((json_push w st nt).2.ranges r).row_position ≤ (st.2.ranges r).row_position + 1 ∧
    ((json_push w st nt).2.ranges r).row_position + json_armed (json_push w st nt).2 r ≤
      (st.2.ranges r).row_position + json_armed st.2 r := by
  unfold json_push json_armed
  simp only
  by_cases hex : ∃ cur ref, (w.push_node st.1 nt).2 = some cur ∧ cur.row_group = some ref ∧
      st.2.mp_increment_row = some ref
  · obtain ⟨cur, ref, hpush, hg, hp⟩ := hex
    obtain ⟨h1, h2, h3⟩ := push_node_fire st.2 cur ref hg hp
    rw [hpush]
    by_cases hr : r = ref
    · subst hr
      simp only [h1, h3, hp, if_true]
      simp
    · have : ¬ (some ref = some r) := fun h => hr (Option.some.inj h).symm
      simp only [h2 r hr, h3, hp]
      simp [this]
  · obtain ⟨h1, h2⟩ := push_node_idle st.2 _ hex
    simp only [h1, h2]
    omega

theorem json_pop_rows {σ : Type} (w : json_walker σ) (st st1 : σ × json_content_handler)
    (nt : input_node_type) (r : Nat) (hok : json_pop w st nt = .ok st1) :
    (st1.2.ranges r).row_position = (st.2.ranges r).row_position ∧
    json_armed st1.2 r ≤ json_armed st.2 r + json_pop_close w st.1 nt r := by
  unfold json_pop at hok
  unfold json_pop_close
  cases hp : w.pop_node st.1 nt with
  | error e => simp only [hp] at hok; cases hok
  | ok q =>
    simp only [hp, Except.ok.injEq] at hok
    rw [← hok]
    unfold pop_node json_armed
    simp only
    cases q.2 with
    | none => simp
    | some cur =>
      simp only
      split_ifs <;> first | omega | simp_all

theorem json_handle_event_rows {σ : Type} (fact : import_factory) (w : json_walker σ)
    (st st1 : σ × json_content_handler) (ev : json_event) (r : Nat)
    (hok : json_handle_event fact w st ev = .ok st1) :
    (st.2.ranges r).row_position ≤ (st1.2.ranges r).row_position ∧
    (st1.2.ranges r).row_position ≤ (st.2.ranges r).row_position + 1 ∧
    (st1.2.ranges r).row_position + json_armed st1.2 r ≤
      (st.2.ranges r).row_position + json_armed st.2 r + json_is_row_group_close w st ev r := by
  have hscalar : ∀ v : json_value, json_scalar fact w st v = .ok st1 →
      (st.2.ranges r).row_position ≤ (st1.2.ranges r).row_position ∧
      (st1.2.ranges r).row_position ≤ (st.2.ranges r).row_position + 1 ∧
      (st1.2.ranges r).row_position + json_armed st1.2 r ≤
        (st.2.ranges r).row_position + json_armed st.2 r +
          json_pop_close w (w.push_node st.1 input_node_type.value).1 input_node_type.value r := by
    intro v hv
    unfold json_scalar at hv
    have hpush := json_push_rows w st input_node_type.value r
    have hpop := json_pop_rows w _ st1 input_node_type.value r hv
    have hcr := commit_value_rows fact (json_push w st input_node_type.value).2 v
    simp only [json_armed, hcr.1, hcr.2] at hpop
    simp only [json_armed] at hpush ⊢
    have hfst : (json_push w st input_node_type.value).1 =
        (w.push_node st.1 input_node_type.value).1 := rfl
    rw [hfst] at hpop
    omega
  match ev, hok with
  | .begin_array, hok =>
    simp only [json_handle_event, Except.ok.injEq] at hok
    rw [← hok]
    have := json_push_rows w st input_node_type.array r
    simp only [json_is_row_group_close]
    omega
  | .begin_object, hok =>
    simp only [json_handle_event, Except.ok.injEq] at hok
    rw [← hok]
    have := json_push_rows w st input_node_type.object r
    simp only [json_is_row_group_close]
    omega
  | .end_array, hok =>
    simp only [json_handle_event] at hok
    have := json_pop_rows w st st1 input_node_type.array r hok
    simp only [json_is_row_group_close]
    omega
  | .end_object, hok =>
    simp only [json_handle_event] at hok
    have := json_pop_rows w st st1 input_node_type.object r hok
    simp only [json_is_row_group_close]
    omega
  | .object_key key t, hok =>
    simp only [json_handle_event, Except.ok.injEq] at hok
    rw [← hok]
    simp only [json_is_row_group_close]
    omega
  | .boolean_true, hok => exact hscalar _ hok
  | .boolean_false, hok => exact hscalar _ hok
  | .null, hok => exact hscalar _ hok
  | .string p t, hok => exact hscalar _ hok
  | .number val, hok => exact hscalar _ hok

theorem handle_events_rows {σ : Type} (ndebug : Bool) (fact : import_factory)
    (w : tree_walker σ) (r : Nat) :
    ∀ (events : List sax_event) (st st1 : σ × xml_data_sax_handler),
      handle_events ndebug fact w st events = .ok st1 →
        (st.2.ranges r).row_size ≤ (st1.2.ranges r).row_size ∧
        (st1.2.ranges r).row_size + armed st1.2 r ≤
          (st.2.ranges r).row_size + armed st.2 r + row_group_closes ndebug fact w r st events := by
  intro events
  induction events with
  | nil =>
    intro st st1 hok
    simp only [handle_events, Except.ok.injEq] at hok
    rw [← hok]
    simp [row_group_closes]
  | cons ev rest ih =>
    intro st st1 hok
    simp only [handle_events] at hok
    cases hev : handle_event ndebug fact w st ev with
    | error e => simp only [hev] at hok; cases hok
    | ok st2 =>
      simp only [hev] at hok
      have h1 := handle_event_rows ndebug fact w st st2 ev r hev
      have h2 := ih st2 st1 hok
      simp only [row_group_closes, hev]
      omega

theorem json_handle_events_rows {σ : Type} (fact : import_factory) (w : json_walker σ)
    (r : Nat) :
    ∀ (events : List json_event) (st st1 : σ × json_content_handler),
      json_handle_events fact w st events = .ok st1 →
        (st.2.ranges r).row_position ≤ (st1.2.ranges r).row_position ∧
        (st1.2.ranges r).row_position + json_armed st1.2 r ≤
          (st.2.ranges r).row_position + json_armed st.2 r +
            json_row_group_closes fact w r st events := by
  intro events
  induction events with
  | nil =>
    intro st st1 hok
    simp only [json_handle_events, Except.ok.injEq] at hok
    rw [← hok]
    simp [json_row_group_closes]
  | cons ev rest ih =>
    intro st st1 hok
    simp only [json_handle_events] at hok
    cases hev : json_handle_event fact w st ev with
    | error e => simp only [hev] at hok; cases hok
    | ok st2 =>
      simp only [hev] at hok
      have h1 := json_handle_event_rows fact w st st2 ev r hev
      have h2 := ih st2 st1 hok
      simp only [json_row_group_closes, hev]
      omega

/-- C2 (amended): during one content parse, XML and JSON alike, the row
offset of every range is non-decreasing, no event advances it by more than
one, and it advances at most once per row-group close event: the offset plus
the pending signal grows by at most the number of row-group close events,
the close whose signal is still pending at the end having caused no advance. -/
theorem row_offset_monotone (ndebug : Bool) (fact : import_factory) (r : Nat) :
    (∀ (σ : Type) (w : tree_walker σ) (st st1 : σ × xml_data_sax_handler)
        (events : List sax_event),
      handle_events ndebug fact w st events = .ok st1 →
        (st.2.ranges r).row_size ≤ (st1.2.ranges r).row_size ∧
        (st1.2.ranges r).row_size + armed st1.2 r ≤
          (st.2.ranges r).row_size + armed st.2 r +
            row_group_closes ndebug fact w r st events) ∧
    (∀ (σ : Type) (w : tree_walker σ) (st st1 : σ × xml_data_sax_handler) (ev : sax_event),
      handle_event ndebug fact w st ev = .ok st1 →
        (st.2.ranges r).row_size ≤ (st1.2.ranges r).row_size ∧
        (st1.2.ranges r).row_size ≤ (st.2.ranges r).row_size + 1) ∧
    (∀ (σ : Type) (w : json_walker σ) (st st1 : σ × json_content_handler)
        (events : List json_event),
      json_handle_events fact w st events = .ok st1 →
        (st.2.ranges r).row_position ≤ (st1.2.ranges r).row_position ∧
        (st1.2.ranges r).row_position + json_armed st1.2 r ≤
          (st.2.ranges r).row_position + json_armed st.2 r +
            json_row_group_closes fact w r st events) ∧
    (∀ (σ : Type) (w : json_walker σ) (st st1 : σ × json_content_handler) (ev : json_event),
      json_handle_event fact w st ev = .ok st1 →
        (st.2.ranges r).row_position ≤ (st1.2.ranges r).row_position ∧
        (st1.2.ranges r).row_position ≤ (st.2.ranges r).row_position + 1) := by
  refine ⟨?_, ?_, ?_, ?_⟩
  · exact fun σ w st st1 events hok => handle_events_rows ndebug fact w r events st st1 hok
  · intro σ w st st1 ev hok
    have := handle_event_rows ndebug fact w st st1 ev r hok
    exact ⟨this.1, this.2.1⟩
  · exact fun σ w st st1 events hok => json_handle_events_rows fact w r events st st1 hok
  · intro σ w st st1 ev hok
    have := json_handle_event_rows fact w st st1 ev r hok
    exact ⟨this.1, this.2.1⟩

/-- C2 as stated fails: in the parse of `<r><it n="x"/><it n="y"/></r>` the
row-group element closes twice and the row offset advances once. -/
theorem row_offset_not_one_per_close :
    row_group_closes false s3_fact map_tree_walker 0 s3_start s3_events = 2 ∧
    row_advance false s3_fact map_tree_walker 0 s3_start s3_events = some 1 ∧
    row_advance false s3_fact map_tree_walker 0 s3_start s3_events ≠
      some (row_group_closes false s3_fact map_tree_walker 0 s3_start s3_events) := by
  refine ⟨by decide, by decide, by decide⟩

/-- C2 (amended) at scenario S3: over the whole parse the row offset of the
range does not decrease and advances by at most the number of closes. -/
theorem row_offset_monotone_witness :
    (s3_start.2.ranges 0).row_size ≤ (s3_end.2.ranges 0).row_size ∧
    (s3_end.2.ranges 0).row_size + armed s3_end.2 0 ≤
      (s3_start.2.ranges 0).row_size + armed s3_start.2 0 +
        row_group_closes false s3_fact map_tree_walker 0 s3_start s3_events :=
  (row_offset_monotone false s3_fact 0).1 walker_state map_tree_walker s3_start s3_end
    s3_events rfl

/-- C3 at scenario S3: the descent onto the second `it`, whose row group is
the pending one, increments the row offset from one to two and clears the
signal. -/
theorem row_increment_waits_for_matching_descent_witness :
    (s3_descended.ranges 0).row_size = (s3_armed.2.ranges 0).row_size + 1 ∧
    (s3_descended.ranges 0).row_size = 2 ∧
    s3_descended.mp_increment_row = none :=
  have h := (row_increment_waits_for_matching_descent false s3_fact).2.1 s3_armed.2
    s3_descended s3_second_it s3_it 0 rfl rfl rfl
  ⟨h.1, by decide, h.2.2⟩

/-- C4 at scenario S3: the commit of `x` to the field of column 0, with the
row offset at one, is a `set_auto` at `(S, 1, 0)` and sets the imported flag. -/
theorem range_field_commit_cell_witness :
    s3_committed.sink = [sheet_call.set_auto 0 1 0 "x".toList] ∧
    (s3_committed.ranges 0).imported_cols.get? 0 = some true :=
  (range_field_commit_cell false s3_fact).1 s3_start.2 s3_committed
    { ref := 0, column_pos := 0 } "x".toList rfl

/-- C5 at scenario S3: for `<r><it n="x"/><it n="y"/></r>` with the range
at `(S, 0, 0)`, the header `n` goes to row 0, `x` to `(S, 1, 0)` and `y` to
`(S, 2, 0)`. -/
theorem xml_attribute_range_rows_witness :
    read_impl false s3_fact (fun _ => []) [({ sheet := "S".toList, row := 0, col := 0 }, 0)]
        map_tree_walker { root := some s3_root, stack := [] } s3_world s3_input s3_events =
      .ok s3_result ∧
    s3_result.sink = [sheet_call.set_auto 0 0 0 "n".toList, sheet_call.set_auto 0 1 0 "x".toList,
      sheet_call.set_auto 0 2 0 "y".toList] ∧
    (s3_result.ranges 0).row_size = 2 := by
  have key : ∃ h1, read_impl false s3_fact (fun _ => [])
        [({ sheet := "S".toList, row := 0, col := 0 }, 0)]
        map_tree_walker { root := some s3_root, stack := [] } s3_world s3_input s3_events =
          .ok h1 ∧
      h1.sink = [sheet_call.set_auto 0 0 0 "n".toList, sheet_call.set_auto 0 1 0 "x".toList,
        sheet_call.set_auto 0 2 0 "y".toList] ∧
      (h1.ranges 0).row_size = 2 :=
    xml_attribute_range_rows false s3_fact (fun _ => []) 0 "S".toList 0 0 0 none none none
      "r".toList "it".toList "n".toList (0, 3) (25, 29)
      [("x".toList, 3, 14), ("y".toList, 14, 25)] s3_world s3_input
      rfl (by decide) (by decide) (by decide) (by simp) rfl rfl rfl
  obtain ⟨h1, hok, hsink, hrows⟩ := key
  have h : s3_result = h1 := by
    unfold s3_result
    rw [hok]
    rfl
  rw [h]
  exact ⟨hok, hsink, hrows⟩

/-- C7 (what the code does): with two ranges in one document, the end of
the stream fills only the range whose row-group close is pending. After
`<r><p><a x="1"/></p><q><b y="2"/></q></r>` the current row of range 0 is
partially filled (column 0 imported, column 1 not) and column 1 received no
placeholder: the only calls are the three headers and the two values. -/
theorem postprocess_fills_pending_range_only :
    two_ranges_result.sink =
      [sheet_call.set_auto 0 0 0 "x".toList, sheet_call.set_auto 0 0 1 "z".toList,
       sheet_call.set_auto 0 0 5 "y".toList, sheet_call.set_auto 0 1 0 "1".toList,
       sheet_call.set_auto 0 1 5 "2".toList] ∧
    (two_ranges_result.ranges 0).imported_cols = [true, false] ∧
    (two_ranges_result.ranges 0).row_size = 1 ∧
    two_ranges_result.mp_increment_row = some 1 ∧
    sheet_call.set_auto 0 1 1 "---".toList ∉ two_ranges_result.sink := by
  refine ⟨by decide, by decide, by decide, by decide, by decide⟩

theorem element_size_eq (e : element) : e.size = 1 + element.size.sizes e.child_elements := by
  cases e
  simp [element.size]

theorem scope_init_weight (e : element) : scope_weight (scope.init e) + 1 ≤ 2 * e.size := by
  rw [element_size_eq]
  unfold scope_weight scope.init
  simp only
  split_ifs
  · omega
  · simp only [element.size.sizes]
    omega

theorem write_children_some (ref : range_reference) (sheet : export_sheet) (current_row : Int) :
    ∀ (cs : List element) (written : pstring) (child : element) (rest : List element),
      write_children ref sheet current_row cs = (written, some (child, rest)) →
        child.size + element.size.sizes rest ≤ element.size.sizes cs := by
  intro cs
  induction cs with
  | nil =>
    intro written child rest h
    simp [write_children] at h
  | cons c cs ih =>
    intro written child rest h
    simp only [write_children] at h
    by_cases hc : (c.elem_type == element_type.element_unlinked) = true
    · simp only [hc, if_true, Prod.mk.injEq, Option.some.injEq] at h
      obtain ⟨_, h1, h2⟩ := h
      subst h1 h2
      simp [element.size.sizes]
    · simp only [hc, Bool.false_eq_true, if_false, Prod.mk.injEq] at h
      have := ih (write_children ref sheet current_row cs).1 child rest
        (by rw [← h.2])
      simp only [element.size.sizes]
      omega

theorem write_row_loop_returns (ref : range_reference) (sheet : export_sheet)
    (current_row : Int) :
    ∀ (fuel : Nat) (stack : List scope) (os : pstring), stack_weight stack ≤ fuel →
      ∃ out, write_row_loop ref sheet current_row fuel stack os = .ok out := by
  intro fuel
  induction fuel with
  | zero =>
    intro stack os h
    cases stack with
    | nil => exact ⟨os, by simp [write_row_loop]⟩
    | cons sc rest =>
      simp only [stack_weight, scope_weight] at h
      omega
  | succ fuel ih =>
    intro stack os h
    cases stack with
    | nil => exact ⟨os, by simp [write_row_loop]⟩
    | cons sc below =>
      simp only [stack_weight] at h
      rw [write_row_loop]
      simp only
      by_cases hself : (sc.current_child_pos.isEmpty &&
          sc.element.ref_type != reference_type.reference_range_field) = true
      · rw [if_pos hself]
        exact ih below _ (by simp only [scope_weight] at h; omega)
      · rw [if_neg hself]
        split
        · rename_i written child rest hw
          refine ih _ _ ?_
          have h1 := write_children_some ref sheet current_row _ _ _ _ hw
          have h2 := scope_init_weight child
          simp only [stack_weight, scope_weight] at h h2 ⊢
          omega
        · exact ih below _ (by simp only [scope_weight] at h; omega)

theorem write_rows_returns (root : element) (ref : range_reference) (sheet : export_sheet) :
    ∀ (count : Nat) (current_row : Int) (os : pstring),
      ∃ out, write_rows root ref sheet count current_row os = .ok out := by
  intro count
  induction count with
  | zero => intro current_row os; exact ⟨os, rfl⟩
  | succ count ih =>
    intro current_row os
    obtain ⟨out, hout⟩ := write_row_loop_returns ref sheet current_row (2 * root.size)
      [scope.init root] os (by
        have := scope_init_weight root
        simp only [stack_weight]
        omega)
    simp only [write_rows, hout]
    exact ih _ _

/-- The range writer returns: the fuel of `write_rows` is never exhausted. -/
theorem write_range_reference_returns (ranges : Nat → range_reference) (elem_top : element)
    (factory : export_factory) (a : Nat) (ha : elem_top.range_parent = some a) :
    ∃ out, write_range_reference ranges elem_top factory = .ok out := by
  unfold write_range_reference
  split_ifs
  · exact ⟨[], rfl⟩
  · cases elem_top.child_elements with
    | nil => exact ⟨[], rfl⟩
    | cons first rest =>
      simp only [ha]
      unfold write_range_reference_group
      cases factory.get_sheet (ranges a).pos.sheet with
      | none => exact ⟨[], rfl⟩
      | some sheet => exact write_rows_returns first (ranges a) sheet _ _ _

theorem input_view_ok (X : pstring) (a b : Nat) (hab : a ≤ b) (hb : b ≤ X.length) :
    input_view X a b = .ok (subview X a (b - a)) := by
  unfold input_view
  simp [hab, hb]

theorem handled_end_le (X : pstring) (e : element) (hv : span_valid X e) :
    handled_end e ≤ e.stream_pos.close_end ∧ e.stream_pos.open_begin ≤ handled_end e := by
  obtain ⟨h1, h2, h3, h4, h5⟩ := hv
  unfold handled_end
  split_ifs <;> omega

theorem write_link_recorded (ndebug : Bool) (fact : export_factory)
    (ranges : Nat → range_reference) (X : pstring) (b : Nat) (e : element)
    (hb : b ≤ e.stream_pos.open_begin) (hstrict : ndebug = false → b < e.stream_pos.open_begin)
    (hv : span_valid X e) (hrec : recorded_link fact ranges e) :
    write_link ndebug fact ranges X b e =
      .ok (subview X b (e.stream_pos.open_begin - b) ++ rewritten_span fact ranges X e,
           handled_end e) := by
  obtain ⟨h1, h2, h3, h4, h5⟩ := hv
  have hassert : cassert ndebug (decide (e.stream_pos.open_begin > b)) = .ok () := by
    unfold cassert
    cases ndebug with
    | true => simp
    | false => simp [hstrict rfl]
  have hgap := input_view_ok X b e.stream_pos.open_begin hb (by omega)
  have hclose := input_view_ok X e.stream_pos.close_begin e.stream_pos.close_end h4 h5
  unfold write_link rewritten_span handled_end
  rcases hrec with ⟨hcell, hsheet⟩ | ⟨hcell, a, hpar, hsheet⟩ | ⟨hcell, hpar, hanchor⟩
  · obtain ⟨sheet, hs⟩ := Option.isSome_iff_exists.mp hsheet
    simp [hcell, hs, hassert, hgap, hclose, bind, Except.bind]
  · obtain ⟨sheet, hs⟩ := Option.isSome_iff_exists.mp hsheet
    obtain ⟨rows, hrows⟩ := write_range_reference_returns ranges e fact a hpar
    have hne : (e.ref_type == reference_type.reference_cell) = false := by simpa using hcell
    simp [hcell, hne, hpar, hs, hassert, hgap, hclose, hrows, returned, bind, Except.bind]
  · have hne : (e.ref_type == reference_type.reference_cell) = false := by simpa using hcell
    simp [hcell, hne, hpar, hanchor, hassert, hgap, bind, Except.bind]

theorem write_links_recorded (ndebug : Bool) (fact : export_factory)
    (ranges : Nat → range_reference) (X : pstring) :
    ∀ (es : List element) (b : Nat) (out : pstring),
      gaps_ok ndebug X b es → (∀ e ∈ es, recorded_link fact ranges e) →
      ∃ r, write_links ndebug fact ranges X b es out = .ok r ∧ r.2 ≤ X.length ∧
        r.1 ++ X.drop r.2 = out ++ expected_output fact ranges X b es := by
  intro es
  induction es with
  | nil =>
    intro b out hg _
    exact ⟨(out, b), rfl, hg, rfl⟩
  | cons e es ih =>
    intro b out hg hrec
    obtain ⟨hb, hstrict, hv, hrest⟩ := hg
    simp only [expected_output] at ih
    have hlink := write_link_recorded ndebug fact ranges X b e hb hstrict hv
      (hrec e (List.mem_cons_self _ _))
    obtain ⟨r, hr, hlen, hout⟩ := ih (handled_end e)
      (out ++ (subview X b (e.stream_pos.open_begin - b) ++ rewritten_span fact ranges X e))
      hrest (fun x hx => hrec x (List.mem_cons_of_mem _ hx))
    refine ⟨r, ?_, hlen, ?_⟩
    · simp only [write_links, hlink]
      exact hr
    · rw [hout]
      simp [expected_output, with_spans, List.append_assoc]

theorem eq_of_map_eq_of_injOn {α β : Type} (f : α → β) (P : α → Prop)
    (hinj : ∀ x y, P x → P y → f x = f y → x = y) :
    ∀ (l1 l2 : List α), l1.map f = l2.map f → (∀ x ∈ l1, P x) → (∀ x ∈ l2, P x) → l1 = l2 := by
  intro l1
  induction l1 with
  | nil =>
    intro l2 h _ _
    cases l2 with
    | nil => rfl
    | cons b l2 => simp at h
  | cons a l1 ih =>
    intro l2 h h1 h2
    cases l2 with
    | nil => simp at h
    | cons b l2 =>
      simp only [List.map_cons, List.cons.injEq] at h
      have hab : a = b :=
        hinj a b (h1 a (List.mem_cons_self _ _)) (h2 b (List.mem_cons_self _ _)) h.1
      rw [hab, ih l2 h.2 (fun x hx => h1 x (List.mem_cons_of_mem _ hx))
        (fun x hx => h2 x (List.mem_cons_of_mem _ hx))]

/-- `std::sort` by opening position arranges recorded elements with
distinct opening positions in document order, whatever order they are
given in. -/
theorem insertionSort_document_order (links es : List element) (hperm : links.Perm es)
    (hsorted : es.Pairwise
      (fun e1 e2 => e1.stream_pos.open_begin < e2.stream_pos.open_begin)) :
    links.insertionSort opens_before = es := by
  have hp : (links.insertionSort opens_before).Perm es :=
    (List.perm_insertionSort opens_before links).trans hperm
  have hs : (links.insertionSort opens_before).Sorted opens_before :=
    List.sorted_insertionSort opens_before links
  have hkeys : (links.insertionSort opens_before).map (fun e => e.stream_pos.open_begin) =
      es.map (fun e => e.stream_pos.open_begin) := by
    have hs1 : ((links.insertionSort opens_before).map
        (fun e => e.stream_pos.open_begin)).Sorted (@LE.le ℕ _) :=
      List.pairwise_map.mpr hs
    have hs2 : (es.map (fun e => e.stream_pos.open_begin)).Sorted (@LE.le ℕ _) :=
      List.pairwise_map.mpr (hsorted.imp (fun h => Nat.le_of_lt h))
    exact List.eq_of_perm_of_sorted (hp.map _) hs1 hs2
  have hinj : ∀ x y : element, x ∈ es → y ∈ es →
      x.stream_pos.open_begin = y.stream_pos.open_begin → x = y := by
    intro x y hx hy hxy
    by_contra hne
    have hpw : es.Pairwise
        (fun e1 e2 => e1.stream_pos.open_begin ≠ e2.stream_pos.open_begin) :=
      hsorted.imp (fun h => Nat.ne_of_lt h)
    exact List.Pairwise.forall (fun _ _ h => h.symm) hpw hx hy hne hxy
  exact eq_of_map_eq_of_injOn (fun e => e.stream_pos.open_begin) (fun e => e ∈ es) hinj _ _
    hkeys (fun x hx => hp.subset hx) (fun x hx => hx)

theorem gaps_ok_of_disjoint (ndebug : Bool) (X : pstring) :
    ∀ (es : List element) (b : Nat), b ≤ X.length →
      (∀ e ∈ es, b ≤ e.stream_pos.open_begin) →
      (∀ e ∈ es, span_valid X e) →
      es.Pairwise (fun e1 e2 => e1.stream_pos.open_begin ≤ e2.stream_pos.open_begin) →
      es.Pairwise spans_disjoint →
      (ndebug = false → strictly_separated b es) →
      gaps_ok ndebug X b es := by
  intro es
  induction es with
  | nil => intro b hb _ _ _ _ _; exact hb
  | cons e es ih =>
    intro b hb hle hvalid hsorted hdisj hstrict
    have hv := hvalid e (List.mem_cons_self _ _)
    have hend := handled_end_le X e hv
    obtain ⟨hs1, hs2⟩ := List.pairwise_cons.mp hsorted
    obtain ⟨hd1, hd2⟩ := List.pairwise_cons.mp hdisj
    refine ⟨hle e (List.mem_cons_self _ _), fun hn => (hstrict hn).1, hv, ?_⟩
    refine ih (handled_end e) (by have := hv.2.2.2.2; omega) ?_
      (fun x hx => hvalid x (List.mem_cons_of_mem _ hx)) hs2 hd2 (fun hn => (hstrict hn).2)
    intro x hx
    have hvx := hvalid x (List.mem_cons_of_mem _ hx)
    have h1 := hs1 x hx
    have h2 := hd1 x hx
    unfold spans_disjoint at h2
    obtain ⟨hx1, hx2, _⟩ := hvx
    obtain ⟨he1, he2, _⟩ := hv
    omega

theorem subview_append_drop (X : pstring) (a b : Nat) (hab : a ≤ b) :
    subview X a (b - a) ++ X.drop b = X.drop a := by
  unfold subview
  have h : X.drop b = (X.drop a).drop (b - a) := by
    rw [List.drop_drop]
    congr 1
    omega
  rw [h, List.take_append_drop]

theorem with_spans_original (ndebug : Bool) (X : pstring) :
    ∀ (es : List element) (b : Nat), gaps_ok ndebug X b es →
      with_spans X (original_span X) b es = X.drop b := by
  intro es
  induction es with
  | nil => intro b _; rfl
  | cons e es ih =>
    intro b hg
    obtain ⟨hb, _, hv, hrest⟩ := hg
    have hend := handled_end_le X e hv
    simp only [with_spans, original_span]
    rw [ih (handled_end e) hrest, List.append_assoc,
      subview_append_drop X _ _ hend.2, subview_append_drop X _ _ hb]

/-- C1: for every XML input `X` and every list of recorded elements whose
spans are valid and pairwise disjoint, with their export sheets present,
`orcus_xml::write` emits, for the elements `es` in document order, the input
up to the first element, a rewritten span for it, the bytes of the input
between consecutive handled spans, and finally the input from the end of the
last handled span on. The input itself is the same interleaving with the
original bytes of each handled span in place of the rewritten span, so every
byte outside the handled spans is in the output verbatim and in its original
order. Where assertions are compiled in (`ndebug = false`) this is for
elements that begin strictly after the cursor, as `write` asserts. -/
theorem write_preserves_bytes_outside_spans (ndebug : Bool) (fact : export_factory)
    (ranges : Nat → range_reference) (X : pstring) (links es : List element)
    (hperm : links.Perm es) (hne : es ≠ [])
    (horder : es.Pairwise
      (fun e1 e2 => e1.stream_pos.open_begin ≤ e2.stream_pos.open_begin))
    (hvalid : ∀ e ∈ es, span_valid X e)
    (hdisj : es.Pairwise spans_disjoint)
    (hrec : ∀ e ∈ es, recorded_link fact ranges e)
    (hassert : ndebug = false → strictly_separated 0 es) :
    write ndebug (some fact) ranges links X =
      .ok (with_spans X (rewritten_span fact ranges X) 0 es) ∧
    X = with_spans X (original_span X) 0 es := by
  have hstrict : es.Pairwise
      (fun e1 e2 => e1.stream_pos.open_begin < e2.stream_pos.open_begin) := by
    refine List.Pairwise.imp_of_mem ?_ (horder.and hdisj)
    intro a b ha hb hab
    obtain ⟨h1, h2⟩ := hab
    obtain ⟨ha1, ha2, _⟩ := hvalid a ha
    obtain ⟨hb1, hb2, _⟩ := hvalid b hb
    unfold spans_disjoint at h2
    omega
  have hsort := insertionSort_document_order links es hperm hstrict
  have hgaps := gaps_ok_of_disjoint ndebug X es 0 (Nat.zero_le _) (fun _ _ => Nat.zero_le _)
    hvalid horder hdisj hassert
  obtain ⟨r, hr, hlen, hout⟩ := write_links_recorded ndebug fact ranges X es 0 [] hgaps hrec
  refine ⟨?_, by rw [with_spans_original ndebug X es 0 hgaps]; rfl⟩
  obtain ⟨e, es1, rfl⟩ := List.exists_cons_of_ne_nil hne
  have hX : (X.length == 0) = false := by
    obtain ⟨h1, h2, _, _, h5⟩ := hvalid e (List.mem_cons_self _ _)
    simp only [beq_eq_false_iff_ne, ne_eq]
    omega
  have hlinks : links.isEmpty = false := by
    cases links with
    | nil => exact absurd hperm.symm (List.cons_ne_nil _ _ ∘ List.Perm.eq_nil)
    | cons x xs => rfl
  unfold write
  simp only [hX, hlinks, Bool.false_eq_true, if_false, hsort, hr,
    input_view_ok X r.2 X.length hlen (le_refl _)]
  have hsub : subview X r.2 (X.length - r.2) = X.drop r.2 := by
    unfold subview
    rw [List.take_of_length_le]
    simp
  rw [hsub, hout]
  rfl

/-- C1 at scenario S5: the comments and the line breaks around `<r>...</r>`
are copied verbatim and the attribute values read `z1` and `z2`. -/
theorem write_preserves_bytes_outside_spans_witness :
    write false (some s5_fact) s5_ranges [s5_link] s5_input =
      .ok "<!-- head -->\n<r><it n=\"z1\"/><it n=\"z2\"/></r>\n<!-- tail -->".toList ∧
    s5_input = with_spans s5_input (original_span s5_input) 0 [s5_link] :=
  write_preserves_bytes_outside_spans false s5_fact s5_ranges s5_input [s5_link] [s5_link]
    (List.Perm.refl _) (by simp) (by simp)
    (by
      intro e he
      simp only [List.mem_singleton] at he
      subst he
      exact ⟨by decide, by decide, by decide, by decide, by decide⟩)
    (by simp)
    (by
      intro e he
      simp only [List.mem_singleton] at he
      subst he
      exact Or.inr (Or.inl ⟨by decide, 0, rfl, rfl⟩))
    (fun _ => ⟨by decide, trivial⟩)

/-- What the code does with every unknown name: for a reference whose name
is non-empty, holds no semicolon, is none of the five predefined names and
does not begin with `#`, `parse_encoded_char` appends the name and the
semicolon, without the ampersand, and leaves the cursor past the semicolon. -/
theorem unknown_reference_appends_name (ndebug : Bool) (pre name rest buf : pstring)
    (hname : ∀ c ∈ name, c ≠ ';') (hne : name ≠ [])
    (hother : name ∉ ["lt".toList, "gt".toList, "amp".toList, "apos".toList, "quot".toList])
    (hnum : name.headD NUL ≠ '#') :
    parse_encoded_char ndebug ⟨pre, '&' :: (name ++ ';' :: rest)⟩ buf =
      .ok (⟨pre ++ '&' :: (name ++ [';']), rest⟩, buf ++ (name ++ [';'])) := by
  rw [parse_encoded_char_reference ndebug pre name rest buf hname hne,
    decode_xml_encoded_char_other name hother]
  have hu : decode_xml_unicode_char ndebug name name.length = .ok [] := by
    unfold decode_xml_unicode_char
    have : (name.headD NUL == '#') = false := by
      simp only [beq_eq_false_iff_ne, ne_eq]
      exact hnum
    rw [this, Bool.false_and, if_neg Bool.false_ne_true]
  simp [hu]

/-- C8 at a name outside the table: `nbsp` is not decoded. -/
theorem entity_decoder_table_witness : decode_xml_encoded_char "nbsp".toList 4 = NUL :=
  entity_decoder_table.2.2.2.2.2.2 "nbsp".toList (by decide)

/-- C11: on the empty reference, a semicolon right after the ampersand,
`parse_encoded_char` raises `malformed_xml_error`, wherever the reference
stands and whatever follows it. The throw precedes every `buf.append` of the
function (in the embedding only a normal return carries a buffer), so
nothing is appended. -/
theorem parse_encoded_char_empty_reference (ndebug : Bool) (pre rest buf : pstring) :
    parse_encoded_char ndebug ⟨pre, '&' :: ';' :: rest⟩ buf = .error .malformed_xml_error := by
  simp [parse_encoded_char, cassert, parser_base.cur_char, parser_base.has_char,
    parser_base.next, parser_base.offset, parse_encoded_char_scan, bind, Except.bind]

/-- C12 (what the code does): the reference `&#1114112;` denotes `0x110000`,
the first value above `0x10FFFF`. With assertions compiled out (`NDEBUG`)
`decode_xml_unicode_char` returns the empty string for it and
`parse_encoded_char` then takes the name for an unknown one: the text
`#1114112;` is appended and the parse goes on; the same happens to
`&#x110000;`. With assertions enabled the call stops at `assert(false)`. -/
theorem out_of_range_reference_passes_as_text :
    decode_xml_unicode_char true "#1114112".toList 8 = .ok [] ∧
    parse_encoded_char true ⟨"<t>".toList, "&#1114112;</t>".toList⟩ [] =
      .ok (⟨"<t>&#1114112;".toList, "</t>".toList⟩, "#1114112;".toList) ∧
    parse_encoded_char true ⟨"<t>".toList, "&#x110000;</t>".toList⟩ [] =
      .ok (⟨"<t>&#x110000;".toList, "</t>".toList⟩, "#x110000;".toList) ∧
    parse_encoded_char false ⟨"<t>".toList, "&#1114112;</t>".toList⟩ [] =
      .error .assertion_failed := by
  decide

theorem value_loop_skip (ndebug ts decode : Bool) (q : Char) (p0 : Nat) (str : view)
    (t : pstring) :
    ∀ (s cons : pstring), (∀ c ∈ s, c ≠ q ∧ (decode = true → c ≠ '&')) →
      value_loop ndebug ts decode q p0 str cons (s ++ t) =
        value_loop ndebug ts decode q p0 str (cons ++ s) t := by
  intro s
  induction s with
  | nil => intro cons _; simp
  | cons c s ih =>
    intro cons h
    obtain ⟨hq, hamp⟩ := h c (List.mem_cons_self _ _)
    have hd : (decode && c == '&') = false := by
      cases decode with
      | false => rfl
      | true => simpa using hamp rfl
    rw [List.cons_append, value_loop]
    simp only [bne_iff_ne, ne_eq, hq, not_false_eq_true, if_true, hd, Bool.false_eq_true,
      if_false]
    rw [ih (cons ++ [c]) (fun d hd => h d (List.mem_cons_of_mem _ hd))]
    simp

theorem value_enter (ndebug ts decode : Bool) (pre : pstring) (q : Char) (str : view)
    (hq : q = QUOT ∨ q = APOS) (c : Char) (t : pstring) :
    value ndebug ts ⟨pre, q :: c :: t⟩ str decode =
      value_loop ndebug ts decode q (pre.length + 1) str (pre ++ [q]) (c :: t) := by
  have h : (q != QUOT && q != APOS) = false := by
    rcases hq with rfl | rfl <;> decide
  simp [value, parser_base.has_char, parser_base.cur_char, parser_base.next_char_checked,
    parser_base.next, parser_base.offset, h, bind, Except.bind]

/-- The fast path of `value`: a quoted run of bytes with no closing quote
and, when decoding, no ampersand inside is returned as a slice of the
stream, with the flag of the stream. -/
theorem value_fast_path (ndebug ts decode : Bool) (pre s rest : pstring) (q : Char) (str : view)
    (hq : q = QUOT ∨ q = APOS) (hs : ∀ c ∈ s, c ≠ q ∧ (decode = true → c ≠ '&')) :
    value ndebug ts ⟨pre, q :: (s ++ q :: rest)⟩ str decode =
      .ok (⟨pre ++ q :: (s ++ [q]), rest⟩, view.stream (pre.length + 1) s.length, ts) := by
  obtain ⟨c, t, hct⟩ : ∃ c t, s ++ q :: rest = c :: t := by
    cases s with
    | nil => exact ⟨q, rest, rfl⟩
    | cons c s => exact ⟨c, s ++ q :: rest, rfl⟩
  rw [hct, value_enter ndebug ts decode pre q str hq c t, ← hct,
    value_loop_skip ndebug ts decode q _ str (q :: rest) s (pre ++ [q]) hs, value_loop]
  simp
  omega

theorem view_stream_bytes (pre s rest : pstring) (q : Char) :
    (view.stream (pre.length + 1) s.length).bytes (pre ++ q :: (s ++ rest)) = s := by
  simp [view.bytes, subview]

/-- C14: entered on a quote `q`, single or double, followed by bytes `s`
holding neither `q` nor an ampersand and then `q`, `value` returns exactly
`s`, as the slice of the stream between the quotes, and leaves the cursor
just past the closing `q`; entered on any other character it raises
`malformed_xml_error`. -/
theorem value_strips_matching_quotes (ndebug transient_stream decode : Bool)
    (pre rest : pstring) (str : view) :
    (∀ (q : Char) (s : pstring), (q = QUOT ∨ q = APOS) → (∀ c ∈ s, c ≠ q ∧ c ≠ '&') →
      value ndebug transient_stream ⟨pre, q :: (s ++ q :: rest)⟩ str decode =
        .ok (⟨pre ++ q :: (s ++ [q]), rest⟩, view.stream (pre.length + 1) s.length,
          transient_stream) ∧
      (view.stream (pre.length + 1) s.length).bytes (pre ++ q :: (s ++ q :: rest)) = s) ∧
    (∀ c : Char, c ≠ QUOT → c ≠ APOS →
      value ndebug transient_stream ⟨pre, c :: rest⟩ str decode =
        .error .malformed_xml_error) := by
  refine ⟨?_, ?_⟩
  · intro q s hq hs
    exact ⟨value_fast_path ndebug transient_stream decode pre s rest q str hq
      (fun c hc => ⟨(hs c hc).1, fun _ => (hs c hc).2⟩), view_stream_bytes pre s _ q⟩
  · intro c h1 h2
    have h : (c != QUOT && c != APOS) = true := by simp [h1, h2]
    simp [value, parser_base.has_char, parser_base.cur_char, h]

/-- C14 on the attribute value of `<a b="x'y" c`: the double quotes are
stripped, the single quote inside stays, and an unquoted value is refused. -/
theorem value_strips_matching_quotes_witness :
    value false false ⟨"<a b=".toList, "\"x'y\" c".toList⟩ (.stream 0 0) true =
      .ok (⟨"<a b=\"x'y\"".toList, " c".toList⟩, view.stream 6 3, false) ∧
    (view.stream 6 3).bytes "<a b=\"x'y\" c".toList = "x'y".toList ∧
    value false false ⟨"<a b=".toList, "x c".toList⟩ (.stream 0 0) true =
      .error .malformed_xml_error :=
  have h := value_strips_matching_quotes false false true "<a b=".toList " c".toList (.stream 0 0)
  have h1 := h.1 QUOT "x'y".toList (Or.inl rfl) (by decide)
  ⟨h1.1, h1.2, h.2 'x' (by decide) (by decide)⟩

theorem parse_encoded_char_scan_progress (ndebug : Bool) (p0 : Nat) (buf : pstring) :
    ∀ (rem cons : pstring) (q : parser_base) (b : pstring), p0 ≤ cons.length →
      parse_encoded_char_scan ndebug p0 buf cons rem = .ok (q, b) →
        q.remaining.length < rem.length ∧ b ≠ [] := by
  intro rem
  induction rem with
  | nil => intro cons q b _ h; simp [parse_encoded_char_scan] at h
  | cons c rest ih =>
    intro cons q b hp0 h
    rw [parse_encoded_char_scan] at h
    by_cases hc : c = ';'
    · subst hc
      simp only [bne_self_eq_false, Bool.false_eq_true, if_false] at h
      cases hn : (cons.length - p0 == 0) with
      | true => simp [hn] at h
      | false =>
        simp only [hn, Bool.false_eq_true, if_false] at h
        have hlt : p0 < cons.length := by
          have : cons.length - p0 ≠ 0 := by simpa using hn
          omega
        have hdrop : (cons ++ [';']).drop p0 ≠ [] := by
          intro hnil
          have := congrArg List.length hnil
          simp only [List.length_drop, List.length_append, List.length_singleton,
            List.length_nil] at this
          omega
        cases h1 : (decode_xml_encoded_char (cons.drop p0) (cons.length - p0) != NUL) with
        | true =>
          simp only [h1, if_true, Except.ok.injEq, Prod.mk.injEq] at h
          obtain ⟨rfl, rfl⟩ := h
          exact ⟨by simp, by simp⟩
        | false =>
          simp only [h1, Bool.false_eq_true, if_false] at h
          cases hu : decode_xml_unicode_char ndebug (cons.drop p0) (cons.length - p0) with
          | error e => simp [hu, bind, Except.bind] at h
          | ok utf8 =>
            simp only [hu, bind, Except.bind] at h
            cases h2 : utf8.isEmpty with
            | false =>
              simp only [h2, Bool.not_false, if_true, Except.ok.injEq, Prod.mk.injEq] at h
              obtain ⟨rfl, rfl⟩ := h
              refine ⟨by simp, ?_⟩
              intro hnil
              have : utf8 = [] := (List.append_eq_nil.mp hnil).2
              simp [this] at h2
            | true =>
              simp only [h2, Bool.not_true, Bool.false_eq_true, if_false, Except.ok.injEq,
                Prod.mk.injEq] at h
              obtain ⟨rfl, rfl⟩ := h
              refine ⟨by simp, ?_⟩
              intro hnil
              exact hdrop (List.append_eq_nil.mp hnil).2
    · have hc2 : (c != ';') = true := by simpa using hc
      simp only [hc2, if_true] at h
      obtain ⟨h1, h2⟩ := ih (cons ++ [c]) q b (by simp; omega) h
      exact ⟨by simp only [List.length_cons]; omega, h2⟩

theorem parse_encoded_char_progress (ndebug : Bool) (p q : parser_base) (buf b : pstring)
    (h : parse_encoded_char ndebug p buf = .ok (q, b)) :
    q.remaining.length < p.remaining.length ∧ b ≠ [] := by
  obtain ⟨cons, rem⟩ := p
  unfold parse_encoded_char at h
  cases ha : cassert ndebug (parser_base.cur_char ⟨cons, rem⟩ == '&') with
  | error e => simp [ha, bind, Except.bind] at h
  | ok u =>
    simp only [ha, bind, Except.bind] at h
    cases rem with
    | nil => simp [parser_base.has_char] at h
    | cons c rest =>
      simp only [parser_base.has_char, parser_base.next, parser_base.offset, List.isEmpty_cons,
        Bool.not_false, Bool.false_eq_true, if_false] at h
      obtain ⟨h1, h2⟩ := parse_encoded_char_scan_progress ndebug _ buf rest _ q b (le_refl _) h
      exact ⟨by simp only [List.length_cons]; omega, h2⟩

theorem value_loop_end (ndebug : Bool) (q : Char) (fuel p0 : Nat) (cons buf : pstring) :
    value_with_encoded_char_loop ndebug q (fuel + 1) p0 ⟨cons, []⟩ buf =
      .ok (⟨cons, []⟩, p0, buf) := by
  rw [value_with_encoded_char_loop]
  simp [parser_base.has_char]

theorem value_loop_text (ndebug : Bool) (q : Char) (fuel p0 : Nat) (cons rem buf : pstring)
    (c : Char) (h1 : c ≠ '&') (h2 : c ≠ q) :
    value_with_encoded_char_loop ndebug q (fuel + 1) p0 ⟨cons, c :: rem⟩ buf =
      value_with_encoded_char_loop ndebug q fuel p0 ⟨cons ++ [c], rem⟩ buf := by
  rw [value_with_encoded_char_loop]
  simp [parser_base.has_char, parser_base.cur_char, parser_base.next, h1, h2, bind, Except.bind]

theorem value_loop_stop (ndebug : Bool) (q : Char) (hq : q ≠ '&') (fuel p0 : Nat)
    (cons rem buf : pstring) :
    value_with_encoded_char_loop ndebug q (fuel + 1) p0 ⟨cons, q :: rem⟩ buf =
      .ok (⟨cons, q :: rem⟩, p0, buf) := by
  rw [value_with_encoded_char_loop]
  simp [parser_base.has_char, parser_base.cur_char, bind, Except.bind, hq]

theorem value_loop_reference (ndebug : Bool) (q : Char) (fuel p0 : Nat)
    (cons rem buf : pstring) (hp0 : p0 ≤ cons.length) :
    value_with_encoded_char_loop ndebug q (fuel + 1) p0 ⟨cons, '&' :: rem⟩ buf =
      match parse_encoded_char ndebug ⟨cons, '&' :: rem⟩ (buf ++ cons.drop p0) with
      | .error e => .error e
      | .ok (qc, b2) =>
        if !qc.has_char then .error .undefined_behaviour
        else if qc.cur_char == q then .ok (qc, qc.offset, b2)
        else if qc.cur_char != '&' then
          value_with_encoded_char_loop ndebug q fuel qc.offset qc.next b2
        else value_with_encoded_char_loop ndebug q fuel qc.offset qc b2 := by
  rw [value_with_encoded_char_loop]
  have hb : (if cons.length > p0 then buf ++ cons.drop p0 else buf) = buf ++ cons.drop p0 := by
    split_ifs with h
    · rfl
    · have : p0 = cons.length := by omega
      simp [this]
  simp only [parser_base.has_char, parser_base.cur_char, parser_base.offset,
    List.isEmpty_cons, Bool.not_false, Bool.false_eq_true, if_false, List.headD_cons,
    beq_self_eq_true, if_true, hb, bind, Except.bind]
  cases hparse : parse_encoded_char ndebug ⟨cons, '&' :: rem⟩ (buf ++ cons.drop p0) with
  | error e => rfl
  | ok r =>
    obtain ⟨qc, b2⟩ := r
    simp only []
    cases hh : qc.remaining.isEmpty <;> simp [hh]

theorem stoi_fuel (s : pstring) (base : Nat) : stoi s base ≠ .error .out_of_fuel := by
  unfold stoi
  simp only []
  split_ifs <;> simp

theorem decode_xml_unicode_char_fuel (ndebug : Bool) (p : pstring) (n : Nat) :
    decode_xml_unicode_char ndebug p n ≠ .error .out_of_fuel := by
  have hs : ∀ (x : Except failure Int), x ≠ .error .out_of_fuel →
      (do
        let v ← x
        let point : Nat := (v % 4294967296).toNat
        if point < 0x110000 then .ok (utf8_bytes point)
        else do
          cassert ndebug false
          .ok [] : Except failure pstring) ≠ .error .out_of_fuel := by
    intro x hx
    cases x with
    | error e =>
      simp only [bind, Except.bind]
      intro h
      simp only [Except.error.injEq] at h
      exact hx (by rw [h])
    | ok v =>
      simp only [bind, Except.bind]
      split_ifs
      · simp
      · cases ndebug <;> simp [cassert]
  unfold decode_xml_unicode_char
  split_ifs with h1 h2 h3
  · exact hs _ (by simp)
  · exact hs _ (stoi_fuel _ _)
  · exact hs _ (stoi_fuel _ _)
  · simp

theorem parse_encoded_char_scan_fuel (ndebug : Bool) (p0 : Nat) (buf : pstring) :
    ∀ (rem cons : pstring),
      parse_encoded_char_scan ndebug p0 buf cons rem ≠ .error .out_of_fuel := by
  intro rem
  induction rem with
  | nil => intro cons; simp [parse_encoded_char_scan]
  | cons c rest ih =>
    intro cons
    rw [parse_encoded_char_scan]
    cases hc : (c != ';') with
    | true =>
      simp only [if_true]
      exact ih _
    | false =>
      simp only [Bool.false_eq_true, if_false]
      cases hn : (cons.length - p0 == 0) with
      | true => simp
      | false =>
        simp only [Bool.false_eq_true, if_false]
        cases h1 : (decode_xml_encoded_char (cons.drop p0) (cons.length - p0) != NUL) with
        | true => simp
        | false =>
          simp only [Bool.false_eq_true, if_false]
          have := decode_xml_unicode_char_fuel ndebug (cons.drop p0) (cons.length - p0)
          cases hu : decode_xml_unicode_char ndebug (cons.drop p0) (cons.length - p0) with
          | error e =>
            simp only [bind, Except.bind]
            intro h
            simp only [Except.error.injEq] at h
            rw [hu, h] at this
            exact this rfl
          | ok utf8 =>
            simp only [bind, Except.bind]
            split_ifs <;> simp

theorem parse_encoded_char_fuel (ndebug : Bool) (p : parser_base) (buf : pstring) :
    parse_encoded_char ndebug p buf ≠ .error .out_of_fuel := by
  unfold parse_encoded_char
  cases ha : cassert ndebug (p.cur_char == '&') with
  | error e =>
    have : e = .assertion_failed := by
      unfold cassert at ha
      split_ifs at ha
      simp only [Except.error.injEq] at ha
      exact ha.symm
    subst this
    simp [bind, Except.bind]
  | ok u =>
    simp only [bind, Except.bind]
    split_ifs
    · simp
    · exact parse_encoded_char_scan_fuel ndebug _ buf _ _

theorem value_loop_total (ndebug : Bool) (q : Char) (hq : q ≠ '&') :
    ∀ (fuel p0 : Nat) (cons rem buf : pstring), rem.length < fuel → p0 ≤ cons.length →
      value_with_encoded_char_loop ndebug q fuel p0 ⟨cons, rem⟩ buf ≠ .error .out_of_fuel ∧
      ∀ r, value_with_encoded_char_loop ndebug q fuel p0 ⟨cons, rem⟩ buf = .ok r →
        buf ≠ [] → r.2.2 ≠ [] := by
  intro fuel
  induction fuel with
  | zero => intro p0 cons rem buf h; omega
  | succ fuel ih =>
    intro p0 cons rem buf hfuel hp0
    cases rem with
    | nil =>
      rw [value_loop_end]
      refine ⟨by simp, ?_⟩
      intro r hr hb
      simp only [Except.ok.injEq] at hr
      rw [← hr]
      exact hb
    | cons c rem =>
      by_cases hamp : c = '&'
      · subst hamp
        rw [value_loop_reference ndebug q fuel p0 cons rem buf hp0]
        cases hparse : parse_encoded_char ndebug ⟨cons, '&' :: rem⟩ (buf ++ cons.drop p0) with
        | error e =>
          have := parse_encoded_char_fuel ndebug ⟨cons, '&' :: rem⟩ (buf ++ cons.drop p0)
          rw [hparse] at this
          dsimp only
          refine ⟨?_, ?_⟩
          · intro h
            simp only [Except.error.injEq] at h
            subst h
            exact this rfl
          · intro r hr
            simp at hr
        | ok res =>
          obtain ⟨qc, b2⟩ := res
          obtain ⟨hprog, hb2⟩ := parse_encoded_char_progress ndebug _ qc _ b2 hparse
          obtain ⟨qcons, qrem⟩ := qc
          simp only [List.length_cons] at hprog hfuel
          dsimp only
          cases qrem with
          | nil =>
            simp [parser_base.has_char]
          | cons d qrem =>
            simp only [parser_base.has_char, parser_base.cur_char, parser_base.offset,
              parser_base.next, List.isEmpty_cons, Bool.not_false, Bool.not_true,
              Bool.false_eq_true, if_false, List.headD_cons]
            simp only [List.length_cons] at hprog
            by_cases h1 : (d == q) = true
            · simp only [h1, if_true]
              refine ⟨by simp, ?_⟩
              intro r hr _
              simp only [Except.ok.injEq] at hr
              rw [← hr]
              exact hb2
            · rw [if_neg h1]
              by_cases h2 : (d != '&') = true
              · rw [if_pos h2]
                obtain ⟨i1, i2⟩ := ih qcons.length (qcons ++ [d]) qrem b2 (by omega) (by simp)
                exact ⟨i1, fun r hr _ => i2 r hr hb2⟩
              · rw [if_neg h2]
                obtain ⟨i1, i2⟩ := ih qcons.length qcons (d :: qrem) b2
                  (by simp only [List.length_cons]; omega) (le_refl _)
                exact ⟨i1, fun r hr _ => i2 r hr hb2⟩
      · by_cases hquote : c = q
        · subst hquote
          rw [value_loop_stop ndebug c hq]
          refine ⟨by simp, ?_⟩
          intro r hr hb
          simp only [Except.ok.injEq] at hr
          rw [← hr]
          exact hb
        · rw [value_loop_text ndebug q fuel p0 cons rem buf c hamp hquote]
          simp only [List.length_cons] at hfuel
          exact ih p0 (cons ++ [c]) rem buf (by omega) (by simp; omega)

/-- `value_with_encoded_char` does not run out of fuel, and when it returns,
`str` is the (non-empty) cell buffer. -/
theorem value_with_encoded_char_buffer (ndebug : Bool) (q : Char) (hq : q ≠ '&')
    (p : parser_base) (buf : pstring) (str : view) :
    value_with_encoded_char ndebug p buf str q ≠ .error .out_of_fuel ∧
    ∀ r, value_with_encoded_char ndebug p buf str q = .ok r →
      r.2.2 = view.buffer r.2.1 ∧ r.2.1 ≠ [] := by
  unfold value_with_encoded_char
  cases ha : cassert ndebug (p.cur_char == '&') with
  | error e =>
    have : e = .assertion_failed := by
      unfold cassert at ha
      split_ifs at ha
      simp only [Except.error.injEq] at ha
      exact ha.symm
    subst this
    simp [bind, Except.bind]
  | ok u =>
    simp only [bind, Except.bind]
    cases hparse : parse_encoded_char ndebug p buf with
    | error e =>
      have := parse_encoded_char_fuel ndebug p buf
      rw [hparse] at this
      dsimp only
      refine ⟨?_, by simp⟩
      intro h
      simp only [Except.error.injEq] at h
      subst h
      exact this rfl
    | ok res =>
      obtain ⟨p1, buf1⟩ := res
      obtain ⟨_, hb1⟩ := parse_encoded_char_progress ndebug _ p1 _ buf1 hparse
      obtain ⟨c1, r1⟩ := p1
      obtain ⟨t1, t2⟩ := value_loop_total ndebug q hq (r1.length + 1) c1.length c1 r1 buf1
        (by omega) (le_refl _)
      dsimp only [parser_base.offset]
      cases hloop : value_with_encoded_char_loop ndebug q (r1.length + 1) c1.length ⟨c1, r1⟩ buf1 with
      | error e =>
        rw [hloop] at t1
        dsimp only
        refine ⟨?_, by simp⟩
        intro h
        simp only [Except.error.injEq] at h
        subst h
        exact t1 rfl
      | ok res2 =>
        obtain ⟨p2, p0, buf2⟩ := res2
        have hb2 : buf2 ≠ [] := t2 _ hloop hb1
        have hb3 : (if p2.consumed.length > p0 then buf2 ++ p2.consumed.drop p0 else buf2) ≠ [] := by
          split_ifs
          · simp [hb2]
          · exact hb2
        dsimp only
        generalize (if p2.consumed.length > p0 then buf2 ++ p2.consumed.drop p0 else buf2) = B
          at hb3 ⊢
        have he : B.isEmpty = false := by
          cases B with
          | nil => exact absurd rfl hb3
          | cons a l => rfl
        cases hc : cassert ndebug (!p2.has_char || p2.cur_char == q) with
        | error e =>
          have : e = .assertion_failed := by
            unfold cassert at hc
            split_ifs at hc
            simp only [Except.error.injEq] at hc
            exact hc.symm
          subst this
          simp
        | ok u2 =>
          dsimp only
          by_cases hh : (!p2.has_char) = true
          · rw [if_pos hh]
            simp
          · rw [if_neg hh]
            refine ⟨by simp, ?_⟩
            intro r hr
            simp only [Except.ok.injEq] at hr
            rw [← hr]
            simp only [he, Bool.not_false, if_true]
            exact ⟨trivial, hb3⟩

theorem value_loop_ampersand (ndebug ts : Bool) (q : Char) (hq : q ≠ '&') (p0 : Nat)
    (str : view) (t : pstring) :
    ∀ (s cons : pstring), '&' ∈ s → (∀ c ∈ s, c ≠ q) →
      value_loop ndebug ts true q p0 str cons (s ++ t) ≠ .error .out_of_fuel ∧
      ∀ r, value_loop ndebug ts true q p0 str cons (s ++ t) = .ok r →
        r.2.2 = true ∧ ∃ content, r.2.1 = view.buffer content := by
  intro s
  induction s with
  | nil => intro cons h; simp at h
  | cons c s ih =>
    intro cons hmem hs
    have hc : c ≠ q := hs c (List.mem_cons_self _ _)
    rw [List.cons_append, value_loop]
    simp only [bne_iff_ne, ne_eq, hc, not_false_eq_true, if_true, Bool.true_and]
    by_cases hamp : c = '&'
    · subst hamp
      simp only [beq_self_eq_true, if_true]
      obtain ⟨e1, e2⟩ := value_with_encoded_char_buffer ndebug q hq ⟨cons, '&' :: (s ++ t)⟩
        (cons.drop p0) str
      cases hv : value_with_encoded_char ndebug ⟨cons, '&' :: (s ++ t)⟩ (cons.drop p0) str q with
      | error e =>
        rw [hv] at e1
        simp only [bind, Except.bind]
        refine ⟨?_, by simp⟩
        intro h
        simp only [Except.error.injEq] at h
        subst h
        exact e1 rfl
      | ok res =>
        obtain ⟨qc, b, str1⟩ := res
        obtain ⟨h1, _⟩ := e2 _ hv
        simp only [bind, Except.bind]
        refine ⟨by simp, ?_⟩
        intro r hr
        simp only [Except.ok.injEq] at hr
        rw [← hr]
        exact ⟨rfl, b, h1⟩
    · have hb : (c == '&') = false := by simpa using hamp
      simp only [hb, Bool.false_eq_true, if_false]
      have hmem2 : '&' ∈ s := by
        rcases List.mem_cons.mp hmem with h | h
        · exact absurd h.symm hamp
        · exact h
      exact ih (cons ++ [c]) hmem2 (fun d hd => hs d (List.mem_cons_of_mem _ hd))

theorem value_loop_reference_ok (ndebug : Bool) (q : Char) (fuel p0 : Nat)
    (cons rem buf : pstring) (hp0 : p0 ≤ cons.length)
    (qc : pstring) (r : Char) (rs b2 : pstring)
    (hparse : parse_encoded_char ndebug ⟨cons, '&' :: rem⟩ (buf ++ cons.drop p0) =
      .ok (⟨qc, r :: rs⟩, b2)) :
    value_with_encoded_char_loop ndebug q (fuel + 1) p0 ⟨cons, '&' :: rem⟩ buf =
      if r == q then .ok (⟨qc, r :: rs⟩, qc.length, b2)
      else if r != '&' then
        value_with_encoded_char_loop ndebug q fuel qc.length ⟨qc ++ [r], rs⟩ b2
      else value_with_encoded_char_loop ndebug q fuel qc.length ⟨qc, r :: rs⟩ b2 := by
  rw [value_loop_reference ndebug q fuel p0 cons rem buf hp0, hparse]
  simp [parser_base.has_char, parser_base.cur_char, parser_base.offset, parser_base.next]

theorem value_loop_text_run (ndebug : Bool) (q : Char) (p0 : Nat) (buf rem : pstring) :
    ∀ (t cons : pstring) (fuel : Nat), (∀ c ∈ t, c ≠ '&' ∧ c ≠ q) →
      value_with_encoded_char_loop ndebug q (fuel + t.length) p0 ⟨cons, t ++ rem⟩ buf =
        value_with_encoded_char_loop ndebug q fuel p0 ⟨cons ++ t, rem⟩ buf := by
  intro t
  induction t with
  | nil => intro cons fuel _; simp
  | cons c t ih =>
    intro cons fuel h
    have hc := h c (List.mem_cons_self _ _)
    rw [List.length_cons, ← Nat.add_assoc, List.cons_append,
      value_loop_text ndebug q _ p0 cons (t ++ rem) buf c hc.1 hc.2,
      ih (cons ++ [c]) fuel (fun d hd => h d (List.mem_cons_of_mem _ hd))]
    simp

theorem value_loop_decodes (ndebug : Bool) (q : Char) (hq : q ≠ '&') (rest : pstring) :
    ∀ (segs : List (char_reference × pstring)),
      (∀ s ∈ segs, s.1.valid ∧ ∀ c ∈ s.2, c ≠ '&' ∧ c ≠ q) →
      ∀ (cons buf : pstring) (p0 fuel : Nat), p0 ≤ cons.length →
        (encoded_text segs).length < fuel →
        ∃ q0 b,
          value_with_encoded_char_loop ndebug q fuel p0
              ⟨cons, encoded_text segs ++ q :: rest⟩ buf =
            .ok (⟨cons ++ encoded_text segs, q :: rest⟩, q0, b) ∧
          b ++ (cons ++ encoded_text segs).drop q0 =
            buf ++ cons.drop p0 ++ decoded_text segs := by
  have hqq : ('&' == q) = false := by
    simp only [beq_eq_false_iff_ne, ne_eq]
    exact fun h => hq h.symm
  intro segs
  induction segs with
  | nil =>
    intro _ cons buf p0 fuel hp0 hfuel
    obtain ⟨f, rfl⟩ : ∃ f, fuel = f + 1 := ⟨fuel - 1, by omega⟩
    refine ⟨p0, buf, ?_, ?_⟩
    · simp only [encoded_text, List.nil_append, List.append_nil]
      exact value_loop_stop ndebug q hq f p0 cons rest buf
    · simp [encoded_text, decoded_text]
  | cons s segs ih =>
    intro hgood cons buf p0 fuel hp0 hfuel
    obtain ⟨e, t1⟩ := s
    have hs := hgood (e, t1) (List.mem_cons_self _ _)
    have hrest : ∀ s ∈ segs, s.1.valid ∧ ∀ c ∈ s.2, c ≠ '&' ∧ c ≠ q :=
      fun s hs => hgood s (List.mem_cons_of_mem _ hs)
    obtain ⟨f, rfl⟩ : ∃ f, fuel = f + 1 := ⟨fuel - 1, by omega⟩
    have hparse := parse_encoded_char_valid ndebug e hs.1 cons
      (t1 ++ (encoded_text segs ++ q :: rest)) (buf ++ cons.drop p0)
    have henc : encoded_text ((e, t1) :: segs) ++ q :: rest =
        '&' :: (e.name ++ ';' :: (t1 ++ (encoded_text segs ++ q :: rest))) := by
      simp [encoded_text]
    have hlen : (encoded_text ((e, t1) :: segs)).length =
        e.name.length + 2 + t1.length + (encoded_text segs).length := by
      simp [encoded_text]; omega
    rw [henc]
    cases t1 with
    | cons c t1 =>
      have hc := hs.2 c (List.mem_cons_self _ _)
      rw [List.cons_append] at hparse
      rw [List.cons_append (a := c),
        value_loop_reference_ok ndebug q f p0 cons _ buf hp0 _ c _ _ hparse]
      have h1 : (c == q) = false := by simpa using hc.2
      have h2 : (c != '&') = true := by simpa using hc.1
      simp only [h1, h2, Bool.false_eq_true, if_false, if_true]
      obtain ⟨g, rfl⟩ : ∃ g, f = g + t1.length := ⟨f - t1.length, by
        simp only [List.length_cons] at hlen; omega⟩
      rw [value_loop_text_run ndebug q _ _ _ t1 _ g
        (fun d hd => hs.2 d (List.mem_cons_of_mem _ hd))]
      obtain ⟨q0, b, hrun, hbuf⟩ := ih hrest
        (cons ++ '&' :: (e.name ++ [';']) ++ [c] ++ t1) (buf ++ cons.drop p0 ++ e.decoded)
        (cons ++ '&' :: (e.name ++ [';'])).length g (by simp)
        (by simp only [List.length_cons] at hlen; omega)
      refine ⟨q0, b, ?_, ?_⟩
      · rw [hrun]
        simp [encoded_text]
      · have : cons ++ encoded_text ((e, c :: t1) :: segs) =
            cons ++ '&' :: (e.name ++ [';']) ++ [c] ++ t1 ++ encoded_text segs := by
          simp [encoded_text]
        have hd : List.drop (cons ++ '&' :: (e.name ++ [';'])).length
            (cons ++ '&' :: (e.name ++ [';']) ++ [c] ++ t1) = c :: t1 := by
          rw [List.append_assoc, List.drop_left]
          rfl
        rw [this, hbuf, hd]
        simp [decoded_text]
    | nil =>
      rw [List.nil_append] at hparse
      cases segs with
      | nil =>
        simp only [encoded_text, List.nil_append] at hparse ⊢
        rw [value_loop_reference_ok ndebug q f p0 cons _ buf hp0 _ q _ _ hparse]
        refine ⟨(cons ++ '&' :: (e.name ++ [';'])).length, buf ++ cons.drop p0 ++ e.decoded, ?_, ?_⟩
        · simp
        · simp [decoded_text]
      | cons s2 segs2 =>
        obtain ⟨e2, t2⟩ := s2
        have henc2 : encoded_text ((e2, t2) :: segs2) ++ q :: rest =
            '&' :: (e2.name ++ ';' :: (t2 ++ (encoded_text segs2 ++ q :: rest))) := by
          simp [encoded_text]
        rw [henc2] at hparse
        rw [List.nil_append, henc2,
          value_loop_reference_ok ndebug q f p0 cons _ buf hp0 _ '&' _ _ hparse]
        simp only [hqq, show ('&' != '&') = false from by decide, Bool.false_eq_true, if_false]
        obtain ⟨q0, b, hrun, hbuf⟩ := ih hrest
          (cons ++ '&' :: (e.name ++ [';'])) (buf ++ cons.drop p0 ++ e.decoded)
          (cons ++ '&' :: (e.name ++ [';'])).length f (le_refl _)
          (by simp only [List.length_nil] at hlen; omega)
        rw [henc2] at hrun
        refine ⟨q0, b, ?_, ?_⟩
        · rw [hrun]
          simp [encoded_text]
        · have : cons ++ encoded_text ((e, []) :: (e2, t2) :: segs2) =
              cons ++ '&' :: (e.name ++ [';']) ++ encoded_text ((e2, t2) :: segs2) := by
            simp [encoded_text]
          rw [this, hbuf]
          simp [decoded_text]

theorem value_with_encoded_char_decodes (ndebug : Bool) (q : Char) (hq : q ≠ '&')
    (segs : List (char_reference × pstring)) (pre rest buf : pstring) (str : view)
    (hne : segs ≠ [])
    (hgood : ∀ s ∈ segs, s.1.valid ∧ ∀ c ∈ s.2, c ≠ '&' ∧ c ≠ q) :
    value_with_encoded_char ndebug ⟨pre, encoded_text segs ++ q :: rest⟩ buf str q =
      .ok (⟨pre ++ encoded_text segs ++ [q], rest⟩, buf ++ decoded_text segs,
        view.buffer (buf ++ decoded_text segs)) := by
  obtain ⟨⟨e, t1⟩, segs1, rfl⟩ := List.exists_cons_of_ne_nil hne
  have hs := hgood (e, t1) (List.mem_cons_self _ _)
  have hrest : ∀ s ∈ segs1, s.1.valid ∧ ∀ c ∈ s.2, c ≠ '&' ∧ c ≠ q :=
    fun s hs => hgood s (List.mem_cons_of_mem _ hs)
  have henc : encoded_text ((e, t1) :: segs1) ++ q :: rest =
      '&' :: (e.name ++ ';' :: (t1 ++ (encoded_text segs1 ++ q :: rest))) := by
    simp [encoded_text]
  have hparse := parse_encoded_char_valid ndebug e hs.1 pre
    (t1 ++ (encoded_text segs1 ++ q :: rest)) buf
  obtain ⟨_, hbne⟩ := parse_encoded_char_progress ndebug _ _ _ _ hparse
  obtain ⟨q0, b, hrun, hbuf⟩ := value_loop_decodes ndebug q hq rest segs1 hrest
    (pre ++ '&' :: (e.name ++ [';']) ++ t1) (buf ++ e.decoded)
    (pre ++ '&' :: (e.name ++ [';'])).length ((encoded_text segs1 ++ q :: rest).length + 1)
    (by simp) (by simp; omega)
  have hfuel : (t1 ++ (encoded_text segs1 ++ q :: rest)).length + 1 =
      (encoded_text segs1 ++ q :: rest).length + 1 + t1.length := by
    simp only [List.length_append]; omega
  have hd : List.drop (pre ++ '&' :: (e.name ++ [';'])).length
      (pre ++ '&' :: (e.name ++ [';']) ++ t1) = t1 := List.drop_left _ _
  have hfin : pre ++ '&' :: (e.name ++ [';']) ++ t1 ++ encoded_text segs1 =
      pre ++ encoded_text ((e, t1) :: segs1) := by
    simp [encoded_text]
  rw [hd, hfin] at hbuf
  rw [hfin] at hrun
  have hdec : buf ++ e.decoded ++ t1 ++ decoded_text segs1 =
      buf ++ decoded_text ((e, t1) :: segs1) := by
    simp [decoded_text]
  have hB : (if (pre ++ encoded_text ((e, t1) :: segs1)).length > q0 then
      b ++ (pre ++ encoded_text ((e, t1) :: segs1)).drop q0 else b) =
      buf ++ decoded_text ((e, t1) :: segs1) := by
    split_ifs with h
    · rw [hbuf, hdec]
    · have hdrop : List.drop q0 (pre ++ encoded_text ((e, t1) :: segs1)) = [] :=
        List.drop_eq_nil_of_le (by omega)
      rw [hdrop, List.append_nil] at hbuf
      rw [hbuf, hdec]
  have hBne : (buf ++ decoded_text ((e, t1) :: segs1)).isEmpty = false := by
    have : buf ++ decoded_text ((e, t1) :: segs1) ≠ [] := by
      rw [← hdec]
      intro hnil
      have h1 := (List.append_eq_nil.mp hnil).1
      have h2 := (List.append_eq_nil.mp h1).1
      exact hbne h2
    cases hx : buf ++ decoded_text ((e, t1) :: segs1) with
    | nil => exact absurd hx this
    | cons a l => rfl
  unfold value_with_encoded_char
  rw [henc]
  simp only [cassert, parser_base.cur_char, List.headD_cons, beq_self_eq_true, Bool.or_true,
    if_true, bind, Except.bind, hparse, parser_base.offset, hfuel]
  rw [value_loop_text_run ndebug q _ _ _ t1 _ _ hs.2, hrun]
  simp only [parser_base.offset, hB, hBne, parser_base.has_char, parser_base.cur_char,
    parser_base.next, List.isEmpty_cons, Bool.not_false, List.headD_cons, beq_self_eq_true,
    Bool.or_true, if_true, Bool.not_true, Bool.false_eq_true, if_false]

/-- What `value` with decoding returns on a quoted value that holds
references: for plain text `t0` followed by `&e1; t1 ... &en; tn`, all
references valid and no piece holding the quote or an ampersand, the view is
the cell buffer with `t0 d(e1) t1 ... d(en) tn`, the flag is `true` and the
cursor is just past the closing quote. -/
theorem value_decodes (ndebug ts : Bool) (q : Char) (hq : q = QUOT ∨ q = APOS)
    (t0 : pstring) (segs : List (char_reference × pstring)) (pre rest : pstring) (str : view)
    (hne : segs ≠ []) (ht0 : ∀ c ∈ t0, c ≠ q ∧ c ≠ '&')
    (hgood : ∀ s ∈ segs, s.1.valid ∧ ∀ c ∈ s.2, c ≠ '&' ∧ c ≠ q) :
    value ndebug ts ⟨pre, q :: (t0 ++ encoded_text segs ++ q :: rest)⟩ str true =
      .ok (⟨pre ++ q :: (t0 ++ encoded_text segs ++ [q]), rest⟩,
        view.buffer (t0 ++ decoded_text segs), true) := by
  have hqa : q ≠ '&' := by
    rcases hq with rfl | rfl <;> decide
  obtain ⟨c, t, hct⟩ : ∃ c t, t0 ++ encoded_text segs ++ q :: rest = c :: t := by
    cases h : t0 ++ encoded_text segs ++ q :: rest with
    | nil => simp at h
    | cons c t => exact ⟨c, t, rfl⟩
  obtain ⟨⟨e, t1⟩, segs1, rfl⟩ := List.exists_cons_of_ne_nil hne
  have henc : encoded_text ((e, t1) :: segs1) ++ q :: rest =
      '&' :: (e.name ++ ';' :: (t1 ++ (encoded_text segs1 ++ q :: rest))) := by
    simp [encoded_text]
  rw [hct, value_enter ndebug ts true pre q str hq c t, ← hct, List.append_assoc,
    value_loop_skip ndebug ts true q _ str _ t0 (pre ++ [q])
      (fun c hc => ⟨(ht0 c hc).1, fun _ => (ht0 c hc).2⟩),
    henc, value_loop]
  have hne2 : ('&' != q) = true := by
    simp only [bne_iff_ne, ne_eq]
    exact fun h => hqa h.symm
  have hdrop : (pre ++ [q] ++ t0).drop (pre.length + 1) = t0 := by
    rw [show pre.length + 1 = (pre ++ [q]).length by simp, List.drop_left]
  simp only [hne2, if_true, Bool.true_and, beq_self_eq_true, hdrop, ← henc,
    value_with_encoded_char_decodes ndebug q hqa ((e, t1) :: segs1) (pre ++ [q] ++ t0) rest t0
      str (by simp) hgood, bind, Except.bind]
  simp

/-- C15: on a stream that is not transient, `value` with decoding, entered on
a quoted value, reports the transient flag exactly when the value holds an
ampersand. Without one it returns the slice of the input stream between the
quotes and reports `false`. With one it hands the scan to
`value_with_encoded_char`, whose loop ends within its bound, and whenever
that returns, `value` reports `true` and the view is the cell buffer; it does
return, with the decoded text in the buffer, when every reference of the
value is a predefined entity or a valid numeric reference. -/
theorem value_transient_iff_ampersand (ndebug : Bool) (pre s rest : pstring) (q : Char)
    (str : view) (hq : q = QUOT ∨ q = APOS) (hs : ∀ c ∈ s, c ≠ q) :
    ('&' ∉ s →
      value ndebug false ⟨pre, q :: (s ++ q :: rest)⟩ str true =
        .ok (⟨pre ++ q :: (s ++ [q]), rest⟩, view.stream (pre.length + 1) s.length, false)) ∧
    ('&' ∈ s →
      value ndebug false ⟨pre, q :: (s ++ q :: rest)⟩ str true ≠ .error .out_of_fuel ∧
      ∀ r, value ndebug false ⟨pre, q :: (s ++ q :: rest)⟩ str true = .ok r →
        r.2.2 = true ∧ ∃ content, r.2.1 = view.buffer content) ∧
    (∀ (t0 : pstring) (segs : List (char_reference × pstring)), segs ≠ [] →
      (∀ c ∈ t0, c ≠ q ∧ c ≠ '&') →
      (∀ x ∈ segs, x.1.valid ∧ ∀ c ∈ x.2, c ≠ '&' ∧ c ≠ q) →
      value ndebug false ⟨pre, q :: (t0 ++ encoded_text segs ++ q :: rest)⟩ str true =
        .ok (⟨pre ++ q :: (t0 ++ encoded_text segs ++ [q]), rest⟩,
          view.buffer (t0 ++ decoded_text segs), true)) := by
  have hqa : q ≠ '&' := by
    rcases hq with rfl | rfl <;> decide
  refine ⟨?_, ?_, ?_⟩
  · intro hno
    exact value_fast_path ndebug false true pre s rest q str hq
      (fun c hc => ⟨hs c hc, fun _ h => hno (h ▸ hc)⟩)
  · intro hmem
    obtain ⟨c, t, rfl⟩ : ∃ c t, s = c :: t := by
      cases s with
      | nil => simp at hmem
      | cons c t => exact ⟨c, t, rfl⟩
    rw [List.cons_append, value_enter ndebug false true pre q str hq c (t ++ q :: rest),
      ← List.cons_append]
    exact value_loop_ampersand ndebug false q hqa _ str (q :: rest) (c :: t) (pre ++ [q]) hmem hs
  · intro t0 segs hne ht0 hgood
    exact value_decodes ndebug false q hq t0 segs pre rest str hne ht0 hgood

/-- C15 on two attribute values: `x'y` is returned as a slice of the stream
with the flag `false`, `x&amp;y` as the cell buffer `x&y` with the flag `true`. -/
theorem value_transient_iff_ampersand_witness :
    value false false ⟨"<a b=".toList, "\"x'y\" c".toList⟩ (.stream 0 0) true =
      .ok (⟨"<a b=\"x'y\"".toList, " c".toList⟩, view.stream 6 3, false) ∧
    value false false ⟨"<a b=".toList, "\"x&amp;y\" c".toList⟩ (.stream 0 0) true ≠
      .error .out_of_fuel ∧
    value false false ⟨"<a b=".toList, "\"x&amp;y\" c".toList⟩ (.stream 0 0) true =
      .ok (⟨"<a b=\"x&amp;y\"".toList, " c".toList⟩, view.buffer "x&y".toList, true) :=
  ⟨(value_transient_iff_ampersand false "<a b=".toList "x'y".toList " c".toList QUOT
      (.stream 0 0) (Or.inl rfl) (by decide)).1 (by decide),
    ((value_transient_iff_ampersand false "<a b=".toList "x&amp;y".toList " c".toList QUOT
      (.stream 0 0) (Or.inl rfl) (by decide)).2.1 (by decide)).1,
    (value_transient_iff_ampersand false "<a b=".toList "x&amp;y".toList " c".toList QUOT
      (.stream 0 0) (Or.inl rfl) (by decide)).2.2 ['x'] [(char_reference.amp, ['y'])]
      (by simp) (by decide)
      (by
        intro x hx
        simp only [List.mem_singleton] at hx
        subst hx
        exact ⟨trivial, by decide⟩)⟩

theorem first_double_hyphen_cons_ne (c : Char) (rest : pstring) (hc : c ≠ '-') :
    first_double_hyphen (c :: rest) = (first_double_hyphen rest).map (· + 1) := by
  cases rest with
  | nil => rfl
  | cons d r =>
    rw [first_double_hyphen]
    simp [hc]

theorem comment_loop_spec :
    ∀ (rem cons : pstring) (i : Nat),
      comment_loop false i cons rem =
        (match first_double_hyphen rem with
          | some k => (i + k + 1, ⟨cons ++ rem.take (k + 1), rem.drop (k + 1)⟩)
          | none => (i + rem.length, ⟨cons ++ rem, []⟩)) ∧
      comment_loop true i cons rem =
        (match first_double_hyphen ('-' :: rem) with
          | some k => (i + k, ⟨cons ++ rem.take k, rem.drop k⟩)
          | none => (i + rem.length, ⟨cons ++ rem, []⟩)) := by
  intro rem
  induction rem with
  | nil => intro cons i; simp [comment_loop, first_double_hyphen]
  | cons c rest ih =>
    intro cons i
    obtain ⟨ihf, iht⟩ := ih (cons ++ [c]) (i + 1)
    have key : comment_loop true i cons (c :: rest) =
        (match first_double_hyphen ('-' :: c :: rest) with
          | some k => (i + k, ⟨cons ++ (c :: rest).take k, (c :: rest).drop k⟩)
          | none => (i + (c :: rest).length, ⟨cons ++ c :: rest, []⟩)) := by
      rw [comment_loop, first_double_hyphen]
      by_cases hc : c = '-'
      · subst hc
        simp
      · have hb : (c == '-') = false := by simpa using hc
        simp only [hb, Bool.false_eq_true, if_false, hc, and_false, ihf]
        cases hf : first_double_hyphen (c :: rest) with
        | none =>
          have hr : first_double_hyphen rest = none := by
            cases rest with
            | nil => rfl
            | cons d rest2 =>
              rw [first_double_hyphen] at hf
              simp only [hc, false_and, if_false, Option.map_eq_none'] at hf
              exact hf
          simp [hr]
          omega
        | some k =>
          cases rest with
          | nil => simp [first_double_hyphen] at hf
          | cons d rest2 =>
            rw [first_double_hyphen] at hf
            simp only [hc, false_and, if_false, Option.map_eq_some'] at hf
            obtain ⟨j, hj, rfl⟩ := hf
            simp [hj]
            omega
    refine ⟨?_, key⟩
    rw [comment_loop]
    by_cases hc : c = '-'
    · subst hc
      simp only [beq_self_eq_true, if_true, Bool.not_false, iht]
      cases hf : first_double_hyphen ('-' :: rest) with
      | none => simp; omega
      | some k => simp; omega
    · have hb : (c == '-') = false := by simpa using hc
      simp only [hb, Bool.false_eq_true, if_false, ihf]
      rw [first_double_hyphen_cons_ne c rest hc]
      cases hf : first_double_hyphen rest with
      | none => simp; omega
      | some k => simp; omega

theorem first_double_hyphen_bound :
    ∀ (rem : pstring) (k : Nat), first_double_hyphen rem = some k → k + 2 ≤ rem.length := by
  intro rem
  induction rem with
  | nil => intro k h; simp [first_double_hyphen] at h
  | cons c rest ih =>
    intro k h
    cases rest with
    | nil => simp [first_double_hyphen] at h
    | cons d rest2 =>
      rw [first_double_hyphen] at h
      split_ifs at h with hcd
      · simp only [Option.some.injEq] at h
        subst h
        simp
      · simp only [Option.map_eq_some'] at h
        obtain ⟨j, hj, rfl⟩ := h
        have := ih j hj
        simp only [List.length_cons] at this ⊢
        omega

/-- C16: entered on the first byte of a comment body, `comment` succeeds
exactly when the first two hyphens in a row of the remaining stream are
followed at once by `>`, and then the cursor is just past that `-->`; when
something else follows them, or the stream holds no two hyphens in a row, it
raises `malformed_xml_error`. With assertions enabled the call is the one
the code asserts, with more than three bytes left. -/
theorem comment_ends_at_first_double_hyphen (ndebug : Bool) (p : parser_base)
    (hassert : ndebug = false → 3 < p.remaining.length) :
    comment ndebug p =
      match first_double_hyphen p.remaining with
      | some k =>
        if p.remaining.get? (k + 2) = some '>' then
          .ok ⟨p.consumed ++ p.remaining.take (k + 3), p.remaining.drop (k + 3)⟩
        else .error .malformed_xml_error
      | none => .error .malformed_xml_error := by
  obtain ⟨cons, rem⟩ := p
  have ha : cassert ndebug (decide (rem.length > 3)) = .ok () := by
    cases ndebug with
    | true => rfl
    | false =>
      have := hassert rfl
      simp only [cassert, Bool.false_or, decide_eq_true_eq]
      rw [if_pos this]
  unfold comment
  simp only [parser_base.remains, ha, bind, Except.bind, (comment_loop_spec rem cons 0).1]
  cases hf : first_double_hyphen rem with
  | none => simp
  | some k =>
    have hk := first_double_hyphen_bound rem k hf
    simp only [Nat.zero_add]
    obtain ⟨A, D, hrem, hA⟩ : ∃ A D, rem = A ++ D ∧ A.length = k + 1 :=
      ⟨rem.take (k + 1), rem.drop (k + 1), (List.take_append_drop _ _).symm, by
        rw [List.length_take]; omega⟩
    subst hrem
    have ht : (A ++ D).take (k + 1) = A := by rw [← hA, List.take_left]
    have hd : (A ++ D).drop (k + 1) = D := by rw [← hA, List.drop_left]
    rw [ht, hd]
    match D, hk with
    | [], hk => simp at hk; omega
    | [x], _ =>
      have h1 : (A ++ [x]).length - (k + 1) < 2 := by simp; omega
      have h2 : (A ++ [x]).get? (k + 2) = none := by
        rw [List.get?_eq_none]; simp; omega
      simp only [h1, if_true, h2]
      simp
    | x :: y :: B, _ =>
      have h1 : ¬ ((A ++ x :: y :: B).length - (k + 1) < 2) := by simp; omega
      have h2 : (A ++ x :: y :: B).get? (k + 2) = some y := by
        have : A ++ x :: y :: B = (A ++ [x]) ++ y :: B := by simp
        rw [this, List.get?_eq_getElem?, List.getElem?_append_right (by simp; omega)]
        simp [hA]
      have h3 : (A ++ x :: y :: B).take (k + 3) = A ++ [x, y] := by
        have : A ++ x :: y :: B = (A ++ [x, y]) ++ B := by simp
        rw [this, show k + 3 = (A ++ [x, y]).length by simp; omega, List.take_left]
      have h4 : (A ++ x :: y :: B).drop (k + 3) = B := by
        have : A ++ x :: y :: B = (A ++ [x, y]) ++ B := by simp
        rw [this, show k + 3 = (A ++ [x, y]).length by simp; omega, List.drop_left]
      simp only [h1, if_false, h2, h3, h4, parser_base.next_and_char, parser_base.next,
        parser_base.cur_char, List.headD_cons, Option.some.injEq]
      by_cases hy : y = '>'
      · subst hy
        simp
      · have hb : (y != '>') = true := by simpa using hy
        simp [hb, hy]

/-- C16 on three comments: `<!-- a - b --> x` is accepted, with single
hyphens inside, and the cursor stops before ` x`; `<!-- a -- b -->` and the
unterminated `<!-- a - b -` are refused. -/
theorem comment_ends_at_first_double_hyphen_witness :
    comment false ⟨"<!--".toList, " a - b --> x".toList⟩ =
      .ok ⟨"<!-- a - b -->".toList, " x".toList⟩ ∧
    comment false ⟨"<!--".toList, " a -- b --> x".toList⟩ = .error .malformed_xml_error ∧
    comment false ⟨"<!--".toList, " a - b -".toList⟩ = .error .malformed_xml_error :=
  ⟨comment_ends_at_first_double_hyphen false ⟨"<!--".toList, " a - b --> x".toList⟩
      (fun _ => by decide),
    comment_ends_at_first_double_hyphen false ⟨"<!--".toList, " a -- b --> x".toList⟩
      (fun _ => by decide),
    comment_ends_at_first_double_hyphen false ⟨"<!--".toList, " a - b -".toList⟩
      (fun _ => by decide)⟩

theorem char_eq_of_toNat_eq (c d : Char) (h : c.toNat = d.toNat) : c = d := by
  apply Char.ext
  cases c with
  | mk cv ch =>
    cases d with
    | mk dv dh =>
      simp only [Char.toNat] at h
      exact UInt32.ext (by simpa [UInt32.toNat] using h)

theorem skip_bom_short (p : parser_base) (h : p.remaining.length < 4) : skip_bom p = .ok p := by
  unfold skip_bom
  rw [if_pos (by simpa [parser_base.remains] using h)]

theorem skip_bom_mark (pre rest : pstring) :
    skip_bom ⟨pre, Char.ofNat 0xEF :: Char.ofNat 0xBB :: Char.ofNat 0xBF :: '<' :: rest⟩ =
      .ok ⟨pre ++ [Char.ofNat 0xEF, Char.ofNat 0xBB, Char.ofNat 0xBF], '<' :: rest⟩ := by
  have hb : is_blank (Char.ofNat 0xEF) = false := by decide
  have hl : (Char.ofNat 0xEF != '<') = true := by decide
  have h1 : ((Char.ofNat 0xEF).toNat != 0xef) = false := by decide
  have h2 : ((Char.ofNat 0xBB).toNat != 0xbb) = false := by decide
  have h3 : ((Char.ofNat 0xBF).toNat != 0xbf) = false := by decide
  simp [skip_bom, parser_base.remains, parser_base.cur_char, parser_base.next_and_char,
    parser_base.next, hb, hl, h1, h2, h3]

theorem skip_bom_rejects (pre rest : pstring) (c : Char) (hlen : 4 ≤ (c :: rest).length)
    (hc : 0x80 ≤ c.toNat)
    (hmark : ∀ t, c :: rest ≠ Char.ofNat 0xEF :: Char.ofNat 0xBB :: Char.ofNat 0xBF :: '<' :: t) :
    skip_bom ⟨pre, c :: rest⟩ = .error .malformed_xml_error := by
  have hb : is_blank c = false := by
    unfold is_blank
    have e1 : (c == ' ') = false := char_beq_false_of_toNat_ne _ _ (by
      show c.toNat ≠ 32
      omega)
    have e2 : (c.toNat == 9) = false := by simp; omega
    have e3 : (c.toNat == 10) = false := by simp; omega
    have e4 : (c.toNat == 13) = false := by simp; omega
    simp [e1, e2, e3, e4]
  have hl : (c != '<') = true := by
    have : (c == '<') = false := char_beq_false_of_toNat_ne _ _ (by
      show c.toNat ≠ 60
      omega)
    simp [bne, this]
  match rest, hlen, hmark with
  | c1 :: c2 :: c3 :: t, _, hmark =>
    have hr : ¬ ((c :: c1 :: c2 :: c3 :: t).length < 4) := by simp
    simp only [skip_bom, parser_base.remains, hr, if_false, parser_base.cur_char,
      List.headD_cons, hb, Bool.false_eq_true, hl, if_true, parser_base.next_and_char,
      parser_base.next]
    by_cases g0 : c.toNat = 0xef
    · by_cases g1 : c1.toNat = 0xbb
      · by_cases g2 : c2.toNat = 0xbf
        · by_cases g3 : c3 = '<'
          · exfalso
            apply hmark t
            have a0 : c = Char.ofNat 0xEF := char_eq_of_toNat_eq _ _ (by rw [g0]; rfl)
            have a1 : c1 = Char.ofNat 0xBB := char_eq_of_toNat_eq _ _ (by rw [g1]; rfl)
            have a2 : c2 = Char.ofNat 0xBF := char_eq_of_toNat_eq _ _ (by rw [g2]; rfl)
            rw [a0, a1, a2, g3]
          · simp [g0, g1, g2, g3]
        · simp [g0, g1, g2]
      · simp [g0, g1]
    · simp [g0]

/-- C17 (amended): `skip_bom` accepts every stream that begins with the
bytes EF BB BF followed by `<`, leaving the cursor on that `<`; it raises
`malformed_xml_error` for every stream of at least four bytes whose first
byte is not ASCII and which does not begin with the mark followed by `<`;
and it returns at once, consuming nothing, on every stream of fewer than
four bytes. -/
theorem skip_bom_mark_before_tag (pre : pstring) :
    (∀ rest : pstring,
      skip_bom ⟨pre, Char.ofNat 0xEF :: Char.ofNat 0xBB :: Char.ofNat 0xBF :: '<' :: rest⟩ =
        .ok ⟨pre ++ [Char.ofNat 0xEF, Char.ofNat 0xBB, Char.ofNat 0xBF], '<' :: rest⟩) ∧
    (∀ (c : Char) (rest : pstring), 4 ≤ (c :: rest).length → 0x80 ≤ c.toNat →
      (∀ t, c :: rest ≠ Char.ofNat 0xEF :: Char.ofNat 0xBB :: Char.ofNat 0xBF :: '<' :: t) →
      skip_bom ⟨pre, c :: rest⟩ = .error .malformed_xml_error) ∧
    (∀ s : pstring, s.length < 4 → skip_bom ⟨pre, s⟩ = .ok ⟨pre, s⟩) :=
  ⟨skip_bom_mark pre, fun c rest h1 h2 h3 => skip_bom_rejects pre rest c h1 h2 h3,
    fun s h => skip_bom_short ⟨pre, s⟩ h⟩

/-- C17 (amended) on three streams: a Latin-1 `é` before `<r/>` is
refused, the two bytes `FF 61` are let through untouched, and the mark
before `<r/>` is consumed. -/
theorem skip_bom_mark_before_tag_witness :
    skip_bom ⟨[], [Char.ofNat 0xE9, '<', 'r', '/', '>']⟩ = .error .malformed_xml_error ∧
    skip_bom ⟨[], [Char.ofNat 0xFF, 'a']⟩ = .ok ⟨[], [Char.ofNat 0xFF, 'a']⟩ ∧
    skip_bom ⟨[], [Char.ofNat 0xEF, Char.ofNat 0xBB, Char.ofNat 0xBF, '<', 'r', '/', '>']⟩ =
      .ok ⟨[Char.ofNat 0xEF, Char.ofNat 0xBB, Char.ofNat 0xBF], ['<', 'r', '/', '>']⟩ :=
  have h := skip_bom_mark_before_tag []
  ⟨h.2.1 (Char.ofNat 0xE9) ['<', 'r', '/', '>'] (by decide) (by decide)
      (fun t ht => absurd (List.cons.inj ht).1 (by decide)),
    h.2.2 [Char.ofNat 0xFF, 'a'] (by decide), h.1 ['r', '/', '>']⟩

/-- C17 as stated fails: a stream that begins with the mark EF BB BF and
goes on with a blank before `<r/>` is refused, and the two-byte stream
`FF 61`, whose first byte is not ASCII and which does not begin with the
mark, is accepted. -/
theorem skip_bom_refuses_mark_before_blank :
    skip_bom ⟨[], [Char.ofNat 0xEF, Char.ofNat 0xBB, Char.ofNat 0xBF, ' ', '<', 'r', '/', '>']⟩ =
      .error .malformed_xml_error ∧
    skip_bom ⟨[], [Char.ofNat 0xFF, 'a']⟩ = .ok ⟨[], [Char.ofNat 0xFF, 'a']⟩ := by
  decide

theorem is_digit_10_range (c : Char) (h : is_digit_of 10 c = true) :
    48 ≤ c.toNat ∧ c.toNat ≤ 57 ∧ (digit_value 10 c).getD 0 = c.toNat - 48 := by
  unfold is_digit_of digit_value at h
  unfold digit_value
  split_ifs at h ⊢ with h1 h2 h3
  · refine ⟨h1.1, h1.2, ?_⟩
    simp only []
    rw [if_pos (by omega)]
    rfl
  · simp only [] at h
    split_ifs at h
    · omega
    · simp at h
  · simp only [] at h
    split_ifs at h
    · omega
    · simp at h
  · simp at h

theorem digit_char_tests (c : Char) (h : is_digit_of 10 c = true) :
    (c == '.') = false ∧ (c == 'e') = false ∧ (c == 'E') = false ∧ (c == '+') = false ∧
      (c == '-') = false ∧ ¬ (c.toNat < 48 ∨ 57 < c.toNat) := by
  obtain ⟨h1, h2, _⟩ := is_digit_10_range c h
  refine ⟨char_beq_false_of_toNat_ne _ _ ?_, char_beq_false_of_toNat_ne _ _ ?_,
    char_beq_false_of_toNat_ne _ _ ?_, char_beq_false_of_toNat_ne _ _ ?_,
    char_beq_false_of_toNat_ne _ _ ?_, by omega⟩
  · show c.toNat ≠ 46
    omega
  · show c.toNat ≠ 101
    omega
  · show c.toNat ≠ 69
    omega
  · show c.toNat ≠ 43
    omega
  · show c.toNat ≠ 45
    omega

theorem digits_value_foldl (b : Nat) :
    ∀ (ds : pstring) (a : Nat),
      ds.foldl (fun acc c => acc * b + (digit_value b c).getD 0) a =
        a * b ^ ds.length + digits_value b ds := by
  intro ds
  induction ds with
  | nil => intro a; simp [digits_value]
  | cons c ds ih =>
    intro a
    unfold digits_value
    simp only [List.foldl_cons, List.length_cons]
    rw [ih, ih (0 * b + _)]
    ring

theorem digits_value_cons (b : Nat) (c : Char) (ds : pstring) :
    digits_value b (c :: ds) = (digit_value b c).getD 0 * b ^ ds.length + digits_value b ds := by
  have := digits_value_foldl b ds (0 * b + (digit_value b c).getD 0)
  unfold digits_value at this ⊢
  simp only [List.foldl_cons]
  rw [this]
  simp

theorem parse_loop_digits (allow bdp : Bool) (rest : pstring) :
    ∀ (ds : pstring) (st : parser_state), (∀ c ∈ ds, is_digit_of 10 c = true) →
      parse_loop allow bdp st (ds ++ rest) =
        parse_loop allow bdp (ds.foldl (digit_step bdp) st) rest := by
  intro ds
  induction ds with
  | nil => intro st _; rfl
  | cons c ds ih =>
    intro st h
    obtain ⟨t1, t2, t3, _, _, t6⟩ := digit_char_tests c (h c (List.mem_cons_self _ _))
    rw [List.cons_append, parse_loop]
    simp only [t1, t2, t3, Bool.or_self, Bool.and_false, Bool.false_eq_true, if_false, t6,
      List.foldl_cons]
    exact ih _ (fun d hd => h d (List.mem_cons_of_mem _ hd))

theorem digit_step_fields (bdp : Bool) (st : parser_state) (c : Char) :
    (digit_step bdp st c).negative_sign = st.negative_sign ∧
    (digit_step bdp st c).has_digit = true ∧
    (digit_step bdp st c).parsed_value = st.parsed_value * 10 + ((c.toNat - 48 : Nat) : ℚ) ∧
    (digit_step bdp st c).divisor = (if bdp then st.divisor else st.divisor * 10) ∧
    (digit_step bdp st c).digit_count = (if bdp then st.digit_count + 1 else st.digit_count) ∧
    (digit_step bdp st c).first_digit =
      (if bdp = true ∧ st.digit_count = 0 then c.toNat - 48 else st.first_digit) := by
  cases bdp <;> simp [digit_step]

theorem digits_fold_fields (bdp : Bool) :
    ∀ (ds : pstring) (st : parser_state), (∀ c ∈ ds, is_digit_of 10 c = true) →
      (ds.foldl (digit_step bdp) st).negative_sign = st.negative_sign ∧
      (ds.foldl (digit_step bdp) st).has_digit = (st.has_digit || !ds.isEmpty) ∧
      (ds.foldl (digit_step bdp) st).parsed_value =
        st.parsed_value * 10 ^ ds.length + (digits_value 10 ds : ℚ) ∧
      (ds.foldl (digit_step bdp) st).divisor =
        (if bdp then st.divisor else st.divisor * 10 ^ ds.length) ∧
      (ds.foldl (digit_step bdp) st).digit_count =
        (if bdp then st.digit_count + ds.length else st.digit_count) ∧
      (ds.foldl (digit_step bdp) st).first_digit =
        (if bdp = true ∧ st.digit_count = 0 ∧ ds ≠ [] then (ds.headD '0').toNat - 48
          else st.first_digit) := by
  intro ds
  induction ds with
  | nil => intro st _; cases bdp <;> simp [digits_value]
  | cons c ds ih =>
    intro st h
    obtain ⟨f1, f2, f3, f4, f5, f6⟩ := digit_step_fields bdp st c
    obtain ⟨g1, g2, g3, g4, g5, g6⟩ := ih (digit_step bdp st c)
      (fun d hd => h d (List.mem_cons_of_mem _ hd))
    obtain ⟨_, _, hv⟩ := is_digit_10_range c (h c (List.mem_cons_self _ _))
    simp only [List.foldl_cons, List.length_cons, List.isEmpty_cons, Bool.not_false,
      Bool.or_true, List.headD_cons]
    refine ⟨by rw [g1, f1], by rw [g2, f2]; simp, ?_, ?_, ?_, ?_⟩
    · rw [g3, f3, digits_value_cons, hv]
      push_cast
      ring
    · rw [g4, f4]
      cases bdp
      · simp only [Bool.false_eq_true, if_false]; ring
      · simp
    · rw [g5, f5]
      cases bdp
      · simp
      · simp only [if_true]; omega
    · rw [g6, f5, f6]
      cases bdp
      · simp
      · by_cases h0 : st.digit_count = 0
        · simp [h0]
        · simp [h0]

theorem check_sign_text (sg : Option Bool) (body : pstring)
    (hb : ∀ c t, body = c :: t → (c == '+') = false ∧ (c == '-') = false) :
    check_sign (sign_text sg ++ body) = (sg == some true, body) := by
  match sg with
  | some true => rfl
  | some false => rfl
  | none =>
    cases body with
    | nil => rfl
    | cons c t =>
      obtain ⟨h1, h2⟩ := hb c t rfl
      simp [check_sign, sign_text, h1, h2]

theorem parse_exponent_loop_digits :
    ∀ (X : pstring) (acc : Int) (valid : Bool), (∀ c ∈ X, is_digit_of 10 c = true) →
      parse_exponent_loop acc valid X =
        (acc * 10 ^ X.length + (digits_value 10 X : Int), valid || !X.isEmpty, []) := by
  intro X
  induction X with
  | nil => intro acc valid _; simp [parse_exponent_loop, digits_value]
  | cons c X ih =>
    intro acc valid h
    obtain ⟨_, _, _, _, _, t6⟩ := digit_char_tests c (h c (List.mem_cons_self _ _))
    obtain ⟨_, _, hv⟩ := is_digit_10_range c (h c (List.mem_cons_self _ _))
    rw [parse_exponent_loop, if_neg t6, ih _ _ (fun d hd => h d (List.mem_cons_of_mem _ hd)),
      digits_value_cons, hv]
    simp only [List.length_cons, List.isEmpty_cons, Bool.not_false, Bool.or_true, Bool.true_or,
      Prod.mk.injEq, and_true]
    push_cast
    ring

theorem exponent_scale_ne_zero (ex : Option (Char × Option Bool × pstring)) :
    exponent_scale ex ≠ 0 := by
  match ex with
  | none => simp [exponent_scale]
  | some (e, s, X) =>
    simp only [exponent_scale]
    split_ifs <;> exact zpow_ne_zero _ (by norm_num)

theorem applied_scale_ne_zero (ex : Option (Char × Option Bool × pstring)) :
    applied_scale ex ≠ 0 := by
  unfold applied_scale
  split_ifs
  · norm_num
  · exact exponent_scale_ne_zero ex

theorem applied_scale_in_range (ex : Option (Char × Option Bool × pstring))
    (h : exponent_underflows ex = false) : applied_scale ex = exponent_scale ex := by
  simp [applied_scale, h]

theorem parsed_value_in_range (n : numeric_string) (h : exponent_underflows n.exp_part = false) :
    n.parsed_value = n.value := by
  simp [numeric_string.parsed_value, numeric_string.value, applied_scale_in_range _ h]

/-- The value of `std::pow` on the exponent `parse_exponent` computes: zero
when the power underflows, the inverse of the scale of the exponent
otherwise. -/
theorem pow_10_of_exponent (e : Char) (s : Option Bool) (X : pstring) :
    pow_10 (if (!(s == some true)) = true then -(digits_value 10 X : Int)
      else (digits_value 10 X : Int)) =
      if exponent_underflows (some (e, s, X)) = true then 0
      else (exponent_scale (some (e, s, X)))⁻¹ := by
  have hpos : (0 : Int) ≤ (digits_value 10 X : Int) := Int.natCast_nonneg _
  by_cases hs : s = some true
  · subst hs
    have h1 : ¬ ((digits_value 10 X : Int) ≤ -324) := by omega
    simp [pow_10, exponent_underflows, exponent_scale, h1]
  · have hb : (s == some true) = false := by simpa using hs
    have hb2 : (s != some true) = true := by simp [bne, hb]
    by_cases hu : 324 ≤ digits_value 10 X
    · have h1 : -(digits_value 10 X : Int) ≤ -324 := by omega
      simp [pow_10, exponent_underflows, hb, hb2, hu, h1]
    · have h1 : ¬ (-(digits_value 10 X : Int) ≤ -324) := by omega
      simp [pow_10, exponent_underflows, exponent_scale, hb, hb2, hu, h1, hs]

theorem parse_exponent_text (e : Char) (s : Option Bool) (X : pstring) (hX : X ≠ [])
    (hd : ∀ c ∈ X, is_digit_of 10 c = true) :
    parse_exponent (e :: (sign_text s ++ X)) (sign_text s ++ X) =
      (if exponent_underflows (some (e, s, X)) = true then 0
        else (exponent_scale (some (e, s, X)))⁻¹, []) := by
  have hsign : check_sign (sign_text s ++ X) = (s == some true, X) := by
    apply check_sign_text
    intro c t hct
    obtain ⟨_, _, _, t4, t5, _⟩ := digit_char_tests c (hd c (by rw [hct]; exact List.mem_cons_self _ _))
    exact ⟨t4, t5⟩
  have hne : X.isEmpty = false := by
    cases X with
    | nil => exact absurd rfl hX
    | cons a l => rfl
  unfold parse_exponent
  simp only [hsign, parse_exponent_loop_digits X 0 false hd, hne, Bool.not_false, Bool.or_true,
    Bool.not_true, Bool.false_eq_true, if_false, Int.zero_mul, Int.zero_add]
  rw [pow_10_of_exponent e s X]

theorem parse_loop_tail (allow bdp : Bool) (st : parser_state) (hst : st.has_digit = true)
    (ex : Option (Char × Option Bool × pstring))
    (hex : ∀ e s X, ex = some (e, s, X) →
      (e = 'e' ∨ e = 'E') ∧ X ≠ [] ∧ ∀ c ∈ X, is_digit_of 10 c = true) :
    parse_loop allow bdp st (exponent_text ex) =
      (finish allow { st with divisor := st.divisor / applied_scale ex }, []) := by
  match ex, hex with
  | none, _ =>
    have : ({ st with divisor := st.divisor / applied_scale none } : parser_state) = st := by
      simp [applied_scale, exponent_underflows, exponent_scale]
    rw [this]
    simp [exponent_text, parse_loop, hst]
  | some (e, s, X), hex =>
    obtain ⟨he, hX, hd⟩ := hex e s X rfl
    have hdot : (e == '.') = false := by rcases he with rfl | rfl <;> decide
    have hmark : (e == 'e' || e == 'E') = true := by rcases he with rfl | rfl <;> decide
    rw [exponent_text, parse_loop]
    cases hu : exponent_underflows (some (e, s, X)) with
    | true =>
      have hsame : ({ st with divisor := st.divisor / applied_scale (some (e, s, X)) } :
          parser_state) = st := by
        simp [applied_scale, hu]
      rw [hsame]
      simp only [hdot, Bool.false_eq_true, if_false, hst, hmark, Bool.and_self, if_true,
        parse_exponent_text e s X hX hd, hu, bne_self_eq_false, Bool.not_true]
    | false =>
      have hnz : ((exponent_scale (some (e, s, X)))⁻¹ != 0) = true := by
        simp only [bne_iff_ne, ne_eq, inv_eq_zero]
        exact exponent_scale_ne_zero _
      simp only [hdot, Bool.false_eq_true, if_false, hst, hmark, Bool.and_self, if_true,
        parse_exponent_text e s X hX hd, hu, hnz, Bool.not_true, div_eq_mul_inv,
        applied_scale]

theorem finish_value (allow : Bool) (st : parser_state) :
    finish allow st =
      if (!allow && (decide (st.digit_count > 1) && st.first_digit == 0)) = true then .nan
      else .finite ((if st.negative_sign = true then -1 else 1) *
        (st.parsed_value / st.divisor)) := by
  cases allow <;> cases hn : st.negative_sign <;>
    cases hz : (decide (st.digit_count > 1) && st.first_digit == 0) <;>
    simp [finish, make_final_value, hn, hz]

theorem leading_zero_digits (D : pstring) (hD : ∀ c ∈ D, is_digit_of 10 c = true)
    (count first : Nat) (h5 : count = D.length)
    (h6 : first = if D ≠ [] then (D.headD '0').toNat - 48 else 0) :
    (decide (count > 1) && first == 0) = (decide (1 < D.length) && D.head? == some '0') := by
  subst h5 h6
  cases D with
  | nil => simp
  | cons c t =>
    obtain ⟨h1, _, _⟩ := is_digit_10_range c (hD c (List.mem_cons_self _ _))
    have hz : (c.toNat - 48 == 0) = (c == '0') := by
      by_cases hc : c = '0'
      · subst hc; rfl
      · have hne : c.toNat ≠ 48 := fun h => hc (char_eq_of_toNat_eq c '0' h)
        have e1 : (c.toNat - 48 == 0) = false := by simp; omega
        have e2 : (c == '0') = false := by simpa using hc
        rw [e1, e2]
    simp [hz]

theorem result_congr (allow : Bool) (c1 c2 : Bool) (v1 v2 : ℚ) (hc : c1 = c2) (hv : v1 = v2) :
    ((if (!allow && c1) = true then exact_double.nan else .finite v1, ([] : pstring)) =
      (if (!allow && c2) = true then exact_double.nan else .finite v2, [])) := by
  rw [hc, hv]

/-- What `parse` returns on a numeric string: with the JSON trait and an
integer part of two digits or more that begins with `0`, NaN; otherwise
`sign * (D.F)` times the scale applied for the exponent; the whole text is
consumed. -/
theorem parse_numeric_string (allow : Bool) (n : numeric_string) (hwf : n.well_formed) :
    parse allow n.text =
      (if (!allow && n.leading_zero) = true then .nan else .finite n.parsed_value, []) := by
  obtain ⟨sg, D, frac, ex⟩ := n
  obtain ⟨hD, hF, hne, hex⟩ := hwf
  simp only [] at hD hF hne hex
  have hbody : ∀ c t, D ++ (fraction_text frac ++ exponent_text ex) = c :: t →
      (c == '+') = false ∧ (c == '-') = false := by
    intro c t hct
    cases D with
    | cons d D1 =>
      simp only [List.cons_append, List.cons.injEq] at hct
      obtain ⟨_, _, _, t4, t5, _⟩ := digit_char_tests d (hD d (List.mem_cons_self _ _))
      rw [← hct.1]
      exact ⟨t4, t5⟩
    | nil =>
      rcases hne with h | ⟨F, hF1, _⟩
      · exact absurd rfl h
      · subst hF1
        simp only [List.nil_append, fraction_text, List.cons_append, List.cons.injEq] at hct
        rw [← hct.1]
        exact ⟨by decide, by decide⟩
  obtain ⟨d1, d2, d3, d4, d5, d6⟩ := digits_fold_fields true D
    { parser_state.init with negative_sign := (sg == some true) } hD
  unfold parse numeric_string.text
  simp only [check_sign_text sg _ hbody]
  rw [parse_loop_digits allow true _ D _ hD]
  generalize D.foldl (digit_step true)
    { parser_state.init with negative_sign := (sg == some true) } = stD at d1 d2 d3 d4 d5 d6 ⊢
  have e1 : stD.negative_sign = (sg == some true) := d1
  have e2 : stD.has_digit = !D.isEmpty := by rw [d2]; rfl
  have e3 : stD.parsed_value = (digits_value 10 D : ℚ) := by
    rw [d3]; simp [parser_state.init]
  have e4 : stD.divisor = 1 := by rw [d4]; rfl
  have e5 : stD.digit_count = D.length := by rw [d5]; simp [parser_state.init]
  have e6 : stD.first_digit = if D ≠ [] then (D.headD '0').toNat - 48 else 0 := by
    rw [d6]; simp [parser_state.init]
  have hs := applied_scale_ne_zero ex
  have hsg : (if (sg == some true) = true then (-1 : ℚ) else 1) =
      (if sg = some true then -1 else 1) := by simp
  match frac, hF, hne with
  | none, _, hne =>
    have hDne : D ≠ [] := by
      rcases hne with h | ⟨F, hF1, _⟩
      · exact h
      · cases hF1
    have hDe : D.isEmpty = false := by
      cases D with
      | nil => exact absurd rfl hDne
      | cons a l => rfl
    rw [fraction_text, List.nil_append, parse_loop_tail allow true _ (by rw [e2, hDe]; rfl) ex hex,
      finish_value]
    apply result_congr
    · exact leading_zero_digits D hD _ _ e5 e6
    · show (if stD.negative_sign = true then (-1 : ℚ) else 1) *
          (stD.parsed_value / (stD.divisor / applied_scale ex)) = _
      rw [e1, e3, e4, hsg]
      simp only [numeric_string.parsed_value, Option.getD_none, digits_value, List.foldl_nil,
        List.length_nil]
      field_simp
  | some F, hF, hne2 =>
    have hFd := hF F rfl
    obtain ⟨f1, f2, f3, f4, f5, f6⟩ := digits_fold_fields false F stD hFd
    have hhas : (D.isEmpty = false) ∨ (F.isEmpty = false) := by
      rcases hne2 with h | ⟨F2, hF1, hF2⟩
      · left
        cases D with
        | nil => exact absurd rfl h
        | cons a l => rfl
      · right
        obtain rfl : F = F2 := Option.some.inj hF1
        cases F with
        | nil => exact absurd rfl hF2
        | cons a l => rfl
    rw [fraction_text, List.cons_append, parse_loop]
    simp only [beq_self_eq_true, if_true, Bool.not_true, Bool.false_eq_true, if_false]
    rw [parse_loop_digits allow false _ F _ hFd]
    generalize F.foldl (digit_step false) stD = stF at f1 f2 f3 f4 f5 f6 ⊢
    have g2 : stF.has_digit = true := by
      rw [f2, e2]
      rcases hhas with h | h <;> simp [h]
    have g5 : stF.digit_count = D.length := by rw [f5, ← e5]; rfl
    have g6 : stF.first_digit = if D ≠ [] then (D.headD '0').toNat - 48 else 0 := by
      rw [f6, ← e6]; simp
    rw [parse_loop_tail allow false _ g2 ex hex, finish_value]
    apply result_congr
    · exact leading_zero_digits D hD _ _ g5 g6
    · show (if stF.negative_sign = true then (-1 : ℚ) else 1) *
          (stF.parsed_value / (stF.divisor / applied_scale ex)) = _
      rw [f1, f3, f4, e1, e3, e4, hsg]
      simp only [numeric_string.parsed_value, Option.getD_some, Bool.false_eq_true, if_false]
      field_simp
      split_ifs <;> ring

/-- The exponent whose power of ten `std::pow` takes to zero is dropped: for
a numeric string with an exponent without minus sign of 324 or more,
`parse_exponent` returns `0.0`, the value it returns on failure, the test
`if (extra_divisor)` leaves the divisor as it is and `parse` returns
`sign * (D.F)`; on `1e400`, which denotes `10^400`, it returns 1. -/
theorem parse_drops_underflowing_exponent :
    (∀ (allow_leading_zeros : Bool) (n : numeric_string), n.well_formed →
      (allow_leading_zeros = true ∨ n.leading_zero = false) →
      exponent_underflows n.exp_part = true →
      parse allow_leading_zeros n.text =
        (.finite ((if n.sign = some true then -1 else 1) *
          ((digits_value 10 n.int_part : ℚ) +
            (digits_value 10 (n.frac_part.getD []) : ℚ) /
              10 ^ (n.frac_part.getD []).length)), [])) ∧
    numeric_string.text ⟨none, "1".toList, none, some ('e', none, "400".toList)⟩ =
      "1e400".toList ∧
    numeric_string.value ⟨none, "1".toList, none, some ('e', none, "400".toList)⟩ =
      10 ^ (400 : Int) ∧
    parse generic_parser_trait "1e400".toList = (.finite 1, []) ∧
    parse json_parser_trait "1e400".toList = (.finite 1, []) := by
  have hgen : ∀ (allow_leading_zeros : Bool) (n : numeric_string), n.well_formed →
      (allow_leading_zeros = true ∨ n.leading_zero = false) →
      exponent_underflows n.exp_part = true →
      parse allow_leading_zeros n.text =
        (.finite ((if n.sign = some true then -1 else 1) *
          ((digits_value 10 n.int_part : ℚ) +
            (digits_value 10 (n.frac_part.getD []) : ℚ) /
              10 ^ (n.frac_part.getD []).length)), []) := by
    intro allow n hwf h hu
    rw [parse_numeric_string allow n hwf]
    have hv : n.parsed_value = (if n.sign = some true then -1 else 1) *
        ((digits_value 10 n.int_part : ℚ) +
          (digits_value 10 (n.frac_part.getD []) : ℚ) /
            10 ^ (n.frac_part.getD []).length) := by
      simp [numeric_string.parsed_value, applied_scale, hu]
    rw [hv]
    rcases h with h | h <;> simp [h]
  have hwf : numeric_string.well_formed
      ⟨none, "1".toList, none, some ('e', none, "400".toList)⟩ := by
    unfold numeric_string.well_formed
    exact ⟨by decide, fun F hF => (by cases hF), Or.inl (by decide),
      fun e s X h => by cases h; exact ⟨Or.inl rfl, by decide, by decide⟩⟩
  have h1 : digits_value 10 ['1'] = 1 := by decide
  have h2 : digits_value 10 [] = 0 := by decide
  have h3 : digits_value 10 ['4', '0', '0'] = 400 := by decide
  have htext : numeric_string.text ⟨none, "1".toList, none, some ('e', none, "400".toList)⟩ =
      "1e400".toList := by decide
  have hone : ∀ allow : Bool, parse allow "1e400".toList = (.finite 1, []) := by
    intro allow
    have h := hgen allow ⟨none, "1".toList, none, some ('e', none, "400".toList)⟩ hwf
      (Or.inr (by decide)) (by decide)
    rw [htext] at h
    rw [h]
    norm_num [h1, h2]
    all_goals (intro hc; cases hc)
  refine ⟨hgen, htext, ?_, hone generic_parser_trait, hone json_parser_trait⟩
  have k1 : digits_value 10 "1".toList = 1 := by decide
  have k3 : digits_value 10 "400".toList = 400 := by decide
  have hno : ¬ ((none : Option Bool) = some true) := by intro hc; cases hc
  simp only [numeric_string.value, exponent_scale, Option.getD_none, List.length_nil, pow_zero,
    k1, h2, k3, if_neg hno, Nat.cast_one, Nat.cast_zero, zero_div, add_zero, one_mul,
    Nat.cast_ofNat]

/-- C20 (what the code does): on `..` and on `-..` the generic parser stops
at the second `.` without having taken in a digit and returns zero, a finite
value, where the other two exits of `parse` return NaN when `has_digit` is
not set; on the examples of the claim, the empty text, `+`, `-`, `.`, `abc`
and `.e5`, it returns NaN. -/
theorem parse_second_point_without_digit :
    parse generic_parser_trait "..".toList = (.finite 0, ".".toList) ∧
    parse generic_parser_trait "-..".toList = (.finite 0, ".".toList) ∧
    (parse generic_parser_trait []).1 = .nan ∧
    (parse generic_parser_trait "+".toList).1 = .nan ∧
    (parse generic_parser_trait "-".toList).1 = .nan ∧
    (parse generic_parser_trait ".".toList).1 = .nan ∧
    (parse generic_parser_trait "abc".toList).1 = .nan ∧
    (parse generic_parser_trait ".e5".toList).1 = .nan := by
  refine ⟨by with_unfolding_all decide, by with_unfolding_all decide, by decide, by decide,
    by decide, by decide, by decide, by decide⟩

theorem hash_loop_fold (char_signed : Bool) :
    ∀ (val : pstring) (h : Nat),
      (char_signed = true → ∀ c ∈ val, c.toNat < 128) →
      hash_loop char_signed val.length val h =
        val.foldl (fun h c => ((h * 0x01000193) % 2 ^ 32) ^^^ c.toNat) h := by
  intro val
  induction val with
  | nil => intro h _; rfl
  | cons c p ih =>
    intro h hs
    have hc : char_to_uint32 char_signed c = c.toNat := by
      unfold char_to_uint32
      have hlt : c.toNat < 2 ^ 32 := by
        have := c.val.val.isLt
        simp only [Char.toNat, UInt32.toNat, UInt32.size] at *
        omega
      have hlt2 : c.toNat < 4294967296 := by omega
      cases char_signed with
      | false => simp [hlt2]
      | true =>
        have := hs rfl c (List.mem_cons_self _ _)
        have h128 : ¬ 128 ≤ c.toNat := by omega
        simp [h128, hlt2]
    simp only [List.length_cons, hash_loop, List.foldl_cons, hc]
    exact ih _ (fun hsg x hx => hs hsg x (List.mem_cons_of_mem _ hx))

/-- C22 (amended): for every byte string shorter than `2 ^ 32` bytes, read
with an unsigned `char` or holding only bytes below `0x80`,
`pstring::hash` returns the hash that starts from 0 and for each byte
multiplies by the prime `0x01000193` modulo `2 ^ 32`, then xors the byte. -/
theorem hash_multiplies_then_xors (char_signed : Bool) (val : pstring)
    (hlen : val.length < 2 ^ 32)
    (hbytes : char_signed = true → ∀ c ∈ val, c.toNat < 128) :
    pstring.hash char_signed val = fnv0_32 val := by
  unfold pstring.hash fnv0_32
  rw [Nat.mod_eq_of_lt hlen]
  exact hash_loop_fold char_signed val 0 hbytes

/-- C22 (amended) on the string `ab`. -/
theorem hash_multiplies_then_xors_witness :
    pstring.hash true "ab".toList = fnv0_32 "ab".toList ∧
      pstring.hash true "ab".toList = 1627429073 :=
  ⟨hash_multiplies_then_xors true "ab".toList (by decide) (by decide), by decide⟩

/-- C22 as stated fails: the hash of the empty string is 0, not the offset
basis of FNV-1a, and the hash of the one byte `a` is 97, where FNV-1a gives
`0xE40C292C`: the code starts from 0 and multiplies before it xors. -/
theorem hash_is_not_fnv1a :
    pstring.hash false [] = 0 ∧ fnv1a_32 [] = 2166136261 ∧
    pstring.hash false "a".toList = 97 ∧ fnv1a_32 "a".toList = 0xE40C292C ∧
    pstring.hash true "a".toList = 97 := by
  decide

/-- With a signed `char` a byte from `0x80` on is sign-extended before the
xor, so the upper 24 bits of the hash are flipped. -/
theorem hash_signed_char_high_byte :
    pstring.hash true [Char.ofNat 0x80] = 0xFFFFFF80 ∧ fnv0_32 [Char.ofNat 0x80] = 0x80 ∧
    pstring.hash false [Char.ofNat 0x80] = 0x80 := by
  decide

theorem std_equal_iff (mem : Nat → Char) :
    ∀ (n p q : Nat), std_equal mem p n q = true ↔ ∀ i, i < n → mem (p + i) = mem (q + i) := by
  intro n
  induction n with
  | zero => intro p q; simp [std_equal]
  | succ n ih =>
    intro p q
    simp only [std_equal]
    constructor
    · intro h i hi
      by_cases hpq : mem p = mem q
      · simp only [hpq, beq_self_eq_true, if_true] at h
        cases i with
        | zero => simpa using hpq
        | succ i =>
          have := (ih (p + 1) (q + 1)).mp h i (by omega)
          simpa [Nat.add_assoc, Nat.add_comm 1 i] using this
      · have : (mem p == mem q) = false := by simpa using hpq
        simp [this] at h
    · intro h
      have h0 := h 0 (by omega)
      simp only [Nat.add_zero] at h0
      simp only [h0, beq_self_eq_true, if_true]
      refine (ih (p + 1) (q + 1)).mpr ?_
      intro i hi
      have := h (i + 1) (by omega)
      simpa [Nat.add_assoc, Nat.add_comm 1 i] using this

theorem bytes_eq_iff (mem : Nat → Char) (p q n : Nat) :
    (List.range n).map (fun i => mem (p + i)) = (List.range n).map (fun i => mem (q + i)) ↔
      ∀ i, i < n → mem (p + i) = mem (q + i) := by
  constructor
  · intro h i hi
    have := List.map_inj_left.mp h i (List.mem_range.mpr hi)
    exact this
  · intro h
    exact List.map_inj_left.mpr (fun i hi => h i (List.mem_range.mp hi))

/-- C23: `pstring::operator==` is content equality: two views compare equal
if and only if they have the same size and denote the same bytes, wherever
they point; any two empty views compare equal. -/
theorem pstring_eq_is_content_equality (mem : Nat → Char) :
    (∀ a b : pstring_view,
      pstring_view.eq mem a b = true ↔ a.m_size = b.m_size ∧ a.bytes mem = b.bytes mem) ∧
    (∀ p q : Nat, pstring_view.eq mem ⟨p, 0⟩ ⟨q, 0⟩ = true) := by
  constructor
  · intro a b
    unfold pstring_view.eq pstring_view.bytes
    by_cases hpos : a.m_pos = b.m_pos
    · simp only [hpos, beq_self_eq_true, if_true, beq_iff_eq]
      constructor
      · intro h
        exact ⟨h, by rw [h]⟩
      · intro h
        exact h.1
    · have hpos2 : (a.m_pos == b.m_pos) = false := by simpa using hpos
      simp only [hpos2, Bool.false_eq_true, if_false]
      by_cases hsize : a.m_size = b.m_size
      · simp only [hsize, bne_self_eq_false, Bool.false_eq_true, if_false, true_and]
        rw [std_equal_iff, bytes_eq_iff]
      · have : (a.m_size != b.m_size) = true := by simpa using hsize
        simp [this, hsize]
  · intro p q
    unfold pstring_view.eq
    by_cases hpos : p = q
    · simp [hpos]
    · simp [hpos, std_equal]

theorem with_spans_append (X : pstring) (span : element → pstring) :
    ∀ (pre post : List element) (b : Nat),
      with_spans X span b (pre ++ post) =
        spans_written X span b pre ++ with_spans X span (cursor_after b pre) post := by
  intro pre
  induction pre with
  | nil => intro post b; rfl
  | cons e pre ih =>
    intro post b
    rw [List.cons_append]
    simp only [with_spans, spans_written, cursor_after, List.append_assoc]
    rw [ih]

/-- The output of `write` on recorded elements in document order, whatever
order the links are given in. -/
theorem write_document_order (ndebug : Bool) (fact : export_factory)
    (ranges : Nat → range_reference) (X : pstring) (links es : List element)
    (hperm : links.Perm es) (hne : es ≠ [])
    (hdoc : document_order ndebug fact ranges X es) :
    write ndebug (some fact) ranges links X =
      .ok (with_spans X (rewritten_span fact ranges X) 0 es) := by
  obtain ⟨horder, hvalid, hdisj, hrec, hassert⟩ := hdoc
  have hstrict : es.Pairwise
      (fun e1 e2 => e1.stream_pos.open_begin < e2.stream_pos.open_begin) := by
    refine List.Pairwise.imp_of_mem ?_ (horder.and hdisj)
    intro a b ha hb hab
    obtain ⟨h1, h2⟩ := hab
    obtain ⟨ha1, ha2, _⟩ := hvalid a ha
    obtain ⟨hb1, hb2, _⟩ := hvalid b hb
    unfold spans_disjoint at h2
    omega
  have hsort := insertionSort_document_order links es hperm hstrict
  have hgaps := gaps_ok_of_disjoint ndebug X es 0 (Nat.zero_le _) (fun _ _ => Nat.zero_le _)
    hvalid horder hdisj hassert
  obtain ⟨r, hr, hlen, hout⟩ := write_links_recorded ndebug fact ranges X es 0 [] hgaps hrec
  obtain ⟨e, es1, rfl⟩ := List.exists_cons_of_ne_nil hne
  have hX : (X.length == 0) = false := by
    obtain ⟨h1, h2, _, _, h5⟩ := hvalid e (List.mem_cons_self _ _)
    simp only [beq_eq_false_iff_ne, ne_eq]
    omega
  have hlinks : links.isEmpty = false := by
    cases links with
    | nil => exact absurd hperm.symm (List.cons_ne_nil _ _ ∘ List.Perm.eq_nil)
    | cons x xs => rfl
  unfold write
  simp only [hX, hlinks, Bool.false_eq_true, if_false, hsort, hr,
    input_view_ok X r.2 X.length hlen (le_refl _)]
  have hsub : subview X r.2 (X.length - r.2) = X.drop r.2 := by
    unfold subview
    rw [List.take_of_length_le]
    simp
  rw [hsub, hout]
  rfl

/-- The output of `write` around one recorded element `e`: what was put out
up to `e`, the rewritten span of `e`, and the input from the end of the
handled span of `e` on, with the later elements rewritten. -/
theorem write_around_element (ndebug : Bool) (fact : export_factory)
    (ranges : Nat → range_reference) (X : pstring) (links pre post : List element)
    (e : element) (hperm : links.Perm (pre ++ e :: post))
    (hdoc : document_order ndebug fact ranges X (pre ++ e :: post)) :
    write ndebug (some fact) ranges links X =
      .ok (written_up_to fact ranges X pre e ++ rewritten_span fact ranges X e ++
        with_spans X (rewritten_span fact ranges X) (handled_end e) post) := by
  rw [write_document_order ndebug fact ranges X links _ hperm (by simp) hdoc,
    with_spans_append]
  simp only [with_spans, written_up_to, List.append_assoc]

theorem subtree_copy_eq (ref : range_reference) (sheet : export_sheet) (r : Int) (e : element) :
    subtree_copy ref sheet r e =
      if e.elem_type == element_type.element_unlinked then
        if e.child_elements.isEmpty then
          ['<'] ++ e.text ++ field_attributes_copy ref sheet r e.attributes ++ ['/', '>']
        else
          ['<'] ++ e.text ++ field_attributes_copy ref sheet r e.attributes ++ ['>'] ++
            subtree_copy.copies ref sheet r e.child_elements ++ ['<', '/'] ++ e.text ++ ['>']
      else
        ['<'] ++ e.text ++ field_attributes_copy ref sheet r e.attributes ++ ['>'] ++
          field_value ref sheet r e.field_ref.column_pos ++ ['<', '/'] ++ e.text ++ ['>'] := by
  cases e
  simp only [subtree_copy, element.text]

theorem range_subtree_regular_eq (e : element) :
    range_subtree_regular e =
      if e.elem_type == element_type.element_unlinked then
        e.ref_type != reference_type.reference_range_field &&
          (if e.child_elements.isEmpty then !e.attributes.isEmpty
           else last_is_leaf e.child_elements &&
             range_subtree_regular.all_regular e.child_elements)
      else e.ref_type == reference_type.reference_range_field := by
  cases e
  simp only [range_subtree_regular]

theorem range_attribute_text_eq (ref : range_reference) (sheet : export_sheet) (r : Int) :
    ∀ (attrs : List xml_attribute),
      range_attribute_text ref sheet r attrs = field_attributes_copy ref sheet r attrs := by
  intro attrs
  induction attrs with
  | nil => rfl
  | cons a rest ih =>
    unfold field_attributes_copy at ih ⊢
    simp only [range_attribute_text, ih, List.filter_cons]
    by_cases h : a.ref_type = reference_type.reference_range_field
    · simp [h, field_value]
    · simp [h]

theorem write_opening_element_range_open (e : element) (ref : range_reference)
    (sheet : export_sheet) (r : Int) :
    write_opening_element_range e ref sheet r false =
      ['<'] ++ e.text ++ field_attributes_copy ref sheet r e.attributes ++ ['>'] := by
  unfold write_opening_element_range
  cases h : e.attributes with
  | nil => simp [field_attributes_copy]
  | cons a rest => simp [range_attribute_text_eq]

theorem write_opening_element_range_self_close (e : element) (ref : range_reference)
    (sheet : export_sheet) (r : Int) (h : e.attributes.isEmpty = false) :
    write_opening_element_range e ref sheet r true =
      ['<'] ++ e.text ++ field_attributes_copy ref sheet r e.attributes ++ ['/', '>'] := by
  unfold write_opening_element_range
  simp [h, range_attribute_text_eq]

theorem write_row_loop_self_close (ref : range_reference) (sheet : export_sheet) (r : Int)
    (fuel : Nat) (sc : scope) (below : List scope) (os : pstring)
    (h : (sc.current_child_pos.isEmpty &&
      sc.element.ref_type != reference_type.reference_range_field) = true) :
    write_row_loop ref sheet r (fuel + 1) (sc :: below) os =
      write_row_loop ref sheet r fuel below
        (if !sc.opened then os ++ write_opening_element_range sc.element ref sheet r true
         else os) := by
  rw [write_row_loop]
  simp only [h, if_true]

theorem write_row_loop_close (ref : range_reference) (sheet : export_sheet) (r : Int)
    (fuel : Nat) (sc : scope) (below : List scope) (os written : pstring)
    (h : (sc.current_child_pos.isEmpty &&
      sc.element.ref_type != reference_type.reference_range_field) = false)
    (hw : write_children ref sheet r sc.current_child_pos = (written, none)) :
    write_row_loop ref sheet r (fuel + 1) (sc :: below) os =
      write_row_loop ref sheet r fuel below
        ((if !sc.opened then os ++ write_opening_element_range sc.element ref sheet r false
          else os) ++ written ++
          (if sc.element.ref_type == reference_type.reference_range_field then
            sheet.write_string (ref.pos.row + 1 + r) (ref.pos.col + sc.element.field_ref.column_pos)
           else []) ++ ['<', '/'] ++ sc.element.text ++ ['>']) := by
  rw [write_row_loop]
  simp only [h, hw, Bool.false_eq_true, if_false]

theorem write_row_loop_descend (ref : range_reference) (sheet : export_sheet) (r : Int)
    (fuel : Nat) (sc : scope) (below : List scope) (os written : pstring) (c : element)
    (rest : List element)
    (h : (sc.current_child_pos.isEmpty &&
      sc.element.ref_type != reference_type.reference_range_field) = false)
    (hw : write_children ref sheet r sc.current_child_pos = (written, some (c, rest))) :
    write_row_loop ref sheet r (fuel + 1) (sc :: below) os =
      write_row_loop ref sheet r fuel
        (scope.init c :: { sc with current_child_pos := rest, opened := true } :: below)
        ((if !sc.opened then os ++ write_opening_element_range sc.element ref sheet r false
          else os) ++ written) := by
  rw [write_row_loop]
  simp only [h, hw, Bool.false_eq_true, if_false]

theorem last_is_leaf_cons (c : element) (cs : List element) (h : cs ≠ []) :
    last_is_leaf (c :: cs) = last_is_leaf cs := by
  unfold last_is_leaf
  cases cs with
  | nil => exact absurd rfl h
  | cons d ds => rw [List.getLast?_cons_cons]

theorem write_children_leaves (ref : range_reference) (sheet : export_sheet) (r : Int) :
    ∀ (cs : List element) (written : pstring),
      write_children ref sheet r cs = (written, none) →
      range_subtree_regular.all_regular cs = true →
      written = subtree_copy.copies ref sheet r cs := by
  intro cs
  induction cs with
  | nil =>
    intro written h _
    simp only [write_children, Prod.mk.injEq] at h
    rw [← h.1]
    rfl
  | cons c cs ih =>
    intro written h hreg
    simp only [range_subtree_regular.all_regular, Bool.and_eq_true] at hreg
    simp only [write_children] at h
    by_cases hc : (c.elem_type == element_type.element_unlinked) = true
    · simp [hc] at h
    · simp only [hc, Bool.false_eq_true, if_false, Prod.mk.injEq] at h
      have hrc := hreg.1
      rw [range_subtree_regular_eq] at hrc
      simp only [hc, Bool.false_eq_true, if_false] at hrc
      have := ih (write_children ref sheet r cs).1 (Prod.ext rfl h.2) hreg.2
      rw [← h.1, this]
      simp only [subtree_copy.copies, hrc, if_true]
      rw [subtree_copy_eq]
      simp only [hc, Bool.false_eq_true, if_false, write_opening_element_range_open,
        field_value, List.append_assoc]

theorem write_children_descend (ref : range_reference) (sheet : export_sheet) (r : Int) :
    ∀ (cs : List element) (written : pstring) (c : element) (rest : List element),
      write_children ref sheet r cs = (written, some (c, rest)) →
      range_subtree_regular.all_regular cs = true →
      last_is_leaf cs = true →
      c.elem_type = element_type.element_unlinked ∧
      subtree_copy.copies ref sheet r cs =
        written ++ subtree_copy ref sheet r c ++ subtree_copy.copies ref sheet r rest ∧
      range_subtree_regular c = true ∧
      range_subtree_regular.all_regular rest = true ∧
      rest ≠ [] ∧ last_is_leaf rest = true := by
  intro cs
  induction cs with
  | nil =>
    intro written c rest h _ _
    simp [write_children] at h
  | cons d cs ih =>
    intro written c rest h hreg hlast
    simp only [range_subtree_regular.all_regular, Bool.and_eq_true] at hreg
    simp only [write_children] at h
    by_cases hd : (d.elem_type == element_type.element_unlinked) = true
    · simp only [hd, if_true, Prod.mk.injEq, Option.some.injEq] at h
      obtain ⟨h0, h1, h2⟩ := h
      subst h0 h1 h2
      have hne : cs ≠ [] := by
        intro hnil
        subst hnil
        simp only [last_is_leaf, List.getLast?_singleton, bne_iff_ne, ne_eq] at hlast
        exact hlast (by simpa using hd)
      refine ⟨by simpa using hd, ?_, hreg.1, hreg.2, hne, ?_⟩
      · simp [subtree_copy.copies]
      · rw [← last_is_leaf_cons d cs hne]
        exact hlast
    · simp only [hd, Bool.false_eq_true, if_false, Prod.mk.injEq] at h
      have hne : cs ≠ [] := by
        intro hnil
        subst hnil
        simp [write_children] at h
      have hrd := hreg.1
      rw [range_subtree_regular_eq] at hrd
      simp only [hd, Bool.false_eq_true, if_false] at hrd
      obtain ⟨h1, h2, h3, h4, h5, h6⟩ := ih (write_children ref sheet r cs).1 c rest
        (Prod.ext rfl h.2) hreg.2 (by rw [← last_is_leaf_cons d cs hne]; exact hlast)
      refine ⟨h1, ?_, h3, h4, h5, h6⟩
      rw [← h.1]
      simp only [subtree_copy.copies, h2, hrd, if_true]
      rw [subtree_copy_eq]
      simp only [hd, Bool.false_eq_true, if_false, write_opening_element_range_open,
        field_value, List.append_assoc]

theorem scope_weight_pos (sc : scope) : 1 ≤ scope_weight sc := by
  unfold scope_weight
  omega

/-- A scope with children left, the last of them a leaf: the writer puts
out the opening tag if it has not yet, the copies of the children left and
the closing tag, and comes back to the stack below. -/
theorem write_row_loop_children (ref : range_reference) (sheet : export_sheet) (r : Int) :
    ∀ (n : Nat) (sc : scope) (below : List scope) (os : pstring) (fuel : Nat),
      element.size.sizes sc.current_child_pos ≤ n →
      sc.current_child_pos ≠ [] →
      sc.element.ref_type ≠ reference_type.reference_range_field →
      range_subtree_regular.all_regular sc.current_child_pos = true →
      last_is_leaf sc.current_child_pos = true →
      (∀ c : element, c.size ≤ n → range_subtree_regular c = true →
        copies_subtree ref sheet r c) →
      stack_weight (sc :: below) ≤ fuel →
      ∃ fuel1, stack_weight below ≤ fuel1 ∧
        write_row_loop ref sheet r fuel (sc :: below) os =
          write_row_loop ref sheet r fuel1 below
            (os ++ (if sc.opened then []
                    else ['<'] ++ sc.element.text ++
                      field_attributes_copy ref sheet r sc.element.attributes ++ ['>']) ++
              subtree_copy.copies ref sheet r sc.current_child_pos ++
              ['<', '/'] ++ sc.element.text ++ ['>']) := by
  intro n
  induction n using Nat.strong_induction_on with
  | _ n ih =>
    intro sc below os fuel hn hne hfield hreg hlast hM hfuel
    have hw1 := scope_weight_pos sc
    simp only [stack_weight] at hfuel
    obtain ⟨f, rfl⟩ : ∃ f, fuel = f + 1 := ⟨fuel - 1, by omega⟩
    have hself : (sc.current_child_pos.isEmpty &&
        sc.element.ref_type != reference_type.reference_range_field) = false := by
      cases hcs : sc.current_child_pos with
      | nil => exact absurd hcs hne
      | cons c cs => rfl
    have hopen : (if !sc.opened then
          os ++ write_opening_element_range sc.element ref sheet r false else os) =
        os ++ (if sc.opened then []
               else ['<'] ++ sc.element.text ++
                 field_attributes_copy ref sheet r sc.element.attributes ++ ['>']) := by
      cases sc.opened with
      | true => simp
      | false => simp [write_opening_element_range_open]
    have hcontent : (if sc.element.ref_type == reference_type.reference_range_field then
          sheet.write_string (ref.pos.row + 1 + r)
            (ref.pos.col + sc.element.field_ref.column_pos)
        else []) = ([] : pstring) := by
      have : (sc.element.ref_type == reference_type.reference_range_field) = false := by
        simpa using hfield
      simp [this]
    cases hw : write_children ref sheet r sc.current_child_pos with
    | mk written o =>
      cases o with
      | none =>
        refine ⟨f, by omega, ?_⟩
        rw [write_row_loop_close ref sheet r f sc below os written hself hw, hopen, hcontent,
          write_children_leaves ref sheet r _ written hw hreg]
        simp only [List.append_nil, List.append_assoc]
      | some p =>
        obtain ⟨c, rest⟩ := p
        obtain ⟨h1, h2, h3, h4, h5, h6⟩ :=
          write_children_descend ref sheet r _ written c rest hw hreg hlast
        have hsz := write_children_some ref sheet r _ written c rest hw
        have hiw := scope_init_weight c
        rw [write_row_loop_descend ref sheet r f sc below os written c rest hself hw, hopen]
        have hcpos : 1 ≤ c.size := by rw [element_size_eq]; omega
        obtain ⟨f1, hf1, e1⟩ := hM c (by omega) h3 f
          ({ sc with current_child_pos := rest, opened := true } :: below)
          (os ++ (if sc.opened then []
               else ['<'] ++ sc.element.text ++
                 field_attributes_copy ref sheet r sc.element.attributes ++ ['>']) ++ written)
          (by
            simp only [stack_weight, scope_weight] at hfuel hiw ⊢
            omega)
        obtain ⟨f2, hf2, e2⟩ := ih (element.size.sizes rest) (by omega)
          { sc with current_child_pos := rest, opened := true } below
          (os ++ (if sc.opened then []
               else ['<'] ++ sc.element.text ++
                 field_attributes_copy ref sheet r sc.element.attributes ++ ['>']) ++ written ++
            subtree_copy ref sheet r c) f1 (le_refl _) h5 hfield h4 h6
          (fun d hd hr => hM d (by omega) hr) hf1
        refine ⟨f2, hf2, ?_⟩
        rw [e1, e2, h2]
        simp only [if_true, List.append_nil, List.append_assoc]

theorem size_le_sizes : ∀ (cs : List element) (c : element), c ∈ cs →
    c.size ≤ element.size.sizes cs := by
  intro cs
  induction cs with
  | nil => intro c h; simp at h
  | cons d cs ih =>
    intro c h
    simp only [element.size.sizes]
    rcases List.mem_cons.mp h with h | h
    · subst h; omega
    · have := ih c h
      omega

/-- The writer of one row puts out the copy of every regular subtree. -/
theorem write_row_loop_subtree (ref : range_reference) (sheet : export_sheet) (r : Int) :
    ∀ (n : Nat) (e : element), e.size ≤ n → range_subtree_regular e = true →
      copies_subtree ref sheet r e := by
  intro n
  induction n using Nat.strong_induction_on with
  | _ n ih =>
    intro e hn hreg fuel below os hfuel
    rw [range_subtree_regular_eq] at hreg
    have hw1 := scope_weight_pos (scope.init e)
    by_cases hu : (e.elem_type == element_type.element_unlinked) = true
    · simp only [hu, if_true, Bool.and_eq_true, bne_iff_ne, ne_eq] at hreg
      obtain ⟨hfield, hrest⟩ := hreg
      have hinit : (scope.init e).current_child_pos = e.child_elements := by
        simp [scope.init, hu]
      by_cases hc : e.child_elements.isEmpty = true
      · -- a self-closing element
        simp only [hc, if_true, Bool.not_eq_true', List.isEmpty_eq_false] at hrest
        simp only [stack_weight] at hfuel
        obtain ⟨f, rfl⟩ : ∃ f, fuel = f + 1 := ⟨fuel - 1, by omega⟩
        refine ⟨f, by omega, ?_⟩
        have hself : ((scope.init e).current_child_pos.isEmpty &&
            (scope.init e).element.ref_type != reference_type.reference_range_field) = true := by
          rw [hinit, hc]
          simpa [scope.init] using hfield
        rw [write_row_loop_self_close ref sheet r f _ below os hself, subtree_copy_eq]
        have hattr : e.attributes.isEmpty = false := by simpa using hrest
        simp only [scope.init, Bool.not_false, if_true, hu, hc,
          write_opening_element_range_self_close e ref sheet r hattr]
      · simp only [hc, Bool.false_eq_true, if_false, Bool.and_eq_true] at hrest
        have hne : e.child_elements ≠ [] := by
          intro h
          rw [h] at hc
          exact hc rfl
        have hsize := element_size_eq e
        obtain ⟨f1, hf1, e1⟩ := write_row_loop_children ref sheet r
          (element.size.sizes e.child_elements) (scope.init e) below os fuel
          (by rw [hinit]) (by rw [hinit]; exact hne) (by simpa [scope.init] using hfield)
          (by rw [hinit]; exact hrest.2) (by rw [hinit]; exact hrest.1)
          (fun c hc hr => ih c.size (by omega) c (le_refl _) hr) hfuel
        refine ⟨f1, hf1, ?_⟩
        rw [e1, subtree_copy_eq, hinit]
        simp only [scope.init, hu, hc, Bool.false_eq_true, if_false, if_true, List.append_assoc]
    · -- a field element
      simp only [hu, Bool.false_eq_true, if_false] at hreg
      have hinit : (scope.init e).current_child_pos = [] := by
        simp [scope.init, hu]
      simp only [stack_weight] at hfuel
      obtain ⟨f, rfl⟩ : ∃ f, fuel = f + 1 := ⟨fuel - 1, by omega⟩
      refine ⟨f, by omega, ?_⟩
      have hself : ((scope.init e).current_child_pos.isEmpty &&
          (scope.init e).element.ref_type != reference_type.reference_range_field) = false := by
        rw [hinit]
        simpa [scope.init] using hreg
      rw [write_row_loop_close ref sheet r f _ below os [] hself (by rw [hinit]; rfl),
        subtree_copy_eq]
      have hreg2 : (e.ref_type == reference_type.reference_range_field) = true := hreg
      simp only [scope.init, Bool.not_false, if_true, hu, Bool.false_eq_true, if_false, hreg2,
        write_opening_element_range_open, field_value, List.append_nil, List.append_assoc]

/-- The rows loop puts out one copy of a regular subtree per row. -/
theorem write_rows_copies (root : element) (ref : range_reference) (sheet : export_sheet)
    (hreg : range_subtree_regular root = true) :
    ∀ (count : Nat) (current_row : Int) (os : pstring),
      write_rows root ref sheet count current_row os =
        .ok (os ++ (List.range count).flatMap
          (fun i => subtree_copy ref sheet (current_row + (i : Int)) root)) := by
  intro count
  induction count with
  | zero => intro current_row os; simp [write_rows]
  | succ count ih =>
    intro current_row os
    obtain ⟨f1, _, e1⟩ := write_row_loop_subtree ref sheet current_row root.size root
      (le_refl _) hreg (2 * root.size) [] os (by
        have := scope_init_weight root
        simp only [stack_weight]
        omega)
    have e2 : write_row_loop ref sheet current_row f1 []
        (os ++ subtree_copy ref sheet current_row root) =
        .ok (os ++ subtree_copy ref sheet current_row root) := by
      cases f1 <;> rfl
    simp only [write_rows, e1, e2, ih]
    rw [List.range_succ_eq_map]
    simp only [List.flatMap_cons, List.flatMap_map, Nat.cast_zero, add_zero, List.append_assoc]
    have hfun : (fun i : Nat => subtree_copy ref sheet (current_row + 1 + (i : Int)) root) =
        fun a : Nat => subtree_copy ref sheet (current_row + ((a.succ : Nat) : Int)) root := by
      funext i
      congr 1
      push_cast
      ring
    rw [hfun]

theorem cell_attribute_text_exported (fact : export_factory) :
    ∀ (attrs : List xml_attribute),
      cell_attribute_text fact attrs =
        attrs.flatMap (fun a =>
          match a.exported fact with
          | some v => [' '] ++ a.text ++ ['=', QUOT] ++ v ++ [QUOT]
          | none => []) := by
  intro attrs
  induction attrs with
  | nil => rfl
  | cons a rest ih =>
    simp only [cell_attribute_text, ih, List.flatMap_cons, xml_attribute.exported]
    congr 1
    by_cases h : a.ref_type = reference_type.reference_cell
    · cases hs : fact.get_sheet a.cell_ref.pos.sheet with
      | none => simp [h, hs]
      | some sheet => simp [h, hs]
    · simp [h]

/-- C24 (amended): the opening tag `write` puts out for a recorded element,
among recorded elements in document order, is made from the map tree alone:
`<`, the element name, one ` name="value"` for each attribute of the map tree
that is linked to a single cell whose export sheet exists, with the string of
the sheet as value, then `/` for an attribute anchor recorded as
self-closing, and `>`. Nothing of the opening tag of the input is copied. -/
theorem opening_tag_regenerated (ndebug : Bool) (fact : export_factory)
    (ranges : Nat → range_reference) (X : pstring) (links pre post : List element)
    (E : element)
    (hperm : links.Perm (pre ++ E :: post))
    (hdoc : document_order ndebug fact ranges X (pre ++ E :: post)) :
    write ndebug (some fact) ranges links X =
      .ok (written_up_to fact ranges X pre E ++ rewritten_span fact ranges X E ++
        with_spans X (rewritten_span fact ranges X) (handled_end E) post) ∧
    regenerated_tag fact E <+: rewritten_span fact ranges X E := by
  refine ⟨write_around_element ndebug fact ranges X links pre post E hperm hdoc, ?_⟩
  have hrec : recorded_link fact ranges E := hdoc.2.2.2.1 E (by simp)
  unfold rewritten_span regenerated_tag
  rcases hrec with ⟨hcell, hsheet⟩ | ⟨hcell, a, hpar, hsheet⟩ | ⟨hcell, hpar, hanchor⟩
  · obtain ⟨sheet, hs⟩ := Option.isSome_iff_exists.mp hsheet
    simp only [hcell, hs, if_true, ne_eq, not_true_eq_false, false_and, if_false]
    refine ⟨sheet.write_string E.cell_ref.pos.row E.cell_ref.pos.col ++
      subview X E.stream_pos.close_begin (E.stream_pos.close_end - E.stream_pos.close_begin), ?_⟩
    simp [write_opening_element, cell_attribute_text_exported]
  · simp only [hcell, hpar, if_false, ne_eq, not_false_eq_true, true_and, false_and]
    refine ⟨returned (write_range_reference ranges E fact) [] ++
      subview X E.stream_pos.close_begin (E.stream_pos.close_end - E.stream_pos.close_begin), ?_⟩
    simp [write_opening_element, cell_attribute_text_exported]
  · simp only [hcell, hpar, if_false, ne_eq, not_false_eq_true, true_and]
    refine ⟨[], ?_⟩
    by_cases hsc : E.stream_pos.open_begin = E.stream_pos.close_begin
    · simp [write_opening_element, cell_attribute_text_exported, hsc]
    · simp [write_opening_element, cell_attribute_text_exported, hsc]

/-- C24 (amended) on `<r><a x="1" y="2"/></r>` with `@x` linked to the cell
`(S, 1, 0)` that now reads `z1`. -/
theorem opening_tag_regenerated_witness :
    write false (some s5_fact) s5_ranges [anchor_link] anchor_input =
      .ok ("<r>".toList ++ "<a x=\"z1\"/>".toList ++ "</r>".toList) ∧
    "<a x=\"z1\"/>".toList <+: "<a x=\"z1\"/>".toList :=
  opening_tag_regenerated false s5_fact s5_ranges anchor_input [anchor_link] [] []
    anchor_link (List.Perm.refl _)
    ⟨by simp,
     by
      intro e he
      simp only [List.nil_append, List.mem_singleton] at he
      subst he
      exact ⟨by decide, by decide, by decide, by decide, by decide⟩,
     by simp,
     by
      intro e he
      simp only [List.nil_append, List.mem_singleton] at he
      subst he
      exact Or.inr (Or.inr ⟨by decide, rfl, rfl⟩),
     fun _ => ⟨by decide, trivial⟩⟩

/-- C24 as stated fails: on `<r><a x="1" y="2"/></r>` with only `@x` linked,
the rewritten tag is `<a x="z1"/>`; the attribute `y="2"` of the source tag
is not in the output, with assertions compiled in or out. -/
theorem unlinked_attribute_is_dropped :
    write false (some s5_fact) s5_ranges [anchor_link] anchor_input =
      .ok "<r><a x=\"z1\"/></r>".toList ∧
    write true (some s5_fact) s5_ranges [anchor_link] anchor_input =
      .ok "<r><a x=\"z1\"/></r>".toList := by
  decide

/-- C26 (amended): for a recorded range parent `E` whose export sheet
exists, among recorded elements in document order, with a regular subtree
under its first child, `write` puts out after the output up to `E` the
regenerated opening tag, then `row_size` copies of the subtree of the first
child, the copy for row `r` carrying for every field element and field
attribute the string of the sheet at
`(origin.row + 1 + r, origin.col + column_pos)`, then the bytes
`[E.close_begin, E.close_end)` of the input, and goes on with the input from
`E.close_end`. -/
theorem range_parent_rows_rewritten (ndebug : Bool) (fact : export_factory)
    (ranges : Nat → range_reference) (X : pstring) (links pre post : List element)
    (E : element) (a : Nat) (sheet : export_sheet) (first : element) (others : List element)
    (hperm : links.Perm (pre ++ E :: post))
    (hdoc : document_order ndebug fact ranges X (pre ++ E :: post))
    (hcell : E.ref_type ≠ reference_type.reference_cell)
    (hpar : E.range_parent = some a)
    (hsheet : fact.get_sheet (ranges a).pos.sheet = some sheet)
    (hunlinked : E.elem_type = element_type.element_unlinked)
    (hchildren : E.child_elements = first :: others)
    (hreg : range_subtree_regular first = true) :
    write ndebug (some fact) ranges links X =
      .ok (written_up_to fact ranges X pre E ++
        (write_opening_element E fact false ++
          (List.range (ranges a).row_size.toNat).flatMap
            (fun r => subtree_copy (ranges a) sheet (r : Int) first) ++
          subview X E.stream_pos.close_begin
            (E.stream_pos.close_end - E.stream_pos.close_begin)) ++
        with_spans X (rewritten_span fact ranges X) E.stream_pos.close_end post) := by
  rw [write_around_element ndebug fact ranges X links pre post E hperm hdoc]
  have hrows : write_range_reference ranges E fact =
      .ok ((List.range (ranges a).row_size.toNat).flatMap
        (fun r => subtree_copy (ranges a) sheet (r : Int) first)) := by
    unfold write_range_reference write_range_reference_group
    simp only [hunlinked, bne_self_eq_false, Bool.false_eq_true, if_false, hchildren, hpar,
      hsheet, write_rows_copies first (ranges a) sheet hreg, List.nil_append, zero_add]
  simp only [rewritten_span, handled_end, hcell, hpar, hrows, returned, if_false,
    Option.isSome_some, or_true, if_true]

/-- C26 (amended) on the table scenario: two rows are written from the
sheet. -/
theorem range_parent_rows_rewritten_witness :
    write false (some table_fact) table_ranges [table_link] table_input =
      .ok ("<t>".toList ++
        ("<r>".toList ++
          ("<it k=\"1a\"><d><x>1b</x></d><y>1c</y></it>".toList ++
            "<it k=\"2a\"><d><x>2b</x></d><y>2c</y></it>".toList) ++
          "</r>".toList) ++ "</t>".toList) :=
  range_parent_rows_rewritten false table_fact table_ranges table_input [table_link] [] []
    table_link 0 { write_string := fun row col =>
          (if row = 1 then ['1'] else if row = 2 then ['2'] else ['?']) ++
          (if col = 0 then ['a'] else if col = 1 then ['b'] else if col = 2 then ['c']
           else ['?']) }
    table_row []
    (List.Perm.refl _)
    ⟨by simp,
     by
      intro e he
      simp only [List.nil_append, List.mem_singleton] at he
      subst he
      exact ⟨by decide, by decide, by decide, by decide, by decide⟩,
     by simp,
     by
      intro e he
      simp only [List.nil_append, List.mem_singleton] at he
      subst he
      exact Or.inr (Or.inl ⟨by decide, 0, rfl, rfl⟩),
     fun _ => ⟨by decide, trivial⟩⟩
    (by decide) rfl rfl rfl rfl (by decide)

/-- C26 as stated fails: with no export sheet for the range, `write` skips
the recorded range parent; no copy of the subtree is made from a sheet and
the input is put out as it is. -/
theorem range_parent_without_sheet_is_copied :
    write false (some no_sheet_fact) table_ranges [table_link] table_input = .ok table_input ∧
    write true (some no_sheet_fact) table_ranges [table_link] table_input = .ok table_input := by
  decide

/-- Outside the regular subtrees: a row element whose last child is not
linked loses its closing tag, here `</it>` after `</d>`. -/
theorem row_closing_tag_dropped :
    write_range_reference table_ranges
      (unlinked_element 2 "r".toList
        [unlinked_element 3 "it".toList
          [unlinked_element 5 "d".toList [field_element 6 "x".toList 0 1] [] none none]
          [] none (some 0)] [] (some 0) none) table_fact =
      .ok "<it><d><x>1b</x></d><it><d><x>2b</x></d>".toList := by
  decide

theorem json_commit_typed_call (v : json_value) (fact : import_factory) (pos : cell_position)
    (sheet : Nat) (hsheet : fact.get_sheet pos.sheet = some sheet)
    (hss : fact.get_shared_strings = true) :
    v.commit fact pos = typed_call fact sheet pos.row pos.col v := by
  unfold json_value.commit typed_call
  cases v <;> simp [hsheet, hss]

theorem push_node_current (h : json_content_handler) (pushed : Option json_node) :
    (push_node h pushed).mp_current_node = pushed ∧ (push_node h pushed).sink = h.sink := by
  unfold push_node
  cases pushed with
  | none => exact ⟨rfl, rfl⟩
  | some cur =>
    simp only
    cases cur.row_group with
    | none => exact ⟨rfl, rfl⟩
    | some ref =>
      simp only
      split_ifs
      · exact ⟨rfl, rfl⟩
      · exact ⟨rfl, rfl⟩

theorem commit_value_linked (fact : import_factory) (h : json_content_handler) (v : json_value)
    (cur : json_node) (pos : cell_position) (hcur : h.mp_current_node = some cur)
    (hpos : linked_cell h cur = some pos) :
    (commit_value fact h v).sink = h.sink ++ v.commit fact pos := by
  unfold commit_value
  unfold linked_cell at hpos
  rw [hcur]
  simp only
  cases ht : cur.type with
  | cell_ref =>
    simp only [ht, Option.some.injEq] at hpos
    simp only [hpos]
  | range_field_ref =>
    simp only [ht, Option.some.injEq] at hpos
    simp only [hpos]
  | unknown => simp [ht] at hpos
  | array => simp [ht] at hpos
  | object => simp [ht] at hpos

/-- C29: the JSON handler commits a linked value by its type. For every
scalar event whose node the walker finds linked to a cell `(row, col)` of an
existing sheet (a single-cell link, or a field of a range at its current
row), with the shared strings present, the handler makes exactly one call
on the sheet for a number (`set_value(row, col, v)`), a boolean
(`set_bool(row, col, b)`) and a string (`set_string(row, col, id)` with `id`
what `add` returned for the bytes), and none for null. On the events of
scenario S1, the number 42 under `/a/b` with `/a/b` linked to `(S, 0, 0)`,
the only call is `set_value(0, 0, 42)` on sheet `S`. -/
theorem json_value_committed_by_type (fact : import_factory) :
    (∀ (σ : Type) (w : json_walker σ) (st : σ × json_content_handler) (ev : json_event)
      (v : json_value) (cur : json_node) (pos : cell_position) (sheet : Nat)
      (q : σ × Option json_node),
      scalar_value ev = some v →
      (w.push_node st.1 input_node_type.value).2 = some cur →
      linked_cell (push_node st.2 (some cur)) cur = some pos →
      fact.get_sheet pos.sheet = some sheet →
      fact.get_shared_strings = true →
      w.pop_node (w.push_node st.1 input_node_type.value).1 input_node_type.value = .ok q →
      ∃ st1, json_handle_event fact w st ev = .ok st1 ∧
        st1.2.sink = st.2.sink ++ typed_call fact sheet pos.row pos.col v) ∧
    json_sink_after s3_fact s1_start s1_events =
      some [sheet_call.set_value 0 0 0 double_42] := by
  constructor
  · intro σ w st ev v cur pos sheet q hv hpush hpos hsheet hss hpop
    have hscalar : json_handle_event fact w st ev = json_scalar fact w st v := by
      cases ev <;> simp [scalar_value] at hv <;> subst hv <;> rfl
    rw [hscalar]
    unfold json_scalar json_pop json_push
    simp only [hpop, hpush]
    refine ⟨_, rfl, ?_⟩
    have hp := push_node_current st.2 (some cur)
    simp only [pop_node]
    have hsink : ∀ (h : json_content_handler) (popped : Option json_node),
        (match popped with
          | none => { h with mp_current_node := popped }
          | some c =>
            if c.row_group.isSome then
              { h with mp_current_node := popped, mp_increment_row := c.row_group }
            else { h with mp_current_node := popped }).sink = h.sink := by
      intro h popped
      cases popped with
      | none => rfl
      | some c =>
        simp only
        split_ifs <;> rfl
    rw [hsink, commit_value_linked fact _ v cur pos hp.1 hpos, hp.2,
      json_commit_typed_call v fact pos sheet hsheet hss]
  · decide

/-- C29 on the number of scenario S1: the event `42` arrives when the walker
stands on `/a` with the key `b` set. -/
theorem json_value_committed_by_type_witness :
    ∃ st1, json_handle_event s3_fact json_map_walker
        (returned (json_handle_events s3_fact json_map_walker s1_start (s1_events.take 4))
          s1_start) (json_event.number double_42) = .ok st1 ∧
      st1.2.sink = [] ++ [sheet_call.set_value 0 0 0 double_42] :=
  (json_value_committed_by_type s3_fact).1 json_walker_state json_map_walker
    (returned (json_handle_events s3_fact json_map_walker s1_start (s1_events.take 4)) s1_start)
    (json_event.number double_42) (json_value.numeric double_42)
    { type := map_node_type.cell_ref,
      cell_ref := { pos := { sheet := "S".toList, row := 0, col := 0 } },
      range_field_ref := { ref := 0, column_pos := 0 }, row_group := none }
    { sheet := "S".toList, row := 0, col := 0 } 0
    (json_walker_pop (json_walker_push
      (returned (json_handle_events s3_fact json_map_walker s1_start (s1_events.take 4))
        s1_start).1 input_node_type.value).1 input_node_type.value)
    rfl (by decide) rfl rfl rfl rfl

theorem append_sheets_strings : ∀ (names : List pstring) (s : orcus_json_impl),
    ∃ s1, append_sheets s (names.map json_doc.string) = (s1, none) ∧
      s1.calls = s.calls ++ sheet_calls s.sheet_count names := by
  intro names
  induction names with
  | nil => intro s; exact ⟨s, rfl, by simp [sheet_calls]⟩
  | cons name rest ih =>
    intro s
    obtain ⟨s1, h1, h2⟩ := ih (s.append_sheet name)
    refine ⟨s1, ?_, ?_⟩
    · simp only [List.map_cons, append_sheets, json_doc.string_value]
      exact h1
    · by_cases hn : name.isEmpty = true
      · have e1 : s.append_sheet name = s := by simp [orcus_json_impl.append_sheet, hn]
        rw [e1] at h2
        rw [h2]
        simp [sheet_calls, hn]
      · have e1 : s.append_sheet name =
            { sheet_count := s.sheet_count + 1,
              calls := s.calls ++ [map_call.append_sheet s.sheet_count name] } := by
          simp [orcus_json_impl.append_sheet, hn]
        rw [e1] at h2
        rw [h2]
        simp [sheet_calls, hn]

theorem append_sheets_calls : ∀ (l : List json_doc) (s s1 : orcus_json_impl)
    (e : Option map_definition_error), append_sheets s l = (s1, e) →
    ∃ a, s1.calls = s.calls ++ a ∧ ∀ c ∈ a, c.is_append_sheet = true := by
  intro l
  induction l with
  | nil =>
    intro s s1 e h
    simp only [append_sheets, Prod.mk.injEq] at h
    exact ⟨[], by rw [← h.1]; simp, by simp⟩
  | cons n rest ih =>
    intro s s1 e h
    simp only [append_sheets] at h
    cases hn : n.string_value with
    | error err =>
      simp only [hn, Prod.mk.injEq] at h
      exact ⟨[], by rw [← h.1]; simp, by simp⟩
    | ok name =>
      simp only [hn] at h
      obtain ⟨a, ha, hall⟩ := ih _ s1 e h
      unfold orcus_json_impl.append_sheet at ha
      by_cases hemp : name.isEmpty = true
      · simp only [hemp, if_true] at ha
        exact ⟨a, ha, hall⟩
      · simp only [hemp, Bool.false_eq_true, if_false] at ha
        refine ⟨map_call.append_sheet s.sheet_count name :: a, by simp [ha], ?_⟩
        intro c hc
        rcases List.mem_cons.mp hc with hc | hc
        · subst hc; rfl
        · exact hall c hc

theorem links_only_refl (s : orcus_json_impl) : links_only s s := ⟨[], by simp, by simp⟩

theorem links_only_trans {s s1 s2 : orcus_json_impl} (h1 : links_only s s1)
    (h2 : links_only s1 s2) : links_only s s2 := by
  obtain ⟨a, ha, hall⟩ := h1
  obtain ⟨b, hb, hbll⟩ := h2
  refine ⟨a ++ b, by rw [hb, ha, List.append_assoc], ?_⟩
  intro c hc
  rcases List.mem_append.mp hc with hc | hc
  · exact hall c hc
  · exact hbll c hc

theorem links_only_call (s : orcus_json_impl) (c : map_call) (hc : c.is_append_sheet = false) :
    links_only s (s.call c) :=
  ⟨[c], rfl, by simpa using hc⟩

theorem set_cell_links_calls (to_int : double → Int) : ∀ (l : List json_doc)
    (s s1 : orcus_json_impl) (e : Option map_definition_error),
    set_cell_links to_int s l = (s1, e) → links_only s s1 := by
  intro l
  induction l with
  | nil =>
    intro s s1 e h
    simp only [set_cell_links, Prod.mk.injEq] at h
    rw [← h.1]
    exact links_only_refl s
  | cons n rest ih =>
    intro s s1 e h
    simp only [set_cell_links] at h
    have hstep : ∀ s2 e2, set_cell_link_of to_int s n = (s2, e2) → links_only s s2 := by
      intro s2 e2 h2
      unfold set_cell_link_of at h2
      split at h2
      · simp only [Prod.mk.injEq] at h2
        rw [← h2.1]
        exact links_only_refl s
      · rename_i c hc
        simp only [Prod.mk.injEq] at h2
        rw [← h2.1]
        refine links_only_call s c ?_
        simp only [bind, Except.bind, pure, Except.pure] at hc
        repeat' split at hc
        all_goals (cases hc; try rfl)
    cases hn : set_cell_link_of to_int s n with
    | mk s2 e2 =>
      cases e2 with
      | some err =>
        simp only [hn, Prod.mk.injEq] at h
        rw [← h.1]
        exact hstep s2 _ hn
      | none =>
        simp only [hn] at h
        exact links_only_trans (hstep s2 _ hn) (ih s2 s1 e h)

theorem path_calls_calls (mk : pstring → map_call) (hmk : ∀ p, (mk p).is_append_sheet = false) :
    ∀ (l : List json_doc) (s s1 : orcus_json_impl) (e : Option map_definition_error),
    path_calls mk s l = (s1, e) → links_only s s1 := by
  intro l
  induction l with
  | nil =>
    intro s s1 e h
    simp only [path_calls, Prod.mk.injEq] at h
    rw [← h.1]
    exact links_only_refl s
  | cons n rest ih =>
    intro s s1 e h
    simp only [path_calls] at h
    split at h
    · simp only [Prod.mk.injEq] at h
      rw [← h.1]
      exact links_only_refl s
    · exact links_only_trans (links_only_call s _ (hmk _)) (ih _ s1 e h)

theorem set_range_link_of_calls (to_int : double → Int) (s s1 : orcus_json_impl)
    (n : json_doc) (e : Option map_definition_error)
    (h : set_range_link_of to_int s n = (s1, e)) : links_only s s1 := by
  unfold set_range_link_of at h
  split at h
  · simp only [Prod.mk.injEq] at h
    rw [← h.1]
    exact links_only_refl s
  · rename_i c hc
    have hcs : c.is_append_sheet = false := by
      simp only [bind, Except.bind, pure, Except.pure] at hc
      repeat' split at hc
      all_goals (cases hc; try rfl)
    have h0 := links_only_call s c hcs
    split at h
    · simp only [Prod.mk.injEq] at h
      rw [← h.1]
      exact h0
    · rename_i fields hf
      cases hp : path_calls map_call.append_field_link (s.call c) fields with
      | mk s2 e2 =>
        have h1 := path_calls_calls map_call.append_field_link (fun _ => rfl) fields _ s2 e2 hp
        cases e2 with
        | some err =>
          simp only [hp, Prod.mk.injEq] at h
          rw [← h.1]
          exact links_only_trans h0 h1
        | none =>
          simp only [hp] at h
          split at h
          · simp only [Prod.mk.injEq] at h
            rw [← h.1]
            exact links_only_trans h0 h1
          · rename_i row_groups hr
            cases hq : path_calls map_call.set_range_row_group s2 row_groups with
            | mk s3 e3 =>
              have h2 := path_calls_calls map_call.set_range_row_group (fun _ => rfl)
                row_groups _ s3 e3 hq
              cases e3 with
              | some err =>
                simp only [hq, Prod.mk.injEq] at h
                rw [← h.1]
                exact links_only_trans h0 (links_only_trans h1 h2)
              | none =>
                simp only [hq, Prod.mk.injEq] at h
                rw [← h.1]
                exact links_only_trans h0 (links_only_trans h1
                  (links_only_trans h2 (links_only_call s3 _ rfl)))

theorem set_range_links_calls (to_int : double → Int) : ∀ (l : List json_doc)
    (s s1 : orcus_json_impl) (e : Option map_definition_error),
    set_range_links to_int s l = (s1, e) → links_only s s1 := by
  intro l
  induction l with
  | nil =>
    intro s s1 e h
    simp only [set_range_links, Prod.mk.injEq] at h
    rw [← h.1]
    exact links_only_refl s
  | cons n rest ih =>
    intro s s1 e h
    simp only [set_range_links] at h
    cases hn : set_range_link_of to_int s n with
    | mk s2 e2 =>
      have h1 := set_range_link_of_calls to_int s s2 n e2 hn
      cases e2 with
      | some err =>
        simp only [hn, Prod.mk.injEq] at h
        rw [← h.1]
        exact h1
      | none =>
        simp only [hn] at h
        exact links_only_trans h1 (ih s2 s1 e h)

theorem read_links_calls (to_int : double → Int) (root : json_doc) (s s1 : orcus_json_impl)
    (e : Option map_definition_error) (h : read_links to_int root s = (s1, e)) :
    links_only s s1 := by
  unfold read_links at h
  simp only at h
  have hcells : ∀ s2 e2,
      (if root.has_key "cells".toList = true then
        match (do (← root.child "cells".toList).children) with
        | .error e => (s, some e)
        | .ok cells => set_cell_links to_int s cells
      else (s, none)) = (s2, e2) → links_only s s2 := by
    intro s2 e2 h2
    split_ifs at h2
    · split at h2
      · simp only [Prod.mk.injEq] at h2
        rw [← h2.1]
        exact links_only_refl s
      · exact set_cell_links_calls to_int _ s s2 e2 h2
    · simp only [Prod.mk.injEq] at h2
      rw [← h2.1]
      exact links_only_refl s
  split at h
  · rename_i s2 err hc
    simp only [Prod.mk.injEq] at h
    rw [← h.1]
    exact hcells s2 _ hc
  · rename_i s2 hc
    have h1 := hcells s2 _ hc
    split_ifs at h
    · split at h
      · simp only [Prod.mk.injEq] at h
        rw [← h.1]
        exact h1
      · exact links_only_trans h1 (set_range_links_calls to_int _ s2 s1 e h)
    · simp only [Prod.mk.injEq] at h
      rw [← h.1]
      exact h1

theorem find_filter_map_key (members : List (pstring × json_doc)) (key : pstring)
    (hk : is_map_key key = true) :
    (members.filter (fun kv => is_map_key kv.1)).find? (fun kv => kv.1 == key) =
      members.find? (fun kv => kv.1 == key) := by
  induction members with
  | nil => rfl
  | cons kv rest ih =>
    by_cases hkv : (kv.1 == key) = true
    · have hm : is_map_key kv.1 = true := by
        rw [beq_iff_eq] at hkv
        rw [hkv]
        exact hk
      simp [List.filter_cons, hm, List.find?_cons, hkv]
    · by_cases hm : is_map_key kv.1 = true
      · simp [List.filter_cons, hm, List.find?_cons, hkv, ih]
      · simp [List.filter_cons, hm, List.find?_cons, hkv, ih]

theorem any_filter_map_key (members : List (pstring × json_doc)) (key : pstring)
    (hk : is_map_key key = true) :
    (members.filter (fun kv => is_map_key kv.1)).any (fun kv => kv.1 == key) =
      members.any (fun kv => kv.1 == key) := by
  induction members with
  | nil => rfl
  | cons kv rest ih =>
    by_cases hkv : (kv.1 == key) = true
    · have hm : is_map_key kv.1 = true := by
        rw [beq_iff_eq] at hkv
        rw [hkv]
        exact hk
      simp [List.filter_cons, hm, List.any_cons, hkv]
    · by_cases hm : is_map_key kv.1 = true
      · simp [List.filter_cons, hm, List.any_cons, hkv, ih]
      · simp [List.filter_cons, hm, List.any_cons, hkv, ih]

theorem without_other_keys_lookup (root : json_doc) (key : pstring)
    (hk : is_map_key key = true) :
    (without_other_keys root).has_key key = root.has_key key ∧
    (without_other_keys root).child key = root.child key := by
  cases root with
  | object members =>
    simp only [without_other_keys, json_doc.has_key, json_doc.child,
      find_filter_map_key members key hk, any_filter_map_key members key hk, and_self]
  | null => exact ⟨rfl, rfl⟩
  | boolean b => exact ⟨rfl, rfl⟩
  | number v => exact ⟨rfl, rfl⟩
  | string s => exact ⟨rfl, rfl⟩
  | array items => exact ⟨rfl, rfl⟩

/-- C30: `orcus_json::read_map_definition` throws `json_structure_error`,
having done nothing, when the root of the map definition has no `sheets`
key. With `sheets` an array of names it returns without exception when
`cells` and `ranges` are both absent, having appended one sheet per name that
is not empty and installed no link; with one of `cells` and `ranges` absent
the outcome is that of the loop over the other. Members of the root under
any other key do not change the outcome. In every run the sheets are
appended before any call on the map tree. -/
theorem read_map_definition_sheets_required (to_int : double → Int) :
    (∀ (root : json_doc) (s : orcus_json_impl), root.has_key "sheets".toList = false →
      read_map_definition to_int root s = (s, some .json_structure_error)) ∧
    (∀ (root : json_doc) (s : orcus_json_impl) (names : List pstring),
      root.has_key "sheets".toList = true →
      root.child "sheets".toList = .ok (json_doc.array (names.map json_doc.string)) →
      ∃ s1, append_sheets s (names.map json_doc.string) = (s1, none) ∧
        s1.calls = s.calls ++ sheet_calls s.sheet_count names ∧
        (root.has_key "cells".toList = false → root.has_key "ranges".toList = false →
          read_map_definition to_int root s = (s1, none)) ∧
        (root.has_key "cells".toList = false →
          ∀ ranges, root.has_key "ranges".toList = true →
            root.child "ranges".toList = .ok (json_doc.array ranges) →
            read_map_definition to_int root s = set_range_links to_int s1 ranges) ∧
        (root.has_key "ranges".toList = false →
          ∀ cells, root.has_key "cells".toList = true →
            root.child "cells".toList = .ok (json_doc.array cells) →
            read_map_definition to_int root s = set_cell_links to_int s1 cells)) ∧
    (∀ (root : json_doc) (s : orcus_json_impl),
      read_map_definition to_int (without_other_keys root) s =
        read_map_definition to_int root s) ∧
    (∀ (root : json_doc) (s s1 : orcus_json_impl) (e : Option map_definition_error),
      read_map_definition to_int root s = (s1, e) →
      ∃ a b, s1.calls = s.calls ++ a ++ b ∧ (∀ c ∈ a, c.is_append_sheet = true) ∧
        (∀ c ∈ b, c.is_append_sheet = false)) := by
  refine ⟨?_, ?_, ?_, ?_⟩
  · intro root s h
    simp only [read_map_definition, h, Bool.not_false, if_true]
  · intro root s names hkey hchild
    obtain ⟨s1, h1, h2⟩ := append_sheets_strings names s
    refine ⟨s1, h1, h2, ?_, ?_, ?_⟩
    · intro hc hr
      simp only [read_map_definition, hkey, hchild, json_doc.children, bind, Except.bind, h1,
        read_links, hc, hr, Bool.not_true, Bool.false_eq_true, if_false]
    · intro hc ranges hr hrc
      simp only [read_map_definition, hkey, hchild, json_doc.children, bind, Except.bind, h1,
        read_links, hc, hr, hrc, Bool.not_true, Bool.false_eq_true, if_false, if_true]
    · intro hr cells hc hcc
      simp only [read_map_definition, hkey, hchild, json_doc.children, bind, Except.bind, h1,
        read_links, hc, hr, hcc, Bool.not_true, Bool.false_eq_true, if_false, if_true]
      cases set_cell_links to_int s1 cells with
      | mk s2 e2 => cases e2 <;> rfl
  · intro root s
    have hs := without_other_keys_lookup root "sheets".toList (by decide)
    have hc := without_other_keys_lookup root "cells".toList (by decide)
    have hr := without_other_keys_lookup root "ranges".toList (by decide)
    simp only [read_map_definition, read_links, hs.1, hs.2, hc.1, hc.2, hr.1, hr.2]
  · intro root s s1 e h
    unfold read_map_definition at h
    split_ifs at h
    · simp only [Prod.mk.injEq] at h
      exact ⟨[], [], by rw [← h.1]; simp, by simp, by simp⟩
    · split at h
      · simp only [Prod.mk.injEq] at h
        exact ⟨[], [], by rw [← h.1]; simp, by simp, by simp⟩
      · rename_i sheets hsh
        cases ha : append_sheets s sheets with
        | mk s2 e2 =>
          obtain ⟨a, ha1, ha2⟩ := append_sheets_calls sheets s s2 e2 ha
          cases e2 with
          | some err =>
            simp only [ha, Prod.mk.injEq] at h
            exact ⟨a, [], by rw [← h.1, ha1]; simp, ha2, by simp⟩
          | none =>
            simp only [ha] at h
            obtain ⟨b, hb1, hb2⟩ := read_links_calls to_int root s2 s1 e h
            exact ⟨a, b, by rw [hb1, ha1], ha2, hb2⟩

/-- C30 on two map definitions: one with `cells` only, which is refused, and
the definition of scenario S1 with a further key `comment`, which appends
the sheet `S` and then installs the link of `/a/b`. -/
theorem read_map_definition_sheets_required_witness :
    read_map_definition to_int_zero (json_doc.object [("cells".toList, json_doc.array [])])
        { sheet_count := 0, calls := [] } =
      ({ sheet_count := 0, calls := [] }, some .json_structure_error) ∧
    read_map_definition to_int_zero s1_definition { sheet_count := 0, calls := [] } =
      ({ sheet_count := 1,
         calls := [map_call.append_sheet 0 "S".toList,
                   map_call.set_cell_link "/a/b".toList "S".toList 0 0] }, none) :=
  ⟨(read_map_definition_sheets_required to_int_zero).1 _ _ rfl, by decide⟩

theorem positions_kept_refl (h : xml_data_sax_handler) : positions_kept h h :=
  ⟨rfl, rfl, rfl, rfl, rfl⟩

theorem positions_kept_trans {h h1 h2 : xml_data_sax_handler} (a : positions_kept h h1)
    (b : positions_kept h1 h2) : positions_kept h h2 :=
  ⟨b.1.trans a.1, b.2.1.trans a.2.1, b.2.2.1.trans a.2.2.1, b.2.2.2.1.trans a.2.2.2.1,
    b.2.2.2.2.trans a.2.2.2.2⟩

theorem set_single_link_cell_positions (fact : import_factory) (h : xml_data_sax_handler)
    (ref : cell_reference) (val : pstring) :
    positions_kept h (set_single_link_cell fact h ref val) := by
  unfold set_single_link_cell
  split <;> exact positions_kept_refl h

theorem set_field_link_cell_positions (ndebug : Bool) (fact : import_factory)
    (h h1 : xml_data_sax_handler) (field : field_in_range) (val : pstring)
    (hok : set_field_link_cell ndebug fact h field val = .ok h1) : positions_kept h h1 := by
  obtain ⟨_, rfl⟩ := set_field_link_cell_ok ndebug fact h h1 field val hok
  exact ⟨rfl, rfl, rfl, rfl, rfl⟩

theorem fill_unprocessed_column_positions (fact : import_factory) (h : xml_data_sax_handler)
    (ref : range_reference) : positions_kept h (fill_unprocessed_column fact h ref) := by
  unfold fill_unprocessed_column
  split <;> exact positions_kept_refl h

theorem commit_attribute_value_positions (ndebug : Bool) (fact : import_factory)
    (h h1 : xml_data_sax_handler) (a : xml_attribute) (val : pstring)
    (hok : commit_attribute_value ndebug fact h a val = .ok h1) : positions_kept h h1 := by
  unfold commit_attribute_value at hok
  cases hr : a.ref_type with
  | reference_cell =>
    simp only [hr, Except.ok.injEq] at hok
    rw [← hok]
    exact set_single_link_cell_positions fact h a.cell_ref val
  | reference_range_field =>
    simp only [hr] at hok
    exact set_field_link_cell_positions ndebug fact h h1 a.field_ref val hok
  | reference_unknown =>
    simp only [hr, Except.ok.injEq] at hok
    rw [← hok]
    exact positions_kept_refl h

theorem import_linked_attribute_positions (ndebug : Bool) (fact : import_factory)
    (h h1 : xml_data_sax_handler) (a : xml_attribute)
    (hok : import_linked_attribute ndebug fact h a = .ok h1) : positions_kept h h1 := by
  unfold import_linked_attribute at hok
  cases hfind : find_attr_by_name h.m_attrs a.ns a.name with
  | none =>
    simp only [hfind, Except.ok.injEq] at hok
    rw [← hok]
    exact positions_kept_refl h
  | some p =>
    simp only [hfind] at hok
    cases hc : commit_attribute_value ndebug fact h a (trim p.value) with
    | error e => simp only [hc] at hok; cases hok
    | ok h2 =>
      simp only [hc, Except.ok.injEq] at hok
      rw [← hok]
      exact commit_attribute_value_positions ndebug fact h h2 a _ hc

theorem import_linked_attributes_positions (ndebug : Bool) (fact : import_factory) :
    ∀ (attrs : List xml_attribute) (h h1 : xml_data_sax_handler),
      import_linked_attributes ndebug fact h attrs = .ok h1 → positions_kept h h1 := by
  intro attrs
  induction attrs with
  | nil =>
    intro h h1 hok
    simp only [import_linked_attributes, Except.ok.injEq] at hok
    rw [← hok]
    exact positions_kept_refl h
  | cons a rest ih =>
    intro h h1 hok
    simp only [import_linked_attributes] at hok
    cases ha : import_linked_attribute ndebug fact h a with
    | error e => simp only [ha] at hok; cases hok
    | ok h2 =>
      simp only [ha] at hok
      exact positions_kept_trans (import_linked_attribute_positions ndebug fact h h2 a ha)
        (ih h2 h1 hok)

theorem increment_row_if_pending_positions (fact : import_factory) (h : xml_data_sax_handler)
    (cur : element) : positions_kept h (increment_row_if_pending fact h cur) := by
  unfold increment_row_if_pending
  split
  · split_ifs
    · exact fill_unprocessed_column_positions fact h _
    · exact positions_kept_refl h
  · exact positions_kept_refl h

/-- What `start_element` leaves of the positions: a scope is pushed, the
element the walker returned is current, the range flag is set on the parent
of a range, and nothing is recorded. -/
theorem start_element_positions (ndebug : Bool) (fact : import_factory)
    (h h1 : xml_data_sax_handler) (elem : sax_ns_parser_element) (pushed : Option element)
    (hok : start_element ndebug fact h elem pushed = .ok h1) :
    h1.m_link_positions = h.m_link_positions ∧ h1.node_stream_pos = h.node_stream_pos ∧
    h1.m_scopes = h.m_scopes ++ [{ ns := elem.ns, name := elem.name,
                                   element_open_begin := elem.begin_pos,
                                   element_open_end := elem.end_pos }] ∧
    h1.mp_current_elem = pushed ∧
    h1.m_in_range_ref =
      (if pushed.map (fun cur => cur.range_parent.isSome) = some true then true
       else h.m_in_range_ref) := by
  unfold start_element at hok
  cases pushed with
  | none =>
    simp only [Except.ok.injEq] at hok
    subst hok
    exact ⟨rfl, rfl, rfl, rfl, by simp [start_element_enter]⟩
  | some cur =>
    simp only at hok
    cases ha : import_linked_attributes ndebug fact
        (increment_row_if_pending fact (start_element_enter h elem (some cur)) cur)
        cur.attributes with
    | error e => simp only [ha] at hok; cases hok
    | ok h2 =>
      simp only [ha, Except.ok.injEq] at hok
      have hk := positions_kept_trans
        (increment_row_if_pending_positions fact (start_element_enter h elem (some cur)) cur)
        (import_linked_attributes_positions ndebug fact _ _ _ ha)
      obtain ⟨k1, k2, k3, k4, k5⟩ := hk
      subst hok
      unfold enter_range_parent
      by_cases hp : cur.range_parent.isSome = true
      · simp only [hp, if_true, Option.map_some']
        exact ⟨k1, k2, k3, k5, trivial⟩
      · simp only [hp, Bool.false_eq_true, if_false, Option.map_some', Option.some.injEq]
        exact ⟨k1, k2, k3, k5, k4⟩

theorem commit_element_content_positions (ndebug : Bool) (fact : import_factory)
    (h h1 : xml_data_sax_handler) (cur : element)
    (hok : commit_element_content ndebug fact h cur = .ok h1) : positions_kept h h1 := by
  unfold commit_element_content at hok
  cases hr : cur.ref_type with
  | reference_cell =>
    simp only [hr, Except.ok.injEq] at hok
    rw [← hok]
    exact set_single_link_cell_positions fact h _ _
  | reference_range_field =>
    simp only [hr] at hok
    exact set_field_link_cell_positions ndebug fact h h1 _ _ hok
  | reference_unknown =>
    simp only [hr, Except.ok.injEq] at hok
    rw [← hok]
    exact positions_kept_refl h

theorem arm_row_group_positions (h : xml_data_sax_handler) (cur : element) :
    positions_kept h (arm_row_group h cur) := by
  unfold arm_row_group
  split_ifs <;> exact positions_kept_refl h

/-- The part of `end_element` for a current element, on the positions: the
commit and the row group leave them, `record_stream_pos` acts on them, and
the range flag is cleared on the parent of a range. -/
theorem end_element_current_positions (ndebug : Bool) (fact : import_factory)
    (h h1 : xml_data_sax_handler) (elem : sax_ns_parser_element) (cur : element)
    (hok : end_element_current ndebug fact h elem cur = .ok h1) :
    ∃ h2 h3, positions_kept h h2 ∧ record_stream_pos h2 elem cur = .ok h3 ∧
      h1.m_link_positions = h3.m_link_positions ∧ h1.node_stream_pos = h3.node_stream_pos ∧
      h1.m_scopes = h3.m_scopes ∧ h1.mp_current_elem = h3.mp_current_elem ∧
      h1.m_in_range_ref = (if cur.range_parent.isSome then false else h3.m_in_range_ref) := by
  unfold end_element_current at hok
  cases hc : commit_element_content ndebug fact h cur with
  | error e => simp only [hc] at hok; cases hok
  | ok hcommit =>
    simp only [hc] at hok
    cases hrec : record_stream_pos (arm_row_group hcommit cur) elem cur with
    | error e => simp only [hrec] at hok; cases hok
    | ok h3 =>
      simp only [hrec, Except.ok.injEq] at hok
      refine ⟨arm_row_group hcommit cur, h3,
        positions_kept_trans (commit_element_content_positions ndebug fact h hcommit cur hc)
          (arm_row_group_positions hcommit cur), hrec, ?_⟩
      rw [← hok]
      unfold leave_element
      by_cases hp : cur.range_parent.isSome = true
      · simp [hp]
      · simp [hp]

theorem range_inner_eq (e : element) :
    range_inner e =
      (e.ref_type != reference_type.reference_cell && e.range_parent.isNone &&
        range_inner.all_inner e.child_elements) := by
  cases e
  simp only [range_inner]

theorem all_inner_mem : ∀ (cs : List element) (d : element),
    range_inner.all_inner cs = true → d ∈ cs → range_inner d = true := by
  intro cs
  induction cs with
  | nil => intro d _ h; simp at h
  | cons c cs ih =>
    intro d hall h
    simp only [range_inner.all_inner, Bool.and_eq_true] at hall
    rcases List.mem_cons.mp h with h | h
    · subst h; exact hall.1
    · exact ih d hall.2 h

theorem handle_event_start_element (ndebug : Bool) (fact : import_factory)
    (st st1 : walker_state × xml_data_sax_handler) (o : sax_ns_parser_element)
    (hok : handle_event ndebug fact map_tree_walker st (sax_event.start_element o) = .ok st1) :
    st1.1 = (walker_push st.1 o.ns o.name).1 ∧
    start_element ndebug fact st.2 o (walker_push st.1 o.ns o.name).2 = .ok st1.2 := by
  simp only [handle_event, map_tree_walker] at hok
  cases hs : start_element ndebug fact st.2 o (walker_push st.1 o.ns o.name).2 with
  | error e => simp only [hs] at hok; cases hok
  | ok h1 =>
    simp only [hs, Except.ok.injEq] at hok
    rw [← hok]
    exact ⟨rfl, rfl⟩

theorem handle_event_end_element (ndebug : Bool) (fact : import_factory)
    (st st1 : walker_state × xml_data_sax_handler) (c : sax_ns_parser_element)
    (hok : handle_event ndebug fact map_tree_walker st (sax_event.end_element c) = .ok st1) :
    ∃ hb, end_element_body ndebug fact st.2 c = .ok hb ∧
      st1 = ((walker_pop st.1 c.ns c.name).1,
        { hb with mp_current_elem := (walker_pop st.1 c.ns c.name).2 }) := by
  simp only [handle_event, map_tree_walker, end_element] at hok
  cases hb : end_element_body ndebug fact st.2 c with
  | error e => simp only [hb] at hok; cases hok
  | ok h1 =>
    simp only [hb, Except.ok.injEq] at hok
    exact ⟨h1, rfl, hok.symm⟩

theorem end_element_body_cases (ndebug : Bool) (fact : import_factory)
    (h hb : xml_data_sax_handler) (c : sax_ns_parser_element)
    (hok : end_element_body ndebug fact h c = .ok hb) :
    match h.mp_current_elem with
    | none => hb = { h with m_scopes := h.m_scopes.dropLast }
    | some cur => ∃ h1, end_element_current ndebug fact h c cur = .ok h1 ∧
        hb = { h1 with m_scopes := h1.m_scopes.dropLast } := by
  unfold end_element_body at hok
  cases hca : cassert ndebug (!h.m_scopes.isEmpty) with
  | error e => simp only [hca] at hok; cases hok
  | ok u =>
    simp only [hca] at hok
    split_ifs at hok with hemp
    cases hc : h.mp_current_elem with
    | none =>
      simp only [hc, Except.ok.injEq] at hok
      exact hok.symm
    | some cur =>
      simp only [hc] at hok
      cases hcur : end_element_current ndebug fact h c cur with
      | error e => simp only [hcur] at hok; cases hok
      | ok h1 =>
        simp only [hcur, Except.ok.injEq] at hok
        exact ⟨h1, hcur, hok.symm⟩

/-- The end of an element that is not to be recorded: no link is added, no
position changes, the scope is popped and the range flag stays. -/
theorem end_element_body_quiet (ndebug : Bool) (fact : import_factory)
    (h hb : xml_data_sax_handler) (c : sax_ns_parser_element)
    (hq : ∀ d, h.mp_current_elem = some d →
      d.ref_type ≠ reference_type.reference_cell ∧ d.range_parent = none ∧
        h.m_in_range_ref = true)
    (hok : end_element_body ndebug fact h c = .ok hb) :
    hb.m_link_positions = h.m_link_positions ∧ hb.node_stream_pos = h.node_stream_pos ∧
    hb.m_scopes = h.m_scopes.dropLast ∧ hb.m_in_range_ref = h.m_in_range_ref := by
  have hcases := end_element_body_cases ndebug fact h hb c hok
  cases hc : h.mp_current_elem with
  | none =>
    simp only [hc] at hcases
    rw [hcases]
    exact ⟨rfl, rfl, rfl, rfl⟩
  | some d =>
    simp only [hc] at hcases
    obtain ⟨h1, hcur, rfl⟩ := hcases
    obtain ⟨hd1, hd2, hflag⟩ := hq d hc
    obtain ⟨h2, h3, hk, hrec, e1, e2, e3, _, e5⟩ :=
      end_element_current_positions ndebug fact h h1 c d hcur
    have hne : (d.ref_type == reference_type.reference_cell) = false := by simpa using hd1
    unfold record_stream_pos at hrec
    simp only [hne, hd2, Option.isSome_none, hk.2.2.2.1, hflag, Bool.not_true, Bool.false_and,
      Bool.or_self, Bool.false_eq_true, if_false, Except.ok.injEq] at hrec
    subst hrec
    simp only [hd2, Option.isSome_none, Bool.false_eq_true, if_false] at e5
    exact ⟨e1.trans hk.1, e2.trans hk.2.1, by simp only [e3, hk.2.2.1],
      e5.trans hk.2.2.2.1⟩

/-- The end of a single-cell element or of the parent of a range: the
element is recorded, with the span from its opening tag, taken from its
scope, to its closing tag. -/
theorem end_element_body_records (ndebug : Bool) (fact : import_factory)
    (h hb : xml_data_sax_handler) (c : sax_ns_parser_element) (A : element)
    (scopes : List xml_data_sax_handler.scope) (sc : xml_data_sax_handler.scope)
    (hcur : h.mp_current_elem = some A)
    (hA : A.ref_type = reference_type.reference_cell ∨ A.range_parent.isSome = true)
    (hscopes : h.m_scopes = scopes ++ [sc])
    (hok : end_element_body ndebug fact h c = .ok hb) :
    hb.m_link_positions = h.m_link_positions ++ [A] ∧
    hb.node_stream_pos A.addr =
      { open_begin := sc.element_open_begin, open_end := sc.element_open_end,
        close_begin := c.begin_pos, close_end := c.end_pos } := by
  have hcases := end_element_body_cases ndebug fact h hb c hok
  simp only [hcur] at hcases
  obtain ⟨h1, hcur1, rfl⟩ := hcases
  obtain ⟨h2, h3, hk, hrec, e1, e2, e3, _, e5⟩ :=
    end_element_current_positions ndebug fact h h1 c A hcur1
  have hcond : (A.ref_type == reference_type.reference_cell || A.range_parent.isSome ||
      (!h2.m_in_range_ref && A.unlinked_attribute_anchor)) = true := by
    rcases hA with hA | hA
    · simp [hA]
    · simp [hA]
  unfold record_stream_pos at hrec
  simp only [hcond, if_true, hk.2.2.1, hscopes, List.getLast?_append, List.getLast?_singleton,
    Option.or, Except.ok.injEq] at hrec
  subst hrec
  refine ⟨by simp only [e1, hk.1], ?_⟩
  simp only [e2, if_true]

theorem handle_events_cons_ok {σ : Type} (ndebug : Bool) (fact : import_factory)
    (w : tree_walker σ) (st st2 : σ × xml_data_sax_handler) (ev : sax_event)
    (rest : List sax_event)
    (hok : handle_events ndebug fact w st (ev :: rest) = .ok st2) :
    ∃ st1, handle_event ndebug fact w st ev = .ok st1 ∧
      handle_events ndebug fact w st1 rest = .ok st2 := by
  simp only [handle_events] at hok
  cases he : handle_event ndebug fact w st ev with
  | error e => simp only [he] at hok; cases hok
  | ok st1 =>
    simp only [he] at hok
    exact ⟨st1, rfl, hok⟩

theorem handle_events_append_ok {σ : Type} (ndebug : Bool) (fact : import_factory)
    (w : tree_walker σ) (st st2 : σ × xml_data_sax_handler) (xs ys : List sax_event)
    (hok : handle_events ndebug fact w st (xs ++ ys) = .ok st2) :
    ∃ st1, handle_events ndebug fact w st xs = .ok st1 ∧
      handle_events ndebug fact w st1 ys = .ok st2 := by
  rw [handle_events_append] at hok
  cases hx : handle_events ndebug fact w st xs with
  | error e => simp only [hx] at hok; cases hok
  | ok st1 =>
    simp only [hx] at hok
    exact ⟨st1, rfl, hok⟩

theorem walker_push_pop (w : walker_state) (ns1 ns2 : xmlns_id_t) (n1 n2 : pstring) :
    (walker_pop (walker_push w ns1 n1).1 ns2 n2).1 = w ∧
    (walker_pop (walker_push w ns1 n1).1 ns2 n2).2 = (w.stack.head?).join := by
  cases w
  simp [walker_pop, walker_push]

theorem walker_push_found (w : walker_state) (ns : xmlns_id_t) (name : pstring)
    (x : Option element) (base : List (Option element)) (hstack : w.stack = x :: base)
    (d : element) (hd : (walker_push w ns name).2 = some d) :
    ∃ c, x = some c ∧ d ∈ c.child_elements := by
  unfold walker_push at hd
  simp only [hstack] at hd
  cases x with
  | none => simp at hd
  | some c =>
    simp only at hd
    exact ⟨c, rfl, List.mem_of_find?_eq_some hd⟩

/-- Below an element whose subtree is closed to links, well-nested events
record nothing: the walker, the current element, the recorded links and
their positions, the scopes and the range flag are afterwards as before. -/
theorem balanced_inner_silent (ndebug : Bool) (fact : import_factory) :
    ∀ (inner : List sax_event), balanced inner →
    ∀ (st st1 : walker_state × xml_data_sax_handler) (x : Option element)
      (base : List (Option element)),
      st.1.stack = x :: base → st.2.mp_current_elem = x →
      (∀ c, x = some c → range_inner.all_inner c.child_elements = true) →
      (st.2.m_in_range_ref = true ∨ ∀ c, x = some c → c.child_elements = []) →
      handle_events ndebug fact map_tree_walker st inner = .ok st1 →
      st1.1 = st.1 ∧ st1.2.mp_current_elem = x ∧
      st1.2.m_link_positions = st.2.m_link_positions ∧
      st1.2.node_stream_pos = st.2.node_stream_pos ∧
      st1.2.m_scopes = st.2.m_scopes ∧ st1.2.m_in_range_ref = st.2.m_in_range_ref := by
  intro inner hbal
  induction hbal with
  | nil =>
    intro st st1 x base _ hcur _ _ hok
    simp only [handle_events, Except.ok.injEq] at hok
    subst hok
    exact ⟨rfl, hcur, rfl, rfl, rfl, rfl⟩
  | attr a rest _ ih =>
    intro st st1 x base hstack hcur hinner hflag hok
    obtain ⟨s1, he, hrest⟩ := handle_events_cons_ok ndebug fact _ st st1 _ rest hok
    simp only [handle_event, Except.ok.injEq] at he
    subst he
    exact ih (st.1, handler_attribute st.2 a) st1 x base hstack hcur hinner hflag hrest
  | chars val transient rest _ ih =>
    intro st st1 x base hstack hcur hinner hflag hok
    obtain ⟨s1, he, hrest⟩ := handle_events_cons_ok ndebug fact _ st st1 _ rest hok
    simp only [handle_event, Except.ok.injEq] at he
    subst he
    have hch : (characters st.2 val transient).mp_current_elem = st.2.mp_current_elem ∧
        (characters st.2 val transient).m_link_positions = st.2.m_link_positions ∧
        (characters st.2 val transient).node_stream_pos = st.2.node_stream_pos ∧
        (characters st.2 val transient).m_scopes = st.2.m_scopes ∧
        (characters st.2 val transient).m_in_range_ref = st.2.m_in_range_ref := by
      unfold characters
      split <;> exact ⟨rfl, rfl, rfl, rfl, rfl⟩
    obtain ⟨r1, r2, r3, r4, r5, r6⟩ := ih (st.1, characters st.2 val transient) st1 x base
      hstack (hch.1.trans hcur) hinner (by rw [hch.2.2.2.2]; exact hflag) hrest
    exact ⟨r1, r2, r3.trans hch.2.1, r4.trans hch.2.2.1, r5.trans hch.2.2.2.1,
      r6.trans hch.2.2.2.2⟩
  | elem o c inner rest _ _ ih_inner ih_rest =>
    intro st st1 x base hstack hcur hinner hflag hok
    obtain ⟨s1, he1, hok1⟩ := handle_events_cons_ok ndebug fact _ st st1 _ _ hok
    obtain ⟨s2, hin, hok2⟩ := handle_events_append_ok ndebug fact _ s1 st1 inner _ hok1
    obtain ⟨s3, he3, hok3⟩ := handle_events_cons_ok ndebug fact _ s2 st1 _ rest hok2
    -- the opening tag
    obtain ⟨hw1, hs1⟩ := handle_event_start_element ndebug fact st s1 o he1
    obtain ⟨p1, p2, p3, p4, p5⟩ := start_element_positions ndebug fact st.2 s1.2 o _ hs1
    have hstack1 : s1.1.stack = (walker_push st.1 o.ns o.name).2 :: x :: base := by
      rw [hw1]
      simp only [walker_push, hstack]
    -- the element descended onto, if any, lies below a range parent
    have hy : ∀ d, (walker_push st.1 o.ns o.name).2 = some d →
        range_inner d = true ∧ st.2.m_in_range_ref = true := by
      intro d hd
      obtain ⟨e, hx, hmem⟩ := walker_push_found st.1 o.ns o.name x base hstack d hd
      refine ⟨all_inner_mem _ d (hinner e hx) hmem, ?_⟩
      rcases hflag with hf | hf
      · exact hf
      · rw [hf e hx] at hmem
        simp at hmem
    have hflag1 : s1.2.m_in_range_ref = st.2.m_in_range_ref := by
      rw [p5]
      cases hd : (walker_push st.1 o.ns o.name).2 with
      | none => simp
      | some d =>
        have hr := (hy d hd).1
        rw [range_inner_eq] at hr
        simp only [Bool.and_eq_true, Option.isNone_iff_eq_none] at hr
        simp [hr.1.2]
    -- the content
    obtain ⟨q1, q2, q3, q4, q5, q6⟩ := ih_inner s1 s2 (walker_push st.1 o.ns o.name).2
      (x :: base) hstack1 p4
      (by
        intro d hd
        have hr := (hy d hd).1
        rw [range_inner_eq] at hr
        simp only [Bool.and_eq_true] at hr
        exact hr.2)
      (by
        cases hd : (walker_push st.1 o.ns o.name).2 with
        | none => right; intro d hd2; cases hd2
        | some d => left; rw [hflag1]; exact (hy d hd).2)
      hin
    -- the closing tag
    obtain ⟨hb, hbody, hs3⟩ := handle_event_end_element ndebug fact s2 s3 c he3
    obtain ⟨b1, b2, b3, b4⟩ := end_element_body_quiet ndebug fact s2.2 hb c
      (by
        intro d hd
        rw [q2] at hd
        have hr := (hy d hd).1
        rw [range_inner_eq] at hr
        simp only [Bool.and_eq_true, bne_iff_ne, ne_eq, Option.isNone_iff_eq_none] at hr
        exact ⟨hr.1.1, hr.1.2, by rw [q6, hflag1]; exact (hy d hd).2⟩)
      hbody
    have hpop := walker_push_pop st.1 o.ns c.ns o.name c.name
    have hs3w : s3.1 = st.1 := by
      rw [hs3, q1, hw1]
      exact hpop.1
    have hs3c : s3.2.mp_current_elem = x := by
      rw [hs3, q1, hw1]
      simp only [hpop.2, hstack, List.head?_cons, Option.join, Option.some_bind, id]
    obtain ⟨r1, r2, r3, r4, r5, r6⟩ := ih_rest s3 st1 x base (by rw [hs3w]; exact hstack) hs3c
      hinner
      (by
        rcases hflag with hf | hf
        · left
          rw [hs3]
          simp only [b4, q6, hflag1, hf]
        · right; exact hf)
      hok3
    have e3 : s3.2.m_link_positions = st.2.m_link_positions := by
      rw [hs3]
      simp only [b1, q3, p1]
    have e4 : s3.2.node_stream_pos = st.2.node_stream_pos := by
      rw [hs3]
      simp only [b2, q4, p2]
    have e5 : s3.2.m_scopes = st.2.m_scopes := by
      rw [hs3]
      simp only [b3, q5, p3, List.dropLast_concat]
    have e6 : s3.2.m_in_range_ref = st.2.m_in_range_ref := by
      rw [hs3]
      simp only [b4, q6, hflag1]
    exact ⟨r1.trans hs3w, r2, r3.trans e3, r4.trans e4, r5.trans e5, r6.trans e6⟩

/-- C28 (amended): between the opening and the closing tag of an element
`A` of the map tree that is a single-cell element (without children in the
map tree) or the parent of a range whose subtree holds no single-cell element
and no further range parent, the content parse records nothing: after the
closing tag the link-position list is the one before the opening tag with
`A` alone appended, and the span recorded for `A` is that of its own two
tags. So no recorded element lies inside the span of such an element. -/
theorem linked_subtree_records_nothing (ndebug : Bool) (fact : import_factory)
    (st0 st1 : walker_state × xml_data_sax_handler) (o c : sax_ns_parser_element)
    (inner : List sax_event) (A : element)
    (hbal : balanced inner)
    (hpush : (walker_push st0.1 o.ns o.name).2 = some A)
    (hA : subtree_closed A)
    (hrun : handle_events ndebug fact map_tree_walker st0
      (sax_event.start_element o :: (inner ++ [sax_event.end_element c])) = .ok st1) :
    st1.2.m_link_positions = st0.2.m_link_positions ++ [A] ∧
    st1.2.node_stream_pos A.addr =
      { open_begin := o.begin_pos, open_end := o.end_pos,
        close_begin := c.begin_pos, close_end := c.end_pos } := by
  obtain ⟨s1, he1, hok1⟩ := handle_events_cons_ok ndebug fact _ st0 st1 _ _ hrun
  obtain ⟨s2, hin, hok2⟩ := handle_events_append_ok ndebug fact _ s1 st1 inner _ hok1
  obtain ⟨s3, he3, hok3⟩ := handle_events_cons_ok ndebug fact _ s2 st1 _ [] hok2
  simp only [handle_events, Except.ok.injEq] at hok3
  subst hok3
  obtain ⟨hw1, hs1⟩ := handle_event_start_element ndebug fact st0 s1 o he1
  rw [hpush] at hs1
  obtain ⟨p1, p2, p3, p4, p5⟩ := start_element_positions ndebug fact st0.2 s1.2 o _ hs1
  have hstack1 : s1.1.stack = some A :: st0.1.stack := by
    rw [hw1]
    have : (walker_push st0.1 o.ns o.name).1.stack =
        (walker_push st0.1 o.ns o.name).2 :: st0.1.stack := by
      simp only [walker_push]
    rw [this, hpush]
  obtain ⟨q1, q2, q3, q4, q5, q6⟩ := balanced_inner_silent ndebug fact inner hbal s1 s2
    (some A) st0.1.stack hstack1 p4
    (by
      intro d hd
      simp only [Option.some.injEq] at hd
      subst hd
      rcases hA with h | h
      · rw [h.2]; rfl
      · exact h.2)
    (by
      rcases hA with h | h
      · right
        intro d hd
        simp only [Option.some.injEq] at hd
        subst hd
        exact h.2
      · left
        rw [p5]
        simp [h.1])
    hin
  obtain ⟨hb, hbody, hs3⟩ := handle_event_end_element ndebug fact s2 s3 c he3
  obtain ⟨b1, b2⟩ := end_element_body_records ndebug fact s2.2 hb c A st0.2.m_scopes
    { ns := o.ns, name := o.name, element_open_begin := o.begin_pos,
      element_open_end := o.end_pos } q2
    (by
      rcases hA with h | h
      · left; exact h.1
      · right; exact h.1)
    (by rw [q5, p3]) hbody
  rw [hs3]
  simp only [b1, b2, q3, p1, and_self]

/-- C28 (amended) at scenario S3: between `<r>` and `</r>` the two `it`
elements are read and `r` alone is recorded, from offset 0 to offset 29. -/
theorem linked_subtree_records_nothing_witness :
    s3_end.2.m_link_positions = s3_start.2.m_link_positions ++ [s3_root] ∧
    s3_end.2.node_stream_pos s3_root.addr =
      { open_begin := 0, open_end := 3, close_begin := 25, close_end := 29 } :=
  linked_subtree_records_nothing false s3_fact s3_start s3_end
    { ns := none, ns_alias := [], name := "r".toList, begin_pos := 0, end_pos := 3 }
    { ns := none, ns_alias := [], name := "r".toList, begin_pos := 25, end_pos := 29 }
    ([("x".toList, 3, 14), ("y".toList, 14, 25)].flatMap
      (occurrence_events none none "it".toList "n".toList))
    s3_root
    (balanced.attr _ _ (balanced.elem _ _ [] _ balanced.nil
      (balanced.attr _ _ (balanced.elem _ _ [] [] balanced.nil balanced.nil))))
    rfl (Or.inr ⟨rfl, rfl⟩) rfl

/-- C28 as stated fails: in `<r><a x="1"> <b>t</b></a></r>` with `@x` of
`a` and the element `b` linked to cells, the content parse records `b` and
then the attribute anchor `a`, and the span `[13, 21)` of `b` lies inside the
span `[3, 25)` of `a`. The writer rewrites both, the opening tag of `a`
and the element `b`. -/
theorem anchor_contains_recorded_element :
    nested_links.map (fun e => (e.addr, e.stream_pos)) =
      [(4, { open_begin := 13, open_end := 16, close_begin := 17, close_end := 21 }),
       (2, { open_begin := 3, open_end := 12, close_begin := 21, close_end := 25 })] ∧
    (3 ≤ 13 ∧ 21 ≤ 25) ∧
    write false (some s5_fact) s5_ranges nested_links nested_input =
      .ok "<r><a x=\"z1\"> <b>z2</b></a></r>".toList := by
  decide

/-! ## `pstring::trim` -/

/-- A blank prefix of a text ends before any byte that is not blank. -/
theorem blank_prefix_bound (c : Char) (hc : is_blank c = false) :
    ∀ (L X a Y : pstring), L ++ X = a ++ c :: Y → (∀ x ∈ L, is_blank x = true) →
      L.length ≤ a.length := by
  intro L
  induction L with
  | nil => intro X a Y _ _; simp
  | cons l L ih =>
    intro X a Y h hL
    cases a with
    | nil =>
      simp only [List.cons_append, List.nil_append, List.cons.injEq] at h
      have := hL l (List.mem_cons_self _ _)
      rw [h.1, hc] at this
      cases this
    | cons x a =>
      simp only [List.cons_append, List.cons.injEq] at h
      have := ih X a Y h.2 (fun x hx => hL x (List.mem_cons_of_mem _ hx))
      simp only [List.length_cons]
      omega

/-- A blank suffix of a text starts after any byte that is not blank. -/
theorem blank_suffix_bound (c : Char) (hc : is_blank c = false)
    (X R Y b : pstring) (h : X ++ R = Y ++ c :: b) (hR : ∀ x ∈ R, is_blank x = true) :
    R.length ≤ b.length := by
  have h2 : R.reverse ++ X.reverse = b.reverse ++ c :: Y.reverse := by
    have := congrArg List.reverse h
    simpa using this
  have := blank_prefix_bound c hc R.reverse X.reverse b.reverse Y.reverse h2
    (fun x hx => hR x (List.mem_reverse.mp hx))
  simpa using this

/-- The shape of the result of `trim`: either the text is all blanks and the
result is empty, or the text is a run of blanks, the result, and a run of
blanks, and the result starts and ends with a byte that is not blank. -/
theorem trim_shape (s : pstring) :
    ((∀ x ∈ s, is_blank x = true) ∧ trim s = []) ∨
    (∃ L R c d, s = L ++ trim s ++ R ∧ (∀ x ∈ L, is_blank x = true) ∧
      (∀ x ∈ R, is_blank x = true) ∧ (trim s).head? = some c ∧ is_blank c = false ∧
      (trim s).getLast? = some d ∧ is_blank d = false) := by
  have hs : s.takeWhile is_blank ++ s.dropWhile is_blank = s := List.takeWhile_append_dropWhile _ _
  have hL : ∀ x ∈ s.takeWhile is_blank, is_blank x = true := fun x hx => List.mem_takeWhile_imp hx
  cases hd : s.dropWhile is_blank with
  | nil =>
    left
    refine ⟨?_, by simp [trim, hd]⟩
    rw [hd, List.append_nil] at hs
    intro x hx
    rw [← hs] at hx
    exact hL x hx
  | cons c rest =>
    right
    have hc : is_blank c = false := by
      have h := List.head_dropWhile_not is_blank s (by rw [hd]; simp)
      simpa [hd] using h
    have hr : rest.reverse.takeWhile is_blank ++ rest.reverse.dropWhile is_blank = rest.reverse :=
      List.takeWhile_append_dropWhile _ _
    have hR : ∀ x ∈ (rest.reverse.takeWhile is_blank).reverse, is_blank x = true :=
      fun x hx => List.mem_takeWhile_imp (List.mem_reverse.mp hx)
    have hrest : rest = (rest.reverse.dropWhile is_blank).reverse ++
        (rest.reverse.takeWhile is_blank).reverse := by
      have h := congrArg List.reverse hr
      rw [List.reverse_append, List.reverse_reverse] at h
      exact h.symm
    have ht : trim s = c :: (rest.reverse.dropWhile is_blank).reverse := by simp [trim, hd]
    have hlast : ∃ d, (trim s).getLast? = some d ∧ is_blank d = false := by
      rw [ht]
      cases hd2 : rest.reverse.dropWhile is_blank with
      | nil => exact ⟨c, by simp, hc⟩
      | cons d r =>
        refine ⟨d, ?_, ?_⟩
        · rw [List.reverse_cons, ← List.cons_append, List.getLast?_append]
          rfl
        · have h := List.head_dropWhile_not is_blank rest.reverse (by rw [hd2]; simp)
          simpa [hd2] using h
    obtain ⟨d, hd1, hd2⟩ := hlast
    refine ⟨s.takeWhile is_blank, (rest.reverse.takeWhile is_blank).reverse, c, d, ?_, hL, hR,
      by rw [ht]; rfl, hc, hd1, hd2⟩
    rw [ht]
    conv_lhs => rw [← hs, hd, hrest]
    simp

/-- C33: for every view `s`, `trim` returns a contiguous sub-view of `s`
that neither begins nor ends with a blank, with only blanks before and after
it in `s`; every non-empty contiguous sub-view of `s` that neither begins nor
ends with a blank lies inside it, so none is longer; and the result is empty
when `s` is empty or holds blanks only. -/
theorem trim_longest_unblank_subview (s : pstring) :
    (∃ L R, s = L ++ trim s ++ R ∧
      (∀ a t b, s = a ++ t ++ b → t ≠ [] →
        (∀ c, t.head? = some c → is_blank c = false) →
        (∀ c, t.getLast? = some c → is_blank c = false) →
        L.length ≤ a.length ∧ R.length ≤ b.length ∧ t.length ≤ (trim s).length)) ∧
    (∀ c, (trim s).head? = some c → is_blank c = false) ∧
    (∀ c, (trim s).getLast? = some c → is_blank c = false) ∧
    ((∀ c ∈ s, is_blank c = true) → trim s = []) ∧
    trim [] = [] := by
  have hmax : ∀ (L R : pstring), s = L ++ trim s ++ R → (∀ x ∈ L, is_blank x = true) →
      (∀ x ∈ R, is_blank x = true) → ∀ a t b, s = a ++ t ++ b → t ≠ [] →
        (∀ c, t.head? = some c → is_blank c = false) →
        (∀ c, t.getLast? = some c → is_blank c = false) →
        L.length ≤ a.length ∧ R.length ≤ b.length ∧ t.length ≤ (trim s).length := by
    intro L R hs hL hR a t b hab hne hh hl
    have h1 : L.length ≤ a.length := by
      cases t with
      | nil => exact absurd rfl hne
      | cons c u =>
        have hc := hh c rfl
        refine blank_prefix_bound c hc L (trim s ++ R) a (u ++ b) ?_ hL
        rw [← List.append_assoc, ← hs, hab]; simp
    have h2 : R.length ≤ b.length := by
      obtain ⟨u, d, hu⟩ : ∃ u d, t = u ++ [d] := by
        rcases List.eq_nil_or_concat t with h | ⟨u, d, h⟩
        · exact absurd h hne
        · exact ⟨u, d, by simpa using h⟩
      have hd := hl d (by rw [hu]; simp)
      refine blank_suffix_bound d hd (L ++ trim s) R (a ++ u) b ?_ hR
      rw [← hs, hab, hu]; simp
    refine ⟨h1, h2, ?_⟩
    have e1 := congrArg List.length hs
    have e2 := congrArg List.length hab
    simp only [List.length_append] at e1 e2
    omega
  rcases trim_shape s with ⟨hall, he⟩ | ⟨L, R, c, d, hs, hL, hR, hc1, hc2, hd1, hd2⟩
  · refine ⟨⟨s, [], by simp [he], ?_⟩, by simp [he], by simp [he], fun _ => he, rfl⟩
    intro a t b hab hne hh _
    cases t with
    | nil => exact absurd rfl hne
    | cons c u =>
      have := hall c (by rw [hab]; simp)
      rw [hh c rfl] at this
      cases this
  · refine ⟨⟨L, R, hs, hmax L R hs hL hR⟩, ?_, ?_, ?_, rfl⟩
    · intro c2 h; rw [hc1] at h; cases h; exact hc2
    · intro c2 h; rw [hd1] at h; cases h; exact hd2
    · intro hall
      exfalso
      have hm : c ∈ trim s := by
        cases ht : trim s with
        | nil => rw [ht] at hc1; cases hc1
        | cons x xs => rw [ht] at hc1; cases hc1; simp
      have := hall c (by rw [hs]; simp [hm])
      rw [hc2] at this
      cases this

/-! ## Numeric parser: an exponent marker without an exponent -/

theorem not_digit_10_range (c : Char) (h : is_digit_of 10 c = false) :
    c.toNat < 48 ∨ 57 < c.toNat := by
  by_contra hn
  have h1 : 48 ≤ c.toNat ∧ c.toNat ≤ 57 := by omega
  have : is_digit_of 10 c = true := by
    unfold is_digit_of digit_value
    simp only [h1, and_self, if_true]
    rw [if_pos (by omega)]
    rfl
  rw [this] at h
  cases h

theorem parse_exponent_loop_stops (c : Char) (rest : pstring) (h : is_digit_of 10 c = false)
    (acc : Int) (valid : Bool) :
    parse_exponent_loop acc valid (c :: rest) = (acc, valid, c :: rest) := by
  rw [parse_exponent_loop, if_pos (not_digit_10_range c h)]

/-- Without an exponent body after the marker `parse_exponent` fails: it
returns `0.0` and puts `mp_char` back on the marker. -/
theorem parse_exponent_without_body (p0 T : pstring) (hT : begins_exponent T = false) :
    parse_exponent p0 T = (0, p0) := by
  unfold parse_exponent
  have key : (parse_exponent_loop 0 false (check_sign T).2).2.1 = false := by
    cases T with
    | nil => rfl
    | cons c rest =>
      by_cases hp : c = '+'
      · subst hp
        cases rest with
        | nil => rfl
        | cons d r =>
          have hd : is_digit_of 10 d = false := by simpa [begins_exponent] using hT
          show (parse_exponent_loop 0 false (d :: r)).2.1 = false
          rw [parse_exponent_loop_stops d r hd]
      · by_cases hm : c = '-'
        · subst hm
          cases rest with
          | nil => rfl
          | cons d r =>
            have hd : is_digit_of 10 d = false := by simpa [begins_exponent] using hT
            show (parse_exponent_loop 0 false (d :: r)).2.1 = false
            rw [parse_exponent_loop_stops d r hd]
        · have hd : is_digit_of 10 c = false := by simpa [begins_exponent, hp, hm] using hT
          have hcs : check_sign (c :: rest) = (false, c :: rest) := by
            simp [check_sign, hp, hm]
          rw [hcs]
          show (parse_exponent_loop 0 false (c :: rest)).2.1 = false
          rw [parse_exponent_loop_stops c rest hd]
  simp only [key, Bool.not_false, if_true]

/-- An exponent marker that no exponent body follows ends the loop of
`parse` with the state unchanged and `mp_char` on the marker. -/
theorem parse_loop_marker_without_body (allow bdp : Bool) (st : parser_state)
    (hst : st.has_digit = true) (e : Char) (he : e = 'e' ∨ e = 'E') (T : pstring)
    (hT : begins_exponent T = false) :
    parse_loop allow bdp st (e :: T) = (finish allow st, e :: T) := by
  have hdot : (e == '.') = false := by rcases he with rfl | rfl <;> decide
  have hmark : (e == 'e' || e == 'E') = true := by rcases he with rfl | rfl <;> decide
  rw [parse_loop]
  simp only [hdot, Bool.false_eq_true, if_false, hst, hmark, Bool.and_self, if_true,
    parse_exponent_without_body (e :: T) T hT, bne_self_eq_false, Bool.not_true]

/-- After the mantissa `[+|-] D [. F]` of a numeric string the loop of
`parse` is in a state that has seen a digit, whatever text follows. -/
theorem parse_after_mantissa (allow : Bool) (n : numeric_string) (hwf : n.well_formed)
    (hex : n.exp_part = none) :
    ∃ (bdp : Bool) (st : parser_state), st.has_digit = true ∧
      ∀ tail : pstring, parse allow (n.text ++ tail) = parse_loop allow bdp st tail := by
  obtain ⟨sg, D, frac, ex⟩ := n
  obtain ⟨hD, hF, hne, _⟩ := hwf
  simp only [] at hD hF hne hex
  subst hex
  have hbody : ∀ tail c t, D ++ (fraction_text frac ++ tail) = c :: t →
      (c == '+') = false ∧ (c == '-') = false := by
    intro tail c t hct
    cases D with
    | cons d D1 =>
      simp only [List.cons_append, List.cons.injEq] at hct
      obtain ⟨_, _, _, t4, t5, _⟩ := digit_char_tests d (hD d (List.mem_cons_self _ _))
      rw [← hct.1]
      exact ⟨t4, t5⟩
    | nil =>
      rcases hne with h | ⟨F, hF1, _⟩
      · exact absurd rfl h
      · subst hF1
        simp only [List.nil_append, fraction_text, List.cons_append, List.cons.injEq] at hct
        rw [← hct.1]
        exact ⟨by decide, by decide⟩
  have htext : ∀ tail, numeric_string.text ⟨sg, D, frac, none⟩ ++ tail =
      sign_text sg ++ (D ++ (fraction_text frac ++ tail)) := by
    intro tail
    simp [numeric_string.text, exponent_text]
  obtain ⟨_, d2, _, _, _, _⟩ := digits_fold_fields true D
    { parser_state.init with negative_sign := (sg == some true) } hD
  match frac, hF, hne with
  | none, _, hne =>
    have hDne : D ≠ [] := by
      rcases hne with h | ⟨F, hF1, _⟩
      · exact h
      · cases hF1
    refine ⟨true, D.foldl (digit_step true)
      { parser_state.init with negative_sign := (sg == some true) }, ?_, ?_⟩
    · rw [d2]
      cases D with
      | nil => exact absurd rfl hDne
      | cons a l => simp
    · intro tail
      rw [htext]
      unfold parse
      simp only [check_sign_text sg _ (hbody tail)]
      rw [parse_loop_digits allow true _ D _ hD]
      rfl
  | some F, hF, hne2 =>
    have hFd := hF F rfl
    obtain ⟨_, f2, _, _, _, _⟩ := digits_fold_fields false F (D.foldl (digit_step true)
      { parser_state.init with negative_sign := (sg == some true) }) hFd
    refine ⟨false, F.foldl (digit_step false) (D.foldl (digit_step true)
      { parser_state.init with negative_sign := (sg == some true) }), ?_, ?_⟩
    · rw [f2, d2]
      rcases hne2 with h | ⟨F2, hF1, hF2⟩
      · cases D with
        | nil => exact absurd rfl h
        | cons a l => simp
      · obtain rfl : F = F2 := Option.some.inj hF1
        cases F with
        | nil => exact absurd rfl hF2
        | cons a l => simp
    · intro tail
      rw [htext]
      unfold parse
      simp only [check_sign_text sg _ (hbody tail)]
      rw [parse_loop_digits allow true _ D _ hD, fraction_text, List.cons_append, parse_loop]
      simp only [beq_self_eq_true, if_true, Bool.not_true, Bool.false_eq_true, if_false]
      rw [parse_loop_digits allow false _ F _ hFd]

/-- C32: for every mantissa `[+|-] D [. F]` with at least one digit, an
exponent marker `e` or `E` after it that is not followed by an optional sign
and a digit (as in `1e`, `1e+`, `1ex`) is left unconsumed: `parse` returns
the value it returns for the mantissa alone (the number the mantissa
denotes, or NaN for the JSON trait on a leading zero) and
`get_char_position()` is on the marker. -/
theorem marker_without_exponent_left_unconsumed (allow_leading_zeros : Bool)
    (n : numeric_string) (hwf : n.well_formed) (hex : n.exp_part = none)
    (e : Char) (he : e = 'e' ∨ e = 'E') (T : pstring) (hT : begins_exponent T = false) :
    parse allow_leading_zeros (n.text ++ e :: T) =
      ((parse allow_leading_zeros n.text).1, e :: T) ∧
    (parse allow_leading_zeros n.text).1 =
      (if (!allow_leading_zeros && n.leading_zero) = true then .nan else .finite n.value) := by
  obtain ⟨bdp, st, hst, hp⟩ := parse_after_mantissa allow_leading_zeros n hwf hex
  have h0 := hp []
  rw [List.append_nil] at h0
  have hfin : parse_loop allow_leading_zeros bdp st [] = (finish allow_leading_zeros st, []) := by
    rw [parse_loop]
    simp [hst]
  refine ⟨?_, ?_⟩
  · rw [hp (e :: T), parse_loop_marker_without_body allow_leading_zeros bdp st hst e he T hT, h0,
      hfin]
  · rw [parse_numeric_string allow_leading_zeros n hwf,
      parsed_value_in_range n (by rw [hex]; rfl)]

/-- C32 at the text `1e+`: the value is that of the mantissa `1` and the
text from `get_char_position()` on is `e+`. -/
theorem marker_without_exponent_left_unconsumed_witness :
    numeric_string.text ⟨none, "1".toList, none, none⟩ ++ 'e' :: "+".toList = "1e+".toList ∧
    begins_exponent "+".toList = false ∧
    (parse generic_parser_trait
        (numeric_string.text ⟨none, "1".toList, none, none⟩ ++ 'e' :: "+".toList) =
      ((parse generic_parser_trait (numeric_string.text ⟨none, "1".toList, none, none⟩)).1,
        'e' :: "+".toList) ∧
    (parse generic_parser_trait (numeric_string.text ⟨none, "1".toList, none, none⟩)).1 =
      (if (!generic_parser_trait &&
          numeric_string.leading_zero ⟨none, "1".toList, none, none⟩) = true then .nan
        else .finite (numeric_string.value ⟨none, "1".toList, none, none⟩))) :=
  ⟨by decide, by decide,
    marker_without_exponent_left_unconsumed generic_parser_trait ⟨none, "1".toList, none, none⟩
      (by
        unfold numeric_string.well_formed
        exact ⟨by decide, fun F hF => (by cases hF), Or.inl (by decide), fun e s X h => by cases h⟩)
      rfl 'e' (Or.inl rfl) "+".toList (by decide)⟩

/-! ## `css::parser_base::parse_uint8` -/

theorem is_numeric_digit (c : Char) : is_numeric c = is_digit_of 10 c := by
  by_cases h : 48 ≤ c.toNat ∧ c.toNat ≤ 57
  · have h2 : is_digit_of 10 c = true := by
      unfold is_digit_of digit_value
      simp only [h, and_self, if_true]
      rw [if_pos (by omega)]
      rfl
    rw [h2]
    simp [is_numeric, h.1, h.2]
  · have h2 : is_digit_of 10 c = false := by
      cases hd : is_digit_of 10 c with
      | false => rfl
      | true =>
        obtain ⟨a, b, _⟩ := is_digit_10_range c hd
        exact absurd ⟨a, b⟩ h
    rw [h2]
    simp only [is_numeric, Bool.and_eq_false_imp, decide_eq_true_eq, decide_eq_false_iff_not]
    intro h1 h3
    exact h ⟨h1, h3⟩

theorem positioned_has_char (start : Nat) (pre txt : pstring) :
    (css.parser_base.positioned start pre txt).has_char = !txt.isEmpty := by
  cases txt with
  | nil => simp [css.parser_base.positioned, css.parser_base.has_char]
  | cons c t => simp [css.parser_base.positioned, css.parser_base.has_char]

theorem positioned_cur_char (start : Nat) (pre : pstring) (c : Char) (t : pstring) :
    (css.parser_base.positioned start pre (c :: t)).cur_char = .ok c := by
  unfold css.parser_base.cur_char css.parser_base.read css.parser_base.positioned
  simp only [List.length_append, List.length_cons]
  rw [if_pos ⟨by omega, by omega⟩]
  simp [List.getD_eq_getElem?_getD, List.getElem?_append_right, List.getElem_append_right]

theorem positioned_next (start : Nat) (pre : pstring) (c : Char) (t : pstring)
    (hfit : start + (pre ++ c :: t).length < size_range) :
    (css.parser_base.positioned start pre (c :: t)).next =
      css.parser_base.positioned start (pre ++ [c]) t := by
  unfold size_range at hfit
  simp only [List.length_append, List.length_cons] at hfit
  unfold css.parser_base.next css.parser_base.positioned size_range
  simp only [List.length_append, List.length_cons, List.length_nil, List.append_assoc,
    List.singleton_append, css.parser_base.mk.injEq, true_and]
  refine ⟨?_, ?_, trivial⟩ <;> omega

/-- The loop of `parse_uint8` on a run of digits: with room for `m` more
digits it takes the first `m` digits of the run and no more. -/
theorem parse_uint8_loop_digits (start : Nat) (rest : pstring)
    (hrest : ∀ c t, rest = c :: t → is_numeric c = false) :
    ∀ (ds pre : pstring) (val len m fuel : Nat), (∀ c ∈ ds, is_numeric c = true) →
      start + (pre ++ (ds ++ rest)).length < size_range → len + m = 4 → m < fuel →
      css.parse_uint8_loop fuel (css.parser_base.positioned start pre (ds ++ rest)) val len =
        .ok (css.parser_base.positioned start (pre ++ ds.take m) (ds.drop m ++ rest),
          val * 10 ^ (ds.take m).length + digits_value 10 (ds.take m),
          len + (ds.take m).length) := by
  intro ds
  induction ds with
  | nil =>
    intro pre val len m fuel _ _ hlen hfuel
    obtain ⟨f, rfl⟩ : ∃ f, fuel = f + 1 := ⟨fuel - 1, by omega⟩
    rw [css.parse_uint8_loop, positioned_has_char]
    simp only [List.nil_append, List.take_nil, List.drop_nil, List.append_nil, List.length_nil,
      pow_zero, Nat.mul_one, Nat.add_zero, digits_value, List.foldl_nil]
    cases rest with
    | nil => simp
    | cons c t =>
      have hc := hrest c t rfl
      by_cases h3 : len ≤ 3
      · simp [h3, positioned_cur_char, hc]
      · simp [h3]
  | cons d ds ih =>
    intro pre val len m fuel hds hfit hlen hfuel
    obtain ⟨f, rfl⟩ : ∃ f, fuel = f + 1 := ⟨fuel - 1, by omega⟩
    rw [css.parse_uint8_loop, positioned_has_char]
    cases m with
    | zero =>
      have h3 : ¬ len ≤ 3 := by omega
      simp [h3, digits_value]
    | succ k =>
      have h3 : len ≤ 3 := by omega
      have hd := hds d (List.mem_cons_self _ _)
      have hdd : is_digit_of 10 d = true := by rw [← is_numeric_digit]; exact hd
      obtain ⟨_, _, hv⟩ := is_digit_10_range d hdd
      have hmod : (len + 1) % size_range = len + 1 := by
        unfold size_range
        omega
      simp only [List.cons_append, List.isEmpty_cons, Bool.not_false, h3, decide_True,
        Bool.and_self, if_true, positioned_cur_char, hd, Bool.not_true, Bool.false_eq_true,
        if_false, hmod]
      rw [positioned_next start pre d (ds ++ rest) hfit,
        ih (pre ++ [d]) _ (len + 1) k f (fun c hc => hds c (List.mem_cons_of_mem _ hc))
          (by simpa using hfit) (by omega) (by omega)]
      simp only [List.take_succ_cons, List.drop_succ_cons, List.append_assoc,
        List.singleton_append, List.length_cons, digits_value_cons, hv]
      have e1 : (val * 10 + (d.toNat - 48)) * 10 ^ (ds.take k).length +
          digits_value 10 (ds.take k) =
          val * 10 ^ ((ds.take k).length + 1) +
            ((d.toNat - 48) * 10 ^ (ds.take k).length + digits_value 10 (ds.take k)) := by
        ring
      have e2 : len + 1 + (ds.take k).length = len + ((ds.take k).length + 1) := by omega
      rw [e1, e2]

/-- What `parse_uint8` does at a run of digits: it takes the first four
digits of the run at most, returns their value capped at 255 and leaves the
cursor after them. -/
theorem parse_uint8_at_digits (start : Nat) (pre ds rest : pstring)
    (hds : ∀ c ∈ ds, is_numeric c = true) (hne : ds ≠ [])
    (hrest : ∀ c t, rest = c :: t → is_numeric c = false)
    (hfit : start + (pre ++ (ds ++ rest)).length < size_range) :
    css.parser_base.parse_uint8 (css.parser_base.positioned start pre (ds ++ rest)) =
      .ok (css.parser_base.positioned start (pre ++ ds.take 4) (ds.drop 4 ++ rest),
        min (digits_value 10 (ds.take 4)) 255) := by
  unfold css.parser_base.parse_uint8
  rw [parse_uint8_loop_digits start rest hrest ds pre 0 0 4 5 hds hfit rfl (by decide)]
  have hlen : ((ds.take 4).length == 0) = false := by
    cases ds with
    | nil => exact absurd rfl hne
    | cons d t => simp
  simp only [Nat.zero_mul, Nat.zero_add, hlen, Bool.false_eq_true, if_false]
  by_cases h : digits_value 10 (ds.take 4) > 255
  · rw [if_pos h, Nat.min_eq_right (by omega)]
  · rw [if_neg h, Nat.min_eq_left (by omega), Nat.mod_eq_of_lt (by omega)]

/-- Without a digit under the cursor `parse_uint8` raises `parse_error`. -/
theorem parse_uint8_without_digit (start : Nat) (pre txt : pstring)
    (htxt : ∀ c t, txt = c :: t → is_numeric c = false) :
    css.parser_base.parse_uint8 (css.parser_base.positioned start pre txt) =
      .error .parse_error := by
  unfold css.parser_base.parse_uint8
  rw [css.parse_uint8_loop, positioned_has_char]
  cases txt with
  | nil => simp
  | cons c t => simp [positioned_cur_char, htxt c t rfl]

/-- C39 (the claim fails): on `00256` the run of digits has the value 256,
which the claim caps to 255 with the cursor at the end of the run;
`parse_uint8` returns 25 and leaves the cursor on the digit `6`. -/
theorem parse_uint8_stops_after_four_digits :
    digits_value 10 "00256".toList = 256 ∧
    css.parser_base.parse_uint8 (css.parser_base.create 1000 "00256".toList) =
      .ok (css.parser_base.positioned 1000 "0025".toList "6".toList, 25) ∧
    (css.parser_base.positioned 1000 "0025".toList "6".toList).cur_char = .ok '6' := by
  decide

/-- C39 (amended): at a run of one or more decimal digits `parse_uint8`
takes the first four digits of the run at most, returns `min(v, 255)` for the
value `v` of the digits taken and leaves the cursor after them; so for a run
of four digits or fewer it returns `min(v, 255)` for the whole run with the
cursor on the first byte that is not a digit; and when the current byte is
not a digit, or the stream is at its end, it raises `parse_error`. -/
theorem parse_uint8_first_four_digits (start : Nat) (pre ds rest : pstring)
    (hds : ∀ c ∈ ds, is_numeric c = true) (hne : ds ≠ [])
    (hrest : ∀ c t, rest = c :: t → is_numeric c = false)
    (hfit : start + (pre ++ (ds ++ rest)).length < size_range) :
    css.parser_base.parse_uint8 (css.parser_base.positioned start pre (ds ++ rest)) =
      .ok (css.parser_base.positioned start (pre ++ ds.take 4) (ds.drop 4 ++ rest),
        min (digits_value 10 (ds.take 4)) 255) ∧
    (ds.length ≤ 4 →
      css.parser_base.parse_uint8 (css.parser_base.positioned start pre (ds ++ rest)) =
        .ok (css.parser_base.positioned start (pre ++ ds) rest, min (digits_value 10 ds) 255)) ∧
    css.parser_base.parse_uint8 (css.parser_base.positioned start pre rest) =
      .error .parse_error := by
  refine ⟨parse_uint8_at_digits start pre ds rest hds hne hrest hfit, ?_,
    parse_uint8_without_digit start pre rest hrest⟩
  intro h4
  rw [parse_uint8_at_digits start pre ds rest hds hne hrest hfit, List.take_of_length_le h4,
    List.drop_of_length_le h4, List.nil_append]

/-- C39 (amended) at `rgb(12345,0,0)` with the cursor after the parenthesis:
the digits `1234` are taken, 255 is returned; on the comma there is no digit. -/
theorem parse_uint8_first_four_digits_witness :
    css.parser_base.parse_uint8 (css.parser_base.positioned 1000 "rgb(".toList
        ("12345".toList ++ ",0,0)".toList)) =
      .ok (css.parser_base.positioned 1000 ("rgb(".toList ++ "12345".toList.take 4)
          ("12345".toList.drop 4 ++ ",0,0)".toList),
        min (digits_value 10 ("12345".toList.take 4)) 255) ∧
    min (digits_value 10 ("12345".toList.take 4)) 255 = 255 ∧
    css.parser_base.parse_uint8 (css.parser_base.positioned 1000 "rgb(".toList ",0,0)".toList) =
      .error .parse_error :=
  ⟨(parse_uint8_first_four_digits 1000 "rgb(".toList "12345".toList ",0,0)".toList
      (by decide) (by decide) (by intro c t h; cases h; decide) (by decide)).1,
    by decide,
    (parse_uint8_first_four_digits 1000 "rgb(".toList "12345".toList ",0,0)".toList
      (by decide) (by decide) (by intro c t h; cases h; decide) (by decide)).2.2⟩

/-! ## `css::parser_base::shrink_stream` -/

theorem positioned_read (start : Nat) (pre : pstring) (c : Char) (t : pstring) :
    (css.parser_base.positioned start pre (c :: t)).read (start + pre.length) = .ok c :=
  positioned_cur_char start pre c t

/-- On blanks up to the end of the stream `skip_blanks` stops with
`m_pos = m_length`. -/
theorem skip_blanks_loop_all_blank (start : Nat) :
    ∀ (txt pre : pstring) (fuel : Nat), (∀ c ∈ txt, is_blank c = true) →
      start + (pre ++ txt).length < size_range → txt.length < fuel →
      css.skip_blanks_loop fuel (css.parser_base.positioned start pre txt) =
        .ok (css.parser_base.positioned start (pre ++ txt) []) := by
  intro txt
  induction txt with
  | nil =>
    intro pre fuel _ _ hfuel
    obtain ⟨f, rfl⟩ : ∃ f, fuel = f + 1 := ⟨fuel - 1, by omega⟩
    rw [css.skip_blanks_loop, positioned_has_char]
    simp
  | cons c t ih =>
    intro pre fuel hb hfit hfuel
    obtain ⟨f, rfl⟩ : ∃ f, fuel = f + 1 := ⟨fuel - 1, by simp at hfuel; omega⟩
    rw [css.skip_blanks_loop, positioned_has_char]
    have hr : (css.parser_base.positioned start pre (c :: t)).read
        (css.parser_base.positioned start pre (c :: t)).mp_char = .ok c :=
      positioned_cur_char start pre c t
    simp only [List.isEmpty_cons, Bool.not_false, if_true, hr, hb c (List.mem_cons_self _ _),
      Bool.not_true, Bool.false_eq_true, if_false]
    rw [positioned_next start pre c t hfit,
      ih (pre ++ [c]) f (fun x hx => hb x (List.mem_cons_of_mem _ hx)) (by simpa using hfit)
        (by simp at hfuel; omega)]
    simp

/-- With only blanks in the stream and the cursor at its end, the loop of
`skip_blanks_reverse` started `j` bytes into the stream walks down to the
byte before the stream and reads it. -/
theorem skip_blanks_reverse_loop_all_blank :
    ∀ (j fuel : Nat) (p : css.parser_base), (∀ c ∈ p.stream, is_blank c = true) →
      p.start + p.stream.length + 1 < size_range → p.mp_char = p.start + p.stream.length →
      j ≤ p.stream.length → j < fuel →
      css.skip_blanks_reverse_loop fuel p ((p.start + j + (size_range - 1)) % size_range) =
        .error .undefined_behaviour := by
  intro j
  induction j with
  | zero =>
    intro fuel p _ hfit hmp _ hfuel
    obtain ⟨f, rfl⟩ : ∃ f, fuel = f + 1 := ⟨fuel - 1, by omega⟩
    unfold size_range at hfit ⊢
    rw [css.skip_blanks_reverse_loop]
    have hq : ((p.start + 0 + (18446744073709551616 - 1)) % 18446744073709551616 != p.mp_char)
        = true := by
      rw [hmp, bne_iff_ne]
      omega
    have hread : p.read ((p.start + 0 + (18446744073709551616 - 1)) % 18446744073709551616) =
        .error .undefined_behaviour := by
      unfold css.parser_base.read
      rw [if_neg]
      omega
    simp only [hq, if_true, hread]
  | succ j ih =>
    intro fuel p hb hfit hmp hj hfuel
    obtain ⟨f, rfl⟩ : ∃ f, fuel = f + 1 := ⟨fuel - 1, by omega⟩
    have hfit2 := hfit
    unfold size_range at hfit2
    have hqv : (p.start + (j + 1) + (size_range - 1)) % size_range = p.start + j := by
      unfold size_range
      omega
    rw [css.skip_blanks_reverse_loop, hqv]
    have hq : (p.start + j != p.mp_char) = true := by
      rw [hmp, bne_iff_ne]
      omega
    obtain ⟨c, hc, hcb⟩ : ∃ c, p.read (p.start + j) = .ok c ∧ is_blank c = true := by
      have hlt : j < p.stream.length := by omega
      refine ⟨p.stream.get ⟨j, hlt⟩, ?_, hb _ (List.get_mem _ _ _)⟩
      unfold css.parser_base.read
      rw [if_pos ⟨by omega, by omega⟩]
      simp [List.getD_eq_getElem?_getD, List.getElem?_eq_getElem hlt]
    simp only [hq, if_true, hc, hcb, Bool.not_true, Bool.false_eq_true, if_false]
    exact ih f { p with m_length := (p.m_length + (size_range - 1)) % size_range } hb hfit hmp
      (by simp only []; omega) (by omega)

/-- C40: on a stream that is empty or holds blanks only, `skip_blanks`
leaves `m_pos = m_length`, `remaining_size()` is then evaluated and wraps
around to `2^64 - 1`, the test `!remaining_size()` does not return, and
`skip_blanks_reverse` walks back through the blanks and reads the byte
before the first byte of the stream. -/
theorem shrink_stream_reads_before_blank_stream (start : Nat) (s : pstring)
    (hs : ∀ c ∈ s, is_blank c = true) (hfit : start + s.length + 1 < size_range) :
    ∃ p1, (css.parser_base.create start s).skip_blanks = .ok p1 ∧
      p1.m_pos = p1.m_length ∧ p1.remaining_size = size_range - 1 ∧
      (css.parser_base.create start s).read ((start + (size_range - 1)) % size_range) =
        .error .undefined_behaviour ∧
      (css.parser_base.create start s).shrink_stream = .error .undefined_behaviour := by
  have hfit2 := hfit
  unfold size_range at hfit2
  have hskip : (css.parser_base.create start s).skip_blanks =
      .ok (css.parser_base.positioned start s []) := by
    have h := skip_blanks_loop_all_blank start s [] (s.length - 0 + 1) hs
      (by unfold size_range; simp only [List.nil_append]; omega) (by omega)
    simpa [css.parser_base.skip_blanks, css.parser_base.create, css.parser_base.positioned]
      using h
  have hrem : (css.parser_base.positioned start s []).remaining_size = size_range - 1 := by
    unfold css.parser_base.remaining_size css.parser_base.positioned size_range
    simp only [List.append_nil]
    omega
  have hrev : (css.parser_base.positioned start s []).skip_blanks_reverse =
      .error .undefined_behaviour := by
    unfold css.parser_base.skip_blanks_reverse
    rw [hrem]
    have h := skip_blanks_reverse_loop_all_blank s.length (s.length + 2)
      (css.parser_base.positioned start s [])
      (by simpa [css.parser_base.positioned] using hs)
      (by simpa [css.parser_base.positioned] using hfit)
      (by simp [css.parser_base.positioned])
      (by simp [css.parser_base.positioned]) (by omega)
    have e : ((css.parser_base.positioned start s []).mp_char + (size_range - 1)) % size_range =
        ((css.parser_base.positioned start s []).start + s.length + (size_range - 1)) %
          size_range := by
      simp [css.parser_base.positioned]
    have e2 : (css.parser_base.positioned start s []).stream.length = s.length := by
      simp [css.parser_base.positioned]
    rw [e, e2]
    exact h
  refine ⟨css.parser_base.positioned start s [], hskip, by simp [css.parser_base.positioned],
    hrem, ?_, ?_⟩
  · unfold css.parser_base.read css.parser_base.create size_range
    rw [if_neg]
    simp only []
    omega
  · unfold css.parser_base.shrink_stream
    rw [hskip]
    have hne : ((css.parser_base.positioned start s []).remaining_size == 0) = false := by
      rw [hrem]
      decide
    simp only [hne, Bool.false_eq_true, if_false, hrev]

/-- C40 at the stream of a blank, a line feed and a blank at address 1000. -/
theorem shrink_stream_reads_before_blank_stream_witness :
    ∃ p1, (css.parser_base.create 1000 " \n ".toList).skip_blanks = .ok p1 ∧
      p1.m_pos = p1.m_length ∧ p1.remaining_size = size_range - 1 ∧
      (css.parser_base.create 1000 " \n ".toList).read ((1000 + (size_range - 1)) % size_range) =
        .error .undefined_behaviour ∧
      (css.parser_base.create 1000 " \n ".toList).shrink_stream = .error .undefined_behaviour :=
  shrink_stream_reads_before_blank_stream 1000 " \n ".toList (by decide) (by decide)

/-- The failing inputs of `shrink_stream` evaluated: the empty stream, at a
null pointer or not, and a stream of one blank end with a read outside the
stream; streams with a byte that is not blank are shrunk. -/
theorem shrink_stream_evaluated :
    (css.parser_base.create 1000 []).remaining_size = size_range - 1 ∧
    (css.parser_base.create 1000 []).shrink_stream = .error .undefined_behaviour ∧
    (css.parser_base.create 0 []).shrink_stream = .error .undefined_behaviour ∧
    (css.parser_base.create 1000 " ".toList).shrink_stream = .error .undefined_behaviour ∧
    (css.parser_base.create 1000 "a".toList).shrink_stream =
      .ok (css.parser_base.create 1000 "a".toList) ∧
    (css.parser_base.create 1000 " <!-- a b --> ".toList).shrink_stream =
      .ok { stream := " <!-- a b --> ".toList, start := 1000, mp_char := 1006, m_pos := 6,
            m_length := 9 } := by
  decide

/-! ## `parser_base::name`: the vector path and the scalar path -/

/-- The ranges `azAZ09--__` of the vector path hold the bytes the scalar
path accepts. -/
theorem name_ranges_match (c : Char) :
    (range_pairs "azAZ09--__".toList 10).any
      (fun r => decide (r.1.toNat ≤ c.toNat) && decide (c.toNat ≤ r.2.toNat)) =
      is_name_byte c := by
  have hr : range_pairs "azAZ09--__".toList 10 =
      [('a', 'z'), ('A', 'Z'), ('0', '9'), ('-', '-'), ('_', '_')] := by decide
  have h1 : (c == '-') = decide (c.toNat = 45) := by
    by_cases h : c.toNat = 45
    · rw [char_eq_of_toNat_eq c '-' h]; simp
    · rw [char_beq_false_of_toNat_ne c '-' h]; simp [h]
  have h2 : (c == '_') = decide (c.toNat = 95) := by
    by_cases h : c.toNat = 95
    · rw [char_eq_of_toNat_eq c '_' h]; simp
    · rw [char_beq_false_of_toNat_ne c '_' h]; simp [h]
  have t1 : 'a'.toNat = 97 := rfl
  have t2 : 'z'.toNat = 122 := rfl
  have t3 : 'A'.toNat = 65 := rfl
  have t4 : 'Z'.toNat = 90 := rfl
  have t5 : '0'.toNat = 48 := rfl
  have t6 : '9'.toNat = 57 := rfl
  have t7 : '-'.toNat = 45 := rfl
  have t8 : '_'.toNat = 95 := rfl
  rw [hr]
  simp only [List.any_cons, List.any_nil, Bool.or_false, is_name_byte, is_alpha, is_numeric,
    is_name_char, h1, h2, t1, t2, t3, t4, t5, t6, t7, t8]
  by_cases a1 : 97 ≤ c.toNat <;> by_cases a2 : c.toNat ≤ 122 <;> by_cases a3 : 65 ≤ c.toNat <;>
    by_cases a4 : c.toNat ≤ 90 <;> by_cases a5 : 48 ≤ c.toNat <;> by_cases a6 : c.toNat ≤ 57 <;>
    by_cases a7 : c.toNat = 45 <;> by_cases a8 : c.toNat = 95 <;>
    simp [a1, a2, a3, a4, a5, a6, a7, a8] <;> omega

/-- The least significant set bit is the first bit set. -/
theorem least_significant_index_first (bits : Nat → Bool) :
    ∀ (k i m : Nat), i ≤ m → m ≤ i + k → (∀ j, i ≤ j → j < m → bits j = false) →
      (m = i + k ∨ bits m = true) → least_significant_index bits i k = m := by
  intro k
  induction k with
  | zero =>
    intro i m h1 h2 _ _
    rw [least_significant_index]
    omega
  | succ k ih =>
    intro i m h1 h2 hlow hm
    rw [least_significant_index]
    by_cases him : i = m
    · subst him
      rcases hm with h | h
      · omega
      · rw [if_pos h]
    · rw [if_neg (by rw [hlow i (Nat.le_refl _) (by omega)]; simp)]
      exact ih (i + 1) m (by omega) (by omega) (fun j hj1 hj2 => hlow j (by omega) hj2)
        (by rcases hm with h | h
            · left; omega
            · right; exact h)

/-- On a block that starts with `m` name bytes, followed by a byte that is
not one or by the end of the valid bytes, `_mm_cmpestri` returns `m`. -/
theorem cmpestri_name_run (b : pstring) (lb m : Nat) (hm : m ≤ 16) (hlb : m ≤ lb)
    (hrun : ∀ j, j < m → is_name_byte (b.getD j NUL) = true)
    (hend : m = 16 ∨ m = lb ∨ is_name_byte (b.getD m NUL) = false) :
    cmpestri "azAZ09--__".toList 10 b lb = m := by
  unfold cmpestri
  apply least_significant_index_first _ 16 0 m (Nat.zero_le _) (by omega)
  · intro j _ hj
    unfold cmpestri_bit
    rw [name_ranges_match, hrun j hj]
    simp
    omega
  · rcases hend with h | h | h
    · left; omega
    · right
      unfold cmpestri_bit
      simp [h]
    · right
      unfold cmpestri_bit
      rw [name_ranges_match, h]
      simp

theorem getD_append_left (l r : pstring) (j : Nat) (h : j < l.length) :
    (l ++ r).getD j NUL = l.get ⟨j, h⟩ := by
  simp [List.getD_eq_getElem?_getD, List.getElem?_append_left h, List.getElem?_eq_getElem h]

/-- The vector loop of `name` stops after the run of name bytes under the
cursor, also when the run ends with the stream. -/
theorem name_vector_loop_run (beyond tail : pstring)
    (htail : ∀ c t, tail = c :: t → is_name_byte c = false) :
    ∀ (k : Nat) (nm pre : pstring) (fuel : Nat), nm.length ≤ k →
      (∀ c ∈ nm, is_name_byte c = true) → nm.length / 16 + 1 < fuel →
      name_vector_loop beyond fuel ⟨pre, nm ++ tail⟩ (nm ++ tail).length =
        .ok ⟨pre ++ nm, tail⟩ := by
  intro k
  induction k using Nat.strong_induction_on with
  | _ k ih =>
    intro nm pre fuel hk hnm hfuel
    obtain ⟨f, rfl⟩ : ∃ f, fuel = f + 1 := ⟨fuel - 1, by omega⟩
    rw [name_vector_loop]
    by_cases h0 : (nm ++ tail).length = 0
    · have e := List.length_eq_zero.mp h0
      obtain ⟨e1, e2⟩ := List.append_eq_nil.mp e
      subst e1 e2
      simp
    · have hne : ((nm ++ tail).length != 0) = true := by simpa using h0
      simp only [hne, if_true]
      by_cases h16 : 16 ≤ nm.length
      · -- a full block of name bytes
        have hr : cmpestri "azAZ09--__".toList 10 ((nm ++ tail ++ beyond).take 16)
            (min 16 (nm ++ tail).length) = 16 := by
          apply cmpestri_name_run _ _ 16 (Nat.le_refl _)
          · simp only [List.length_append]; omega
          · intro j hj
            have hj2 : j < nm.length := by omega
            have e : ((nm ++ tail ++ beyond).take 16).getD j NUL = nm.get ⟨j, hj2⟩ := by
              rw [List.getD_eq_getElem?_getD, List.getElem?_take_of_lt hj, List.append_assoc,
                ← List.getD_eq_getElem?_getD, getD_append_left nm _ j hj2]
            rw [e]
            exact hnm _ (List.get_mem _ _ _)
          · left; rfl
        simp only [hr, Nat.lt_irrefl, if_false]
        have hadv : (parser_base.advance ⟨pre, nm ++ tail⟩ 16) =
            ⟨pre ++ nm.take 16, nm.drop 16 ++ tail⟩ := by
          simp [parser_base.advance, List.take_append_of_le_length h16,
            List.drop_append_of_le_length h16]
        have hlen : (nm ++ tail).length - 16 = (nm.drop 16 ++ tail).length := by
          simp only [List.length_append, List.length_drop]
          omega
        rw [hadv, hlen, ih (nm.length - 16) (by omega) (nm.drop 16) (pre ++ nm.take 16) f
          (by simp) (fun c hc => hnm c (List.mem_of_mem_drop hc))
          (by simp only [List.length_drop]; omega)]
        simp [List.append_assoc, List.take_append_drop]
      · -- the run ends inside the block
        have hlt : nm.length < 16 := by omega
        have hr : cmpestri "azAZ09--__".toList 10 ((nm ++ tail ++ beyond).take 16)
            (min 16 (nm ++ tail).length) = nm.length := by
          apply cmpestri_name_run _ _ nm.length (by omega)
          · simp only [List.length_append]; omega
          · intro j hj
            have e : ((nm ++ tail ++ beyond).take 16).getD j NUL = nm.get ⟨j, hj⟩ := by
              rw [List.getD_eq_getElem?_getD, List.getElem?_take_of_lt (by omega),
                List.append_assoc, ← List.getD_eq_getElem?_getD, getD_append_left nm _ j hj]
            rw [e]
            exact hnm _ (List.get_mem _ _ _)
          · cases tail with
            | nil =>
              right; left
              simp only [List.append_nil]
              omega
            | cons c t =>
              right; right
              have e : ((nm ++ c :: t ++ beyond).take 16).getD nm.length NUL = c := by
                rw [List.getD_eq_getElem?_getD, List.getElem?_take_of_lt hlt, List.append_assoc,
                  List.getElem?_append_right (Nat.le_refl _), Nat.sub_self]
                simp
              rw [e]
              exact htail c t rfl
        simp only [hr, hlt, if_true]
        simp [parser_base.advance]

/-- The scalar loop of `name` stops on the byte after the run of name bytes
under the cursor. -/
theorem name_scalar_loop_run (c : Char) (rest : pstring) (hc : is_name_byte c = false) :
    ∀ (nm pre : pstring) (fuel : Nat), (∀ x ∈ nm, is_name_byte x = true) → nm.length < fuel →
      name_scalar_loop fuel ⟨pre, nm ++ c :: rest⟩ ((nm ++ c :: rest).headD NUL) =
        .ok ⟨pre ++ nm, c :: rest⟩ := by
  intro nm
  induction nm with
  | nil =>
    intro pre fuel _ hfuel
    obtain ⟨f, rfl⟩ : ∃ f, fuel = f + 1 := ⟨fuel - 1, by omega⟩
    have hc2 : (is_alpha c || is_numeric c || is_name_char c) = false := hc
    rw [name_scalar_loop]
    simp [hc2]
  | cons x nm ih =>
    intro pre fuel hnm hfuel
    obtain ⟨f, rfl⟩ : ∃ f, fuel = f + 1 := ⟨fuel - 1, by omega⟩
    have hx : (is_alpha x || is_numeric x || is_name_char x) = true :=
      hnm x (List.mem_cons_self _ _)
    have hnext : parser_base.next_char_checked ⟨pre, x :: nm ++ c :: rest⟩ =
        .ok (⟨pre ++ [x], nm ++ c :: rest⟩, (nm ++ c :: rest).headD NUL) := by
      cases nm <;> rfl
    rw [name_scalar_loop]
    simp only [List.cons_append, List.headD_cons, hx, if_true]
    have hnext2 : parser_base.next_char_checked ⟨pre, x :: (nm ++ c :: rest)⟩ =
        .ok (⟨pre ++ [x], nm ++ c :: rest⟩, (nm ++ c :: rest).headD NUL) := hnext
    rw [hnext2]
    simp only []
    rw [ih (pre ++ [x]) f (fun y hy => hnm y (List.mem_cons_of_mem _ hy))
      (by simp at hfuel; omega)]
    simp

/-- The scalar loop of `name` fails when the run of name bytes under the
cursor ends with the stream. -/
theorem name_scalar_loop_end :
    ∀ (nm pre : pstring) (x : Char) (fuel : Nat), (∀ y ∈ x :: nm, is_name_byte y = true) →
      nm.length < fuel →
      name_scalar_loop fuel ⟨pre, x :: nm⟩ x = .error .malformed_xml_error := by
  intro nm
  induction nm with
  | nil =>
    intro pre x fuel hnm hfuel
    obtain ⟨f, rfl⟩ : ∃ f, fuel = f + 1 := ⟨fuel - 1, by omega⟩
    have hx : (is_alpha x || is_numeric x || is_name_char x) = true :=
      hnm x (List.mem_cons_self _ _)
    rw [name_scalar_loop]
    simp only [hx, if_true]
    rfl
  | cons y nm ih =>
    intro pre x fuel hnm hfuel
    obtain ⟨f, rfl⟩ : ∃ f, fuel = f + 1 := ⟨fuel - 1, by omega⟩
    have hx : (is_alpha x || is_numeric x || is_name_char x) = true :=
      hnm x (List.mem_cons_self _ _)
    have hnext : parser_base.next_char_checked ⟨pre, x :: y :: nm⟩ =
        .ok (⟨pre ++ [x], y :: nm⟩, y) := rfl
    rw [name_scalar_loop]
    simp only [hx, if_true, hnext]
    exact ih (pre ++ [x]) y f (fun z hz => hnm z (List.mem_cons_of_mem _ hz))
      (by simp at hfuel; omega)

/-- The test at the head of `name` on a run of name bytes and what follows
it: it passes exactly when the run starts with a letter or the underscore. -/
theorem name_head_test (nm tail : pstring)
    (htail : ∀ c t, tail = c :: t → is_name_byte c = false) :
    (!is_alpha ((nm ++ tail).headD NUL) && (nm ++ tail).headD NUL != '_') = !starts_name nm := by
  cases nm with
  | cons x nm =>
    simp only [List.cons_append, List.headD_cons, starts_name, Bool.not_or]
    rfl
  | nil =>
    have key : ∀ c : Char, is_name_byte c = false → (!is_alpha c && c != '_') = true := by
      intro c hc
      simp only [is_name_byte, is_name_char, Bool.or_eq_false_iff] at hc
      obtain ⟨⟨h1, _⟩, _, h3⟩ := hc
      have h4 : (c != '_') = true := by
        show (!(c == '_')) = true
        rw [h3]
        rfl
      rw [h1, h4]
      rfl
    cases tail with
    | nil => exact key NUL (by decide)
    | cons c t => exact key c (htail c t rfl)

/-- C31: the two paths of `name` on a run of name bytes `nm` under the
cursor, followed by `tail`, which is empty or starts with a byte that is not
a name byte. The vector path returns the run and leaves the cursor after it
whenever the run starts with a letter or the underscore, and fails
otherwise, whatever the memory after the stream holds; the scalar path does
the same when a byte follows the run in the stream, and fails with
`malformed_xml_error` when the run ends with the stream, where the vector
path returns normally. -/
theorem name_vector_and_scalar_paths (beyond pre nm tail : pstring)
    (hnm : ∀ c ∈ nm, is_name_byte c = true)
    (htail : ∀ c t, tail = c :: t → is_name_byte c = false) :
    parser_base.name true beyond ⟨pre, nm ++ tail⟩ =
      (if starts_name nm then .ok (⟨pre ++ nm, tail⟩, view.stream pre.length nm.length)
       else .error .malformed_xml_error) ∧
    (tail ≠ [] →
      parser_base.name false beyond ⟨pre, nm ++ tail⟩ =
        parser_base.name true beyond ⟨pre, nm ++ tail⟩) ∧
    (tail = [] → parser_base.name false beyond ⟨pre, nm ++ tail⟩ = .error .malformed_xml_error) := by
  have hvec : parser_base.name true beyond ⟨pre, nm ++ tail⟩ =
      (if starts_name nm then .ok (⟨pre ++ nm, tail⟩, view.stream pre.length nm.length)
       else .error .malformed_xml_error) := by
    unfold parser_base.name
    simp only [parser_base.cur_char, parser_base.offset, parser_base.available_size,
      name_head_test nm tail htail, if_true]
    cases hs : starts_name nm with
    | false => simp
    | true =>
      simp only [Bool.not_true, Bool.false_eq_true, if_false, if_true]
      rw [name_vector_loop_run beyond tail htail nm.length nm pre _ (Nat.le_refl _) hnm
        (by
          simp only [List.length_append]
          have := Nat.div_le_div_right (c := 16) (Nat.le_add_right nm.length tail.length)
          omega)]
      simp
  refine ⟨hvec, ?_, ?_⟩
  · intro hne
    rw [hvec]
    obtain ⟨c, rest, rfl⟩ : ∃ c rest, tail = c :: rest := by
      cases tail with
      | nil => exact absurd rfl hne
      | cons c rest => exact ⟨c, rest, rfl⟩
    unfold parser_base.name
    simp only [parser_base.cur_char, parser_base.offset,
      name_head_test nm (c :: rest) htail]
    cases hs : starts_name nm with
    | false => simp
    | true =>
      simp only [Bool.not_true, Bool.false_eq_true, if_false, if_true]
      rw [name_scalar_loop_run c rest (htail c rest rfl) nm pre _ hnm
        (by simp only [List.length_append, List.length_cons]; omega)]
      simp
  · intro he
    subst he
    unfold parser_base.name
    simp only [parser_base.cur_char, parser_base.offset, name_head_test nm [] htail]
    cases hs : starts_name nm with
    | false => simp
    | true =>
      simp only [Bool.not_true, Bool.false_eq_true, if_false]
      cases nm with
      | nil => cases hs
      | cons x nm =>
        simp only [List.append_nil, List.headD_cons]
        rw [name_scalar_loop_end nm pre x _ hnm (by simp only [List.length_cons]; omega)]

/-- C31 at the name `abc` that ends the stream after `<`: the vector path
returns the view `[1, 4)` with the cursor at the end, the scalar path fails. -/
theorem name_vector_and_scalar_paths_witness :
    parser_base.name true "junk".toList ⟨"<".toList, "abc".toList ++ []⟩ =
      (if starts_name "abc".toList then
        .ok (⟨"<".toList ++ "abc".toList, []⟩, view.stream "<".toList.length "abc".toList.length)
       else .error .malformed_xml_error) ∧
    starts_name "abc".toList = true ∧
    parser_base.name false "junk".toList ⟨"<".toList, "abc".toList ++ []⟩ =
      .error .malformed_xml_error :=
  ⟨(name_vector_and_scalar_paths "junk".toList "<".toList "abc".toList [] (by decide)
      (fun c t h => by cases h)).1,
    by decide,
    (name_vector_and_scalar_paths "junk".toList "<".toList "abc".toList [] (by decide)
      (fun c t h => by cases h)).2.2 rfl⟩

/-! ## The assertion of the writer on the gap before a recorded element -/

/-- C34: the assertion `open_begin > begin_pos` of `orcus_xml::write` fails
on recorded elements with disjoint spans in document order. In
`<r><a>1</a><b>2</b></r>` with `a` and `b` linked to cells the content parse
records the spans `[3, 11)` and `[11, 19)`: after `a` the cursor stands at
11, where `b` opens, and the assertion fails; and in `<v>1</v>` the linked
root opens at 0, where the cursor starts. Without the assertion the gap
copied is empty and both outputs are the documents expected. -/
theorem write_assertion_fails_on_empty_gap :
    adjacent_links.map (fun e => (e.addr, e.stream_pos)) =
      [(2, { open_begin := 3, open_end := 6, close_begin := 7, close_end := 11 }),
       (3, { open_begin := 11, open_end := 14, close_begin := 15, close_end := 19 })] ∧
    write false (some s5_fact) s5_ranges adjacent_links adjacent_input =
      .error .assertion_failed ∧
    write true (some s5_fact) s5_ranges adjacent_links adjacent_input =
      .ok "<r><a>z1</a><b>z2</b></r>".toList ∧
    write false (some s5_fact) s5_ranges [root_link] root_input = .error .assertion_failed ∧
    write true (some s5_fact) s5_ranges [root_link] root_input = .ok "<v>z1</v>".toList := by
  decide

/-! ## The rows of a range: nesting of the tags written -/

/-- C35: `write_range_reference_group` returns for every subtree, range and
factory, but the tags of a row are not always well nested. A row element
`it` whose last child `d` is not linked is opened and never closed, for on
coming back from the scope of `d` the scope of `it` has no child left and
counts as self-closing; and a childless element `e` without attributes is
written as the opening tag `<e>` and never closed. -/
theorem range_rows_return_but_lose_closing_tags :
    (∀ (root : element) (ref : range_reference) (factory : export_factory),
      ∃ out, write_range_reference_group root ref factory = .ok out) ∧
    write_range_reference_group
      (unlinked_element 3 "it".toList
        [unlinked_element 5 "d".toList [field_element 6 "x".toList 0 1] [] none none]
        [] none (some 0))
      (table_ranges 0) table_fact =
      .ok "<it><d><x>1b</x></d><it><d><x>2b</x></d>".toList ∧
    write_range_reference_group
      (unlinked_element 3 "it".toList
        [unlinked_element 5 "e".toList [] [] none none, field_element 7 "y".toList 0 2]
        [] none (some 0))
      (table_ranges 0) table_fact =
      .ok "<it><e><y>1c</y></it><it><e><y>2c</y></it>".toList := by
  refine ⟨?_, by decide, by decide⟩
  intro root ref factory
  unfold write_range_reference_group
  cases factory.get_sheet ref.pos.sheet with
  | none => exact ⟨[], rfl⟩
  | some sheet => exact write_rows_returns root ref sheet _ _ _

/-! ## Rows of two ranges that alternate in the content -/

/-- C36: with two ranges in one document the rows imported are not one per
occurrence of the row-group element. In
`<r><p><a x="1"/></p><q><b y="2"/></q><p><a x="3"/></p></r>` the row-group
element `a` of range 0 occurs twice, but the close of `b` in between takes
over the one pending row increment, so the second `a` starts no new row:
`read_impl` returns with a row size of one for range 0, the values `1` and
`3` both went to row 1 of column 0, and the writer puts out one row. -/
theorem interleaved_ranges_keep_one_row :
    (read_impl false s3_fact (fun _ => [])
      [({ sheet := "S".toList, row := 0, col := 0 }, 0),
       ({ sheet := "S".toList, row := 0, col := 5 }, 1)] map_tree_walker
      { root := some two_ranges_root, stack := [] } two_ranges_world interleaved_input
      interleaved_events).toBool = true ∧
    interleaved_result.sink =
      [sheet_call.set_auto 0 0 0 "x".toList, sheet_call.set_auto 0 0 1 "z".toList,
       sheet_call.set_auto 0 0 5 "y".toList, sheet_call.set_auto 0 1 0 "1".toList,
       sheet_call.set_auto 0 1 5 "2".toList, sheet_call.set_auto 0 1 0 "3".toList,
       sheet_call.set_auto 0 1 1 "---".toList] ∧
    (interleaved_result.ranges 0).row_size = 1 ∧
    write_range_reference interleaved_result.ranges interleaved_parent s5_fact =
      .ok "<a x=\"z1\" z=\"\"/>".toList := by
  refine ⟨by decide, by decide, by decide, by decide⟩

/-! ## `dump_string_xml` and `parser_base::value` -/

theorem predefined_entity_some (c : Char) (e : char_reference) (h : predefined_entity c = some e) :
    (if c == QUOT then "&quot;".toList
     else if c == '<' then "&lt;".toList
     else if c == '>' then "&gt;".toList
     else if c == '&' then "&amp;".toList
     else if c == APOS then "&apos;".toList
     else [c]) = '&' :: (e.name ++ [';']) ∧ e.decoded = [c] ∧ e.valid := by
  unfold predefined_entity at h
  by_cases h1 : c = QUOT
  · subst h1
    have : e = .quot := by simpa using h.symm
    subst this
    exact ⟨by decide, by decide, trivial⟩
  · by_cases h2 : c = '<'
    · subst h2
      have : e = .lt := by simpa [h1] using h.symm
      subst this
      exact ⟨by decide, by decide, trivial⟩
    · by_cases h3 : c = '>'
      · subst h3
        have : e = .gt := by simpa [h1, h2] using h.symm
        subst this
        exact ⟨by decide, by decide, trivial⟩
      · by_cases h4 : c = '&'
        · subst h4
          have : e = .amp := by simpa [h1, h2, h3] using h.symm
          subst this
          exact ⟨by decide, by decide, trivial⟩
        · by_cases h5 : c = APOS
          · subst h5
            have : e = .apos := by simpa [h1, h2, h3, h4] using h.symm
            subst this
            exact ⟨by decide, by decide, trivial⟩
          · simp [h1, h2, h3, h4, h5] at h

theorem predefined_entity_of_special :
    predefined_entity QUOT = some .quot ∧ predefined_entity '<' = some .lt ∧
    predefined_entity '>' = some .gt ∧ predefined_entity '&' = some .amp ∧
    predefined_entity APOS = some .apos :=
  ⟨rfl, rfl, rfl, rfl, rfl⟩

theorem predefined_entity_none (c : Char) (h : predefined_entity c = none) :
    (if c == QUOT then "&quot;".toList
     else if c == '<' then "&lt;".toList
     else if c == '>' then "&gt;".toList
     else if c == '&' then "&amp;".toList
     else if c == APOS then "&apos;".toList
     else [c]) = [c] ∧ c ≠ QUOT ∧ c ≠ '&' := by
  obtain ⟨e1, e2, e3, e4, e5⟩ := predefined_entity_of_special
  have h1 : c ≠ QUOT := by
    intro hc; rw [hc, e1] at h; cases h
  have h2 : c ≠ '<' := by
    intro hc; rw [hc, e2] at h; cases h
  have h3 : c ≠ '>' := by
    intro hc; rw [hc, e3] at h; cases h
  have h4 : c ≠ '&' := by
    intro hc; rw [hc, e4] at h; cases h
  have h5 : c ≠ APOS := by
    intro hc; rw [hc, e5] at h; cases h
  exact ⟨by simp [h1, h2, h3, h4, h5], h1, h4⟩

/-- The output of `dump_string_xml` is the plain text and the references of
the segments of its input, the input is what they decode to, and no piece of
plain text holds a double quote or an ampersand. -/
theorem dump_string_xml_segments :
    ∀ s : pstring,
      dump_string_xml s = (entity_segments s).1 ++ encoded_text (entity_segments s).2 ∧
      s = (entity_segments s).1 ++ decoded_text (entity_segments s).2 ∧
      (∀ c ∈ (entity_segments s).1, c ≠ QUOT ∧ c ≠ '&') ∧
      (∀ sg ∈ (entity_segments s).2, sg.1.valid ∧ ∀ c ∈ sg.2, c ≠ '&' ∧ c ≠ QUOT) := by
  intro s
  induction s with
  | nil => exact ⟨rfl, rfl, by simp [entity_segments], by simp [entity_segments]⟩
  | cons c rest ih =>
    obtain ⟨i1, i2, i3, i4⟩ := ih
    cases he : predefined_entity c with
    | some e =>
      obtain ⟨k1, k2, k3⟩ := predefined_entity_some c e he
      have hseg : entity_segments (c :: rest) =
          ([], (e, (entity_segments rest).1) :: (entity_segments rest).2) := by
        simp [entity_segments, he]
      rw [hseg]
      refine ⟨?_, ?_, by simp, ?_⟩
      · rw [dump_string_xml, k1, i1]
        simp [encoded_text]
      · simp only [decoded_text, List.nil_append, k2, List.singleton_append, List.cons_append,
          List.cons.injEq, true_and]
        exact i2
      · intro sg hsg
        rcases List.mem_cons.mp hsg with h | h
        · subst h
          exact ⟨k3, fun x hx => ⟨(i3 x hx).2, (i3 x hx).1⟩⟩
        · exact i4 sg h
    | none =>
      obtain ⟨k1, k2, k3⟩ := predefined_entity_none c he
      have hseg : entity_segments (c :: rest) =
          (c :: (entity_segments rest).1, (entity_segments rest).2) := by
        simp [entity_segments, he]
      rw [hseg]
      refine ⟨?_, ?_, ?_, i4⟩
      · rw [dump_string_xml, k1, i1]
        rfl
      · simp only [List.cons_append, List.cons.injEq, true_and]
        exact i2
      · intro x hx
        rcases List.mem_cons.mp hx with h | h
        · subst h
          exact ⟨k2, k3⟩
        · exact i3 x h

/-- C37: for every byte string `s`, `value` with decoding, entered on the
double quote that opens the quoted output of `dump_string_xml(s)`, returns
normally with the cursor just past the closing quote and a view whose bytes
are exactly `s`, whatever stands before and after the quoted text. -/
theorem value_undoes_dump_string_xml (ndebug transient_stream : Bool) (s pre rest : pstring)
    (str : view) :
    ∃ v t, value ndebug transient_stream
        ⟨pre, QUOT :: (dump_string_xml s ++ QUOT :: rest)⟩ str true =
        .ok (⟨pre ++ QUOT :: (dump_string_xml s ++ [QUOT]), rest⟩, v, t) ∧
      v.bytes (pre ++ QUOT :: (dump_string_xml s ++ QUOT :: rest)) = s := by
  obtain ⟨h1, h2, h3, h4⟩ := dump_string_xml_segments s
  cases hsegs : (entity_segments s).2 with
  | nil =>
    rw [hsegs] at h1 h2
    simp only [encoded_text, decoded_text, List.append_nil] at h1 h2
    have hd : dump_string_xml s = s := by rw [h1, ← h2]
    rw [hd]
    refine ⟨view.stream (pre.length + 1) s.length, transient_stream, ?_, ?_⟩
    · exact value_fast_path ndebug transient_stream true pre s rest QUOT str (Or.inl rfl)
        (fun c hc => by
          rw [h2] at hc
          exact ⟨(h3 c hc).1, fun _ => (h3 c hc).2⟩)
    · exact view_stream_bytes pre s (QUOT :: rest) QUOT
  | cons sg more =>
    refine ⟨view.buffer ((entity_segments s).1 ++ decoded_text (entity_segments s).2), true,
      ?_, ?_⟩
    · have h := value_decodes ndebug transient_stream QUOT (Or.inl rfl) (entity_segments s).1
        (entity_segments s).2 pre rest str (by rw [hsegs]; simp) h3 h4
      rw [← h1] at h
      exact h
    · show (entity_segments s).1 ++ decoded_text (entity_segments s).2 = s
      exact h2.symm

/-! ## `dump_value`: the commas between the members -/

/-- When the count `n` the loop compares with is the number of members
printed, the loop of `dump_value` writes a comma after every member but the
last. -/
theorem dump_members_separated {α : Type} (n : Nat) (hn : n < size_range)
    (dump : α → Except failure pstring) :
    ∀ (ms : List α) (texts : List pstring) (pos : Nat),
      List.Forall₂ (fun m t => dump m = .ok t) ms texts → pos + ms.length = n →
      json_document_tree.dump_members n dump pos ms =
        .ok (json_document_tree.separated_members texts) := by
  intro ms texts pos h
  induction h generalizing pos with
  | nil => intro _; rfl
  | @cons m t ms texts hm hrest ih =>
    intro hpos
    simp only [List.length_cons] at hpos
    have hrec := ih (pos + 1) (by omega)
    rw [json_document_tree.dump_members, hm]
    simp only [hrec]
    unfold size_range at hn ⊢
    cases hrest with
    | nil =>
      simp only [List.length_nil] at hpos
      have hc : ¬ pos < (n + (18446744073709551616 - 1)) % 18446744073709551616 := by omega
      simp [json_document_tree.separated_members, hc]
    | @cons m2 t2 ms2 texts2 hm2 hrest2 =>
      simp only [List.length_cons] at hpos
      have hc : pos < (n + (18446744073709551616 - 1)) % 18446744073709551616 := by omega
      simp [json_document_tree.separated_members, hc]

/-- What `dump_value` writes for an array: the bracket, the members with a
comma after every member but the last, and the closing bracket. -/
theorem dump_value_of_array (ndebug : Bool) (number_text : double → pstring)
    (control : Char → Bool) (store : List json_document_tree.json_value) (fuel v level : Nat)
    (key : Option pstring) (node : json_document_tree.json_value) (texts : List pstring)
    (hv : store.get? v = some node) (ht : node.type = .array)
    (hn : node.value_array.length < size_range)
    (hm : List.Forall₂ (fun child t =>
      json_document_tree.dump_value ndebug number_text control store fuel child (level + 1)
        none = .ok t) node.value_array texts) :
    json_document_tree.dump_value ndebug number_text control store (fuel + 1) v level key =
      .ok (json_document_tree.dump_repeat json_document_tree.tab level ++
        (match key with
         | some k => [QUOT] ++ k ++ [QUOT, ':', ' ']
         | none => []) ++ ['[', '\n'] ++ json_document_tree.separated_members texts ++
        json_document_tree.dump_repeat json_document_tree.tab level ++ [']', '\n']) := by
  show json_document_tree.dump_value_body ndebug number_text control store
    (json_document_tree.dump_value ndebug number_text control store fuel) v level key = _
  unfold json_document_tree.dump_value_body
  simp only [hv, ht]
  rw [dump_members_separated node.value_array.length hn _ node.value_array texts 0 hm (by omega)]

/-- What `dump_value` writes for an object without recorded key order: the
brace, the members with a comma after every member but the last, and the
closing brace. -/
theorem dump_value_of_object (ndebug : Bool) (number_text : double → pstring)
    (control : Char → Bool) (store : List json_document_tree.json_value) (fuel v level : Nat)
    (key : Option pstring) (node : json_document_tree.json_value) (texts : List pstring)
    (hv : store.get? v = some node) (ht : node.type = .object)
    (hk : node.key_order = [])
    (hn : node.value_object.length < size_range)
    (hm : List.Forall₂ (fun (entry : pstring × Nat) t =>
      json_document_tree.dump_value ndebug number_text control store fuel entry.2 (level + 1)
        (some entry.1) = .ok t) node.value_object texts) :
    json_document_tree.dump_value ndebug number_text control store (fuel + 1) v level key =
      .ok (json_document_tree.dump_repeat json_document_tree.tab level ++
        (match key with
         | some k => [QUOT] ++ k ++ [QUOT, ':', ' ']
         | none => []) ++ ['\x7b', '\n'] ++ json_document_tree.separated_members texts ++
        json_document_tree.dump_repeat json_document_tree.tab level ++ ['\x7d', '\n']) := by
  show json_document_tree.dump_value_body ndebug number_text control store
    (json_document_tree.dump_value ndebug number_text control store fuel) v level key = _
  unfold json_document_tree.dump_value_body
  simp only [hv, ht, hk, List.isEmpty_nil, if_true]
  rw [dump_members_separated node.value_object.length hn _ node.value_object texts 0 hm
    (by omega)]

/-- C38: for an array, and for an object dumped from its map, `dump_value`
writes the members with a comma after every member but the last. An object
dumped in key order prints one member per entry of `key_order` and counts
the entries of the map: for `{"a": true, "a": false}` loaded with
`preserve_object_order` the handler records the key twice and the map holds
it once, and the dump prints two members with no comma between them. -/
theorem ordered_dump_counts_map_entries :
    (∀ (ndebug : Bool) (number_text : double → pstring) (control : Char → Bool)
        (store : List json_document_tree.json_value) (fuel v level : Nat) (key : Option pstring)
        (node : json_document_tree.json_value) (texts : List pstring),
      store.get? v = some node → node.type = .array →
      node.value_array.length < size_range →
      List.Forall₂ (fun child t =>
        json_document_tree.dump_value ndebug number_text control store fuel child (level + 1)
          none = .ok t) node.value_array texts →
      json_document_tree.dump_value ndebug number_text control store (fuel + 1) v level key =
        .ok (json_document_tree.dump_repeat json_document_tree.tab level ++
          (match key with
           | some k => [QUOT] ++ k ++ [QUOT, ':', ' ']
           | none => []) ++ ['[', '\n'] ++ json_document_tree.separated_members texts ++
          json_document_tree.dump_repeat json_document_tree.tab level ++ [']', '\n'])) ∧
    (∀ (ndebug : Bool) (number_text : double → pstring) (control : Char → Bool)
        (store : List json_document_tree.json_value) (fuel v level : Nat) (key : Option pstring)
        (node : json_document_tree.json_value) (texts : List pstring),
      store.get? v = some node → node.type = .object → node.key_order = [] →
      node.value_object.length < size_range →
      List.Forall₂ (fun (entry : pstring × Nat) t =>
        json_document_tree.dump_value ndebug number_text control store fuel entry.2 (level + 1)
          (some entry.1) = .ok t) node.value_object texts →
      json_document_tree.dump_value ndebug number_text control store (fuel + 1) v level key =
        .ok (json_document_tree.dump_repeat json_document_tree.tab level ++
          (match key with
           | some k => [QUOT] ++ k ++ [QUOT, ':', ' ']
           | none => []) ++ ['\x7b', '\n'] ++ json_document_tree.separated_members texts ++
          json_document_tree.dump_repeat json_document_tree.tab level ++ ['\x7d', '\n'])) ∧
    json_document_tree.load false true json_document_tree.duplicate_key_calls =
      .ok ([{ json_document_tree.json_value.create .object with
              key_order := ["a".toList, "a".toList], value_object := [("a".toList, 1)] },
            json_document_tree.json_value.create .boolean_true], some 0) ∧
    json_document_tree.load_and_dump false true json_document_tree.duplicate_key_calls =
      .ok "\x7b\n    \"a\": true\n    \"a\": true\n\x7d\n".toList ∧
    json_document_tree.load_and_dump false false json_document_tree.duplicate_key_calls =
      .ok "\x7b\n    \"a\": true\n\x7d\n".toList ∧
    json_document_tree.load_and_dump false true json_document_tree.array_calls =
      .ok "[\n    true,\n    null,\n    false\n]\n".toList ∧
    json_document_tree.load_and_dump false true json_document_tree.distinct_key_calls =
      .ok "\x7b\n    \"a\": true,\n    \"b\": false\n\x7d\n".toList := by
  refine ⟨?_, ?_, by decide, by decide, by decide, by decide, by decide⟩
  · intro ndebug number_text control store fuel v level key node texts hv ht hn hm
    exact dump_value_of_array ndebug number_text control store fuel v level key node texts
      hv ht hn hm
  · intro ndebug number_text control store fuel v level key node texts hv ht hk hn hm
    exact dump_value_of_object ndebug number_text control store fuel v level key node texts
      hv ht hk hn hm

end orcus
